import Mathlib

/-!
# mdu: multi-threaded disk usage

A shallow embedding of `Unix and System Programming/mdu_project`
(`stack.c`, `paths.c`, `directory_usage.c`, `threads.c`, `mdu.c`).

Conventions of the embedding.

* The file system is a parameter `Fs` giving the three primitives the program
  consumes: `lstat`, `opendir`/`readdir` and `stat`.  It does not change during
  a run.
* `long`, `int` and `blkcnt_t` values are integers.  In `thread_worker_step`
  and the functions it is made of, the sums of block counts are exact: they
  stand for the code as long as no sum is outside `LONG_MIN..LONG_MAX`.
  `update_directory_size_long`, `process_path_entry_long`,
  `calculate_directory_usage_long` and `thread_worker_step_long` are the same
  code with the additions of the type
  `long`, which wrap round; the two agree on every run over a file system
  whose block counts are not negative and in which the total of every root is
  at most `LONG_MAX` (`run_long_eq`).
* `malloc`, `calloc`, `strdup` and the pthread calls are assumed to succeed,
  except in `push`, whose allocation outcome is an explicit argument, and in
  `process_path_entry_alloc`, where the outcome of create_path is one too.
* `thread_worker` is a transition system.  One transition is one critical
  section (or one block of thread-local work) of one worker; the scheduler
  picks the worker.  In `thread_worker_step`, `pthread_cond_signal` wakes
  exactly one blocked worker when there is one (the scheduler picks which) and
  pthread_cond_wait returns only when signalled; `thread_worker_step_spurious`
  adds the returns of pthread_cond_wait without a signal that POSIX allows,
  which cover a pthread_cond_signal that unblocks more than one worker.
-/

namespace Mdu

/-! ## stdlib.h -/

/-- EXIT_SUCCESS of stdlib.h. -/
def EXIT_SUCCESS : Int := 0

/-- EXIT_FAILURE of stdlib.h. -/
def EXIT_FAILURE : Int := 1

/-! ## stack.h / stack.c -/

/-- Stack of stack.h: the chain of nodes reachable from `top`, first node first.
Each node holds a `void*` datum, `none` being the NULL pointer. -/
structure Stack (α : Type) where
  top : List (Option α)
deriving DecidableEq, Repr

/-- Function create_stack of stack.c: a stack whose `top` is NULL. -/
def create_stack {α : Type} : Stack α := ⟨[]⟩

/-- Function is_empty of stack.c: `stack->top == NULL`. -/
def is_empty {α : Type} (stack : Stack α) : Bool := stack.top.isEmpty

/-- Function push of stack.c.  `malloc_ok` tells whether the node allocation
succeeds; when it does not, push returns without changing the stack. -/
def push {α : Type} (malloc_ok : Bool) (stack : Stack α) (data : Option α) : Stack α :=
  if malloc_ok then ⟨data :: stack.top⟩ else stack

/-- Function pop of stack.c: the returned pointer (NULL on an empty stack) and
the stack afterwards. -/
def pop {α : Type} (stack : Stack α) : Option α × Stack α :=
  if is_empty stack then (none, stack)
  else
    match stack.top with
    | [] => (none, stack)
    | data :: next => (data, ⟨next⟩)

/-- Pushes the data of a list one after the other, first element first. -/
def push_all {α : Type} (stack : Stack α) : List (Option α) → Stack α
  | [] => stack
  | d :: ds => push_all (push true stack d) ds

/-- Pops `n` times and collects the returned pointers in the order returned. -/
def pop_n {α : Type} : Nat → Stack α → List (Option α) × Stack α
  | 0, stack => ([], stack)
  | n + 1, stack =>
    let r := pop stack
    let rs := pop_n n r.2
    (r.1 :: rs.1, rs.2)

/-! ## File system primitives -/

/-- The fields of `struct stat` the program reads. -/
structure Stat where
  is_dir : Bool
  st_blocks : Int
deriving DecidableEq, Repr

/-- The file system as the program sees it.  `lstat` is `none` when lstat(2)
fails; `readdir` is `none` when opendir(3) fails and otherwise the sequence of
`d_name`s readdir(3) returns (with "." and ".." when the system lists them);
`stat_ok` tells whether stat(2) returns 0. -/
structure Fs where
  lstat : String → Option Stat
  readdir : String → Option (List String)
  stat_ok : String → Bool

/-! ## mdu.h -/

/-- Struct Path of mdu.h: a task. -/
structure Path where
  path_name : String
  path_id : Nat
deriving DecidableEq, Repr

/-- Struct Dir_details of mdu.h (the mutex array is part of the transition
system, not of the data). -/
structure Dir_details where
  path_identity : List (Option String)
  dir_size : List Int
deriving DecidableEq, Repr

/-- Struct ThreadPool of mdu.h (mutexes and condition variable are part of the
transition system). -/
structure ThreadPool where
  stack : Stack Path
  path_num : Nat
  num_threads : Nat
  exit_code : Int
  dir_details : Dir_details
deriving DecidableEq, Repr

/-! ## paths.c -/

/-- Function create_path of paths.c. -/
def create_path (path_name : String) (path_id : Nat) : Path := ⟨path_name, path_id⟩

/-- Function concatenate_dir_path of paths.c: the format "%s/%s". -/
def concatenate_dir_path (base_path filename : String) : String :=
  base_path ++ "/" ++ filename

/-- Function give_path_identity of paths.c, for a non-NULL name. -/
def give_path_identity (Pool : ThreadPool) (path_name : String) (path_id : Nat) : ThreadPool :=
  { Pool with dir_details :=
      { Pool.dir_details with
        path_identity := Pool.dir_details.path_identity.set path_id (some path_name) } }

/-! ## threads.c: init_ThreadPool -/

/-- Function init_ThreadPool of threads.c: calloc-ed (zeroed) arrays of length
`path_num`, an empty stack, exit code EXIT_SUCCESS. -/
def init_ThreadPool (path_num num_threads : Nat) : ThreadPool :=
  { stack := create_stack
    path_num := path_num
    num_threads := num_threads
    exit_code := EXIT_SUCCESS
    dir_details :=
      { path_identity := List.replicate path_num none
        dir_size := List.replicate path_num 0 } }

/-- The loop of initialize_paths of paths.c over `argv[optind + i ..]`. -/
def initialize_paths_loop (fs : Fs) : List String → Nat → ThreadPool → ThreadPool
  | [], _, thread_pool => thread_pool
  | arg :: args, i, thread_pool =>
    if fs.stat_ok arg then
      let path_task := create_path arg i
      let pool1 := give_path_identity thread_pool path_task.path_name i
      initialize_paths_loop fs args (i + 1)
        { pool1 with stack := push true pool1.stack (some path_task) }
    else
      initialize_paths_loop fs args (i + 1) thread_pool

/-- Function initialize_paths of paths.c; `none` when no path is valid and the
program exits through handle_error. -/
def initialize_paths (fs : Fs) (argv : List String) (thread_pool : ThreadPool) :
    Option ThreadPool :=
  let pool1 := initialize_paths_loop fs argv 0 thread_pool
  if is_empty pool1.stack then none else some pool1

/-! ## directory_usage.c -/

/-- Function update_directory_size of directory_usage.c, the sum taken exactly:
what the function does when the sum is inside `LONG_MIN..LONG_MAX`
(`update_directory_size_long` has the addition of the type `long`). -/
def update_directory_size (thread_pool : ThreadPool) (current_path_task : Path)
    (directory_size : Int) : ThreadPool :=
  { thread_pool with dir_details :=
      { thread_pool.dir_details with
        dir_size := thread_pool.dir_details.dir_size.set current_path_task.path_id
          (thread_pool.dir_details.dir_size.getD current_path_task.path_id 0 + directory_size) } }

/-- What process_path_entry returns and leaves behind: its return value, the
pool, the caller's `*directory_size`, and whether it went through its critical
section (lock, push, pthread_cond_signal, unlock). -/
structure EntryResult where
  status : Int
  thread_pool : ThreadPool
  directory_size : Int
  signalled : Bool
deriving DecidableEq, Repr

/-- Function process_path_entry of directory_usage.c. -/
def process_path_entry (fs : Fs) (full_path : String) (path_id : Nat)
    (thread_pool : ThreadPool) (directory_size : Int) : EntryResult :=
  match fs.lstat full_path with
  | none => ⟨EXIT_FAILURE, thread_pool, directory_size, false⟩
  | some s =>
    if !s.is_dir then
      ⟨EXIT_SUCCESS, thread_pool, directory_size + s.st_blocks, false⟩
    else
      let new_subdir_task := create_path full_path path_id
      ⟨EXIT_SUCCESS,
        { thread_pool with stack := push true thread_pool.stack (some new_subdir_task) },
        directory_size, true⟩

/-- Tells whether a `d_name` is "." or "..". -/
def is_dot (d_name : String) : Bool := d_name == "." || d_name == ".."

/-- The readdir loop of traverse_directory over the entries still to be read:
return value, pool and `*directory_size` at the end. -/
def traverse_entries (fs : Fs) (base_path : String) (path_id : Nat) :
    List String → ThreadPool → Int → Int × ThreadPool × Int
  | [], thread_pool, directory_size => (EXIT_SUCCESS, thread_pool, directory_size)
  | d_name :: rest, thread_pool, directory_size =>
    if is_dot d_name then
      traverse_entries fs base_path path_id rest thread_pool directory_size
    else
      let r := process_path_entry fs (concatenate_dir_path base_path d_name) path_id
        thread_pool directory_size
      if r.status != 0 then (EXIT_FAILURE, r.thread_pool, r.directory_size)
      else traverse_entries fs base_path path_id rest r.thread_pool r.directory_size

/-- Function traverse_directory of directory_usage.c. -/
def traverse_directory (fs : Fs) (base_path : String) (path_id : Nat)
    (thread_pool : ThreadPool) (directory_size : Int) : Int × ThreadPool × Int :=
  match fs.readdir base_path with
  | none => (EXIT_FAILURE, thread_pool, directory_size)
  | some entries => traverse_entries fs base_path path_id entries thread_pool directory_size

/-- Function calculate_directory_usage of directory_usage.c: return value and
pool afterwards. -/
def calculate_directory_usage (fs : Fs) (thread_pool : ThreadPool)
    (current_path_task : Path) : Int × ThreadPool :=
  let base_path := current_path_task.path_name
  match fs.lstat base_path with
  | none => (EXIT_FAILURE, thread_pool)
  | some s =>
    if s.is_dir then
      let r := traverse_directory fs base_path current_path_task.path_id thread_pool s.st_blocks
      let exit_code := if r.1 != 0 then EXIT_FAILURE else EXIT_SUCCESS
      (exit_code, update_directory_size r.2.1 current_path_task r.2.2)
    else
      (EXIT_SUCCESS, update_directory_size thread_pool current_path_task s.st_blocks)

/-! ## threads.c: thread_worker as a transition system -/

/-- Where one worker stands in thread_worker. -/
inductive Worker where
  /-- About to lock `stack_mut` and test the loop condition (entry of the
  function, or after a task has been cleaned up). -/
  | fetch : Worker
  /-- Inside pthread_cond_wait, not signalled. -/
  | blocked : Worker
  /-- Signalled inside pthread_cond_wait; has yet to reacquire `stack_mut`. -/
  | woken : Worker
  /-- Has popped `current_task` and released `stack_mut`; about to call
  calculate_directory_usage. -/
  | start (current_task : Option Path) : Worker
  /-- Inside the readdir loop of traverse_directory, `entries` still unread. -/
  | loop (current_task : Path) (entries : List String) (directory_size : Int) : Worker
  /-- About to call update_directory_size; calculate_directory_usage will
  return `exit_code`. -/
  | publish (current_task : Path) (directory_size : Int) (exit_code : Int) : Worker
  /-- The call of calculate_directory_usage has returned `status`; the task is not
  yet cleaned up. -/
  | report (current_task : Path) (status : Int) : Worker
  /-- Has returned from thread_worker. -/
  | done : Worker
deriving DecidableEq, Repr

/-- The shared state of a run: the pool, the three static variables of
thread_worker, whether `stack_mut` was left locked by a worker that returned,
and every worker. -/
structure State where
  thread_pool : ThreadPool
  waiting_threads_count : Int
  work_finished : Bool
  error_occurred : Bool
  stack_mut_held : Bool
  workers : List Worker
deriving DecidableEq, Repr

/-- What the scheduler decides for one transition: which worker runs, and
which blocked worker a pthread_cond_signal of this transition wakes. -/
structure Event where
  worker : Nat
  wake : Nat
deriving DecidableEq, Repr

/-- Effect of pthread_cond_broadcast: every blocked worker is woken. -/
def pthread_cond_broadcast (workers : List Worker) : List Worker :=
  workers.map (fun w => if w = Worker.blocked then Worker.woken else w)

/-- Effect of pthread_cond_signal: the blocked worker `wake` is woken; with no
blocked worker nothing happens.  `none` when workers are blocked and `wake` is
not one of them (the scheduler must name one). -/
def pthread_cond_signal (workers : List Worker) (wake : Nat) : Option (List Worker) :=
  if workers[wake]? = some Worker.blocked then some (workers.set wake Worker.woken)
  else if Worker.blocked ∈ workers then none
  else some workers

/-- The loop of thread_worker from the test of its condition, `stack_mut`
held by worker `i`, up to the point where the worker releases the mutex
(unlock or pthread_cond_wait) or returns. -/
def loop_head (s : State) (i : Nat) : State :=
  if s.work_finished then
    { s with stack_mut_held := true, workers := s.workers.set i Worker.done }
  else if is_empty s.thread_pool.stack then
    let waiting := s.waiting_threads_count + 1
    if waiting = (s.thread_pool.num_threads : Int) then
      { s with
        waiting_threads_count := waiting
        work_finished := true
        workers := (pthread_cond_broadcast s.workers).set i Worker.done }
    else
      { s with
        waiting_threads_count := waiting
        workers := s.workers.set i Worker.blocked }
  else
    let r := pop s.thread_pool.stack
    { s with
      thread_pool := { s.thread_pool with stack := r.2 }
      workers := s.workers.set i (Worker.start r.1) }

/-- Return of pthread_cond_wait in worker `i`: the mutex is reacquired, the
count is decremented, then the worker leaves if the work is finished and
otherwise goes on with the loop. -/
def wake_up (s : State) (i : Nat) : State :=
  let s1 := { s with waiting_threads_count := s.waiting_threads_count - 1 }
  if s1.work_finished then { s1 with workers := s1.workers.set i Worker.done }
  else loop_head s1 i

/-- First part of calculate_directory_usage, up to the readdir loop: lstat of
the task, then opendir when it is a directory. -/
def begin_task (fs : Fs) (current_path_task : Path) : Worker :=
  match fs.lstat current_path_task.path_name with
  | none => Worker.report current_path_task EXIT_FAILURE
  | some s =>
    if s.is_dir then
      match fs.readdir current_path_task.path_name with
      | none => Worker.publish current_path_task s.st_blocks EXIT_FAILURE
      | some entries => Worker.loop current_path_task entries s.st_blocks
    else Worker.publish current_path_task s.st_blocks EXIT_SUCCESS

/-- One transition of worker `e.worker`; `none` when that worker cannot move:
it is blocked in pthread_cond_wait, has returned, needs `stack_mut` while the
mutex was left locked, names no blocked worker for its signal, or is about to
dereference a NULL task. -/
def thread_worker_step (fs : Fs) (s : State) (e : Event) : Option State :=
  match s.workers[e.worker]? with
  | none => none
  | some Worker.fetch =>
    if s.stack_mut_held then none else some (loop_head s e.worker)
  | some Worker.blocked => none
  | some Worker.woken =>
    if s.stack_mut_held then none else some (wake_up s e.worker)
  | some (Worker.start none) => none
  | some (Worker.start (some t)) =>
    some { s with workers := s.workers.set e.worker (begin_task fs t) }
  | some (Worker.loop t [] directory_size) =>
    some { s with workers := s.workers.set e.worker (Worker.publish t directory_size EXIT_SUCCESS) }
  | some (Worker.loop t (d_name :: rest) directory_size) =>
    if is_dot d_name then
      some { s with workers := s.workers.set e.worker (Worker.loop t rest directory_size) }
    else
      let r := process_path_entry fs (concatenate_dir_path t.path_name d_name) t.path_id
        s.thread_pool directory_size
      let next :=
        if r.status != 0 then Worker.publish t r.directory_size EXIT_FAILURE
        else Worker.loop t rest r.directory_size
      if r.signalled then
        if s.stack_mut_held then none
        else
          match pthread_cond_signal s.workers e.wake with
          | none => none
          | some ws => some { s with thread_pool := r.thread_pool, workers := ws.set e.worker next }
      else some { s with thread_pool := r.thread_pool, workers := s.workers.set e.worker next }
  | some (Worker.publish t directory_size exit_code) =>
    some { s with
      thread_pool := update_directory_size s.thread_pool t directory_size
      workers := s.workers.set e.worker (Worker.report t exit_code) }
  | some (Worker.report _ status) =>
    if status != 0 && !s.error_occurred then
      some { s with
        error_occurred := true
        thread_pool := { s.thread_pool with exit_code := EXIT_FAILURE }
        workers := s.workers.set e.worker Worker.fetch }
    else some { s with workers := s.workers.set e.worker Worker.fetch }
  | some Worker.done => none

/-- Runs a schedule, one transition per event; `none` when an event names a
worker that cannot move. -/
def run (fs : Fs) : State → List Event → Option State
  | s, [] => some s
  | s, e :: es =>
    match thread_worker_step fs s e with
    | none => none
    | some s1 => run fs s1 es

/-- The state in which initialize_dispatch_threads leaves the program once the
`num_threads` workers exist: main has run init_ThreadPool and initialize_paths,
the static variables have their initial values, no worker has moved. -/
def initial (fs : Fs) (argv : List String) (num_threads : Nat) : Option State :=
  match initialize_paths fs argv (init_ThreadPool argv.length num_threads) with
  | none => none
  | some thread_pool =>
    some
      { thread_pool := thread_pool
        waiting_threads_count := 0
        work_finished := false
        error_occurred := false
        stack_mut_held := false
        workers := List.replicate num_threads Worker.fetch }

/-- Every worker has returned from thread_worker. -/
def Terminated (s : State) : Prop := ∀ w ∈ s.workers, w = Worker.done

instance (s : State) : Decidable (Terminated s) := by
  unfold Terminated; infer_instance

/-- The worker holds a popped task that is not yet cleaned up. -/
def Worker.holds_task : Worker → Bool
  | Worker.start _ => true
  | Worker.loop _ _ _ => true
  | Worker.publish _ _ _ => true
  | Worker.report _ _ => true
  | _ => false

/-- The schedule that always runs worker 0 and wakes worker 0, `n` times. -/
def solo (n : Nat) : List Event := List.replicate n ⟨0, 0⟩

/-! ### A small file system for examples

A directory `r` of 8 blocks holding two files of 4 blocks and a directory `d`
of 8 blocks, which holds one file of 2 blocks; a file `f` of 8 blocks; and a
symbolic link `l` of 8 blocks whose target does not exist, so that lstat
succeeds on it and stat fails. -/

/-- Example file system. -/
def fs_example : Fs where
  lstat p :=
    if p = "r" then some ⟨true, 8⟩
    else if p = "r/a" then some ⟨false, 4⟩
    else if p = "r/b" then some ⟨false, 4⟩
    else if p = "r/d" then some ⟨true, 8⟩
    else if p = "r/d/c" then some ⟨false, 2⟩
    else if p = "f" then some ⟨false, 8⟩
    else if p = "l" then some ⟨false, 8⟩
    else none
  readdir p :=
    if p = "r" then some [".", "..", "a", "d", "b"]
    else if p = "r/d" then some [".", "..", "c"]
    else none
  stat_ok p := p = "r" || p = "r/d" || p = "f"

/-! ## What the processing of one task does, read off the file system -/

/-- Blocks the readdir loop adds to the running total over `entries`: the
blocks of every entry that is not a directory, up to the first entry whose
lstat fails. -/
def entries_blocks (fs : Fs) (base_path : String) : List String → Int
  | [] => 0
  | d_name :: rest =>
    if is_dot d_name then entries_blocks fs base_path rest
    else
      match fs.lstat (concatenate_dir_path base_path d_name) with
      | none => 0
      | some st =>
        if st.is_dir then entries_blocks fs base_path rest
        else st.st_blocks + entries_blocks fs base_path rest

/-- Paths the readdir loop pushes as tasks over `entries`: every entry that is
a directory, up to the first entry whose lstat fails. -/
def entries_subdirs (fs : Fs) (base_path : String) : List String → List String
  | [] => []
  | d_name :: rest =>
    if is_dot d_name then entries_subdirs fs base_path rest
    else
      match fs.lstat (concatenate_dir_path base_path d_name) with
      | none => []
      | some st =>
        if st.is_dir then
          concatenate_dir_path base_path d_name :: entries_subdirs fs base_path rest
        else entries_subdirs fs base_path rest

/-- Value returned by the readdir loop over `entries`. -/
def entries_status (fs : Fs) (base_path : String) : List String → Int
  | [] => EXIT_SUCCESS
  | d_name :: rest =>
    if is_dot d_name then entries_status fs base_path rest
    else
      match fs.lstat (concatenate_dir_path base_path d_name) with
      | none => EXIT_FAILURE
      | some _ => entries_status fs base_path rest

/-- Amount the processing of a task of path `p` adds to its accumulator. -/
def local_size (fs : Fs) (p : String) : Int :=
  match fs.lstat p with
  | none => 0
  | some st =>
    if st.is_dir then
      match fs.readdir p with
      | none => st.st_blocks
      | some entries => st.st_blocks + entries_blocks fs p entries
    else st.st_blocks

/-- Paths of the tasks the processing of a task of path `p` pushes. -/
def subdirs (fs : Fs) (p : String) : List String :=
  match fs.lstat p with
  | none => []
  | some st =>
    if st.is_dir then
      match fs.readdir p with
      | none => []
      | some entries => entries_subdirs fs p entries
    else []

/-- Value calculate_directory_usage returns for a task of path `p`. -/
def task_status (fs : Fs) (p : String) : Int :=
  match fs.lstat p with
  | none => EXIT_FAILURE
  | some st =>
    if st.is_dir then
      match fs.readdir p with
      | none => EXIT_FAILURE
      | some entries => entries_status fs p entries
    else EXIT_SUCCESS

/-- Total of the task of path `p` and of all tasks that come from it, down to
`fuel` levels of directories. -/
def usage (fs : Fs) : Nat → String → Int
  | 0, _ => 0
  | fuel + 1, p => local_size fs p + ((subdirs fs p).map (usage fs fuel)).sum

/-- Number of entries the readdir loop of a task of path `p` goes through. -/
def listing_length (fs : Fs) (p : String) : Nat :=
  match fs.readdir p with
  | none => 0
  | some entries => entries.length

/-- Bound on the number of transitions spent on the task of path `p` and on all
tasks that come from it, down to `fuel` levels of directories. -/
def cost (fs : Fs) : Nat → String → Nat
  | 0, _ => 0
  | fuel + 1, p =>
    5 + listing_length fs p + ((subdirs fs p).map (fun c => cost fs fuel c + 1)).sum

/-! ## Finite trees -/

/-- Paths of the entries of `p` other than "." and "..", when `p` is a
directory that can be read; no path otherwise. -/
def children (fs : Fs) (p : String) : List String :=
  match fs.lstat p with
  | none => []
  | some st =>
    if st.is_dir then
      match fs.readdir p with
      | none => []
      | some entries =>
        (entries.filter (fun d => !is_dot d)).map (concatenate_dir_path p)
    else []

/-- The tree below `p` has fewer than `depth` levels: following directory
entries from `p` ends within `depth` steps. -/
def tree_within (fs : Fs) : Nat → String → Bool
  | 0, _ => false
  | depth + 1, p => (children fs p).all (tree_within fs depth)

/-- A ledger for a run: a set of paths closed under the tasks pushed, with a
total and a cost for each that satisfy the equations of one task. -/
structure Ledger (fs : Fs) where
  good : String → Prop
  total : String → Int
  cost : String → Nat
  closed : ∀ p, good p → ∀ c ∈ subdirs fs p, good c
  total_eq : ∀ p, good p → total p = local_size fs p + ((subdirs fs p).map total).sum
  cost_eq : ∀ p, good p →
    cost p = 5 + listing_length fs p + ((subdirs fs p).map (fun c => cost c + 1)).sum

/-- What a pending task of the stack still owes to root `r`. -/
def owed_task (total : String → Int) (r : Nat) : Option Path → Int
  | none => 0
  | some t => if t.path_id = r then total t.path_name else 0

/-- What a worker still owes to root `r`: what it will publish for its task and
the totals of the tasks it will push. -/
def owed_worker (fs : Fs) (total : String → Int) (r : Nat) : Worker → Int
  | Worker.start o => owed_task total r o
  | Worker.loop t entries directory_size =>
    if t.path_id = r then
      directory_size + entries_blocks fs t.path_name entries +
        ((entries_subdirs fs t.path_name entries).map total).sum
    else 0
  | Worker.publish t directory_size _ => if t.path_id = r then directory_size else 0
  | _ => 0

/-- Accumulator of root `r` plus everything still owed to it. -/
def balance (fs : Fs) (total : String → Int) (r : Nat) (s : State) : Int :=
  s.thread_pool.dir_details.dir_size.getD r 0 +
    (s.thread_pool.stack.top.map (owed_task total r)).sum +
    (s.workers.map (owed_worker fs total r)).sum

/-- A pending task is a non-NULL task of a good path and of a root in range. -/
def good_task (good : String → Prop) (path_num : Nat) : Option Path → Prop
  | none => False
  | some t => good t.path_name ∧ t.path_id < path_num

/-- The task a worker holds is of a root in range and everything it will push
is good. -/
def good_worker (fs : Fs) (good : String → Prop) (path_num : Nat) : Worker → Prop
  | Worker.start o => good_task good path_num o
  | Worker.loop t entries _ =>
    t.path_id < path_num ∧ ∀ c ∈ entries_subdirs fs t.path_name entries, good c
  | Worker.publish t _ _ => t.path_id < path_num
  | _ => True

/-- Every task of the stack and every worker is good, and the array of
accumulators has its length. -/
def good_state (fs : Fs) (good : String → Prop) (s : State) : Prop :=
  s.thread_pool.dir_details.dir_size.length = s.thread_pool.path_num ∧
    (∀ o ∈ s.thread_pool.stack.top, good_task good s.thread_pool.path_num o) ∧
    (∀ w ∈ s.workers, good_worker fs good s.thread_pool.path_num w)

/-- Weight of a pending task of the stack in the termination measure. -/
def weight_task (cost : String → Nat) : Option Path → Nat
  | none => 0
  | some t => cost t.path_name

/-- Weight of a worker in the termination measure. -/
def weight_worker (fs : Fs) (cost : String → Nat) : Worker → Nat
  | Worker.fetch => 1
  | Worker.blocked => 0
  | Worker.woken => 1
  | Worker.start o => weight_task cost o
  | Worker.loop t entries _ =>
    4 + entries.length +
      ((entries_subdirs fs t.path_name entries).map (fun c => cost c + 1)).sum
  | Worker.publish _ _ _ => 3
  | Worker.report _ _ => 2
  | Worker.done => 0

/-- Termination measure of a state: it drops at every transition. -/
def run_measure (fs : Fs) (cost : String → Nat) (s : State) : Nat :=
  (s.thread_pool.stack.top.map (weight_task cost)).sum +
    (s.workers.map (weight_worker fs cost)).sum +
    (if s.work_finished then 0 else s.workers.length + 1)

/-- One for a worker inside pthread_cond_wait, zero for any other. -/
def waiting_mark : Worker → Int
  | Worker.blocked => 1
  | Worker.woken => 1
  | _ => 0

/-- Number of workers inside pthread_cond_wait. -/
def waiters (workers : List Worker) : Int := (workers.map waiting_mark).sum

/-- Invariant of the worker protocol. -/
def protocol_inv (s : State) : Prop :=
  s.stack_mut_held = false ∧
    s.workers.length = s.thread_pool.num_threads ∧
    (s.work_finished = false →
      s.waiting_threads_count = waiters s.workers ∧ ∀ w ∈ s.workers, w ≠ Worker.done) ∧
    (s.work_finished = true →
      s.thread_pool.stack.top = [] ∧ ∀ w ∈ s.workers, w = Worker.woken ∨ w = Worker.done)

/-- The transitions of `thread_worker_step`, one constructor per path through
thread_worker and calculate_directory_usage.  In the three constructors that go through the
loop head, `k` is the count on arrival: the count itself for a worker that
just locked the mutex, one less for a worker that returns from
pthread_cond_wait. -/
inductive Step (fs : Fs) : State → Event → State → Prop
  | stuck (s : State) (e : Event) :
    s.workers[e.worker]? = some Worker.fetch → s.stack_mut_held = false →
    s.work_finished = true →
    Step fs s e { s with stack_mut_held := true, workers := s.workers.set e.worker Worker.done }
  | leave (s : State) (e : Event) :
    s.workers[e.worker]? = some Worker.woken → s.stack_mut_held = false →
    s.work_finished = true →
    Step fs s e
      { s with
        waiting_threads_count := s.waiting_threads_count - 1
        workers := s.workers.set e.worker Worker.done }
  | finish (s : State) (e : Event) (w0 : Worker) (k : Int) :
    s.workers[e.worker]? = some w0 →
    (w0 = Worker.fetch ∧ k = s.waiting_threads_count ∨
      w0 = Worker.woken ∧ k = s.waiting_threads_count - 1) →
    s.stack_mut_held = false → s.work_finished = false →
    s.thread_pool.stack.top = [] → k + 1 = (s.thread_pool.num_threads : Int) →
    Step fs s e
      { s with
        waiting_threads_count := k + 1
        work_finished := true
        workers := (pthread_cond_broadcast s.workers).set e.worker Worker.done }
  | block (s : State) (e : Event) (w0 : Worker) (k : Int) :
    s.workers[e.worker]? = some w0 →
    (w0 = Worker.fetch ∧ k = s.waiting_threads_count ∨
      w0 = Worker.woken ∧ k = s.waiting_threads_count - 1) →
    s.stack_mut_held = false → s.work_finished = false →
    s.thread_pool.stack.top = [] → k + 1 ≠ (s.thread_pool.num_threads : Int) →
    Step fs s e
      { s with
        waiting_threads_count := k + 1
        workers := s.workers.set e.worker Worker.blocked }
  | take (s : State) (e : Event) (w0 : Worker) (k : Int) (o : Option Path)
      (rest : List (Option Path)) :
    s.workers[e.worker]? = some w0 →
    (w0 = Worker.fetch ∧ k = s.waiting_threads_count ∨
      w0 = Worker.woken ∧ k = s.waiting_threads_count - 1) →
    s.stack_mut_held = false → s.work_finished = false →
    s.thread_pool.stack.top = o :: rest →
    Step fs s e
      { s with
        waiting_threads_count := k
        thread_pool := { s.thread_pool with stack := ⟨rest⟩ }
        workers := s.workers.set e.worker (Worker.start o) }
  | begin (s : State) (e : Event) (t : Path) :
    s.workers[e.worker]? = some (Worker.start (some t)) →
    Step fs s e { s with workers := s.workers.set e.worker (begin_task fs t) }
  | loop_end (s : State) (e : Event) (t : Path) (n : Int) :
    s.workers[e.worker]? = some (Worker.loop t [] n) →
    Step fs s e { s with workers := s.workers.set e.worker (Worker.publish t n EXIT_SUCCESS) }
  | loop_dot (s : State) (e : Event) (t : Path) (d : String) (rest : List String) (n : Int) :
    s.workers[e.worker]? = some (Worker.loop t (d :: rest) n) → is_dot d = true →
    Step fs s e { s with workers := s.workers.set e.worker (Worker.loop t rest n) }
  | loop_fail (s : State) (e : Event) (t : Path) (d : String) (rest : List String) (n : Int) :
    s.workers[e.worker]? = some (Worker.loop t (d :: rest) n) → is_dot d = false →
    fs.lstat (concatenate_dir_path t.path_name d) = none →
    Step fs s e { s with workers := s.workers.set e.worker (Worker.publish t n EXIT_FAILURE) }
  | loop_file (s : State) (e : Event) (t : Path) (d : String) (rest : List String) (n : Int)
      (st : Stat) :
    s.workers[e.worker]? = some (Worker.loop t (d :: rest) n) → is_dot d = false →
    fs.lstat (concatenate_dir_path t.path_name d) = some st → st.is_dir = false →
    Step fs s e
      { s with workers := s.workers.set e.worker (Worker.loop t rest (n + st.st_blocks)) }
  | loop_dir (s : State) (e : Event) (t : Path) (d : String) (rest : List String) (n : Int)
      (st : Stat) (ws : List Worker) :
    s.workers[e.worker]? = some (Worker.loop t (d :: rest) n) → is_dot d = false →
    fs.lstat (concatenate_dir_path t.path_name d) = some st → st.is_dir = true →
    s.stack_mut_held = false →
    pthread_cond_signal s.workers e.wake = some ws →
    Step fs s e
      { s with
        thread_pool :=
          { s.thread_pool with
            stack := ⟨some ⟨concatenate_dir_path t.path_name d, t.path_id⟩ ::
              s.thread_pool.stack.top⟩ }
        workers := ws.set e.worker (Worker.loop t rest n) }
  | publish (s : State) (e : Event) (t : Path) (n : Int) (code : Int) :
    s.workers[e.worker]? = some (Worker.publish t n code) →
    Step fs s e
      { s with
        thread_pool := update_directory_size s.thread_pool t n
        workers := s.workers.set e.worker (Worker.report t code) }
  | report_first (s : State) (e : Event) (t : Path) (status : Int) :
    s.workers[e.worker]? = some (Worker.report t status) →
    status ≠ 0 → s.error_occurred = false →
    Step fs s e
      { s with
        error_occurred := true
        thread_pool := { s.thread_pool with exit_code := EXIT_FAILURE }
        workers := s.workers.set e.worker Worker.fetch }
  | report_other (s : State) (e : Event) (t : Path) (status : Int) :
    s.workers[e.worker]? = some (Worker.report t status) →
    (status = 0 ∨ s.error_occurred = true) →
    Step fs s e { s with workers := s.workers.set e.worker Worker.fetch }

/-- Tasks that initialize_paths pushes for `argv[optind + i ..]`, in the order
pushed: one for each path whose stat succeeds, with its index as root. -/
def seeds (fs : Fs) : List String → Nat → List (Option Path)
  | [], _ => []
  | arg :: args, i =>
    if fs.stat_ok arg then some ⟨arg, i⟩ :: seeds fs args (i + 1)
    else seeds fs args (i + 1)

/-- Labels that initialize_paths stores for `argv[optind + i ..]` into an array
`labels`: slot of index `i + j` gets the `j`-th path when its stat succeeds. -/
def labelled (fs : Fs) : List String → Nat → List (Option String) → List (Option String)
  | [], _, labels => labels
  | arg :: args, i, labels =>
    if fs.stat_ok arg then labelled fs args (i + 1) (labels.set i (some arg))
    else labelled fs args (i + 1) labels

/-- A file system in which the path `g` passes the stat check of
initialize_paths and is gone when a worker calls lstat on it. -/
def fs_vanished : Fs where
  lstat _ := none
  readdir _ := none
  stat_ok p := p = "g"

/-! ### Example states -/

/-- A state without recorded error: the labels of the roots, the number of
workers, the stack, the accumulators, the two protocol variables and the
workers. -/
def state_at (labels : List (Option String)) (n : Nat) (stack : List (Option Path))
    (sizes : List Int) (waiting : Int) (finished : Bool) (workers : List Worker) : State :=
  { thread_pool :=
      { stack := ⟨stack⟩
        path_num := labels.length
        num_threads := n
        exit_code := 0
        dir_details := { path_identity := labels, dir_size := sizes } }
    waiting_threads_count := waiting
    work_finished := finished
    error_occurred := false
    stack_mut_held := false
    workers := workers }

/-- A schedule of two workers over the root `f`: worker 0 takes the task while
worker 1 blocks; worker 0 then finds the stack empty and sets the flag. -/
def schedule_f : List Event := [⟨0, 1⟩, ⟨1, 0⟩, ⟨0, 1⟩, ⟨0, 0⟩, ⟨0, 1⟩]

/-- The status a worker is about to produce is success. -/
def quiet_worker (fs : Fs) : Worker → Prop
  | Worker.loop t entries _ => entries_status fs t.path_name entries = 0
  | Worker.publish _ _ code => code = 0
  | Worker.report _ status => status = 0
  | _ => True

/-- No error has been recorded and no worker is about to report one. -/
def quiet_state (fs : Fs) (s : State) : Prop :=
  s.thread_pool.exit_code = EXIT_SUCCESS ∧ s.error_occurred = false ∧
    ∀ w ∈ s.workers, quiet_worker fs w

/-- A complete schedule of two workers over the roots `r` and `f`. -/
def schedule_rf : List Event :=
  [⟨1, 1⟩, ⟨0, 0⟩, ⟨0, 1⟩, ⟨1, 0⟩, ⟨1, 1⟩, ⟨0, 0⟩, ⟨0, 1⟩, ⟨1, 0⟩, ⟨1, 1⟩, ⟨0, 0⟩, ⟨0, 1⟩,
    ⟨1, 0⟩, ⟨1, 1⟩, ⟨0, 0⟩, ⟨0, 1⟩, ⟨1, 0⟩, ⟨1, 1⟩, ⟨0, 0⟩, ⟨0, 1⟩, ⟨1, 0⟩, ⟨1, 1⟩, ⟨0, 0⟩,
    ⟨1, 1⟩, ⟨1, 0⟩, ⟨1, 1⟩, ⟨0, 0⟩]

/-- The workers `ws1` are the workers `ws` except that some blocked workers
have been woken. -/
def woken_only (ws ws1 : List Worker) : Prop :=
  ∀ j : Nat,
    ws1[j]? = ws[j]? ∨ (ws[j]? = some Worker.blocked ∧ ws1[j]? = some Worker.woken)

/-! ## mdu.c: print_total_size -/

/-- Function print_total_size of mdu.c: one line for each root index whose
label is not NULL, in increasing index order.  A line is given as the pair of
the two values printf formats, the size first and the label second. -/
def print_total_size (threadpool : ThreadPool) : List (Int × String) :=
  (List.range threadpool.path_num).filterMap (fun i =>
    match threadpool.dir_details.path_identity.getD i none with
    | none => none
    | some name => some (threadpool.dir_details.dir_size.getD i 0, name))

/-! ## Errors during a run -/

/-- Some task that comes from the task of path `p`, within `fuel` levels of
pushed tasks, makes calculate_directory_usage return failure. -/
def fails_within (fs : Fs) : Nat → String → Bool
  | 0, _ => false
  | fuel + 1, p => task_status fs p != 0 || (subdirs fs p).any (fails_within fs fuel)

/-- Some task that comes from the task of path `p` returns failure. -/
def failing (fs : Fs) (p : String) : Prop := ∃ fuel, fails_within fs fuel p = true

/-- A pending task from which a failure will come. -/
def doomed_task (fs : Fs) : Option Path → Prop
  | none => False
  | some t => failing fs t.path_name

/-- A worker that is about to report a failure, or to push a task from which a
failure will come. -/
def doomed_worker (fs : Fs) : Worker → Prop
  | Worker.start o => doomed_task fs o
  | Worker.loop t entries _ =>
    entries_status fs t.path_name entries ≠ 0 ∨
      ∃ c ∈ entries_subdirs fs t.path_name entries, failing fs c
  | Worker.publish _ _ code => code ≠ 0
  | Worker.report _ status => status ≠ 0
  | _ => False

/-- The run cannot end with success any more: the exit code is failure
already, or a failure is on its way in the stack or in a worker. -/
def doomed (fs : Fs) (s : State) : Prop :=
  (s.error_occurred = true → s.thread_pool.exit_code = EXIT_FAILURE) ∧
    (s.thread_pool.exit_code = EXIT_FAILURE ∨
      (∃ o ∈ s.thread_pool.stack.top, doomed_task fs o) ∨
      ∃ w ∈ s.workers, doomed_worker fs w)

/-- The running size a worker holds is not negative. -/
def nonneg_worker : Worker → Prop
  | Worker.loop _ _ directory_size => 0 ≤ directory_size
  | Worker.publish _ directory_size _ => 0 ≤ directory_size
  | _ => True

/-- Invariant of the count once `work_finished` is set: the worker that set
the flag stays counted, the others are counted until they leave. -/
def latched_inv (s : State) : Prop :=
  s.work_finished = true →
    s.waiting_threads_count = waiters s.workers + 1 ∧ Worker.done ∈ s.workers

/-! ## Words of the error-handling sentences -/

/-- The file system with the path `q` taken out: lstat fails on it. -/
def hide (fs : Fs) (q : String) : Fs :=
  { fs with lstat := fun p => if p = q then none else fs.lstat p }

/-! ### File systems with errors, for examples -/

/-- A state in which an error has been recorded: as `state_at`, with the exit
code EXIT_FAILURE and `error_occurred` set. -/
def state_failed (labels : List (Option String)) (n : Nat) (stack : List (Option Path))
    (sizes : List Int) (waiting : Int) (finished : Bool) (workers : List Worker) : State :=
  { thread_pool :=
      { stack := ⟨stack⟩
        path_num := labels.length
        num_threads := n
        exit_code := 1
        dir_details := { path_identity := labels, dir_size := sizes } }
    waiting_threads_count := waiting
    work_finished := finished
    error_occurred := true
    stack_mut_held := false
    workers := workers }

/-! ## Tasks along a run -/

/-- The task a worker holds, if it holds one. -/
def Worker.task : Worker → Option Path
  | Worker.start o => o
  | Worker.loop t _ _ => some t
  | Worker.publish t _ _ => some t
  | Worker.report t _ => some t
  | _ => none

/-- The task on which the transition of worker `e.worker` calls
calculate_directory_usage, if it calls it. -/
def called (s : State) (e : Event) : Option Path :=
  match s.workers[e.worker]? with
  | some (Worker.start (some t)) => some t
  | _ => none

/-- The task the transition of worker `e.worker` pushes, if it pushes one. -/
def pushed (fs : Fs) (s : State) (e : Event) : Option Path :=
  match s.workers[e.worker]? with
  | some (Worker.loop t (d_name :: _) _) =>
    if is_dot d_name then none
    else
      match fs.lstat (concatenate_dir_path t.path_name d_name) with
      | none => none
      | some st =>
        if st.is_dir then some (create_path (concatenate_dir_path t.path_name d_name) t.path_id)
        else none
  | _ => none

/-- The tasks on which calculate_directory_usage is called along a run, in the
order of the calls. -/
def calls (fs : Fs) : State → List Event → List Path
  | _, [] => []
  | s, e :: es =>
    match thread_worker_step fs s e with
    | none => []
    | some s1 => (called s e).toList ++ calls fs s1 es

/-- The tasks pushed by the workers along a run, in the order pushed. -/
def pushes (fs : Fs) : State → List Event → List Path
  | _, [] => []
  | s, e :: es =>
    match thread_worker_step fs s e with
    | none => []
    | some s1 => (pushed fs s e).toList ++ pushes fs s1 es

/-- The tasks the processing of the task `t` pushes: the subdirectories it
discovers, with the root of `t`. -/
def discovered (fs : Fs) (t : Path) : List Path :=
  (subdirs fs t.path_name).map (fun c => create_path c t.path_id)

/-- One when the stack datum is the task `q`. -/
def stacked (q : Path) (o : Option Path) : Int := if o = some q then 1 else 0

/-- One when the worker has popped the task `q` and not yet called
calculate_directory_usage on it. -/
def held (q : Path) : Worker → Int
  | Worker.start o => stacked q o
  | _ => 0

/-- Number of times the worker will still push the task `q` in its readdir
loop. -/
def to_push (fs : Fs) (q : Path) : Worker → Int
  | Worker.loop t entries _ =>
    (((entries_subdirs fs t.path_name entries).map (fun c => create_path c t.path_id)).count q : Int)
  | _ => 0

/-- Number of tasks `q` waiting for their call: in the stack or popped. -/
def pending (q : Path) (s : State) : Int :=
  (s.thread_pool.stack.top.map (stacked q)).sum + (s.workers.map (held q)).sum

/-! ## Allocation failures in the readdir loop -/

/-- Function process_path_entry of directory_usage.c with the outcome of its
allocations explicit: `create_path_ok` tells whether create_path returns a
task, `malloc_ok` whether push can allocate its node. -/
def process_path_entry_alloc (create_path_ok malloc_ok : Bool) (fs : Fs) (full_path : String)
    (path_id : Nat) (thread_pool : ThreadPool) (directory_size : Int) : EntryResult :=
  match fs.lstat full_path with
  | none => ⟨EXIT_FAILURE, thread_pool, directory_size, false⟩
  | some s =>
    if !s.is_dir then
      ⟨EXIT_SUCCESS, thread_pool, directory_size + s.st_blocks, false⟩
    else if !create_path_ok then
      ⟨EXIT_FAILURE, thread_pool, directory_size, false⟩
    else
      let new_subdir_task := create_path full_path path_id
      ⟨EXIT_SUCCESS,
        { thread_pool with stack := push malloc_ok thread_pool.stack (some new_subdir_task) },
        directory_size, true⟩

/-- One transition of worker `e.worker` in which the allocations of
process_path_entry have the outcomes `create_path_ok` and `malloc_ok`: as
`thread_worker_step`, except for a worker about to process an entry of its
directory.  `none` when the worker cannot move; a process that exited would
have no successor state either. -/
def thread_worker_step_alloc (create_path_ok malloc_ok : Bool) (fs : Fs) (s : State)
    (e : Event) : Option State :=
  match s.workers[e.worker]? with
  | some (Worker.loop t (d_name :: rest) directory_size) =>
    if is_dot d_name then thread_worker_step fs s e
    else
      let r := process_path_entry_alloc create_path_ok malloc_ok fs
        (concatenate_dir_path t.path_name d_name) t.path_id s.thread_pool directory_size
      let next :=
        if r.status != 0 then Worker.publish t r.directory_size EXIT_FAILURE
        else Worker.loop t rest r.directory_size
      if r.signalled then
        if s.stack_mut_held then none
        else
          match pthread_cond_signal s.workers e.wake with
          | none => none
          | some ws => some { s with thread_pool := r.thread_pool, workers := ws.set e.worker next }
      else some { s with thread_pool := r.thread_pool, workers := s.workers.set e.worker next }
  | _ => thread_worker_step fs s e

/-- Every task of the stack and every task a worker holds has its root in
range, and the array of accumulators has its length. -/
def ids_ok (s : State) : Prop :=
  s.thread_pool.dir_details.dir_size.length = s.thread_pool.path_num ∧
    (∀ o ∈ s.thread_pool.stack.top, ∃ t, o = some t ∧ t.path_id < s.thread_pool.path_num) ∧
    (∀ w ∈ s.workers, ∀ t, w.task = some t → t.path_id < s.thread_pool.path_num)

/-! ## Arithmetic of `long` -/

/-- LONG_MAX of limits.h, for a `long` of 64 bits. -/
def LONG_MAX : Int := 9223372036854775807

/-- LONG_MIN of limits.h, for a `long` of 64 bits. -/
def LONG_MIN : Int := -9223372036854775808

/-- The `long` an arithmetic operation yields when its exact result is `n`:
`n` itself inside `LONG_MIN..LONG_MAX`, and `n` reduced modulo 2^64 into that
range outside, as on the usual two's-complement platforms (the C standard
leaves the result undefined). -/
def long_wrap (n : Int) : Int :=
  (n + 9223372036854775808) % 18446744073709551616 - 9223372036854775808

/-- Function update_directory_size of directory_usage.c with the addition of
the type `long`: `dir_size[path_id] += directory_size`. -/
def update_directory_size_long (thread_pool : ThreadPool) (current_path_task : Path)
    (directory_size : Int) : ThreadPool :=
  { thread_pool with dir_details :=
      { thread_pool.dir_details with
        dir_size := thread_pool.dir_details.dir_size.set current_path_task.path_id
          (long_wrap
            (thread_pool.dir_details.dir_size.getD current_path_task.path_id 0 +
              directory_size)) } }

/-- Function process_path_entry of directory_usage.c with the addition of the
type `long`: `*directory_size += s.st_blocks`. -/
def process_path_entry_long (fs : Fs) (full_path : String) (path_id : Nat)
    (thread_pool : ThreadPool) (directory_size : Int) : EntryResult :=
  match fs.lstat full_path with
  | none => ⟨EXIT_FAILURE, thread_pool, directory_size, false⟩
  | some s =>
    if !s.is_dir then
      ⟨EXIT_SUCCESS, thread_pool, long_wrap (directory_size + s.st_blocks), false⟩
    else
      let new_subdir_task := create_path full_path path_id
      ⟨EXIT_SUCCESS,
        { thread_pool with stack := push true thread_pool.stack (some new_subdir_task) },
        directory_size, true⟩

/-- The readdir loop of traverse_directory with the addition of the type
`long`. -/
def traverse_entries_long (fs : Fs) (base_path : String) (path_id : Nat) :
    List String → ThreadPool → Int → Int × ThreadPool × Int
  | [], thread_pool, directory_size => (EXIT_SUCCESS, thread_pool, directory_size)
  | d_name :: rest, thread_pool, directory_size =>
    if is_dot d_name then
      traverse_entries_long fs base_path path_id rest thread_pool directory_size
    else
      let r := process_path_entry_long fs (concatenate_dir_path base_path d_name) path_id
        thread_pool directory_size
      if r.status != 0 then (EXIT_FAILURE, r.thread_pool, r.directory_size)
      else traverse_entries_long fs base_path path_id rest r.thread_pool r.directory_size

/-- Function traverse_directory of directory_usage.c with the addition of the
type `long`. -/
def traverse_directory_long (fs : Fs) (base_path : String) (path_id : Nat)
    (thread_pool : ThreadPool) (directory_size : Int) : Int × ThreadPool × Int :=
  match fs.readdir base_path with
  | none => (EXIT_FAILURE, thread_pool, directory_size)
  | some entries =>
    traverse_entries_long fs base_path path_id entries thread_pool directory_size

/-- Function calculate_directory_usage of directory_usage.c with the additions
of the type `long`: return value and pool afterwards. -/
def calculate_directory_usage_long (fs : Fs) (thread_pool : ThreadPool)
    (current_path_task : Path) : Int × ThreadPool :=
  let base_path := current_path_task.path_name
  match fs.lstat base_path with
  | none => (EXIT_FAILURE, thread_pool)
  | some s =>
    if s.is_dir then
      let r := traverse_directory_long fs base_path current_path_task.path_id thread_pool
        s.st_blocks
      let exit_code := if r.1 != 0 then EXIT_FAILURE else EXIT_SUCCESS
      (exit_code, update_directory_size_long r.2.1 current_path_task r.2.2)
    else
      (EXIT_SUCCESS, update_directory_size_long thread_pool current_path_task s.st_blocks)

/-- One transition of worker `e.worker` with the additions of the type `long`:
as `thread_worker_step`, except that the two additions of block counts, in
process_path_entry and in update_directory_size, wrap round outside
`LONG_MIN..LONG_MAX`. -/
def thread_worker_step_long (fs : Fs) (s : State) (e : Event) : Option State :=
  match s.workers[e.worker]? with
  | some (Worker.loop t (d_name :: rest) directory_size) =>
    if is_dot d_name then thread_worker_step fs s e
    else
      let r := process_path_entry_long fs (concatenate_dir_path t.path_name d_name) t.path_id
        s.thread_pool directory_size
      let next :=
        if r.status != 0 then Worker.publish t r.directory_size EXIT_FAILURE
        else Worker.loop t rest r.directory_size
      if r.signalled then
        if s.stack_mut_held then none
        else
          match pthread_cond_signal s.workers e.wake with
          | none => none
          | some ws => some { s with thread_pool := r.thread_pool, workers := ws.set e.worker next }
      else some { s with thread_pool := r.thread_pool, workers := s.workers.set e.worker next }
  | some (Worker.publish t directory_size exit_code) =>
    some { s with
      thread_pool := update_directory_size_long s.thread_pool t directory_size
      workers := s.workers.set e.worker (Worker.report t exit_code) }
  | _ => thread_worker_step fs s e

/-- Runs a schedule with the additions of the type `long`. -/
def run_long (fs : Fs) : State → List Event → Option State
  | s, [] => some s
  | s, e :: es =>
    match thread_worker_step_long fs s e with
    | none => none
    | some s1 => run_long fs s1 es

/-- A directory `q` of LONG_MAX blocks that holds one file `a` of one
block. -/
def fs_huge : Fs where
  lstat p :=
    if p = "q" then some ⟨true, 9223372036854775807⟩
    else if p = "q/a" then some ⟨false, 1⟩
    else none
  readdir p := if p = "q" then some ["a"] else none
  stat_ok p := p = "q"

/-! ## Spurious wake-ups -/

/-- One transition of worker `e.worker` when pthread_cond_wait may return
without a signal: as `thread_worker_step`, and a worker that is blocked in
pthread_cond_wait may return from it (it then reacquires the mutex and goes on
as a worker that was signalled: threads.c decrements the count and tests
`work_finished` and the stack again).  A pthread_cond_signal that unblocks
more than one worker is a signal followed by such returns. -/
def thread_worker_step_spurious (fs : Fs) (s : State) (e : Event) : Option State :=
  match s.workers[e.worker]? with
  | some Worker.blocked => some { s with workers := s.workers.set e.worker Worker.woken }
  | _ => thread_worker_step fs s e

/-- Runs a schedule in which pthread_cond_wait may return without a signal. -/
def run_spurious (fs : Fs) : State → List Event → Option State
  | s, [] => some s
  | s, e :: es =>
    match thread_worker_step_spurious fs s e with
    | none => none
    | some s1 => run_spurious fs s1 es

/-- Number of returns of pthread_cond_wait without a signal along a
schedule. -/
def spurious_count (fs : Fs) : State → List Event → Nat
  | _, [] => 0
  | s, e :: es =>
    match thread_worker_step_spurious fs s e with
    | none => 0
    | some s1 =>
      (if s.workers[e.worker]? = some Worker.blocked then 1 else 0) + spurious_count fs s1 es

/-- Weight of a worker in the measure of the work left: as `weight_worker`,
with nothing for a worker inside pthread_cond_wait. -/
def weight_outside (fs : Fs) (cost : String → Nat) : Worker → Nat
  | Worker.woken => 0
  | w => weight_worker fs cost w

/-- Measure of the work left: it drops at every transition of a worker that
is outside pthread_cond_wait and never goes up, with or without returns of
pthread_cond_wait that no signal caused. -/
def work_measure (fs : Fs) (cost : String → Nat) (s : State) : Nat :=
  (s.thread_pool.stack.top.map (weight_task cost)).sum +
    (s.workers.map (weight_outside fs cost)).sum

/-- Number of transitions of a schedule made by a worker that is outside
pthread_cond_wait when it moves. -/
def outside_count (fs : Fs) : State → List Event → Nat
  | _, [] => 0
  | s, e :: es =>
    match thread_worker_step_spurious fs s e with
    | none => 0
    | some s1 =>
      (match s.workers[e.worker]? with
        | some w => if waiting_mark w = 0 then 1 else 0
        | none => 0) + outside_count fs s1 es

/-- A run that never ends: states from `s` on, each got from the one before by
a transition of `thread_worker_step_spurious`, the worker of step `i` being
`(schedule i).worker`. -/
def unending_run (fs : Fs) (s : State) (states : Nat → State) (schedule : Nat → Event) : Prop :=
  states 0 = s ∧
    ∀ i, thread_worker_step_spurious fs (states i) (schedule i) = some (states (i + 1))

/-- Weak fairness of a schedule: a worker that is outside pthread_cond_wait
and has not returned gets a turn at some later step. -/
def fair_schedule (states : Nat → State) (schedule : Nat → Event) : Prop :=
  ∀ i j w, (states i).workers[j]? = some w → waiting_mark w = 0 → w ≠ Worker.done →
    ∃ k, i ≤ k ∧ (schedule k).worker = j

/-- States of a run over the file `f` of `fs_example` that never ends: worker
0 holds the task and never gets a turn, worker 1 returns from
pthread_cond_wait without a signal, finds the stack empty and waits again, for
ever. -/
def spin_states (i : Nat) : State :=
  if i % 2 = 0 then
    state_at [some "f"] 2 [] [0] 1 false [Worker.publish ⟨"f", 0⟩ 8 0, Worker.blocked]
  else state_at [some "f"] 2 [] [0] 1 false [Worker.publish ⟨"f", 0⟩ 8 0, Worker.woken]

/-- Schedule of `spin_states`: worker 1 at every step. -/
def spin_schedule (_ : Nat) : Event := ⟨1, 0⟩

end Mdu

/-!
# huffman: Huffman coding

A shallow embedding of `Huffman_Project` (`frequency_table.c`, `Huff_Trie.c`,
`huff_table.c`, `encode_decode.c`).

Conventions of the embedding.

* A file is the sequence of bytes fgetc returns before EOF; a byte is a
  `Fin 256`.
* An `int` has 32 bits.  An `int` addition whose exact result is outside
  `INT_MIN..INT_MAX` wraps round (`int_wrap`), as it does on the usual
  two's-complement platforms; the C standard leaves the result undefined.
* `malloc` and `calloc` are assumed to succeed.
* The modules `pqueue` and `bit_buffer` are course material outside the
  sources.  The priority queue is a parameter (`Pqueue`) with its contract
  (`Pqueue.min_first`); the bit buffer is a first-in first-out sequence of
  bits.
* A result `none` of a function that returns `Option` stands for a run that
  does not return normally (a NULL pointer is dereferenced, or memory is
  written outside an array).
-/

namespace Huffman

/-! ## limits.h -/

/-- INT_MAX of limits.h. -/
def INT_MAX : Int := 2147483647

/-- INT_MIN of limits.h. -/
def INT_MIN : Int := -2147483648

/-- The `int` an arithmetic operation yields when its exact result is `n`: `n`
itself inside `INT_MIN..INT_MAX`, and `n` reduced modulo 2^32 into that range
outside. -/
def int_wrap (n : Int) : Int := (n + 2147483648) % 4294967296 - 2147483648

/-! ## frequency_table.c -/

/-- Function create_frequency_table of frequency_table.c; the array of 256
`int` counters is a function on the byte values. -/
def create_frequency_table (file : List (Fin 256)) : Fin 256 → Int :=
  let frequency := file.foldl
    (fun frequency c => Function.update frequency c (int_wrap (frequency c + 1))) (fun _ => 0)
  Function.update frequency 4 (int_wrap (frequency 4 + 1))

/-! ## Huff_Trie.h / Huff_Trie.c -/

/-- Struct Trie of Huff_Trie.h.  The code makes nodes in two ways only:
trie_create leaves both children NULL (`leaf`), trie_combine sets both
(`node`). -/
inductive Trie where
  | leaf (weight : Int) (byte : Int) : Trie
  | node (weight : Int) (byte : Int) (left_child right_child : Trie) : Trie
deriving DecidableEq, Repr

/-- Field `weight` of a node. -/
def Trie.weight : Trie → Int
  | Trie.leaf weight _ => weight
  | Trie.node weight _ _ _ => weight

/-- Field `byte` of a node. -/
def Trie.byte : Trie → Int
  | Trie.leaf _ byte => byte
  | Trie.node _ byte _ _ => byte

/-- Tells whether both children of the node are NULL. -/
def Trie.is_leaf : Trie → Bool
  | Trie.leaf _ _ => true
  | Trie.node _ _ _ _ => false

/-- Function compare of Huff_Trie.c. -/
def compare (node_a node_b : Trie) : Int :=
  (if node_a.weight > node_b.weight then 1 else 0) -
    (if node_a.weight < node_b.weight then 1 else 0)

/-- Function trie_create of Huff_Trie.c. -/
def trie_create (weight byte : Int) : Trie := Trie.leaf weight byte

/-- Function trie_combine of Huff_Trie.c; the sum of the two weights is an
`int` addition. -/
def trie_combine (left right : Trie) : Trie :=
  Trie.node (int_wrap (left.weight + right.weight)) (-1) left right

/-- The operations of pqueue.h that build_huff_trie calls, on queues of Trie
nodes.  `pqueue_inspect_first` is `none` when it returns no node. -/
structure Pqueue where
  Q : Type
  pqueue_empty : (Trie → Trie → Int) → Q
  pqueue_is_empty : Q → Bool
  pqueue_insert : Q → Trie → Q
  pqueue_inspect_first : Q → Option Trie
  pqueue_delete_first : Q → Q

/-- The contract of the priority queue created with the comparison `cmp`: some
relation `R q l` (the queue `q` holds the nodes of `l`) is kept by the
operations, emptiness is told truthfully, and on a queue that is not empty
pqueue_inspect_first yields a node that compares less than or equal to every
node held, which pqueue_delete_first removes. -/
def Pqueue.min_first (P : Pqueue) (cmp : Trie → Trie → Int) : Prop :=
  ∃ R : P.Q → List Trie → Prop,
    R (P.pqueue_empty cmp) [] ∧
    (∀ q l x, R q l → R (P.pqueue_insert q x) (x :: l)) ∧
    (∀ q l, R q l → P.pqueue_is_empty q = l.isEmpty) ∧
    (∀ q l, R q l → l ≠ [] →
      ∃ x, x ∈ l ∧ P.pqueue_inspect_first q = some x ∧ (∀ y ∈ l, cmp x y ≤ 0) ∧
        R (P.pqueue_delete_first q) (l.erase x))

/-- The for loop of build_huff_trie over the byte values still to insert. -/
def fill_queue (P : Pqueue) (frequency_table : Fin 256 → Int) : List (Fin 256) → P.Q → P.Q
  | [], pq => pq
  | i :: rest, pq =>
    fill_queue P frequency_table rest
      (P.pqueue_insert pq (trie_create (frequency_table i) ((i : Nat) : Int)))

/-- The while loop of build_huff_trie, at most `fuel` times round.  The result
is `some (some root)` when the loop returns a node, `some none` when it
returns NULL, and `none` when the fuel runs out or a node that
pqueue_inspect_first did not yield is used. -/
def build_loop (P : Pqueue) : Nat → P.Q → Option (Option Trie)
  | 0, _ => none
  | fuel + 1, pq =>
    if P.pqueue_is_empty pq then some none
    else
      match P.pqueue_inspect_first pq with
      | none => none
      | some A_node =>
        let pq1 := P.pqueue_delete_first pq
        if P.pqueue_is_empty pq1 then some (some A_node)
        else
          match P.pqueue_inspect_first pq1 with
          | none => none
          | some B_node =>
            build_loop P fuel
              (P.pqueue_insert (P.pqueue_delete_first pq1) (trie_combine A_node B_node))

/-- Function build_huff_trie of Huff_Trie.c.  The loop is given 256 rounds:
the queue starts with 256 nodes and every round but the last takes one off. -/
def build_huff_trie (P : Pqueue) (frequency_table : Fin 256 → Int) : Option (Option Trie) :=
  build_loop P 256
    (fill_queue P frequency_table (List.finRange 256) (P.pqueue_empty compare))

/-! ## huff_table.c -/

/-- The string a `char` buffer holds: the characters before the first NUL. -/
def c_string (buffer : List Char) : List Char :=
  buffer.takeWhile (fun c => c != Char.ofNat 0)

/-- Function trie_DFS of huff_table.c on a node that is not NULL: the buffer
`path` and the table afterwards.  `none` when `path[depth]` is outside the
buffer or `huffmanTable[node->byte]` outside the table. -/
def trie_DFS : Trie → List Char → Nat → List (Option (List Char)) →
    Option (List Char × List (Option (List Char)))
  | Trie.leaf _ byte, path, depth, huffmanTable =>
    if depth < path.length then
      let path1 := path.set depth (Char.ofNat 0)
      if 0 ≤ byte ∧ byte.toNat < huffmanTable.length then
        some (path1, huffmanTable.set byte.toNat (some (c_string path1)))
      else none
    else none
  | Trie.node _ _ left_child right_child, path, depth, huffmanTable =>
    if depth < path.length then
      match trie_DFS left_child (path.set depth '0') (depth + 1) huffmanTable with
      | none => none
      | some r => trie_DFS right_child (r.1.set depth '1') (depth + 1) r.2
    else none

/-- Function huff_table of huff_table.c; `root` is `none` for a NULL pointer.
The buffer `path` of 256 characters is not initialised in the code; here it
starts filled with NUL. -/
def huff_table (root : Option Trie) : Option (List (Option (List Char))) :=
  let path := List.replicate 256 (Char.ofNat 0)
  let huffmanTable := List.replicate 256 none
  match root with
  | none => some huffmanTable
  | some node => (trie_DFS node path 0 huffmanTable).map Prod.snd

/-! ## bit_buffer.h -/

/-- The bits a code string stands for: `code[i] == '1'`. -/
def code_bits (code : List Char) : List Bool := code.map (fun c => c == '1')

/-- Value of a sequence of bits read as a binary number, first bit most
significant. -/
def bits_value (bits : List Bool) : Nat :=
  bits.foldl (fun n b => 2 * n + (if b then 1 else 0)) 0

/-- Modelled from the spec: bit_buffer.c is not among the sources.  Function
bit_buffer_remove_byte takes the first eight bits off the buffer and returns
them as one byte, first bit most significant, so that the bytes written carry
the bits in the order they were inserted. -/
def bit_buffer_remove_byte (buffer : List Bool) : Fin 256 × List Bool :=
  (⟨bits_value (buffer.take 8) % 256, Nat.mod_lt _ (by decide)⟩, buffer.drop 8)

/-! ## encode_decode.c -/

/-- The loop of encode_file over the input: the bits inserted into the buffer;
`none` when the code of a byte is NULL. -/
def encode_bits (huffmanTable : List (Option (List Char))) : List (Fin 256) → Option (List Bool)
  | [] => some []
  | c :: rest =>
    match huffmanTable.getD c none with
    | none => none
    | some code =>
      match encode_bits huffmanTable rest with
      | none => none
      | some bits => some (code_bits code ++ bits)

/-- The last loop of encode_file: the bytes written while the buffer is not
empty, the last one padded with zero bits. -/
def write_bytes : Nat → List Bool → List (Fin 256)
  | 0, _ => []
  | fuel + 1, buffer =>
    if buffer.length > 0 then
      let buffer1 :=
        if buffer.length < 8 then buffer ++ List.replicate (8 - buffer.length) false
        else buffer
      let r := bit_buffer_remove_byte buffer1
      r.1 :: write_bytes fuel r.2
    else []

/-- Function encode_file of encode_decode.c: the bytes written to `output`. -/
def encode_file (input : List (Fin 256)) (huffmanTable : List (Option (List Char))) :
    Option (List (Fin 256)) :=
  match encode_bits huffmanTable input with
  | none => none
  | some bits =>
    match huffmanTable.getD 4 none with
    | none => none
    | some eotCode =>
      let buffer := bits ++ code_bits eotCode
      some (write_bytes buffer.length buffer)

/-- The bits decode_file inserts for one byte: `(c >> i) & 1` for `i` from 7
down to 0. -/
def byte_bits (c : Fin 256) : List Bool :=
  [7, 6, 5, 4, 3, 2, 1, 0].map (fun i => (c : Nat).testBit i)

/-- What `current->left_child` or `current->right_child` is for the bit. -/
def Trie.child : Trie → Bool → Option Trie
  | Trie.leaf _ _, _ => none
  | Trie.node _ _ left_child right_child, bit => some (if bit then right_child else left_child)

/-- The byte fputc writes for an `int`. -/
def fputc_byte (c : Int) : Fin 256 := ⟨c.toNat % 256, Nat.mod_lt _ (by decide)⟩

/-- The decoding loop of decode_file: `current` (NULL is `none`), the bits left
in the buffer and the bytes written so far; the result is the bytes written
when the loop ends. -/
def decode_loop (huffmanTree : Trie) (huffmanTable : List (Option (List Char))) :
    Option Trie → List Bool → List (Fin 256) → Option (List (Fin 256))
  | _, [], output => some output
  | none, _ :: _, _ => none
  | some current, bit :: rest, output =>
    if current.is_leaf then
      if 0 ≤ current.byte ∧ current.byte.toNat < huffmanTable.length then
        match huffmanTable.getD current.byte.toNat none, huffmanTable.getD 4 none with
        | some code, some eotCode =>
          if code = eotCode then some output
          else
            decode_loop huffmanTree huffmanTable (huffmanTree.child bit) rest
              (output ++ [fputc_byte current.byte])
        | _, _ => none
      else none
    else decode_loop huffmanTree huffmanTable (current.child bit) rest output

/-- Function decode_file of encode_decode.c: the bytes written to `output`. -/
def decode_file (input : List (Fin 256)) (huffmanTree : Trie)
    (huffmanTable : List (Option (List Char))) : Option (List (Fin 256)) :=
  decode_loop huffmanTree huffmanTable (some huffmanTree) (input.flatMap byte_bits) []

/-! ## A priority queue for examples -/

/-- Insertion into a list sorted by `cmp`, before the first node that compares
greater. -/
def insert_sorted (cmp : Trie → Trie → Int) (x : Trie) : List Trie → List Trie
  | [] => [x]
  | y :: ys => if cmp x y < 0 then x :: y :: ys else y :: insert_sorted cmp x ys

/-- A priority queue kept as a sorted list. -/
def list_pqueue : Pqueue where
  Q := (Trie → Trie → Int) × List Trie
  pqueue_empty cmp := (cmp, [])
  pqueue_is_empty q := q.2.isEmpty
  pqueue_insert q x := (q.1, insert_sorted q.1 x q.2)
  pqueue_inspect_first q := q.2.head?
  pqueue_delete_first q := (q.1, q.2.tail)

/-- The frequency table of the file made of the bytes 97, 98, 97. -/
def table_aba : Fin 256 → Int := create_frequency_table [97, 98, 97]

/-- A frequency table whose entries are `int`s and whose sums are not: the
bytes 10, 11, 12 and 13 occur 2^30 - 1, 2^30, 2^30 + 1 and 2^30 + 2 times, the
byte 14 five times, no other byte occurs. -/
def table_wrap : Fin 256 → Int := fun i =>
  if i = 10 then 1073741823
  else if i = 11 then 1073741824
  else if i = 12 then 1073741825
  else if i = 13 then 1073741826
  else if i = 14 then 5
  else 0

/-! ## Words of the specification on the trie -/

/-- The leaves of a trie from left to right, each with its byte and weight. -/
def leaves : Trie → List (Int × Int)
  | Trie.leaf weight byte => [(byte, weight)]
  | Trie.node _ _ left_child right_child => leaves left_child ++ leaves right_child

/-- Every internal node has byte -1 and the sum of the weights of its children
as weight. -/
def well_formed : Trie → Prop
  | Trie.leaf _ _ => True
  | Trie.node weight byte left_child right_child =>
    byte = -1 ∧ weight = left_child.weight + right_child.weight ∧
      well_formed left_child ∧ well_formed right_child

/-- Every internal node has byte -1 and the `int` sum of the weights of its
children as weight. -/
def well_formed_int : Trie → Prop
  | Trie.leaf _ _ => True
  | Trie.node weight byte left_child right_child =>
    byte = -1 ∧ weight = int_wrap (left_child.weight + right_child.weight) ∧
      well_formed_int left_child ∧ well_formed_int right_child

/-- The node trie_combine makes when the sum of the two weights is inside
`INT_MIN..INT_MAX`. -/
def combine_exact (left right : Trie) : Trie :=
  Trie.node (left.weight + right.weight) (-1) left right

/-- No sum of entries of the table is outside `INT_MIN..INT_MAX`: the negative
entries add up to `INT_MIN` at least, the positive ones to `INT_MAX` at
most. -/
def fits_int (frequency_table : Fin 256 → Int) : Prop :=
  INT_MIN ≤ ((List.finRange 256).map (fun i => min (frequency_table i) 0)).sum ∧
    ((List.finRange 256).map (fun i => max (frequency_table i) 0)).sum ≤ INT_MAX

/-- The leaves of a trie from left to right, each with its byte and the path
from the root to it after `path`: '0' for a left step, '1' for a right
step. -/
def codes : Trie → List Char → List (Int × List Char)
  | Trie.leaf _ byte, path => [(byte, path)]
  | Trie.node _ _ left_child right_child, path =>
    codes left_child (path ++ ['0']) ++ codes right_child (path ++ ['1'])

/-- The table after the codes of the list are stored in it, from first to
last, each at the index of its byte. -/
def write_codes (cs : List (Int × List Char)) (huffmanTable : List (Option (List Char))) :
    List (Option (List Char)) :=
  cs.foldl (fun table p => table.set p.1.toNat (some p.2)) huffmanTable

/-- Number of steps from the node down to its deepest leaf. -/
def height : Trie → Nat
  | Trie.leaf _ _ => 0
  | Trie.node _ _ left_child right_child => max (height left_child) (height right_child) + 1

/-- The node reached from `t` by the steps of `p` (`false` left, `true`
right), if any. -/
def sub : Trie → List Bool → Option Trie
  | t, [] => some t
  | Trie.leaf _ _, _ :: _ => none
  | Trie.node _ _ left_child right_child, b :: p =>
    sub (if b then right_child else left_child) p

/-- The nodes build_huff_trie inserts into the queue, the last inserted
first. -/
def initial_forest (frequency_table : Fin 256 → Int) : List Trie :=
  ((List.finRange 256).map
    (fun i => trie_create (frequency_table i) (((i : Fin 256) : Nat) : Int))).reverse

/-- The leaf build_huff_trie makes for the byte `i` of `table_wrap`. -/
def wrap_leaf (i : Fin 256) : Trie := trie_create (table_wrap i) (((i : Fin 256) : Nat) : Int)

/-- The trie build_huff_trie ends with for `table_wrap`, `a` being the trie
that holds the leaves of weight 0 and the leaf of the byte 14: the leaves of
the bytes 11 and 12 are combined into a node of weight 2^31 + 1 as an `int`,
which is negative. -/
def wrap_root (a : Trie) : Trie :=
  trie_combine (trie_combine (trie_combine (wrap_leaf 11) (wrap_leaf 12)) (wrap_leaf 13))
    (trie_combine a (wrap_leaf 10))

/-- The forests the loop of build_huff_trie goes through for `table_wrap`:
while nodes of weight 0 are left they are combined with each other, then the
last of them with the leaf of 14, and then the order is forced. -/
def wrap_phase (l : List Trie) : Prop :=
  (∃ zs, zs ≠ [] ∧ (∀ z ∈ zs, z.weight = 0) ∧
    l.Perm (zs ++ [wrap_leaf 14, wrap_leaf 10, wrap_leaf 11, wrap_leaf 12, wrap_leaf 13])) ∨
  ∃ a, a.weight = 5 ∧
    (l.Perm [a, wrap_leaf 10, wrap_leaf 11, wrap_leaf 12, wrap_leaf 13] ∨
      l.Perm [wrap_leaf 11, wrap_leaf 12, wrap_leaf 13, trie_combine a (wrap_leaf 10)] ∨
      l.Perm [trie_combine (wrap_leaf 11) (wrap_leaf 12), wrap_leaf 13,
        trie_combine a (wrap_leaf 10)] ∨
      l.Perm [trie_combine (trie_combine (wrap_leaf 11) (wrap_leaf 12)) (wrap_leaf 13),
        trie_combine a (wrap_leaf 10)] ∨
      l = [wrap_root a])

/-- The leaves the trie is to have: every byte value once, with its table
frequency as weight. -/
def table_leaves (frequency_table : Fin 256 → Int) : List (Int × Int) :=
  (List.finRange 256).map (fun i => ((((i : Fin 256) : Nat) : Int), frequency_table i))

/-- The leaves of the trees of the forest together are those of
`table_leaves`, and the weights of the internal nodes are the `int` sums of
the weights of their children. -/
def forest_ok (frequency_table : Fin 256 → Int) (forest : List Trie) : Prop :=
  (forest.flatMap leaves).Perm (table_leaves frequency_table) ∧
    ∀ t ∈ forest, well_formed_int t

/-- The weights of the internal nodes of the forest are the exact sums of the
weights of their children. -/
def forest_exact (forest : List Trie) : Prop := ∀ t ∈ forest, well_formed t

/-- Tells whether one of the two nodes has a negative weight. -/
def has_negative (left right : Trie) : Bool :=
  decide (left.weight < 0) || decide (right.weight < 0)

/-- The nodes of the upper part of the trie, each with its weight and its
depth, the root being at depth `depth`.  The upper part ends at the leaves
and at the nodes that have a child of negative weight, which are its lowest
nodes. -/
def nodes : Trie → Nat → List (Int × Nat)
  | Trie.leaf weight _, depth => [(weight, depth)]
  | Trie.node weight _ left_child right_child, depth =>
    if has_negative left_child right_child then [(weight, depth)]
    else (weight, depth) :: (nodes left_child (depth + 1) ++ nodes right_child (depth + 1))

/-- For every node of the upper part that has children in it, the weights of
the two children and their depth. -/
def families : Trie → Nat → List (Int × Int × Nat)
  | Trie.leaf _ _, _ => []
  | Trie.node _ _ left_child right_child, depth =>
    if has_negative left_child right_child then []
    else
      (left_child.weight, right_child.weight, depth + 1) ::
        (families left_child (depth + 1) ++ families right_child (depth + 1))

/-- For every node of the upper part that has children in it, the weights of
the two children. -/
def pairs : Trie → List (Int × Int)
  | Trie.leaf _ _ => []
  | Trie.node _ _ left_child right_child =>
    if has_negative left_child right_child then []
    else (left_child.weight, right_child.weight) :: (pairs left_child ++ pairs right_child)

/-- The weights of the leaves that are in the upper part. -/
def free_leaves : Trie → List Int
  | Trie.leaf weight _ => [weight]
  | Trie.node _ _ left_child right_child =>
    if has_negative left_child right_child then []
    else free_leaves left_child ++ free_leaves right_child

/-- The topmost nodes that have a child of negative weight. -/
def cores : Trie → List Trie
  | Trie.leaf _ _ => []
  | Trie.node weight byte left_child right_child =>
    if has_negative left_child right_child then [Trie.node weight byte left_child right_child]
    else cores left_child ++ cores right_child

/-- The topmost nodes that have a child of negative weight, each with its
depth. -/
def cores_at : Trie → Nat → List (Trie × Nat)
  | Trie.leaf _ _, _ => []
  | Trie.node weight byte left_child right_child, depth =>
    if has_negative left_child right_child then
      [(Trie.node weight byte left_child right_child, depth)]
    else cores_at left_child (depth + 1) ++ cores_at right_child (depth + 1)

/-- The leaves of the trie, each with its weight and its depth. -/
def leaf_depths : Trie → Nat → List (Int × Nat)
  | Trie.leaf weight _, depth => [(weight, depth)]
  | Trie.node _ _ left_child right_child, depth =>
    leaf_depths left_child (depth + 1) ++ leaf_depths right_child (depth + 1)

/-- A leaf that weighs more than another is not deeper. -/
def leaf_mono (t : Trie) : Prop :=
  ∀ p ∈ leaf_depths t 0, ∀ q ∈ leaf_depths t 0, p.1 < q.1 → q.2 ≤ p.2

/-- The weights of one pair of siblings are at most those of the other. -/
def apart (p q : Int × Int) : Prop :=
  (p.1 ≤ q.1 ∧ p.1 ≤ q.2 ∧ p.2 ≤ q.1 ∧ p.2 ≤ q.2) ∨
    (q.1 ≤ p.1 ∧ q.1 ≤ p.2 ∧ q.2 ≤ p.1 ∧ q.2 ≤ p.2)

/-- What the loop of build_huff_trie keeps true of its forest.  While a root
of negative weight is left, the upper parts are bare.  In the upper parts the
pairs of siblings are apart from each other and no node below a root weighs
more than a root.  At most one node has a child of negative weight and is not
below another such node; it weighs less than every leaf of the upper parts,
its leaves weigh at most as much as those, and among its leaves one that
weighs more is not deeper. -/
def forest_sorted (forest : List Trie) : Prop :=
  ((∀ t ∈ forest, 0 ≤ t.weight) ∨ forest.flatMap pairs = []) ∧
    (forest.flatMap pairs).Pairwise apart ∧
    (∀ t ∈ forest, ∀ p ∈ forest.flatMap pairs, p.1 ≤ t.weight ∧ p.2 ≤ t.weight) ∧
    (forest.flatMap cores).length ≤ 1 ∧
    ∀ c ∈ forest.flatMap cores, leaf_mono c ∧
      ∀ a ∈ forest.flatMap free_leaves, c.weight < a ∧ ∀ b ∈ leaf_depths c 0, b.1 ≤ a

end Huffman

/-!
# mmake: a minimal make

A shallow embedding of `needs_build` of
`Unix and System Programming/mmake_project/mmake.c`.  The parser module
(`parser.h`) is course material outside the sources: a rule is given by what
`rule_prereq` returns for it.
-/

namespace Mmake

/-- The loop of needs_build over the prerequisites still to be checked:
`stat` gives the `st_mtime` of a file, `none` when stat(2) fails. -/
def needs_build_loop (stat : String → Option Int) (target_mtime : Int) : List String → Bool
  | [] => false
  | prereq :: rest =>
    match stat prereq with
    | none => true
    | some prereq_mtime =>
      if prereq_mtime > target_mtime then true
      else needs_build_loop stat target_mtime rest

/-- Function needs_build of mmake.c.  `prereqs` is what rule_prereq returns for
the rule: `none` for a NULL pointer, otherwise the prerequisites of the
NULL-terminated array.  The result is `none` when the function does not return
(it calls exit). -/
def needs_build (stat : String → Option Int) (target : String)
    (prereqs : Option (List String)) : Option Bool :=
  match stat target with
  | none => some true
  | some target_mtime =>
    match prereqs with
    | none => none
    | some ps => some (needs_build_loop stat target_mtime ps)

/-- A directory with a target `prog` built at time 20 from `main.c` (time 20)
and `util.c` (time 10); `new.c` (time 30) is newer and `gone.c` does not
exist. -/
def stat_example (p : String) : Option Int :=
  if p = "prog" then some 20
  else if p = "main.c" then some 20
  else if p = "util.c" then some 10
  else if p = "new.c" then some 30
  else none

end Mmake

namespace Mdu

/-! ## Stack contract -/

theorem pop_push {α : Type} (s : Stack α) (d : Option α) : pop (push true s d) = (d, s) := by
  simp [pop, push, is_empty]

theorem pop_n_push_all {α : Type} (xs : List (Option α)) :
    ∀ s : Stack α, pop_n xs.length (push_all s xs) = (xs.reverse, s) := by
  induction xs using List.reverseRecOn with
  | nil => intro s; simp [pop_n, push_all]
  | append_singleton xs x ih =>
    intro s
    have hpush : ∀ (ys : List (Option α)) (t : Stack α),
        push_all t (ys ++ [x]) = push true (push_all t ys) x := by
      intro ys
      induction ys with
      | nil => intro t; simp [push_all]
      | cons y ys ihy => intro t; simp [push_all, ihy]
    rw [hpush, List.length_append, List.length_singleton, pop_n, pop_push]
    simp [ih]

/-- C6. LIFO: with the node allocation succeeding, a pop right after
`push(s, d)` returns `d` and leaves the stack as `s` was; pushing `x1 .. xn`
and popping `n` times returns `xn, .., x1` and leaves the stack as it was. -/
theorem stack_lifo {α : Type} (s : Stack α) (d : Option α) (xs : List (Option α)) :
    pop (push true s d) = (d, s) ∧
      pop_n xs.length (push_all s xs) = (xs.reverse, s) :=
  ⟨pop_push s d, pop_n_push_all xs s⟩

/-- C7. A pop on an empty stack returns NULL and leaves the stack unchanged and
empty; a fresh stack is empty; a stack is not empty after a successful push;
and when no node holds a NULL datum, pop returns NULL exactly when the stack is
empty. -/
theorem stack_empty_signal {α : Type} (s : Stack α) (d : Option α) :
    (is_empty s = true → pop s = (none, s) ∧ is_empty (pop s).2 = true) ∧
      is_empty (create_stack : Stack α) = true ∧
      is_empty (push true s d) = false ∧
      ((∀ x ∈ s.top, x ≠ none) → ((pop s).1 = none ↔ is_empty s = true)) := by
  refine ⟨?_, rfl, by simp [push, is_empty], ?_⟩
  · intro h
    simp [pop, h]
  · intro hs
    obtain ⟨top⟩ := s
    cases top with
    | nil => simp [pop, is_empty]
    | cons x rest =>
      have hx : x ≠ none := hs x (by simp)
      simp [pop, is_empty, hx]

theorem stack_empty_signal_witness :
    ((pop (push true (create_stack : Stack Nat) (some 7))).1 = none ↔
        is_empty (push true (create_stack : Stack Nat) (some 7)) = true) ∧
      pop (create_stack : Stack Nat) = (none, create_stack) :=
  ⟨(stack_empty_signal (push true (create_stack : Stack Nat) (some 7)) none).2.2.2
      (by decide),
    ((stack_empty_signal (create_stack : Stack Nat) none).1 rfl).1⟩

/-! ## One directory entry -/

theorem loop_head_cases (fs : Fs) (s : State) (e : Event) (w0 : Worker) (k : Int)
    (hw : s.workers[e.worker]? = some w0)
    (hk : w0 = Worker.fetch ∧ k = s.waiting_threads_count ∨
      w0 = Worker.woken ∧ k = s.waiting_threads_count - 1)
    (hm : s.stack_mut_held = false) (hf : s.work_finished = false) :
    Step fs s e (loop_head { s with waiting_threads_count := k } e.worker) := by
  unfold loop_head
  simp only [hf, Bool.false_eq_true, if_false]
  cases htop : s.thread_pool.stack.top with
  | nil =>
    have hemp : is_empty s.thread_pool.stack = true := by simp [is_empty, htop]
    simp only [hemp, if_true]
    by_cases hN : k + 1 = (s.thread_pool.num_threads : Int)
    · simp only [hN, if_true]
      have : Step fs s e _ := Step.finish s e w0 k hw hk hm hf htop hN
      simpa [hN] using this
    · simp only [hN, if_false]
      have : Step fs s e _ := Step.block s e w0 k hw hk hm hf htop hN
      simpa [hf] using this
  | cons o rest =>
    have hemp : is_empty s.thread_pool.stack = false := by simp [is_empty, htop]
    have hpop : pop s.thread_pool.stack = (o, ⟨rest⟩) := by simp [pop, hemp, htop]
    simp only [hemp, Bool.false_eq_true, if_false, hpop]
    have : Step fs s e _ := Step.take s e w0 k o rest hw hk hm hf htop
    simpa [hf] using this

theorem step_sound (fs : Fs) (s : State) (e : Event) (s1 : State)
    (h : thread_worker_step fs s e = some s1) : Step fs s e s1 := by
  unfold thread_worker_step at h
  split at h
  · exact absurd h (by simp)
  · -- fetch
    rename_i hw
    split at h
    · exact absurd h (by simp)
    · rename_i hm
      have hm : s.stack_mut_held = false := by simpa using hm
      injection h with h
      subst h
      cases hf : s.work_finished with
      | true =>
        have : Step fs s e _ := Step.stuck s e hw hm hf
        simpa [loop_head, hf] using this
      | false =>
        have := loop_head_cases fs s e Worker.fetch s.waiting_threads_count hw
          (Or.inl ⟨rfl, rfl⟩) hm hf
        simpa using this
  · exact absurd h (by simp)
  · -- woken
    rename_i hw
    split at h
    · exact absurd h (by simp)
    · rename_i hm
      have hm : s.stack_mut_held = false := by simpa using hm
      injection h with h
      subst h
      cases hf : s.work_finished with
      | true =>
        have : Step fs s e _ := Step.leave s e hw hm hf
        simpa [wake_up, hf] using this
      | false =>
        have := loop_head_cases fs s e Worker.woken (s.waiting_threads_count - 1) hw
          (Or.inr ⟨rfl, rfl⟩) hm hf
        simpa [wake_up, hf] using this
  · exact absurd h (by simp)
  · rename_i t hw
    injection h with h
    subst h
    exact Step.begin s e t hw
  · rename_i t n hw
    injection h with h
    subst h
    exact Step.loop_end s e t n hw
  · rename_i t d rest n hw
    split at h
    · rename_i hd
      injection h with h
      subst h
      exact Step.loop_dot s e t d rest n hw hd
    · rename_i hd
      have hd : is_dot d = false := by simpa using hd
      cases hl : fs.lstat (concatenate_dir_path t.path_name d) with
      | none =>
        simp [process_path_entry, hl, EXIT_FAILURE] at h
        subst h
        exact Step.loop_fail s e t d rest n hw hd hl
      | some st =>
        cases hdir : st.is_dir with
        | false =>
          simp [process_path_entry, hl, hdir, EXIT_SUCCESS] at h
          subst h
          exact Step.loop_file s e t d rest n st hw hd hl hdir
        | true =>
          simp [process_path_entry, hl, hdir, EXIT_SUCCESS] at h
          obtain ⟨hm, h⟩ := h
          cases hsig : pthread_cond_signal s.workers e.wake with
          | none => simp [hsig] at h
          | some ws =>
            simp [hsig, push, create_path] at h
            subst h
            exact Step.loop_dir s e t d rest n st ws hw hd hl hdir hm hsig
  · rename_i t n code hw
    injection h with h
    subst h
    exact Step.publish s e t n code hw
  · rename_i t status hw
    split at h
    · rename_i hc
      injection h with h
      subst h
      simp at hc
      exact Step.report_first s e t status hw hc.1 hc.2
    · rename_i hc
      injection h with h
      subst h
      refine Step.report_other s e t status hw ?_
      simp at hc
      by_cases h0 : status = 0
      · exact Or.inl h0
      · exact Or.inr (hc h0)
  · exact absurd h (by simp)

/-! ## Sums over a list with one element replaced -/

theorem sum_map_set_int {α : Type} (f : α → Int) :
    ∀ (ws : List α) (i : Nat) (w0 w : α), ws[i]? = some w0 →
      ((ws.set i w).map f).sum = (ws.map f).sum - f w0 + f w
  | [], i, w0, w, h => by simp at h
  | x :: xs, 0, w0, w, h => by
    simp at h
    subst h
    simp only [List.set_cons_zero, List.map_cons, List.sum_cons]
    ring
  | x :: xs, i + 1, w0, w, h => by
    simp at h
    simp only [List.set_cons_succ, List.map_cons, List.sum_cons,
      sum_map_set_int f xs i w0 w h]
    ring

theorem sum_map_set_nat {α : Type} (g : α → Nat) :
    ∀ (ws : List α) (i : Nat) (w0 w : α), ws[i]? = some w0 →
      ((ws.set i w).map g).sum + g w0 = (ws.map g).sum + g w
  | [], i, w0, w, h => by simp at h
  | x :: xs, 0, w0, w, h => by
    simp at h
    subst h
    simp only [List.set_cons_zero, List.map_cons, List.sum_cons]
    omega
  | x :: xs, i + 1, w0, w, h => by
    simp at h
    have := sum_map_set_nat g xs i w0 w h
    simp only [List.set_cons_succ, List.map_cons, List.sum_cons]
    omega

/-! ## Condition variable -/

theorem waiting_mark_bounds (w : Worker) : 0 ≤ waiting_mark w ∧ waiting_mark w ≤ 1 := by
  cases w <;> simp [waiting_mark]

theorem waiters_le_length : ∀ ws : List Worker, 0 ≤ waiters ws ∧ waiters ws ≤ ws.length
  | [] => by simp [waiters]
  | w :: ws => by
    have h1 := waiting_mark_bounds w
    have h2 := waiters_le_length ws
    simp only [waiters, List.map_cons, List.sum_cons, List.length_cons] at *
    push_cast
    omega

theorem waiters_full : ∀ ws : List Worker, waiters ws = ws.length →
    ∀ w ∈ ws, w = Worker.blocked ∨ w = Worker.woken
  | [], _ => by simp
  | x :: xs, h => by
    have h1 := waiting_mark_bounds x
    have h2 := waiters_le_length xs
    simp only [waiters, List.map_cons, List.sum_cons, List.length_cons] at h h2
    push_cast at h
    have hx : waiting_mark x = 1 := by omega
    have hxs : waiters xs = xs.length := by simp only [waiters]; omega
    intro w hw
    rcases List.mem_cons.1 hw with rfl | hw
    · cases w <;> simp [waiting_mark] at hx ⊢
    · exact waiters_full xs hxs w hw

theorem waiters_set (ws : List Worker) (i : Nat) (w0 w : Worker) (h : ws[i]? = some w0) :
    waiters (ws.set i w) = waiters ws - waiting_mark w0 + waiting_mark w := by
  simp only [waiters]
  exact sum_map_set_int waiting_mark ws i w0 w h

theorem broadcast_all_woken (ws : List Worker)
    (h : ∀ w ∈ ws, w = Worker.blocked ∨ w = Worker.woken) :
    ∀ w ∈ pthread_cond_broadcast ws, w = Worker.woken := by
  intro w hw
  simp only [pthread_cond_broadcast, List.mem_map] at hw
  obtain ⟨x, hx, rfl⟩ := hw
  rcases h x hx with rfl | rfl <;> simp

theorem broadcast_set (ws : List Worker) (i : Nat) (w : Worker) :
    (pthread_cond_broadcast ws).set i Worker.done =
      (pthread_cond_broadcast (ws.set i w)).set i Worker.done := by
  simp [pthread_cond_broadcast, List.map_set, List.set_set]

theorem signal_cases (ws ws2 : List Worker) (k : Nat)
    (h : pthread_cond_signal ws k = some ws2) :
    ws2 = ws ∧ Worker.blocked ∉ ws ∨
      ws[k]? = some Worker.blocked ∧ ws2 = ws.set k Worker.woken := by
  unfold pthread_cond_signal at h
  split at h
  · rename_i hk
    injection h with h
    exact Or.inr ⟨hk, h.symm⟩
  · split at h
    · exact absurd h (by simp)
    · rename_i hb
      injection h with h
      exact Or.inl ⟨h.symm, hb⟩

theorem signal_waiters (ws ws2 : List Worker) (k : Nat)
    (h : pthread_cond_signal ws k = some ws2) : waiters ws2 = waiters ws := by
  rcases signal_cases ws ws2 k h with ⟨rfl, _⟩ | ⟨hk, rfl⟩
  · rfl
  · rw [waiters_set ws k Worker.blocked Worker.woken hk]
    simp [waiting_mark]

theorem signal_length (ws ws2 : List Worker) (k : Nat)
    (h : pthread_cond_signal ws k = some ws2) : ws2.length = ws.length := by
  rcases signal_cases ws ws2 k h with ⟨rfl, _⟩ | ⟨_, rfl⟩ <;> simp

theorem signal_mem (ws ws2 : List Worker) (k : Nat)
    (h : pthread_cond_signal ws k = some ws2) :
    ∀ w ∈ ws2, w ∈ ws ∨ w = Worker.woken := by
  rcases signal_cases ws ws2 k h with ⟨rfl, _⟩ | ⟨_, rfl⟩
  · intro w hw; exact Or.inl hw
  · intro w hw; exact List.mem_or_eq_of_mem_set hw

theorem signal_getElem (ws ws2 : List Worker) (k i : Nat) (w : Worker)
    (h : pthread_cond_signal ws k = some ws2) (hw : ws[i]? = some w)
    (hb : w ≠ Worker.blocked) : ws2[i]? = some w := by
  rcases signal_cases ws ws2 k h with ⟨rfl, _⟩ | ⟨hk, rfl⟩
  · exact hw
  · by_cases hik : k = i
    · subst hik
      rw [hk] at hw
      injection hw with hw
      exact absurd hw.symm hb
    · rw [List.getElem?_set_ne hik]
      exact hw

/-! ## The protocol invariant -/

theorem mem_of_getElem {α : Type} (ws : List α) (i : Nat) (w : α) (h : ws[i]? = some w) :
    w ∈ ws :=
  List.mem_iff_getElem?.2 ⟨i, h⟩

/-- A worker that is neither blocked nor woken nor done moves to such a state:
the invariant is kept whatever happens to the rest of the state, as long as
the protocol variables are untouched. -/
theorem protocol_inv_local (s : State) (i : Nat) (w0 w : Worker) (pool : ThreadPool)
    (err : Bool)
    (hw : s.workers[i]? = some w0) (h0 : waiting_mark w0 = 0) (h0d : w0 ≠ Worker.done)
    (h1 : waiting_mark w = 0) (h1d : w ≠ Worker.done)
    (hn : pool.num_threads = s.thread_pool.num_threads)
    (hinv : protocol_inv s) :
    protocol_inv
      { s with thread_pool := pool, error_occurred := err, workers := s.workers.set i w } := by
  obtain ⟨hm, hlen, hnf, hfin⟩ := hinv
  have hmem := mem_of_getElem s.workers i w0 hw
  refine ⟨hm, by simp [hlen, hn], ?_, ?_⟩
  · intro hf
    obtain ⟨hc, hnd⟩ := hnf hf
    refine ⟨?_, ?_⟩
    · simp only [waiters_set s.workers i w0 w hw, h0, h1]
      simpa using hc
    · intro x hx
      rcases List.mem_or_eq_of_mem_set hx with hx | rfl
      · exact hnd x hx
      · exact h1d
  · intro hf
    exfalso
    rcases (hfin hf).2 w0 hmem with rfl | rfl
    · simp [waiting_mark] at h0
    · exact h0d rfl

theorem protocol_step (fs : Fs) (s : State) (e : Event) (s1 : State)
    (h : Step fs s e s1) (hinv : protocol_inv s) : protocol_inv s1 := by
  cases h with
  | stuck hw hm hf =>
    exfalso
    rcases (hinv.2.2.2 hf).2 _ (mem_of_getElem _ _ _ hw) with h | h <;> cases h
  | leave hw hm hf =>
    obtain ⟨hm0, hlen, _, hfin⟩ := hinv
    refine ⟨hm0, by simpa using hlen, fun h => ?_, fun _ => ⟨(hfin hf).1, ?_⟩⟩
    · simp [hf] at h
    · intro x hx
      rcases List.mem_or_eq_of_mem_set hx with hx | rfl
      · exact (hfin hf).2 x hx
      · exact Or.inr rfl
  | finish w0 k hw hk hm hf htop hN =>
    obtain ⟨hm0, hlen, hnf, _⟩ := hinv
    obtain ⟨hc, _⟩ := hnf hf
    refine ⟨hm0, by simpa [pthread_cond_broadcast] using hlen, fun h => ?_, fun _ => ⟨htop, ?_⟩⟩
    · simp at h
    · have hfull : waiters (s.workers.set e.worker Worker.blocked) =
          ((s.workers.set e.worker Worker.blocked).length : Int) := by
        rw [waiters_set s.workers e.worker w0 Worker.blocked hw, List.length_set, hlen, ← hN]
        rcases hk with ⟨rfl, rfl⟩ | ⟨rfl, rfl⟩ <;> simp [waiting_mark, hc]
      have hall := broadcast_all_woken _ (waiters_full _ hfull)
      intro x hx
      simp only at hx
      rw [broadcast_set s.workers e.worker Worker.blocked] at hx
      rcases List.mem_or_eq_of_mem_set hx with hx | rfl
      · exact Or.inl (hall x hx)
      · exact Or.inr rfl
  | block w0 k hw hk hm hf htop hN =>
    obtain ⟨hm0, hlen, hnf, _⟩ := hinv
    obtain ⟨hc, hnd⟩ := hnf hf
    refine ⟨hm0, by simpa using hlen, fun _ => ⟨?_, ?_⟩, fun h => ?_⟩
    · simp only [waiters_set s.workers e.worker w0 Worker.blocked hw]
      rcases hk with ⟨rfl, rfl⟩ | ⟨rfl, rfl⟩ <;> simp [waiting_mark, hc]
    · intro x hx
      rcases List.mem_or_eq_of_mem_set hx with hx | rfl
      · exact hnd x hx
      · simp
    · simp [hf] at h
  | take w0 k o rest hw hk hm hf htop =>
    obtain ⟨hm0, hlen, hnf, _⟩ := hinv
    obtain ⟨hc, hnd⟩ := hnf hf
    refine ⟨hm0, by simpa using hlen, fun _ => ⟨?_, ?_⟩, fun h => ?_⟩
    · simp only [waiters_set s.workers e.worker w0 (Worker.start o) hw]
      rcases hk with ⟨rfl, rfl⟩ | ⟨rfl, rfl⟩ <;> simp [waiting_mark, hc]
    · intro x hx
      rcases List.mem_or_eq_of_mem_set hx with hx | rfl
      · exact hnd x hx
      · simp
    · simp [hf] at h
  | begin t hw =>
    have := protocol_inv_local s e.worker _ (begin_task fs t) s.thread_pool s.error_occurred
      hw rfl (by simp) (by unfold begin_task; split <;> [rfl; (split <;> [(split <;> rfl); rfl])])
      (by unfold begin_task; split <;> [simp; (split <;> [(split <;> simp); simp])]) rfl hinv
    simpa using this
  | loop_end t n hw =>
    have := protocol_inv_local s e.worker _ (Worker.publish t n EXIT_SUCCESS) s.thread_pool
      s.error_occurred hw rfl (by simp) rfl (by simp) rfl hinv
    simpa using this
  | loop_dot t d rest n hw hd =>
    have := protocol_inv_local s e.worker _ (Worker.loop t rest n) s.thread_pool
      s.error_occurred hw rfl (by simp) rfl (by simp) rfl hinv
    simpa using this
  | loop_fail t d rest n hw hd hl =>
    have := protocol_inv_local s e.worker _ (Worker.publish t n EXIT_FAILURE) s.thread_pool
      s.error_occurred hw rfl (by simp) rfl (by simp) rfl hinv
    simpa using this
  | loop_file t d rest n st hw hd hl hdir =>
    have := protocol_inv_local s e.worker _ (Worker.loop t rest (n + st.st_blocks))
      s.thread_pool s.error_occurred hw rfl (by simp) rfl (by simp) rfl hinv
    simpa using this
  | loop_dir t d rest n st ws hw hd hl hdir hm hsig =>
    obtain ⟨hm0, hlen, hnf, hfin⟩ := hinv
    have hmem := mem_of_getElem s.workers e.worker _ hw
    have hw2 := signal_getElem s.workers ws e.wake e.worker _ hsig hw (by simp)
    refine ⟨hm0, by simpa [signal_length _ _ _ hsig] using hlen, fun hf => ?_, fun hf => ?_⟩
    · obtain ⟨hc, hnd⟩ := hnf hf
      refine ⟨?_, ?_⟩
      · simp only [waiters_set ws e.worker _ (Worker.loop t rest n) hw2,
          signal_waiters _ _ _ hsig]
        simpa [waiting_mark] using hc
      · intro x hx
        rcases List.mem_or_eq_of_mem_set hx with hx | rfl
        · rcases signal_mem _ _ _ hsig x hx with hx | rfl
          · exact hnd x hx
          · simp
        · simp
    · exfalso
      rcases (hfin hf).2 _ hmem with h | h <;> cases h
  | publish t n code hw =>
    have := protocol_inv_local s e.worker _ (Worker.report t code)
      (update_directory_size s.thread_pool t n) s.error_occurred hw rfl (by simp) rfl
      (by simp) rfl hinv
    simpa using this
  | report_first t status hw hst herr =>
    have := protocol_inv_local s e.worker _ Worker.fetch
      { s.thread_pool with exit_code := EXIT_FAILURE } true hw rfl (by simp) rfl
      (by simp) rfl hinv
    simpa using this
  | report_other t status hw hc =>
    have := protocol_inv_local s e.worker _ Worker.fetch s.thread_pool s.error_occurred
      hw rfl (by simp) rfl (by simp) rfl hinv
    simpa using this

/-! ## Runs -/

theorem run_append (fs : Fs) : ∀ (es1 es2 : List Event) (s : State),
    run fs s (es1 ++ es2) = (run fs s es1).bind (fun s1 => run fs s1 es2)
  | [], es2, s => by simp [run]
  | e :: es1, es2, s => by
    simp only [List.cons_append, run]
    cases thread_worker_step fs s e with
    | none => simp
    | some s1 => simpa using run_append fs es1 es2 s1

theorem run_invariant (fs : Fs) (P : State → Prop)
    (hstep : ∀ s e s1, P s → Step fs s e s1 → P s1) :
    ∀ (es : List Event) (s s1 : State), P s → run fs s es = some s1 → P s1
  | [], s, s1, hP, h => by
    simp only [run, Option.some.injEq] at h
    exact h ▸ hP
  | e :: es, s, s1, hP, h => by
    simp only [run] at h
    cases hs : thread_worker_step fs s e with
    | none => simp [hs] at h
    | some s2 =>
      simp only [hs] at h
      exact run_invariant fs P hstep es s2 s1 (hstep s e s2 hP (step_sound fs s e s2 hs)) h

/-! ## The initial state -/

theorem initialize_paths_loop_spec (fs : Fs) :
    ∀ (args : List String) (i : Nat) (pool : ThreadPool),
      initialize_paths_loop fs args i pool =
        { pool with
          stack := ⟨(seeds fs args i).reverse ++ pool.stack.top⟩
          dir_details :=
            { pool.dir_details with
              path_identity := labelled fs args i pool.dir_details.path_identity } }
  | [], i, pool => by simp [initialize_paths_loop, seeds, labelled]
  | arg :: args, i, pool => by
    cases h : fs.stat_ok arg with
    | false =>
      simp [initialize_paths_loop, seeds, labelled, h, initialize_paths_loop_spec fs args (i + 1)]
    | true =>
      simp [initialize_paths_loop, seeds, labelled, h, initialize_paths_loop_spec fs args (i + 1),
        give_path_identity, push, create_path]

theorem initial_spec (fs : Fs) (argv : List String) (n : Nat) (s0 : State)
    (h : initial fs argv n = some s0) :
    s0 =
      { thread_pool :=
          { stack := ⟨(seeds fs argv 0).reverse⟩
            path_num := argv.length
            num_threads := n
            exit_code := EXIT_SUCCESS
            dir_details :=
              { path_identity := labelled fs argv 0 (List.replicate argv.length none)
                dir_size := List.replicate argv.length 0 } }
        waiting_threads_count := 0
        work_finished := false
        error_occurred := false
        stack_mut_held := false
        workers := List.replicate n Worker.fetch } := by
  unfold initial initialize_paths at h
  simp only [initialize_paths_loop_spec] at h
  split at h
  · exact absurd h (by simp)
  · rename_i pool hp
    split at hp
    · exact absurd hp (by simp)
    · injection hp with hp
      injection h with h
      subst h
      subst hp
      simp [init_ThreadPool, create_stack]

theorem waiters_replicate_fetch (n : Nat) : waiters (List.replicate n Worker.fetch) = 0 := by
  induction n with
  | zero => simp [waiters]
  | succ n ih =>
    simp only [waiters, List.replicate_succ, List.map_cons, List.sum_cons] at ih ⊢
    simp [waiting_mark, ih]

theorem protocol_initial (fs : Fs) (argv : List String) (n : Nat) (s0 : State)
    (h : initial fs argv n = some s0) : protocol_inv s0 := by
  rw [initial_spec fs argv n s0 h]
  refine ⟨rfl, by simp, fun _ => ⟨?_, ?_⟩, fun hf => ?_⟩
  · simp [waiters_replicate_fetch]
  · intro w hw
    rw [List.eq_of_mem_replicate hw]
    simp
  · simp at hf

theorem protocol_reachable (fs : Fs) (argv : List String) (n : Nat) (s0 : State)
    (h : initial fs argv n = some s0) (es : List Event) (s : State)
    (hrun : run fs s0 es = some s) : protocol_inv s :=
  run_invariant fs protocol_inv (fun s e s1 hP hs => protocol_step fs s e s1 hs hP) es s0 s
    (protocol_initial fs argv n s0 h) hrun

theorem num_threads_step (fs : Fs) (s : State) (e : Event) (s1 : State)
    (h : Step fs s e s1) :
    s1.thread_pool.num_threads = s.thread_pool.num_threads ∧
      s1.thread_pool.path_num = s.thread_pool.path_num ∧
      s1.thread_pool.dir_details.path_identity = s.thread_pool.dir_details.path_identity := by
  cases h <;> simp [update_directory_size]

/-! ## The termination flag -/

theorem finished_step (fs : Fs) (s : State) (e : Event) (s1 : State)
    (h : Step fs s e s1) (hinv : protocol_inv s) (hf : s.work_finished = true) :
    s1 =
      { s with
        waiting_threads_count := s.waiting_threads_count - 1
        workers := s.workers.set e.worker Worker.done } := by
  have hall := (hinv.2.2.2 hf).2
  have hcontra : ∀ w0 : Worker, s.workers[e.worker]? = some w0 → w0 ≠ Worker.woken →
      w0 ≠ Worker.done → False := by
    intro w0 hw h1 h2
    rcases hall w0 (mem_of_getElem _ _ _ hw) with h | h
    · exact h1 h
    · exact h2 h
  cases h with
  | leave hw hm hf2 => rfl
  | stuck hw hm hf2 => exact (hcontra _ hw (by simp) (by simp)).elim
  | finish w0 k hw hk hm hf2 htop hN => simp [hf] at hf2
  | block w0 k hw hk hm hf2 htop hN => simp [hf] at hf2
  | take w0 k o rest hw hk hm hf2 htop => simp [hf] at hf2
  | begin t hw => exact (hcontra _ hw (by simp) (by simp)).elim
  | loop_end t n hw => exact (hcontra _ hw (by simp) (by simp)).elim
  | loop_dot t d rest n hw hd => exact (hcontra _ hw (by simp) (by simp)).elim
  | loop_fail t d rest n hw hd hl => exact (hcontra _ hw (by simp) (by simp)).elim
  | loop_file t d rest n st hw hd hl hdir => exact (hcontra _ hw (by simp) (by simp)).elim
  | loop_dir t d rest n st ws hw hd hl hdir hm hsig =>
    exact (hcontra _ hw (by simp) (by simp)).elim
  | publish t n code hw => exact (hcontra _ hw (by simp) (by simp)).elim
  | report_first t status hw hst herr => exact (hcontra _ hw (by simp) (by simp)).elim
  | report_other t status hw hc => exact (hcontra _ hw (by simp) (by simp)).elim

theorem finishing_step (fs : Fs) (s : State) (e : Event) (s1 : State)
    (h : Step fs s e s1) (hinv : protocol_inv s) (hf : s.work_finished = false)
    (hf1 : s1.work_finished = true) :
    s1.waiting_threads_count = (s.thread_pool.num_threads : Int) ∧
      s.thread_pool.stack.top = [] ∧ s1.thread_pool.stack.top = [] ∧
      (∀ w ∈ s.workers, w.holds_task = false) ∧
      (∀ w ∈ s1.workers, w.holds_task = false) := by
  have hinv1 := protocol_step fs s e s1 h hinv
  have hpost : ∀ w ∈ s1.workers, w.holds_task = false := by
    intro w hw
    rcases (hinv1.2.2.2 hf1).2 w hw with rfl | rfl <;> rfl
  cases h with
  | finish w0 k hw hk hm hf2 htop hN =>
    refine ⟨hN, htop, htop, ?_, hpost⟩
    obtain ⟨_, hlen, hnf, _⟩ := hinv
    obtain ⟨hc, _⟩ := hnf hf
    have hfull : waiters (s.workers.set e.worker Worker.blocked) =
        ((s.workers.set e.worker Worker.blocked).length : Int) := by
      rw [waiters_set s.workers e.worker w0 Worker.blocked hw, List.length_set, hlen, ← hN]
      rcases hk with ⟨rfl, rfl⟩ | ⟨rfl, rfl⟩ <;> simp [waiting_mark, hc]
    have hall := waiters_full _ hfull
    intro w hw1
    obtain ⟨j, hj⟩ := List.mem_iff_getElem?.1 hw1
    by_cases hij : e.worker = j
    · subst hij
      rw [hw] at hj
      injection hj with hj
      subst hj
      rcases hk with ⟨rfl, _⟩ | ⟨rfl, _⟩ <;> rfl
    · have : (s.workers.set e.worker Worker.blocked)[j]? = some w := by
        rw [List.getElem?_set_ne hij]
        exact hj
      rcases hall w (mem_of_getElem _ _ _ this) with rfl | rfl <;> rfl
  | stuck hw hm hf2 => simp [hf] at hf2
  | leave hw hm hf2 => simp [hf] at hf2
  | block w0 k hw hk hm hf2 htop hN => simp [hf] at hf1
  | take w0 k o rest hw hk hm hf2 htop => simp [hf] at hf1
  | begin t hw => simp [hf] at hf1
  | loop_end t n hw => simp [hf] at hf1
  | loop_dot t d rest n hw hd => simp [hf] at hf1
  | loop_fail t d rest n hw hd hl => simp [hf] at hf1
  | loop_file t d rest n st hw hd hl hdir => simp [hf] at hf1
  | loop_dir t d rest n st ws hw hd hl hdir hm hsig => simp [hf] at hf1
  | publish t n code hw => simp [hf] at hf1
  | report_first t status hw hst herr => simp [hf] at hf1
  | report_other t status hw hc => simp [hf] at hf1

theorem finished_run (fs : Fs) : ∀ (es : List Event) (s s1 : State),
    protocol_inv s → s.work_finished = true → run fs s es = some s1 →
      s1.work_finished = true
  | [], s, s1, _, hf, h => by
    simp only [run, Option.some.injEq] at h
    exact h ▸ hf
  | e :: es, s, s1, hinv, hf, h => by
    simp only [run] at h
    cases hs : thread_worker_step fs s e with
    | none => simp [hs] at h
    | some s2 =>
      simp only [hs] at h
      have hst := step_sound fs s e s2 hs
      have h2 := finished_step fs s e s2 hst hinv hf
      refine finished_run fs es s2 s1 (protocol_step fs s e s2 hst hinv) ?_ h
      rw [h2]
      exact hf

/-- C4. In every state reachable from the initial state, whatever the number
of workers and the schedule: a transition that sets `work_finished` leaves
`waiting_threads_count` equal to `num_threads`, and is taken with the stack
empty and no worker holding a popped task (before and after); once the flag
is set, the only transitions are woken workers leaving, so the flag is not set
again, and it stays set along every continuation of the run. -/
theorem termination_flag_contract (fs : Fs) (argv : List String) (n : Nat) (s0 : State)
    (h0 : initial fs argv n = some s0) (es : List Event) (s : State)
    (hrun : run fs s0 es = some s) (e : Event) (s1 : State)
    (hstep : thread_worker_step fs s e = some s1) :
    (s.work_finished = false → s1.work_finished = true →
        s1.waiting_threads_count = (s.thread_pool.num_threads : Int) ∧
          s.thread_pool.stack.top = [] ∧ s1.thread_pool.stack.top = [] ∧
          (∀ w ∈ s.workers, w.holds_task = false) ∧
          (∀ w ∈ s1.workers, w.holds_task = false)) ∧
      (s.work_finished = true →
        s1 =
          { s with
            waiting_threads_count := s.waiting_threads_count - 1
            workers := s.workers.set e.worker Worker.done }) ∧
      (s.work_finished = true →
        ∀ (es2 : List Event) (s2 : State), run fs s es2 = some s2 →
          s2.work_finished = true) := by
  have hinv := protocol_reachable fs argv n s0 h0 es s hrun
  have hst := step_sound fs s e s1 hstep
  exact ⟨finishing_step fs s e s1 hst hinv, finished_step fs s e s1 hst hinv,
    fun hf es2 s2 h2 => finished_run fs es2 s s2 hinv hf h2⟩

theorem termination_flag_contract_witness :
    (state_at [some "f"] 2 [] [8] 2 true [Worker.done, Worker.woken]).waiting_threads_count = 2 ∧
      (state_at [some "f"] 2 [] [8] 1 false [Worker.fetch, Worker.blocked]).thread_pool.stack.top = [] ∧
      (state_at [some "f"] 2 [] [8] 2 true [Worker.done, Worker.woken]).thread_pool.stack.top = [] ∧
      (∀ w ∈ (state_at [some "f"] 2 [] [8] 1 false [Worker.fetch, Worker.blocked]).workers,
        w.holds_task = false) ∧
      (∀ w ∈ (state_at [some "f"] 2 [] [8] 2 true [Worker.done, Worker.woken]).workers,
        w.holds_task = false) :=
  (termination_flag_contract fs_example ["f"] 2
    (state_at [some "f"] 2 [some ⟨"f", 0⟩] [0] 0 false [Worker.fetch, Worker.fetch]) (by decide)
    schedule_f (state_at [some "f"] 2 [] [8] 1 false [Worker.fetch, Worker.blocked]) (by decide)
    ⟨0, 0⟩ (state_at [some "f"] 2 [] [8] 2 true [Worker.done, Worker.woken]) (by decide)).1
    (by decide) (by decide)

/-! ## The ledger: nothing owed is lost -/

theorem broadcast_getElem (ws : List Worker) (i : Nat) (w0 : Worker)
    (h : ws[i]? = some w0) (hb : w0 ≠ Worker.blocked) :
    (pthread_cond_broadcast ws)[i]? = some w0 := by
  simp [pthread_cond_broadcast, h, hb]

theorem broadcast_mem (ws : List Worker) :
    ∀ w ∈ pthread_cond_broadcast ws, w ∈ ws ∨ w = Worker.woken := by
  intro w hw
  simp only [pthread_cond_broadcast, List.mem_map] at hw
  obtain ⟨x, hx, rfl⟩ := hw
  by_cases hb : x = Worker.blocked
  · simp [hb]
  · simp [hb, hx]

theorem broadcast_sum_int (f : Worker → Int) (hf : f Worker.blocked = f Worker.woken)
    (ws : List Worker) : ((pthread_cond_broadcast ws).map f).sum = (ws.map f).sum := by
  induction ws with
  | nil => simp [pthread_cond_broadcast]
  | cons x xs ih =>
    simp only [pthread_cond_broadcast, List.map_cons, List.sum_cons] at ih ⊢
    rw [ih]
    by_cases hb : x = Worker.blocked
    · simp [hb, hf]
    · simp [hb]

theorem signal_sum_int (f : Worker → Int) (hf : f Worker.blocked = f Worker.woken)
    (ws ws2 : List Worker) (k : Nat) (h : pthread_cond_signal ws k = some ws2) :
    (ws2.map f).sum = (ws.map f).sum := by
  rcases signal_cases ws ws2 k h with ⟨rfl, _⟩ | ⟨hk, rfl⟩
  · rfl
  · rw [sum_map_set_int f ws k Worker.blocked Worker.woken hk, hf]
    ring

theorem entries_subdirs_subset (fs : Fs) (base d : String) (rest : List String) :
    ∀ c ∈ entries_subdirs fs base rest, is_dot d = true ∨
      (∃ st, fs.lstat (concatenate_dir_path base d) = some st) →
      c ∈ entries_subdirs fs base (d :: rest) := by
  intro c hc h
  rcases h with h | ⟨st, h⟩
  · simp [entries_subdirs, h, hc]
  · cases hd : is_dot d
    · cases hdir : st.is_dir <;> simp [entries_subdirs, hd, h, hdir, hc]
    · simp [entries_subdirs, hd, hc]

theorem owed_begin_task (fs : Fs) (L : Ledger fs) (r : Nat) (t : Path)
    (hg : L.good t.path_name) :
    owed_worker fs L.total r (begin_task fs t) = owed_task L.total r (some t) := by
  have heq := L.total_eq t.path_name hg
  unfold local_size subdirs at heq
  unfold begin_task
  by_cases hr : t.path_id = r
  · cases hl : fs.lstat t.path_name with
    | none => simp [hl] at heq; simp [owed_worker, owed_task, hr, heq]
    | some st =>
      cases hdir : st.is_dir with
      | false => simp [hl, hdir] at heq; simp [owed_worker, owed_task, hr, heq, hdir]
      | true =>
        cases hrd : fs.readdir t.path_name with
        | none => simp [hl, hdir, hrd] at heq; simp [owed_worker, owed_task, hr, heq, hdir]
        | some entries =>
          simp [hl, hdir, hrd] at heq
          simp [owed_worker, owed_task, hr, heq, hdir]
  · cases hl : fs.lstat t.path_name with
    | none => simp [owed_worker, owed_task, hr]
    | some st =>
      cases hdir : st.is_dir with
      | false => simp [owed_worker, owed_task, hr, hdir]
      | true =>
        cases hrd : fs.readdir t.path_name <;> simp [owed_worker, owed_task, hr, hdir]

theorem good_begin_task (fs : Fs) (L : Ledger fs) (n : Nat) (t : Path)
    (hg : good_task L.good n (some t)) : good_worker fs L.good n (begin_task fs t) := by
  obtain ⟨hg, hid⟩ := hg
  have hcl := L.closed t.path_name hg
  unfold subdirs at hcl
  unfold begin_task
  cases hl : fs.lstat t.path_name with
  | none => simp [good_worker]
  | some st =>
    cases hdir : st.is_dir with
    | false => simp [good_worker, hid, hdir]
    | true =>
      cases hrd : fs.readdir t.path_name with
      | none => simp [good_worker, hid, hdir]
      | some entries =>
        simp only [hl, hdir, hrd, if_true] at hcl
        simp only [hdir, if_true, good_worker]
        exact ⟨hid, hcl⟩

theorem good_state_set (fs : Fs) (good : String → Prop) (s : State) (i : Nat) (w : Worker)
    (pool : ThreadPool) (wc : Int) (fin err held : Bool)
    (hlen : pool.dir_details.dir_size.length = s.thread_pool.dir_details.dir_size.length)
    (hnum : pool.path_num = s.thread_pool.path_num)
    (hstack : ∀ o ∈ pool.stack.top, good_task good s.thread_pool.path_num o)
    (hw : good_worker fs good s.thread_pool.path_num w)
    (hs : good_state fs good s) :
    good_state fs good
      { thread_pool := pool, waiting_threads_count := wc, work_finished := fin,
        error_occurred := err, stack_mut_held := held, workers := s.workers.set i w } := by
  obtain ⟨h1, _, h3⟩ := hs
  refine ⟨by simp [hlen, hnum, h1], by simpa [hnum] using hstack, ?_⟩
  intro x hx
  simp only [hnum]
  rcases List.mem_or_eq_of_mem_set hx with hx | rfl
  · exact h3 x hx
  · exact hw

theorem getD_set_add (ds : List Int) (i r : Nat) (n : Int) (hi : i < ds.length) :
    (ds.set i (ds.getD i 0 + n)).getD r 0 = ds.getD r 0 + (if i = r then n else 0) := by
  by_cases h : i = r
  · subst h
    simp [List.getD_eq_getElem?_getD, List.getElem?_set, hi]
  · simp [List.getD_eq_getElem?_getD, List.getElem?_set_ne h, h]

theorem owed_waiting (fs : Fs) (total : String → Int) (r : Nat) :
    owed_worker fs total r Worker.blocked = owed_worker fs total r Worker.woken := rfl

theorem ledger_step (fs : Fs) (L : Ledger fs) (s : State) (e : Event) (s1 : State)
    (h : Step fs s e s1) (hg : good_state fs L.good s) :
    good_state fs L.good s1 ∧
      ∀ r, balance fs L.total r s1 = balance fs L.total r s := by
  have hgs := hg
  obtain ⟨hlen, hstack, hworkers⟩ := hg
  cases h with
  | stuck hw hm hf =>
    refine ⟨good_state_set fs L.good s e.worker Worker.done s.thread_pool _ _ _ _ rfl rfl
      hstack trivial hgs, fun r => ?_⟩
    simp only [balance, sum_map_set_int _ _ _ _ Worker.done hw]
    simp [owed_worker]
  | leave hw hm hf =>
    refine ⟨good_state_set fs L.good s e.worker Worker.done s.thread_pool _ _ _ _ rfl rfl
      hstack trivial hgs, fun r => ?_⟩
    simp only [balance, sum_map_set_int _ _ _ _ Worker.done hw]
    simp [owed_worker]
  | finish w0 k hw hk hm hf htop hN =>
    have hw0 : w0 ≠ Worker.blocked := by rcases hk with ⟨rfl, _⟩ | ⟨rfl, _⟩ <;> simp
    have hw0o : ∀ r, owed_worker fs L.total r w0 = 0 := by
      intro r; rcases hk with ⟨rfl, _⟩ | ⟨rfl, _⟩ <;> rfl
    refine ⟨⟨hlen, hstack, ?_⟩, fun r => ?_⟩
    · intro x hx
      rcases List.mem_or_eq_of_mem_set hx with hx | rfl
      · rcases broadcast_mem _ x hx with hx | rfl
        · exact hworkers x hx
        · trivial
      · trivial
    · simp only [balance,
        sum_map_set_int _ _ _ _ Worker.done (broadcast_getElem _ _ _ hw hw0),
        broadcast_sum_int _ (owed_waiting fs L.total r), hw0o]
      simp [owed_worker]
  | block w0 k hw hk hm hf htop hN =>
    have hw0o : ∀ r, owed_worker fs L.total r w0 = 0 := by
      intro r; rcases hk with ⟨rfl, _⟩ | ⟨rfl, _⟩ <;> rfl
    refine ⟨good_state_set fs L.good s e.worker Worker.blocked s.thread_pool _ _ _ _ rfl rfl
      hstack trivial hgs, fun r => ?_⟩
    simp only [balance, sum_map_set_int _ _ _ _ Worker.blocked hw, hw0o]
    simp [owed_worker]
  | take w0 k o rest hw hk hm hf htop =>
    have hw0o : ∀ r, owed_worker fs L.total r w0 = 0 := by
      intro r; rcases hk with ⟨rfl, _⟩ | ⟨rfl, _⟩ <;> rfl
    have ho : good_task L.good s.thread_pool.path_num o := hstack o (by simp [htop])
    refine ⟨good_state_set fs L.good s e.worker (Worker.start o)
      { s.thread_pool with stack := ⟨rest⟩ } _ _ _ _ rfl rfl ?_ ho hgs, fun r => ?_⟩
    · intro x hx
      exact hstack x (by simp [htop, hx])
    · have h1 : owed_worker fs L.total r (Worker.start o) = owed_task L.total r o := rfl
      simp only [balance, sum_map_set_int _ _ _ _ (Worker.start o) hw, hw0o, htop,
        List.map_cons, List.sum_cons, h1]
      ring
  | begin t hw =>
    have ht : good_task L.good s.thread_pool.path_num (some t) :=
      hworkers _ (mem_of_getElem _ _ _ hw)
    refine ⟨good_state_set fs L.good s e.worker (begin_task fs t) s.thread_pool _ _ _ _ rfl
      rfl hstack (good_begin_task fs L _ t ht) hgs, fun r => ?_⟩
    have h1 : owed_worker fs L.total r (Worker.start (some t)) =
        owed_task L.total r (some t) := rfl
    simp only [balance, sum_map_set_int _ _ _ _ (begin_task fs t) hw,
      owed_begin_task fs L r t ht.1, h1]
    ring
  | loop_end t n hw =>
    have ht : good_worker fs L.good s.thread_pool.path_num (Worker.loop t [] n) :=
      hworkers _ (mem_of_getElem _ _ _ hw)
    refine ⟨good_state_set fs L.good s e.worker (Worker.publish t n EXIT_SUCCESS) s.thread_pool
      _ _ _ _ rfl rfl hstack ht.1 hgs, fun r => ?_⟩
    simp only [balance, sum_map_set_int _ _ _ _ (Worker.publish t n EXIT_SUCCESS) hw]
    simp [owed_worker, entries_blocks, entries_subdirs]
  | loop_dot t d rest n hw hd =>
    have ht : good_worker fs L.good s.thread_pool.path_num (Worker.loop t (d :: rest) n) :=
      hworkers _ (mem_of_getElem _ _ _ hw)
    refine ⟨good_state_set fs L.good s e.worker (Worker.loop t rest n) s.thread_pool
      _ _ _ _ rfl rfl hstack
      ⟨ht.1, fun c hc => ht.2 c (entries_subdirs_subset fs _ d rest c hc (Or.inl hd))⟩ hgs,
      fun r => ?_⟩
    simp only [balance, sum_map_set_int _ _ _ _ (Worker.loop t rest n) hw]
    simp [owed_worker, entries_blocks, entries_subdirs, hd]
  | loop_fail t d rest n hw hd hl =>
    have ht : good_worker fs L.good s.thread_pool.path_num (Worker.loop t (d :: rest) n) :=
      hworkers _ (mem_of_getElem _ _ _ hw)
    refine ⟨good_state_set fs L.good s e.worker (Worker.publish t n EXIT_FAILURE) s.thread_pool
      _ _ _ _ rfl rfl hstack ht.1 hgs, fun r => ?_⟩
    simp only [balance, sum_map_set_int _ _ _ _ (Worker.publish t n EXIT_FAILURE) hw]
    simp [owed_worker, entries_blocks, entries_subdirs, hd, hl]
  | loop_file t d rest n st hw hd hl hdir =>
    have ht : good_worker fs L.good s.thread_pool.path_num (Worker.loop t (d :: rest) n) :=
      hworkers _ (mem_of_getElem _ _ _ hw)
    refine ⟨good_state_set fs L.good s e.worker (Worker.loop t rest (n + st.st_blocks))
      s.thread_pool _ _ _ _ rfl rfl hstack
      ⟨ht.1, fun c hc => ht.2 c (entries_subdirs_subset fs _ d rest c hc (Or.inr ⟨st, hl⟩))⟩
      hgs, fun r => ?_⟩
    simp only [balance, sum_map_set_int _ _ _ _ (Worker.loop t rest (n + st.st_blocks)) hw]
    by_cases hr : t.path_id = r
    · simp only [owed_worker, entries_blocks, entries_subdirs, hd, hl, hdir, hr]
      simp
      ring
    · simp [owed_worker, hr]
  | loop_dir t d rest n st ws hw hd hl hdir hm hsig =>
    have ht : good_worker fs L.good s.thread_pool.path_num (Worker.loop t (d :: rest) n) :=
      hworkers _ (mem_of_getElem _ _ _ hw)
    have hw2 := signal_getElem s.workers ws e.wake e.worker _ hsig hw (by simp)
    have hc : concatenate_dir_path t.path_name d ∈
        entries_subdirs fs t.path_name (d :: rest) := by
      simp [entries_subdirs, hd, hl, hdir]
    refine ⟨⟨hlen, ?_, ?_⟩, fun r => ?_⟩
    · intro o ho
      simp only [List.mem_cons] at ho
      rcases ho with rfl | ho
      · exact ⟨ht.2 _ hc, ht.1⟩
      · exact hstack o ho
    · intro x hx
      rcases List.mem_or_eq_of_mem_set hx with hx | rfl
      · rcases signal_mem _ _ _ hsig x hx with hx | rfl
        · exact hworkers x hx
        · trivial
      · exact ⟨ht.1, fun c hc1 =>
          ht.2 c (entries_subdirs_subset fs _ d rest c hc1 (Or.inr ⟨st, hl⟩))⟩
    · simp only [balance, sum_map_set_int _ _ _ _ (Worker.loop t rest n) hw2,
        signal_sum_int _ (owed_waiting fs L.total r) _ _ _ hsig, List.map_cons, List.sum_cons]
      by_cases hr : t.path_id = r
      · simp only [owed_worker, owed_task, entries_blocks, entries_subdirs, hd, hl, hdir, hr]
        simp
        ring
      · simp [owed_worker, owed_task, hr]
  | publish t n code hw =>
    have ht : good_worker fs L.good s.thread_pool.path_num (Worker.publish t n code) :=
      hworkers _ (mem_of_getElem _ _ _ hw)
    have hid : t.path_id < s.thread_pool.dir_details.dir_size.length := by
      rw [hlen]; exact ht
    refine ⟨good_state_set fs L.good s e.worker (Worker.report t code)
      (update_directory_size s.thread_pool t n) _ _ _ _ (by simp [update_directory_size]) rfl
      hstack trivial hgs, fun r => ?_⟩
    simp only [balance, sum_map_set_int _ _ _ _ (Worker.report t code) hw,
      update_directory_size, getD_set_add _ _ r n hid, owed_worker]
    by_cases hr : t.path_id = r
    · simp [hr]
      ring
    · simp [hr]
  | report_first t status hw hst herr =>
    refine ⟨good_state_set fs L.good s e.worker Worker.fetch
      { s.thread_pool with exit_code := EXIT_FAILURE } _ _ _ _ rfl rfl hstack trivial hgs,
      fun r => ?_⟩
    simp only [balance, sum_map_set_int _ _ _ _ Worker.fetch hw]
    simp [owed_worker]
  | report_other t status hw hc =>
    refine ⟨good_state_set fs L.good s e.worker Worker.fetch s.thread_pool _ _ _ _ rfl rfl
      hstack trivial hgs, fun r => ?_⟩
    simp only [balance, sum_map_set_int _ _ _ _ Worker.fetch hw]
    simp [owed_worker]

/-! ## The termination measure drops at every transition -/

theorem broadcast_sum_nat_le (g : Worker → Nat) (hg : g Worker.woken ≤ g Worker.blocked + 1)
    (ws : List Worker) :
    ((pthread_cond_broadcast ws).map g).sum ≤ (ws.map g).sum + ws.length := by
  induction ws with
  | nil => simp [pthread_cond_broadcast]
  | cons x xs ih =>
    simp only [pthread_cond_broadcast, List.map_cons, List.sum_cons, List.length_cons] at ih ⊢
    by_cases hb : x = Worker.blocked
    · subst hb
      simp only [if_true]
      omega
    · simp only [hb, if_false]
      omega

theorem signal_sum_nat_le (g : Worker → Nat) (hg : g Worker.woken ≤ g Worker.blocked + 1)
    (ws ws2 : List Worker) (k : Nat) (h : pthread_cond_signal ws k = some ws2) :
    (ws2.map g).sum ≤ (ws.map g).sum + 1 := by
  rcases signal_cases ws ws2 k h with ⟨rfl, _⟩ | ⟨hk, rfl⟩
  · omega
  · have := sum_map_set_nat g ws k Worker.blocked Worker.woken hk
    omega

theorem weight_begin_task (fs : Fs) (L : Ledger fs) (t : Path) (hg : L.good t.path_name) :
    weight_worker fs L.cost (begin_task fs t) + 1 ≤ L.cost t.path_name := by
  have heq := L.cost_eq t.path_name hg
  unfold subdirs listing_length at heq
  unfold begin_task
  cases hl : fs.lstat t.path_name with
  | none =>
    simp only [hl] at heq
    simp only [weight_worker]
    omega
  | some st =>
    cases hdir : st.is_dir with
    | false =>
      simp [hl, hdir] at heq
      simp only [hdir, weight_worker, Bool.false_eq_true, if_false]
      omega
    | true =>
      cases hrd : fs.readdir t.path_name with
      | none =>
        simp [hl, hdir, hrd] at heq
        simp only [hdir, weight_worker, if_true]
        omega
      | some entries =>
        simp only [hl, hdir, hrd, if_true] at heq
        simp only [hdir, weight_worker, if_true]
        omega

theorem measure_step (fs : Fs) (L : Ledger fs) (s : State) (e : Event) (s1 : State)
    (h : Step fs s e s1) (hg : good_state fs L.good s) :
    run_measure fs L.cost s1 < run_measure fs L.cost s := by
  obtain ⟨hlen, hstack, hworkers⟩ := hg
  cases h with
  | stuck hw hm hf =>
    have hset := sum_map_set_nat (weight_worker fs L.cost) _ _ _ Worker.done hw
    simp only [run_measure, hf, if_true, weight_worker] at hset ⊢
    omega
  | leave hw hm hf =>
    have hset := sum_map_set_nat (weight_worker fs L.cost) _ _ _ Worker.done hw
    simp only [run_measure, hf, if_true, weight_worker] at hset ⊢
    omega
  | finish w0 k hw hk hm hf htop hN =>
    have hw0 : w0 ≠ Worker.blocked := by rcases hk with ⟨rfl, _⟩ | ⟨rfl, _⟩ <;> simp
    have hw1 : weight_worker fs L.cost w0 = 1 := by
      rcases hk with ⟨rfl, _⟩ | ⟨rfl, _⟩ <;> rfl
    have hset := sum_map_set_nat (weight_worker fs L.cost) _ _ _ Worker.done
      (broadcast_getElem _ _ _ hw hw0)
    have hbc := broadcast_sum_nat_le (weight_worker fs L.cost) (by simp [weight_worker])
      s.workers
    rw [hw1] at hset
    simp only [run_measure, hf, if_true, Bool.false_eq_true, if_false, weight_worker, hw1]
      at hset ⊢
    omega
  | block w0 k hw hk hm hf htop hN =>
    have hw1 : weight_worker fs L.cost w0 = 1 := by
      rcases hk with ⟨rfl, _⟩ | ⟨rfl, _⟩ <;> rfl
    have hset := sum_map_set_nat (weight_worker fs L.cost) _ _ _ Worker.blocked hw
    rw [hw1] at hset
    simp only [run_measure, hf, Bool.false_eq_true, if_false, weight_worker, hw1,
      List.length_set] at hset ⊢
    omega
  | take w0 k o rest hw hk hm hf htop =>
    have hw1 : weight_worker fs L.cost w0 = 1 := by
      rcases hk with ⟨rfl, _⟩ | ⟨rfl, _⟩ <;> rfl
    have hset := sum_map_set_nat (weight_worker fs L.cost) _ _ _ (Worker.start o) hw
    have h1 : weight_worker fs L.cost (Worker.start o) = weight_task L.cost o := rfl
    rw [hw1, h1] at hset
    simp only [run_measure, hf, Bool.false_eq_true, if_false, hw1, h1, htop, List.map_cons,
      List.sum_cons, List.length_set] at hset ⊢
    omega
  | begin t hw =>
    have ht : good_task L.good s.thread_pool.path_num (some t) :=
      hworkers _ (mem_of_getElem _ _ _ hw)
    have hset := sum_map_set_nat (weight_worker fs L.cost) _ _ _ (begin_task fs t) hw
    have hb := weight_begin_task fs L t ht.1
    have h1 : weight_worker fs L.cost (Worker.start (some t)) = L.cost t.path_name := rfl
    simp only [run_measure, h1, List.length_set] at hset ⊢
    generalize (if s.work_finished = true then 0 else s.workers.length + 1) = B
    omega
  | loop_end t n hw =>
    have hset := sum_map_set_nat (weight_worker fs L.cost) _ _ _
      (Worker.publish t n EXIT_SUCCESS) hw
    simp only [run_measure, weight_worker, entries_subdirs, List.length_set, List.length_nil,
      List.map_nil, List.sum_nil] at hset ⊢
    generalize (if s.work_finished = true then 0 else s.workers.length + 1) = B
    omega
  | loop_dot t d rest n hw hd =>
    have hset := sum_map_set_nat (weight_worker fs L.cost) _ _ _ (Worker.loop t rest n) hw
    simp only [run_measure, weight_worker, entries_subdirs, hd, if_true, List.length_set,
      List.length_cons] at hset ⊢
    generalize (if s.work_finished = true then 0 else s.workers.length + 1) = B
    omega
  | loop_fail t d rest n hw hd hl =>
    have hset := sum_map_set_nat (weight_worker fs L.cost) _ _ _
      (Worker.publish t n EXIT_FAILURE) hw
    simp only [run_measure, weight_worker, List.length_set, List.length_cons] at hset ⊢
    generalize (if s.work_finished = true then 0 else s.workers.length + 1) = B
    omega
  | loop_file t d rest n st hw hd hl hdir =>
    have hset := sum_map_set_nat (weight_worker fs L.cost) _ _ _
      (Worker.loop t rest (n + st.st_blocks)) hw
    simp only [run_measure, weight_worker, entries_subdirs, hd, hl, hdir, Bool.false_eq_true,
      if_false, List.length_set, List.length_cons] at hset ⊢
    generalize (if s.work_finished = true then 0 else s.workers.length + 1) = B
    omega
  | loop_dir t d rest n st ws hw hd hl hdir hm hsig =>
    have hw2 := signal_getElem s.workers ws e.wake e.worker _ hsig hw (by simp)
    have hset := sum_map_set_nat (weight_worker fs L.cost) _ _ _ (Worker.loop t rest n) hw2
    have hsg := signal_sum_nat_le (weight_worker fs L.cost) (by simp [weight_worker])
      _ _ _ hsig
    simp only [run_measure, weight_worker, weight_task, entries_subdirs, hd, hl, hdir,
      Bool.false_eq_true, if_false, if_true, List.length_set, List.length_cons, List.map_cons,
      List.sum_cons, signal_length _ _ _ hsig] at hset ⊢
    generalize (if s.work_finished = true then 0 else s.workers.length + 1) = B
    omega
  | publish t n code hw =>
    have hset := sum_map_set_nat (weight_worker fs L.cost) _ _ _ (Worker.report t code) hw
    simp only [run_measure, weight_worker, List.length_set, update_directory_size] at hset ⊢
    generalize (if s.work_finished = true then 0 else s.workers.length + 1) = B
    omega
  | report_first t status hw hst herr =>
    have hset := sum_map_set_nat (weight_worker fs L.cost) _ _ _ Worker.fetch hw
    simp only [run_measure, weight_worker, List.length_set] at hset ⊢
    generalize (if s.work_finished = true then 0 else s.workers.length + 1) = B
    omega
  | report_other t status hw hc =>
    have hset := sum_map_set_nat (weight_worker fs L.cost) _ _ _ Worker.fetch hw
    simp only [run_measure, weight_worker, List.length_set] at hset ⊢
    generalize (if s.work_finished = true then 0 else s.workers.length + 1) = B
    omega

/-! ## Trees of bounded depth give a ledger -/

theorem entries_subdirs_children (fs : Fs) (p : String) :
    ∀ (entries : List String), ∀ c ∈ entries_subdirs fs p entries,
      c ∈ (entries.filter (fun d => !is_dot d)).map (concatenate_dir_path p)
  | [], c, hc => by simp [entries_subdirs] at hc
  | d :: rest, c, hc => by
    have ih := entries_subdirs_children fs p rest c
    cases hd : is_dot d with
    | true =>
      simp only [entries_subdirs, hd, if_true] at hc
      simpa [hd] using ih hc
    | false =>
      simp only [entries_subdirs, hd, Bool.false_eq_true, if_false] at hc
      cases hl : fs.lstat (concatenate_dir_path p d) with
      | none => simp [hl] at hc
      | some st =>
        simp only [hl] at hc
        cases hdir : st.is_dir with
        | true =>
          simp only [hdir, if_true, List.mem_cons] at hc
          rcases hc with rfl | hc
          · simp [hd]
          · have := ih hc
            simp only [List.filter_cons, hd, Bool.not_false, if_true, List.map_cons,
              List.mem_cons]
            exact Or.inr this
        | false =>
          simp only [hdir, Bool.false_eq_true, if_false] at hc
          have := ih hc
          simp only [List.filter_cons, hd, Bool.not_false, if_true, List.map_cons,
            List.mem_cons]
          exact Or.inr this

theorem subdirs_children (fs : Fs) (p : String) : ∀ c ∈ subdirs fs p, c ∈ children fs p := by
  intro c hc
  unfold subdirs at hc
  unfold children
  cases hl : fs.lstat p with
  | none => simp [hl] at hc
  | some st =>
    simp only [hl] at hc ⊢
    cases hdir : st.is_dir with
    | false => simp [hdir] at hc
    | true =>
      simp only [hdir, if_true] at hc ⊢
      cases hrd : fs.readdir p with
      | none => simp [hrd] at hc
      | some entries =>
        simp only [hrd] at hc ⊢
        exact entries_subdirs_children fs p entries c hc

theorem tree_within_succ (fs : Fs) : ∀ (k : Nat) (p : String),
    tree_within fs k p = true → tree_within fs (k + 1) p = true
  | 0, p, h => by simp [tree_within] at h
  | k + 1, p, h => by
    have h1 : ∀ c ∈ children fs p, tree_within fs k c = true := by
      simpa [tree_within] using h
    rw [tree_within]
    simp only [List.all_eq_true]
    intro c hc
    exact tree_within_succ fs k c (h1 c hc)

theorem tree_within_child (fs : Fs) (k : Nat) (p c : String)
    (h : tree_within fs (k + 1) p = true) (hc : c ∈ children fs p) :
    tree_within fs k c = true := by
  simp only [tree_within, List.all_eq_true] at h
  exact h c hc

theorem map_sum_congr {α β : Type} [AddMonoid β] (f g : α → β) :
    ∀ (l : List α), (∀ x ∈ l, f x = g x) → (l.map f).sum = (l.map g).sum
  | [], _ => rfl
  | x :: l, h => by
    simp only [List.map_cons, List.sum_cons]
    rw [h x (by simp), map_sum_congr f g l (fun y hy => h y (by simp [hy]))]

theorem usage_stable (fs : Fs) : ∀ (k : Nat) (p : String),
    tree_within fs k p = true → usage fs (k + 1) p = usage fs k p
  | 0, p, h => by simp [tree_within] at h
  | k + 1, p, h => by
    rw [usage, usage]
    congr 1
    apply map_sum_congr
    intro c hc
    exact usage_stable fs k c (tree_within_child fs k p c h (subdirs_children fs p c hc))

theorem cost_stable (fs : Fs) : ∀ (k : Nat) (p : String),
    tree_within fs k p = true → cost fs (k + 1) p = cost fs k p
  | 0, p, h => by simp [tree_within] at h
  | k + 1, p, h => by
    rw [cost, cost]
    congr 1
    apply map_sum_congr
    intro c hc
    rw [cost_stable fs k c (tree_within_child fs k p c h (subdirs_children fs p c hc))]

/-- The paths whose tree has fewer than `k` levels make a ledger. -/
theorem bounded_ledger (fs : Fs) (k : Nat) :
    ∃ L : Ledger fs,
      (∀ p, L.good p ↔ tree_within fs k p = true) ∧ L.total = usage fs k ∧
        L.cost = cost fs k := by
  refine ⟨⟨fun p => tree_within fs k p = true, usage fs k, cost fs k, ?_, ?_, ?_⟩,
    fun p => Iff.rfl, rfl, rfl⟩
  · intro p hp c hc
    cases k with
    | zero => simp [tree_within] at hp
    | succ k =>
      exact tree_within_succ fs k c (tree_within_child fs k p c hp (subdirs_children fs p c hc))
  · intro p hp
    cases k with
    | zero => simp [tree_within] at hp
    | succ k =>
      rw [usage]
      congr 1
      apply map_sum_congr
      intro c hc
      exact (usage_stable fs k c
        (tree_within_child fs k p c hp (subdirs_children fs p c hc))).symm
  · intro p hp
    cases k with
    | zero => simp [tree_within] at hp
    | succ k =>
      rw [cost]
      congr 1
      apply map_sum_congr
      intro c hc
      rw [cost_stable fs k c (tree_within_child fs k p c hp (subdirs_children fs p c hc))]

/-! ## Totals of a complete run -/

theorem seeds_mem (fs : Fs) : ∀ (args : List String) (i : Nat), ∀ o ∈ seeds fs args i,
    ∃ a j, o = some ⟨a, j⟩ ∧ a ∈ args ∧ fs.stat_ok a = true ∧ i ≤ j ∧ j < i + args.length
  | [], i, o, ho => by simp [seeds] at ho
  | arg :: args, i, o, ho => by
    have ih := seeds_mem fs args (i + 1) o
    cases h : fs.stat_ok arg with
    | false =>
      simp only [seeds, h, Bool.false_eq_true, if_false] at ho
      obtain ⟨a, j, h1, h2, h3, h4, h5⟩ := ih ho
      exact ⟨a, j, h1, by simp [h2], h3, by omega, by simp only [List.length_cons]; omega⟩
    | true =>
      simp only [seeds, h, if_true, List.mem_cons] at ho
      rcases ho with rfl | ho
      · exact ⟨arg, i, rfl, by simp, h, le_refl _, by simp⟩
      · obtain ⟨a, j, h1, h2, h3, h4, h5⟩ := ih ho
        exact ⟨a, j, h1, by simp [h2], h3, by omega, by simp only [List.length_cons]; omega⟩

theorem seeds_owed (fs : Fs) (total : String → Int) (r : Nat) :
    ∀ (args : List String) (i : Nat),
      ((seeds fs args i).map (owed_task total r)).sum =
        if r < i then 0
        else
          match args[r - i]? with
          | some a => if fs.stat_ok a then total a else 0
          | none => 0
  | [], i => by
    by_cases h : r < i <;> simp [seeds, h]
  | arg :: args, i => by
    have ih := seeds_owed fs total r args (i + 1)
    have hhead : ((seeds fs (arg :: args) i).map (owed_task total r)).sum =
        (if fs.stat_ok arg then (if i = r then total arg else 0) else 0) +
          ((seeds fs args (i + 1)).map (owed_task total r)).sum := by
      cases h : fs.stat_ok arg <;> simp [seeds, h, owed_task]
    rw [hhead, ih]
    by_cases h1 : r < i
    · have h2 : r < i + 1 := by omega
      have h3 : i ≠ r := by omega
      simp [h1, h2, h3]
    · by_cases h2 : r = i
      · subst h2
        simp
      · have h3 : ¬ r < i + 1 := by omega
        have h4 : i ≠ r := fun h => h2 h.symm
        have h5 : r - i = (r - (i + 1)) + 1 := by omega
        simp only [h1, h3, h4, if_false, h5, List.getElem?_cons_succ]
        simp

theorem owed_done (fs : Fs) (total : String → Int) (r : Nat) :
    ∀ ws : List Worker, (∀ w ∈ ws, w = Worker.done) →
      (ws.map (owed_worker fs total r)).sum = 0
  | [], _ => rfl
  | w :: ws, h => by
    have hw : w = Worker.done := h w (by simp)
    subst hw
    simp only [List.map_cons, List.sum_cons, owed_worker,
      owed_done fs total r ws (fun x hx => h x (by simp [hx]))]
    rfl

theorem owed_fetch (fs : Fs) (total : String → Int) (r : Nat) (n : Nat) :
    ((List.replicate n Worker.fetch).map (owed_worker fs total r)).sum = 0 := by
  induction n with
  | zero => rfl
  | succ n ih =>
    simp only [List.replicate_succ, List.map_cons, List.sum_cons, ih, owed_worker]
    rfl

theorem list_eq_map_of_getD (ds : List Int) (argv : List String) (f : String → Int)
    (hlen : ds.length = argv.length)
    (h : ∀ r, ds.getD r 0 = match argv[r]? with
      | some a => f a
      | none => 0) :
    ds = argv.map f := by
  apply List.ext_getElem?
  intro r
  have hr := h r
  by_cases hlt : r < ds.length
  · have h1 : ds[r]? = some (ds.getD r 0) := by
      simp [List.getD_eq_getElem?_getD, List.getElem?_eq_getElem hlt]
    have hlt2 : r < argv.length := hlen ▸ hlt
    rw [h1, hr]
    simp [List.getElem?_eq_getElem hlt2]
  · have h1 : ds[r]? = none := List.getElem?_eq_none (by omega)
    have h2 : (argv.map f)[r]? = none :=
      List.getElem?_eq_none (by simp only [List.length_map]; omega)
    rw [h1, h2]

theorem terminated_finished (s : State) (hinv : protocol_inv s)
    (hn : 1 ≤ s.thread_pool.num_threads) (hT : Terminated s) :
    s.work_finished = true ∧ s.thread_pool.stack.top = [] := by
  obtain ⟨_, hlen, hnf, hfin⟩ := hinv
  cases hf : s.work_finished with
  | true => exact ⟨rfl, (hfin hf).1⟩
  | false =>
    exfalso
    cases hws : s.workers with
    | nil => simp [hws] at hlen; omega
    | cons w ws =>
      have hw : w ∈ s.workers := by simp [hws]
      exact (hnf hf).2 w hw (hT w hw)

theorem good_initial (fs : Fs) (good : String → Prop) (argv : List String) (n : Nat)
    (s0 : State) (h0 : initial fs argv n = some s0)
    (hgood : ∀ a ∈ argv, fs.stat_ok a = true → good a) : good_state fs good s0 := by
  rw [initial_spec fs argv n s0 h0]
  refine ⟨by simp, ?_, ?_⟩
  · intro o ho
    simp only [List.mem_reverse] at ho
    obtain ⟨a, j, rfl, ha, hok, _, hj⟩ := seeds_mem fs argv 0 o ho
    exact ⟨hgood a ha hok, by simpa using hj⟩
  · intro w hw
    rw [List.eq_of_mem_replicate hw]
    trivial

theorem balance_initial (fs : Fs) (total : String → Int) (argv : List String) (n : Nat)
    (s0 : State) (h0 : initial fs argv n = some s0) (r : Nat) :
    balance fs total r s0 =
      match argv[r]? with
      | some a => if fs.stat_ok a then total a else 0
      | none => 0 := by
  rw [initial_spec fs argv n s0 h0]
  have h1 := seeds_owed fs total r argv 0
  simp only [Nat.not_lt_zero, if_false, Nat.sub_zero] at h1
  simp only [balance, List.map_reverse, List.sum_reverse, h1, owed_fetch]
  have h2 : (List.replicate argv.length (0 : Int)).getD r 0 = 0 := by
    simp [List.getD_eq_getElem?_getD, List.getElem?_replicate]
    split <;> rfl
  rw [h2]
  simp

theorem ledger_reachable (fs : Fs) (L : Ledger fs) (argv : List String) (n : Nat)
    (s0 : State) (h0 : initial fs argv n = some s0)
    (hgood : ∀ a ∈ argv, fs.stat_ok a = true → L.good a)
    (es : List Event) (s : State) (hrun : run fs s0 es = some s) :
    good_state fs L.good s ∧ ∀ r, balance fs L.total r s = balance fs L.total r s0 := by
  refine run_invariant fs
    (fun s => good_state fs L.good s ∧ ∀ r, balance fs L.total r s = balance fs L.total r s0)
    ?_ es s0 s ⟨good_initial fs L.good argv n s0 h0 hgood, fun r => rfl⟩ hrun
  intro s e s1 hP hs
  have := ledger_step fs L s e s1 hs hP.1
  exact ⟨this.1, fun r => (this.2 r).trans (hP.2 r)⟩

theorem complete_run_totals (fs : Fs) (L : Ledger fs) (argv : List String) (n : Nat)
    (hn : 1 ≤ n) (s0 : State) (h0 : initial fs argv n = some s0)
    (hgood : ∀ a ∈ argv, fs.stat_ok a = true → L.good a)
    (es : List Event) (s : State) (hrun : run fs s0 es = some s) (hT : Terminated s) :
    s.thread_pool.dir_details.dir_size =
      argv.map (fun a => if fs.stat_ok a then L.total a else 0) := by
  have hinv := protocol_reachable fs argv n s0 h0 es s hrun
  obtain ⟨hg, hbal⟩ := ledger_reachable fs L argv n s0 h0 hgood es s hrun
  have hnum : s.thread_pool.num_threads = n ∧ s.thread_pool.path_num = argv.length := by
    have := run_invariant fs
      (fun s => s.thread_pool.num_threads = s0.thread_pool.num_threads ∧
        s.thread_pool.path_num = s0.thread_pool.path_num)
      (fun s e s1 hP hs => by
        have := num_threads_step fs s e s1 hs
        exact ⟨this.1.trans hP.1, this.2.1.trans hP.2⟩)
      es s0 s ⟨rfl, rfl⟩ hrun
    rw [initial_spec fs argv n s0 h0] at this
    exact this
  obtain ⟨_, htop⟩ := terminated_finished s hinv (by omega) hT
  apply list_eq_map_of_getD
  · rw [hg.1, hnum.2]
  · intro r
    have h1 := hbal r
    rw [balance_initial fs L.total argv n s0 h0 r] at h1
    simp only [balance, htop, List.map_nil, List.sum_nil, owed_done fs L.total r s.workers hT]
      at h1
    simpa using h1

/-! ## Some worker can always move -/

theorem waiters_all_blocked : ∀ ws : List Worker, (∀ w ∈ ws, w = Worker.blocked) →
    waiters ws = ws.length
  | [], _ => by simp [waiters]
  | w :: ws, h => by
    have hw : w = Worker.blocked := h w (by simp)
    have ih := waiters_all_blocked ws (fun x hx => h x (by simp [hx]))
    subst hw
    simp only [waiters, List.map_cons, List.sum_cons, List.length_cons, waiting_mark] at ih ⊢
    push_cast
    omega

theorem waiting_below_step (fs : Fs) (s : State) (e : Event) (s1 : State)
    (h : Step fs s e s1) (hinv : protocol_inv s)
    (hlt : s.work_finished = false →
      s.waiting_threads_count < (s.thread_pool.num_threads : Int)) :
    s1.work_finished = false →
      s1.waiting_threads_count < (s1.thread_pool.num_threads : Int) := by
  have hinv1 := protocol_step fs s e s1 h hinv
  intro hf1
  have hbound : s1.waiting_threads_count ≤ (s1.thread_pool.num_threads : Int) := by
    rw [(hinv1.2.2.1 hf1).1, ← hinv1.2.1]
    exact (waiters_le_length _).2
  cases h with
  | stuck hw hm hf => simpa using hlt (by simpa using hf1)
  | leave hw hm hf => simp [hf] at hf1
  | finish w0 k hw hk hm hf htop hN => simp at hf1
  | block w0 k hw hk hm hf htop hN =>
    simp only at hbound ⊢
    omega
  | take w0 k o rest hw hk hm hf htop =>
    have := hlt hf
    simp only
    rcases hk with ⟨_, rfl⟩ | ⟨_, rfl⟩ <;> omega
  | begin t hw => exact hlt hf1
  | loop_end t n hw => exact hlt hf1
  | loop_dot t d rest n hw hd => exact hlt hf1
  | loop_fail t d rest n hw hd hl => exact hlt hf1
  | loop_file t d rest n st hw hd hl hdir => exact hlt hf1
  | loop_dir t d rest n st ws hw hd hl hdir hm hsig => exact hlt hf1
  | publish t n code hw => exact hlt hf1
  | report_first t status hw hst herr => exact hlt hf1
  | report_other t status hw hc => exact hlt hf1

theorem waiting_below_reachable (fs : Fs) (argv : List String) (n : Nat) (hn : 1 ≤ n)
    (s0 : State) (h0 : initial fs argv n = some s0) (es : List Event) (s : State)
    (hrun : run fs s0 es = some s) :
    protocol_inv s ∧
      (s.work_finished = false →
        s.waiting_threads_count < (s.thread_pool.num_threads : Int)) := by
  refine run_invariant fs
    (fun s => protocol_inv s ∧
      (s.work_finished = false →
        s.waiting_threads_count < (s.thread_pool.num_threads : Int)))
    (fun s e s1 hP hs =>
      ⟨protocol_step fs s e s1 hs hP.1, waiting_below_step fs s e s1 hs hP.1 hP.2⟩)
    es s0 s ⟨protocol_initial fs argv n s0 h0, ?_⟩ hrun
  intro _
  rw [initial_spec fs argv n s0 h0]
  simp only
  omega

theorem signal_total (ws : List Worker) : ∃ k, (pthread_cond_signal ws k).isSome = true := by
  by_cases hb : Worker.blocked ∈ ws
  · obtain ⟨k, hk⟩ := List.mem_iff_getElem?.1 hb
    exact ⟨k, by simp [pthread_cond_signal, hk]⟩
  · refine ⟨0, ?_⟩
    have h0 : ws[0]? ≠ some Worker.blocked := fun h => hb (mem_of_getElem _ _ _ h)
    simp [pthread_cond_signal, h0, hb]

theorem worker_can_move (fs : Fs) (good : String → Prop) (s : State) (i : Nat) (w : Worker)
    (hw : s.workers[i]? = some w) (hm : s.stack_mut_held = false)
    (hg : good_worker fs good s.thread_pool.path_num w)
    (hb : w ≠ Worker.blocked) (hd : w ≠ Worker.done) :
    ∃ k, (thread_worker_step fs s ⟨i, k⟩).isSome = true := by
  cases w with
  | fetch => exact ⟨0, by simp [thread_worker_step, hw, hm]⟩
  | blocked => exact absurd rfl hb
  | woken => exact ⟨0, by simp [thread_worker_step, hw, hm]⟩
  | start o =>
    cases o with
    | none => exact absurd hg (by simp [good_worker, good_task])
    | some t => exact ⟨0, by simp [thread_worker_step, hw]⟩
  | loop t entries n =>
    cases entries with
    | nil => exact ⟨0, by simp [thread_worker_step, hw]⟩
    | cons d rest =>
      cases hdot : is_dot d with
      | true => exact ⟨0, by simp [thread_worker_step, hw, hdot]⟩
      | false =>
        cases hl : fs.lstat (concatenate_dir_path t.path_name d) with
        | none => exact ⟨0, by simp [thread_worker_step, hw, hdot, process_path_entry, hl]⟩
        | some st =>
          cases hdir : st.is_dir with
          | false => exact ⟨0, by simp [thread_worker_step, hw, hdot, process_path_entry, hl, hdir]⟩
          | true =>
            obtain ⟨k, hk⟩ := signal_total s.workers
            obtain ⟨ws, hws⟩ := Option.isSome_iff_exists.1 hk
            exact ⟨k, by simp [thread_worker_step, hw, hdot, process_path_entry, hl, hdir, hm, hws]⟩
  | publish t n code => exact ⟨0, by simp [thread_worker_step, hw]⟩
  | report t status =>
    refine ⟨0, ?_⟩
    simp only [thread_worker_step, hw]
    split <;> rfl
  | done => exact absurd rfl hd

theorem progress (fs : Fs) (good : String → Prop) (s : State) (hinv : protocol_inv s)
    (hlt : s.work_finished = false →
      s.waiting_threads_count < (s.thread_pool.num_threads : Int))
    (hg : good_state fs good s) (hT : ¬ Terminated s) :
    ∃ e s1, thread_worker_step fs s e = some s1 := by
  obtain ⟨hm, hlen, hnf, hfin⟩ := hinv
  have key : ∃ (i : Nat) (w : Worker),
      s.workers[i]? = some w ∧ w ≠ Worker.blocked ∧ w ≠ Worker.done := by
    cases hf : s.work_finished with
    | true =>
      simp only [Terminated, not_forall] at hT
      obtain ⟨w, hw, hne⟩ := hT
      obtain ⟨i, hi⟩ := List.mem_iff_getElem?.1 hw
      rcases (hfin hf).2 w hw with rfl | rfl
      · exact ⟨i, _, hi, by simp, by simp⟩
      · exact absurd rfl hne
    | false =>
      obtain ⟨hc, hnd⟩ := hnf hf
      have hlt2 := hlt hf
      by_contra hall
      have hb : ∀ w ∈ s.workers, w = Worker.blocked := by
        intro w hw
        by_contra hne
        obtain ⟨i, hi⟩ := List.mem_iff_getElem?.1 hw
        exact hall ⟨i, w, hi, hne, hnd w hw⟩
      have := waiters_all_blocked s.workers hb
      rw [← hlen] at hlt2
      omega
  obtain ⟨i, w, hi, hb, hd⟩ := key
  obtain ⟨k, hk⟩ := worker_can_move fs good s i w hi hm
    (hg.2.2 w (mem_of_getElem _ _ _ hi)) hb hd
  obtain ⟨s1, hs1⟩ := Option.isSome_iff_exists.1 hk
  exact ⟨⟨i, k⟩, s1, hs1⟩

/-! ## Every run is finite and can be run to the end -/

theorem measure_run (fs : Fs) (L : Ledger fs) : ∀ (es : List Event) (s s1 : State),
    good_state fs L.good s → run fs s es = some s1 →
      es.length + run_measure fs L.cost s1 ≤ run_measure fs L.cost s
  | [], s, s1, _, h => by
    simp only [run, Option.some.injEq] at h
    subst h
    simp
  | e :: es, s, s1, hg, h => by
    simp only [run] at h
    cases hs : thread_worker_step fs s e with
    | none => simp [hs] at h
    | some s2 =>
      simp only [hs] at h
      have hst := step_sound fs s e s2 hs
      have h1 := measure_step fs L s e s2 hst hg
      have h2 := measure_run fs L es s2 s1 (ledger_step fs L s e s2 hst hg).1 h
      simp only [List.length_cons]
      omega

theorem can_terminate (fs : Fs) (L : Ledger fs) : ∀ (m : Nat) (s : State),
    run_measure fs L.cost s ≤ m → protocol_inv s →
      (s.work_finished = false →
        s.waiting_threads_count < (s.thread_pool.num_threads : Int)) →
      good_state fs L.good s →
      ∃ es s2, run fs s es = some s2 ∧ Terminated s2
  | m, s, hm, hinv, hlt, hg => by
    by_cases hT : Terminated s
    · exact ⟨[], s, rfl, hT⟩
    · obtain ⟨e, s1, hs⟩ := progress fs L.good s hinv hlt hg hT
      have hst := step_sound fs s e s1 hs
      have hdrop := measure_step fs L s e s1 hst hg
      cases m with
      | zero => omega
      | succ m =>
        obtain ⟨es, s2, hrun, hT2⟩ := can_terminate fs L m s1 (by omega)
          (protocol_step fs s e s1 hst hinv) (waiting_below_step fs s e s1 hst hinv hlt)
          (ledger_step fs L s e s1 hst hg).1
        exact ⟨e :: es, s2, by simp [run, hs, hrun], hT2⟩

/-! ## Runs without errors -/

theorem quiet_begin_task (fs : Fs) (t : Path) (h : task_status fs t.path_name = 0) :
    quiet_worker fs (begin_task fs t) := by
  unfold task_status at h
  unfold begin_task
  cases hl : fs.lstat t.path_name with
  | none => simp [hl, EXIT_FAILURE] at h
  | some st =>
    cases hdir : st.is_dir with
    | false => simp [hdir, quiet_worker, EXIT_SUCCESS]
    | true =>
      cases hrd : fs.readdir t.path_name with
      | none => simp [hl, hdir, hrd, EXIT_FAILURE] at h
      | some entries =>
        simp only [hl, hdir, hrd, if_true] at h
        simpa [hdir, quiet_worker] using h

theorem quiet_state_set (fs : Fs) (s : State) (i : Nat) (w : Worker) (pool : ThreadPool)
    (wc : Int) (fin held : Bool)
    (hcode : pool.exit_code = s.thread_pool.exit_code) (hw : quiet_worker fs w)
    (hq : quiet_state fs s) :
    quiet_state fs
      { thread_pool := pool, waiting_threads_count := wc, work_finished := fin,
        error_occurred := s.error_occurred, stack_mut_held := held,
        workers := s.workers.set i w } := by
  obtain ⟨h1, h2, h3⟩ := hq
  refine ⟨by simpa [hcode] using h1, h2, ?_⟩
  intro x hx
  rcases List.mem_or_eq_of_mem_set hx with hx | rfl
  · exact h3 x hx
  · exact hw

theorem quiet_step (fs : Fs) (L : Ledger fs) (hq : ∀ p, L.good p → task_status fs p = 0)
    (s : State) (e : Event) (s1 : State) (h : Step fs s e s1)
    (hg : good_state fs L.good s) (hs : quiet_state fs s) : quiet_state fs s1 := by
  have hws := hs.2.2
  cases h with
  | stuck hw hm hf => exact quiet_state_set fs s _ _ _ _ _ _ rfl trivial hs
  | leave hw hm hf => exact quiet_state_set fs s _ _ _ _ _ _ rfl trivial hs
  | finish w0 k hw hk hm hf htop hN =>
    refine ⟨hs.1, hs.2.1, ?_⟩
    intro x hx
    rcases List.mem_or_eq_of_mem_set hx with hx | rfl
    · rcases broadcast_mem _ x hx with hx | rfl
      · exact hws x hx
      · trivial
    · trivial
  | block w0 k hw hk hm hf htop hN => exact quiet_state_set fs s _ _ _ _ _ _ rfl trivial hs
  | take w0 k o rest hw hk hm hf htop =>
    exact quiet_state_set fs s _ (Worker.start o) _ _ _ _ rfl trivial hs
  | begin t hw =>
    have ht : good_task L.good s.thread_pool.path_num (some t) :=
      hg.2.2 _ (mem_of_getElem _ _ _ hw)
    exact quiet_state_set fs s _ _ _ _ _ _ rfl (quiet_begin_task fs t (hq _ ht.1)) hs
  | loop_end t n hw =>
    exact quiet_state_set fs s _ (Worker.publish t n EXIT_SUCCESS) _ _ _ _ rfl rfl hs
  | loop_dot t d rest n hw hd =>
    have ht : quiet_worker fs (Worker.loop t (d :: rest) n) := hws _ (mem_of_getElem _ _ _ hw)
    refine quiet_state_set fs s _ (Worker.loop t rest n) _ _ _ _ rfl ?_ hs
    simpa [quiet_worker, entries_status, hd] using ht
  | loop_fail t d rest n hw hd hl =>
    have ht : quiet_worker fs (Worker.loop t (d :: rest) n) := hws _ (mem_of_getElem _ _ _ hw)
    simp [quiet_worker, entries_status, hd, hl, EXIT_FAILURE] at ht
  | loop_file t d rest n st hw hd hl hdir =>
    have ht : quiet_worker fs (Worker.loop t (d :: rest) n) := hws _ (mem_of_getElem _ _ _ hw)
    refine quiet_state_set fs s _ (Worker.loop t rest (n + st.st_blocks)) _ _ _ _ rfl ?_ hs
    simpa [quiet_worker, entries_status, hd, hl] using ht
  | loop_dir t d rest n st ws hw hd hl hdir hm hsig =>
    have ht : quiet_worker fs (Worker.loop t (d :: rest) n) := hws _ (mem_of_getElem _ _ _ hw)
    refine ⟨hs.1, hs.2.1, ?_⟩
    intro x hx
    rcases List.mem_or_eq_of_mem_set hx with hx | rfl
    · rcases signal_mem _ _ _ hsig x hx with hx | rfl
      · exact hws x hx
      · trivial
    · simpa [quiet_worker, entries_status, hd, hl] using ht
  | publish t n code hw =>
    have ht : quiet_worker fs (Worker.publish t n code) := hws _ (mem_of_getElem _ _ _ hw)
    exact quiet_state_set fs s _ (Worker.report t code) _ _ _ _ rfl ht hs
  | report_first t status hw hst herr =>
    have ht : quiet_worker fs (Worker.report t status) := hws _ (mem_of_getElem _ _ _ hw)
    exact absurd ht hst
  | report_other t status hw hc => exact quiet_state_set fs s _ _ _ _ _ _ rfl trivial hs

theorem quiet_initial (fs : Fs) (argv : List String) (n : Nat) (s0 : State)
    (h0 : initial fs argv n = some s0) : quiet_state fs s0 := by
  rw [initial_spec fs argv n s0 h0]
  refine ⟨rfl, rfl, ?_⟩
  intro w hw
  rw [List.eq_of_mem_replicate hw]
  trivial

theorem quiet_reachable (fs : Fs) (L : Ledger fs) (hq : ∀ p, L.good p → task_status fs p = 0)
    (argv : List String) (n : Nat) (s0 : State) (h0 : initial fs argv n = some s0)
    (hgood : ∀ a ∈ argv, fs.stat_ok a = true → L.good a)
    (es : List Event) (s : State) (hrun : run fs s0 es = some s) : quiet_state fs s := by
  have := run_invariant fs (fun s => good_state fs L.good s ∧ quiet_state fs s)
    (fun s e s1 hP hs =>
      ⟨(ledger_step fs L s e s1 hs hP.1).1, quiet_step fs L hq s e s1 hs hP.1 hP.2⟩)
    es s0 s ⟨good_initial fs L.good argv n s0 h0 hgood, quiet_initial fs argv n s0 h0⟩ hrun
  exact this.2

/-! ## The error flag -/

theorem error_flag_step (fs : Fs) (s : State) (e : Event) (s1 : State) (h : Step fs s e s1)
    (hinv : s.error_occurred = true → s.thread_pool.exit_code = EXIT_FAILURE) :
    s1.error_occurred = true → s1.thread_pool.exit_code = EXIT_FAILURE := by
  cases h <;> first | exact hinv | exact fun _ => rfl

theorem error_flag_reachable (fs : Fs) (argv : List String) (n : Nat) (s0 : State)
    (h0 : initial fs argv n = some s0) (es : List Event) (s : State)
    (hrun : run fs s0 es = some s) :
    s.error_occurred = true → s.thread_pool.exit_code = EXIT_FAILURE := by
  refine run_invariant fs
    (fun s => s.error_occurred = true → s.thread_pool.exit_code = EXIT_FAILURE)
    (fun s e s1 hP hs => error_flag_step fs s e s1 hs hP) es s0 s ?_ hrun
  rw [initial_spec fs argv n s0 h0]
  simp

/-- Restricting a ledger to a set of good paths closed under the tasks pushed
gives a ledger with the same totals and costs. -/
theorem restrict_ledger (fs : Fs) (L : Ledger fs) (good : String → Prop)
    (hsub : ∀ p, good p → L.good p)
    (hclosed : ∀ p, good p → ∀ c ∈ subdirs fs p, good c) :
    ∃ L2 : Ledger fs, (∀ p, L2.good p ↔ good p) ∧ L2.total = L.total ∧ L2.cost = L.cost :=
  ⟨⟨good, L.total, L.cost, hclosed, fun p hp => L.total_eq p (hsub p hp),
    fun p hp => L.cost_eq p (hsub p hp)⟩, fun _ => Iff.rfl, rfl, rfl⟩

/-! ## Determinism of totals -/

theorem labels_reachable (fs : Fs) (argv : List String) (n : Nat) (s0 : State)
    (h0 : initial fs argv n = some s0) (es : List Event) (s : State)
    (hrun : run fs s0 es = some s) :
    s.thread_pool.dir_details.path_identity =
      labelled fs argv 0 (List.replicate argv.length none) := by
  have := run_invariant fs
    (fun s => s.thread_pool.dir_details.path_identity =
      s0.thread_pool.dir_details.path_identity)
    (fun s e s1 hP hs => (num_threads_step fs s e s1 hs).2.2.trans hP) es s0 s rfl hrun
  rw [initial_spec fs argv n s0 h0] at this
  exact this

theorem bounded_run_totals (fs : Fs) (argv : List String) (depth : Nat)
    (hfin : ∀ a ∈ argv, fs.stat_ok a = true → tree_within fs depth a = true)
    (n : Nat) (hn : 1 ≤ n) (s0 : State) (h0 : initial fs argv n = some s0)
    (es : List Event) (s : State) (hrun : run fs s0 es = some s) (hT : Terminated s) :
    s.thread_pool.dir_details.dir_size =
      argv.map (fun a => if fs.stat_ok a then usage fs depth a else 0) := by
  obtain ⟨L, hgood, htotal, _⟩ := bounded_ledger fs depth
  have := complete_run_totals fs L argv n hn s0 h0
    (fun a ha hok => (hgood a).2 (hfin a ha hok)) es s hrun hT
  rw [htotal] at this
  exact this

/-- C1. For a file system whose trees below the roots are finite (fewer than
`depth` levels), two complete runs over the same roots, with any numbers of
workers `n` and `m` (at least one each, so in particular one worker against
`n`) and any schedules, end with the same total for every root and the same
labels. -/
theorem totals_deterministic (fs : Fs) (argv : List String) (depth : Nat)
    (hfin : ∀ a ∈ argv, fs.stat_ok a = true → tree_within fs depth a = true)
    (n m : Nat) (hn : 1 ≤ n) (hm : 1 ≤ m) (s0 t0 : State)
    (hs0 : initial fs argv n = some s0) (ht0 : initial fs argv m = some t0)
    (es1 es2 : List Event) (s t : State)
    (hs : run fs s0 es1 = some s) (ht : run fs t0 es2 = some t)
    (hsT : Terminated s) (htT : Terminated t) :
    s.thread_pool.dir_details = t.thread_pool.dir_details := by
  have h1 := bounded_run_totals fs argv depth hfin n hn s0 hs0 es1 s hs hsT
  have h2 := bounded_run_totals fs argv depth hfin m hm t0 ht0 es2 t ht htT
  have h3 := labels_reachable fs argv n s0 hs0 es1 s hs
  have h4 := labels_reachable fs argv m t0 ht0 es2 t ht
  cases hd1 : s.thread_pool.dir_details with
  | mk l1 d1 =>
    cases hd2 : t.thread_pool.dir_details with
    | mk l2 d2 =>
      simp only [hd1, hd2] at h1 h2 h3 h4
      rw [h1, h2, h3, h4]

theorem totals_deterministic_witness :
    (state_at [some "r", some "f"] 2 [] [26, 8] 1 true [Worker.done, Worker.done]).thread_pool.dir_details =
      (state_at [some "r", some "f"] 1 [] [26, 8] 1 true [Worker.done]).thread_pool.dir_details :=
  totals_deterministic fs_example ["r", "f"] 3 (by decide) 2 1 (by decide) (by decide)
    (state_at [some "r", some "f"] 2 [some ⟨"f", 1⟩, some ⟨"r", 0⟩] [0, 0] 0 false [Worker.fetch, Worker.fetch])
    (state_at [some "r", some "f"] 1 [some ⟨"f", 1⟩, some ⟨"r", 0⟩] [0, 0] 0 false [Worker.fetch])
    (by decide) (by decide) schedule_rf (solo 23)
    (state_at [some "r", some "f"] 2 [] [26, 8] 1 true [Worker.done, Worker.done])
    (state_at [some "r", some "f"] 1 [] [26, 8] 1 true [Worker.done])
    (by decide) (by decide) (by decide) (by decide)

/-! ## Totals as sums of blocks -/

/-- C10. For a task whose path cannot be lstat-ed, calculate_directory_usage
returns failure and leaves the pool, every accumulator included, unchanged.
In a run, the worker that holds such a task moves to the report of the
failure with the shared state unchanged; its next transition leaves the exit
code of the pool at failure and the error flag set, changes neither the stack
nor any accumulator or label, and puts the worker back at the head of its
loop, from where it can move again. -/
theorem lstat_failure_contract (fs : Fs) (argv : List String) (n : Nat) (s0 : State)
    (h0 : initial fs argv n = some s0) (es : List Event) (s : State)
    (hrun : run fs s0 es = some s) (i : Nat) (t : Path)
    (hw : s.workers[i]? = some (Worker.start (some t)))
    (hl : fs.lstat t.path_name = none) (k1 k2 : Nat) :
    (∀ pool : ThreadPool, calculate_directory_usage fs pool t = (EXIT_FAILURE, pool)) ∧
      thread_worker_step fs s ⟨i, k1⟩ =
        some { s with workers := s.workers.set i (Worker.report t EXIT_FAILURE) } ∧
      ∃ s2,
        thread_worker_step fs { s with workers := s.workers.set i (Worker.report t EXIT_FAILURE) } ⟨i, k2⟩ =
            some s2 ∧
          s2.thread_pool.exit_code = EXIT_FAILURE ∧ s2.error_occurred = true ∧
          s2.thread_pool.stack = s.thread_pool.stack ∧
          s2.thread_pool.dir_details = s.thread_pool.dir_details ∧
          s2.workers = s.workers.set i Worker.fetch ∧
          ∃ k3 s3, thread_worker_step fs s2 ⟨i, k3⟩ = some s3 := by
  have hlt : i < s.workers.length := by
    by_contra hge
    rw [List.getElem?_eq_none (by omega)] at hw
    exact absurd hw (by simp)
  have hstep1 : thread_worker_step fs s ⟨i, k1⟩ =
      some { s with workers := s.workers.set i (Worker.report t EXIT_FAILURE) } := by
    simp [thread_worker_step, hw, begin_task, hl]
  have hflag := error_flag_reachable fs argv n s0 h0 es s hrun
  have hinv := protocol_reachable fs argv n s0 h0 es s hrun
  have hinv1 := protocol_step fs s ⟨i, k1⟩ _ (step_sound fs s ⟨i, k1⟩ _ hstep1) hinv
  have hw1 : (s.workers.set i (Worker.report t EXIT_FAILURE))[i]? =
      some (Worker.report t EXIT_FAILURE) := by
    simp [List.getElem?_set, hlt]
  have hmove : ∀ s2 : State, protocol_inv s2 → s2.workers = s.workers.set i Worker.fetch →
      ∃ k3 s3, thread_worker_step fs s2 ⟨i, k3⟩ = some s3 := by
    intro s2 hinv2 hws
    have hw2 : s2.workers[i]? = some Worker.fetch := by
      rw [hws]
      simp [List.getElem?_set, hlt]
    exact ⟨0, loop_head s2 i, by simp [thread_worker_step, hw2, hinv2.1]⟩
  refine ⟨fun pool => by simp [calculate_directory_usage, hl], hstep1, ?_⟩
  rcases Bool.eq_false_or_eq_true s.error_occurred with herr | herr
  · have hstep2 : thread_worker_step fs
        { s with workers := s.workers.set i (Worker.report t EXIT_FAILURE) } ⟨i, k2⟩ =
        some { s with workers := s.workers.set i Worker.fetch } := by
      simp only [thread_worker_step, hw1]
      simp [herr, List.set_set]
    refine ⟨_, hstep2, hflag herr, herr, rfl, rfl, rfl, ?_⟩
    exact hmove _ (protocol_step fs _ ⟨i, k2⟩ _ (step_sound fs _ ⟨i, k2⟩ _ hstep2) hinv1) rfl
  · have hstep2 : thread_worker_step fs
        { s with workers := s.workers.set i (Worker.report t EXIT_FAILURE) } ⟨i, k2⟩ =
        some { s with
          error_occurred := true
          thread_pool := { s.thread_pool with exit_code := EXIT_FAILURE }
          workers := s.workers.set i Worker.fetch } := by
      simp only [thread_worker_step, hw1]
      simp [herr, EXIT_FAILURE, List.set_set]
    refine ⟨_, hstep2, rfl, rfl, rfl, rfl, rfl, ?_⟩
    exact hmove _ (protocol_step fs _ ⟨i, k2⟩ _ (step_sound fs _ ⟨i, k2⟩ _ hstep2) hinv1) rfl

theorem lstat_failure_contract_witness :
    thread_worker_step fs_vanished
        (state_at [some "g"] 1 [] [0] 0 false [Worker.start (some ⟨"g", 0⟩)]) ⟨0, 0⟩ =
      some
        { state_at [some "g"] 1 [] [0] 0 false [Worker.start (some ⟨"g", 0⟩)] with
          workers :=
            (state_at [some "g"] 1 [] [0] 0 false
              [Worker.start (some ⟨"g", 0⟩)]).workers.set 0
              (Worker.report ⟨"g", 0⟩ EXIT_FAILURE) } :=
  (lstat_failure_contract fs_vanished ["g"] 1
    (state_at [some "g"] 1 [some ⟨"g", 0⟩] [0] 0 false [Worker.fetch]) (by decide)
    (solo 1) (state_at [some "g"] 1 [] [0] 0 false [Worker.start (some ⟨"g", 0⟩)])
    (by decide) 0 ⟨"g", 0⟩ (by decide) rfl 0 0).2.1

/-! ## The transitions of one task carry out calculate_directory_usage -/

theorem woken_only_refl (ws : List Worker) : woken_only ws ws := by
  intro j
  exact Or.inl rfl

theorem woken_only_trans (ws ws1 ws2 : List Worker) (h1 : woken_only ws ws1)
    (h2 : woken_only ws1 ws2) (hb : ∀ j : Nat, ws1[j]? = some Worker.blocked →
      ws[j]? = some Worker.blocked) : woken_only ws ws2 := by
  intro j
  rcases h2 j with h | ⟨ha, hc⟩
  · rw [h]
    exact h1 j
  · exact Or.inr ⟨hb j ha, hc⟩

theorem woken_only_blocked (ws ws1 : List Worker) (h : woken_only ws ws1) :
    ∀ j : Nat, ws1[j]? = some Worker.blocked → ws[j]? = some Worker.blocked := by
  intro j hj
  rcases h j with h | ⟨_, hc⟩
  · rw [← h]
    exact hj
  · rw [hj] at hc
    exact absurd hc (by simp)

theorem woken_only_set (ws ws1 : List Worker) (i : Nat) (w0 w : Worker)
    (hw : ws[i]? = some w0) (hne : w0 ≠ Worker.blocked) (h : woken_only ws ws1) :
    woken_only (ws.set i w) (ws1.set i w) := by
  intro j
  have hi : i < ws.length := by
    by_contra hge
    rw [List.getElem?_eq_none (by omega)] at hw
    exact absurd hw (by simp)
  have hw1 : ws1[i]? = some w0 := by
    rcases h i with h | ⟨ha, _⟩
    · rw [h]
      exact hw
    · rw [hw] at ha
      injection ha with ha
      exact absurd ha hne
  have hi1 : i < ws1.length := by
    by_contra hge
    rw [List.getElem?_eq_none (by omega)] at hw1
    exact absurd hw1 (by simp)
  by_cases hij : i = j
  · subst hij
    left
    simp [List.getElem?_set, hi, hi1]
  · rw [List.getElem?_set_ne hij, List.getElem?_set_ne hij]
    exact h j

theorem signal_woken_only (ws ws2 : List Worker) (k : Nat)
    (h : pthread_cond_signal ws k = some ws2) : woken_only ws ws2 := by
  rcases signal_cases ws ws2 k h with ⟨rfl, _⟩ | ⟨hk, rfl⟩
  · exact woken_only_refl _
  · intro j
    have hlt : k < ws.length := by
      by_contra hge
      rw [List.getElem?_eq_none (by omega)] at hk
      exact absurd hk (by simp)
    by_cases hkj : k = j
    · subst hkj
      right
      exact ⟨hk, by simp [List.getElem?_set, hlt]⟩
    · left
      rw [List.getElem?_set_ne hkj]

theorem solo_loop (fs : Fs) (i : Nat) (t : Path) :
    ∀ (rest : List String) (n : Int) (s : State),
      s.workers[i]? = some (Worker.loop t rest n) → s.stack_mut_held = false →
      ∃ es ws,
        (∀ e ∈ es, e.worker = i) ∧
          run fs s es =
            some { s with
              thread_pool :=
                (traverse_entries fs t.path_name t.path_id rest s.thread_pool n).2.1
              workers := ws } ∧
          ws[i]? = some (Worker.publish t
            (traverse_entries fs t.path_name t.path_id rest s.thread_pool n).2.2
            (traverse_entries fs t.path_name t.path_id rest s.thread_pool n).1) ∧
          woken_only (s.workers.set i
            (Worker.publish t
              (traverse_entries fs t.path_name t.path_id rest s.thread_pool n).2.2
              (traverse_entries fs t.path_name t.path_id rest s.thread_pool n).1)) ws
  | [], n, s, hw, hm => by
    have hi : i < s.workers.length := by
      by_contra hge
      rw [List.getElem?_eq_none (by omega)] at hw
      exact absurd hw (by simp)
    refine ⟨[⟨i, 0⟩], s.workers.set i (Worker.publish t n EXIT_SUCCESS), by simp, ?_, ?_,
      woken_only_refl _⟩
    · simp [run, thread_worker_step, hw, traverse_entries]
    · simp [List.getElem?_set, hi, traverse_entries]
  | d :: rest, n, s, hw, hm => by
    have hi : i < s.workers.length := by
      by_contra hge
      rw [List.getElem?_eq_none (by omega)] at hw
      exact absurd hw (by simp)
    cases hd : is_dot d with
    | true =>
      have hstep : thread_worker_step fs s ⟨i, 0⟩ =
          some { s with workers := s.workers.set i (Worker.loop t rest n) } := by
        simp [thread_worker_step, hw, hd]
      obtain ⟨es, ws, hes, hrun, hwi, hwo⟩ := solo_loop fs i t rest n
        { s with workers := s.workers.set i (Worker.loop t rest n) }
        (by simp [List.getElem?_set, hi]) hm
      refine ⟨⟨i, 0⟩ :: es, ws, by simpa using hes, ?_, ?_, ?_⟩
      · simp only [run, hstep]
        simpa [traverse_entries, hd] using hrun
      · simpa [traverse_entries, hd] using hwi
      · simpa [traverse_entries, hd, List.set_set] using hwo
    | false =>
      cases hl : fs.lstat (concatenate_dir_path t.path_name d) with
      | none =>
        refine ⟨[⟨i, 0⟩], s.workers.set i (Worker.publish t n EXIT_FAILURE), by simp, ?_, ?_,
          ?_⟩
        · simp [run, thread_worker_step, hw, hd, traverse_entries, process_path_entry, hl, EXIT_FAILURE]
        · simp [List.getElem?_set, hi, traverse_entries, hd, process_path_entry, hl,
            EXIT_FAILURE]
        · simpa [traverse_entries, hd, process_path_entry, hl, EXIT_FAILURE] using
            woken_only_refl _
      | some st =>
        cases hdir : st.is_dir with
        | false =>
          have hstep : thread_worker_step fs s ⟨i, 0⟩ =
              some { s with
                workers := s.workers.set i (Worker.loop t rest (n + st.st_blocks)) } := by
            simp [thread_worker_step, hw, hd, process_path_entry, hl, hdir, EXIT_SUCCESS]
          obtain ⟨es, ws, hes, hrun, hwi, hwo⟩ := solo_loop fs i t rest (n + st.st_blocks)
            { s with workers := s.workers.set i (Worker.loop t rest (n + st.st_blocks)) }
            (by simp [List.getElem?_set, hi]) hm
          refine ⟨⟨i, 0⟩ :: es, ws, by simpa using hes, ?_, ?_, ?_⟩
          · simp only [run, hstep]
            simpa [traverse_entries, hd, process_path_entry, hl, hdir, EXIT_SUCCESS] using hrun
          · simpa [traverse_entries, hd, process_path_entry, hl, hdir, EXIT_SUCCESS] using hwi
          · simpa [traverse_entries, hd, process_path_entry, hl, hdir, EXIT_SUCCESS,
              List.set_set] using hwo
        | true =>
          obtain ⟨k, hk⟩ := signal_total s.workers
          obtain ⟨ws2, hws2⟩ := Option.isSome_iff_exists.1 hk
          have hw2 := signal_getElem s.workers ws2 k i _ hws2 hw (by simp)
          have hi2 : i < ws2.length := by
            rw [signal_length _ _ _ hws2]
            exact hi
          have hstep : thread_worker_step fs s ⟨i, k⟩ =
              some { s with
                thread_pool :=
                  { s.thread_pool with
                    stack := ⟨some ⟨concatenate_dir_path t.path_name d, t.path_id⟩ ::
                      s.thread_pool.stack.top⟩ }
                workers := ws2.set i (Worker.loop t rest n) } := by
            simp [thread_worker_step, hw, hd, process_path_entry, hl, hdir, EXIT_SUCCESS, hm, hws2, push,
              create_path]
          obtain ⟨es, ws, hes, hrun, hwi, hwo⟩ := solo_loop fs i t rest n
            { s with
              thread_pool :=
                { s.thread_pool with
                  stack := ⟨some ⟨concatenate_dir_path t.path_name d, t.path_id⟩ ::
                    s.thread_pool.stack.top⟩ }
              workers := ws2.set i (Worker.loop t rest n) }
            (by simp [List.getElem?_set, hi2]) hm
          refine ⟨⟨i, k⟩ :: es, ws, by simpa using hes, ?_, ?_, ?_⟩
          · simp only [run, hstep]
            simpa [traverse_entries, hd, process_path_entry, hl, hdir, EXIT_SUCCESS, push,
              create_path] using hrun
          · simpa [traverse_entries, hd, process_path_entry, hl, hdir, EXIT_SUCCESS, push,
              create_path] using hwi
          · have h1 : woken_only (s.workers.set i (Worker.publish t
                (traverse_entries fs t.path_name t.path_id (d :: rest) s.thread_pool n).2.2
                (traverse_entries fs t.path_name t.path_id (d :: rest) s.thread_pool n).1))
                (ws2.set i (Worker.publish t
                (traverse_entries fs t.path_name t.path_id (d :: rest) s.thread_pool n).2.2
                (traverse_entries fs t.path_name t.path_id (d :: rest) s.thread_pool n).1)) :=
              woken_only_set _ _ i _ _ hw (by simp) (signal_woken_only _ _ _ hws2)
            have h2 : woken_only (ws2.set i (Worker.publish t
                (traverse_entries fs t.path_name t.path_id (d :: rest) s.thread_pool n).2.2
                (traverse_entries fs t.path_name t.path_id (d :: rest) s.thread_pool n).1))
                ws := by
              simpa [traverse_entries, hd, process_path_entry, hl, hdir, EXIT_SUCCESS, push,
                create_path, List.set_set] using hwo
            exact woken_only_trans _ _ _ h1 h2 (woken_only_blocked _ _ h1)

theorem traverse_entries_status (fs : Fs) (base : String) (id : Nat) :
    ∀ (entries : List String) (pool : ThreadPool) (n : Int),
      (if (traverse_entries fs base id entries pool n).1 != 0 then EXIT_FAILURE
        else EXIT_SUCCESS) = (traverse_entries fs base id entries pool n).1
  | [], pool, n => by simp [traverse_entries, EXIT_SUCCESS]
  | d :: rest, pool, n => by
    cases hd : is_dot d with
    | true => simpa [traverse_entries, hd] using traverse_entries_status fs base id rest pool n
    | false =>
      cases hl : fs.lstat (concatenate_dir_path base d) with
      | none => simp [traverse_entries, hd, process_path_entry, hl, EXIT_FAILURE]
      | some st =>
        cases hdir : st.is_dir with
        | false =>
          simpa [traverse_entries, hd, process_path_entry, hl, hdir, EXIT_SUCCESS] using
            traverse_entries_status fs base id rest pool (n + st.st_blocks)
        | true =>
          simpa [traverse_entries, hd, process_path_entry, hl, hdir, EXIT_SUCCESS] using
            traverse_entries_status fs base id rest _ n

theorem getElem_set_self {α : Type} (ws : List α) (i : Nat) (w : α) (hi : i < ws.length) :
    (ws.set i w)[i]? = some w := by
  simp [List.getElem?_set, hi]

theorem step_publish (fs : Fs) (s : State) (i k : Nat) (t : Path) (n code : Int)
    (hw : s.workers[i]? = some (Worker.publish t n code)) :
    thread_worker_step fs s ⟨i, k⟩ =
      some { s with
        thread_pool := update_directory_size s.thread_pool t n
        workers := s.workers.set i (Worker.report t code) } := by
  simp [thread_worker_step, hw]

/-- Run on its own from the moment it holds a task, a worker reaches the
report of that task after transitions of its own only, with the pool and the
status that calculate_directory_usage returns on the pool of the start; the
other workers are as they were, except that blocked ones may have been
woken. -/
theorem solo_task (fs : Fs) (s : State) (i : Nat) (t : Path)
    (hw : s.workers[i]? = some (Worker.start (some t))) (hm : s.stack_mut_held = false) :
    ∃ es ws,
      (∀ e ∈ es, e.worker = i) ∧
        run fs s es =
          some { s with
            thread_pool := (calculate_directory_usage fs s.thread_pool t).2
            workers := ws } ∧
        ws[i]? = some (Worker.report t (calculate_directory_usage fs s.thread_pool t).1) ∧
        woken_only
          (s.workers.set i (Worker.report t (calculate_directory_usage fs s.thread_pool t).1))
          ws := by
  have hi : i < s.workers.length := by
    by_contra hge
    rw [List.getElem?_eq_none (by omega)] at hw
    exact absurd hw (by simp)
  have hstep : thread_worker_step fs s ⟨i, 0⟩ =
      some { s with workers := s.workers.set i (begin_task fs t) } := by
    simp [thread_worker_step, hw]
  cases hl : fs.lstat t.path_name with
  | none =>
    have hb : begin_task fs t = Worker.report t EXIT_FAILURE := by simp [begin_task, hl]
    have hcalc : calculate_directory_usage fs s.thread_pool t =
        (EXIT_FAILURE, s.thread_pool) := by
      simp [calculate_directory_usage, hl]
    rw [hcalc]
    refine ⟨[⟨i, 0⟩], s.workers.set i (Worker.report t EXIT_FAILURE), by simp, ?_,
      getElem_set_self _ _ _ hi, woken_only_refl _⟩
    simp only [run, hstep, hb]
  | some st =>
    cases hdir : st.is_dir with
    | false =>
      have hb : begin_task fs t = Worker.publish t st.st_blocks EXIT_SUCCESS := by
        simp [begin_task, hl, hdir]
      have hcalc : calculate_directory_usage fs s.thread_pool t =
          (EXIT_SUCCESS, update_directory_size s.thread_pool t st.st_blocks) := by
        simp [calculate_directory_usage, hl, hdir]
      have hstep2 := step_publish fs
        { s with workers := s.workers.set i (Worker.publish t st.st_blocks EXIT_SUCCESS) }
        i 0 t st.st_blocks EXIT_SUCCESS (getElem_set_self _ _ _ hi)
      rw [hcalc]
      refine ⟨[⟨i, 0⟩, ⟨i, 0⟩], s.workers.set i (Worker.report t EXIT_SUCCESS), by simp, ?_,
        getElem_set_self _ _ _ hi, woken_only_refl _⟩
      simp only [run, hstep, hb, hstep2, List.set_set]
    | true =>
      cases hrd : fs.readdir t.path_name with
      | none =>
        have hb : begin_task fs t = Worker.publish t st.st_blocks EXIT_FAILURE := by
          simp [begin_task, hl, hdir, hrd]
        have hcalc : calculate_directory_usage fs s.thread_pool t =
            (EXIT_FAILURE, update_directory_size s.thread_pool t st.st_blocks) := by
          simp [calculate_directory_usage, hl, hdir, traverse_directory, hrd, EXIT_FAILURE]
        have hstep2 := step_publish fs
          { s with workers := s.workers.set i (Worker.publish t st.st_blocks EXIT_FAILURE) }
          i 0 t st.st_blocks EXIT_FAILURE (getElem_set_self _ _ _ hi)
        rw [hcalc]
        refine ⟨[⟨i, 0⟩, ⟨i, 0⟩], s.workers.set i (Worker.report t EXIT_FAILURE), by simp, ?_,
          getElem_set_self _ _ _ hi, woken_only_refl _⟩
        simp only [run, hstep, hb, hstep2, List.set_set]
      | some entries =>
        have hbegin : begin_task fs t = Worker.loop t entries st.st_blocks := by
          simp [begin_task, hl, hdir, hrd]
        obtain ⟨es, ws, hes, hrun, hwi, hwo⟩ := solo_loop fs i t entries st.st_blocks
          { s with workers := s.workers.set i (Worker.loop t entries st.st_blocks) }
          (getElem_set_self _ _ _ hi) hm
        dsimp only at hrun hwi hwo
        have hcalc : calculate_directory_usage fs s.thread_pool t =
            ((traverse_entries fs t.path_name t.path_id entries s.thread_pool st.st_blocks).1,
              update_directory_size
                (traverse_entries fs t.path_name t.path_id entries s.thread_pool
                  st.st_blocks).2.1 t
                (traverse_entries fs t.path_name t.path_id entries s.thread_pool
                  st.st_blocks).2.2) := by
          simp only [calculate_directory_usage, hl, hdir, if_true, traverse_directory, hrd,
            traverse_entries_status]
        have hi2 : i < ws.length := by
          by_contra hge
          rw [List.getElem?_eq_none (by omega)] at hwi
          exact absurd hwi (by simp)
        have hstep2 := step_publish fs
          { s with
            thread_pool :=
              (traverse_entries fs t.path_name t.path_id entries s.thread_pool
                st.st_blocks).2.1
            workers := ws } i 0 t _ _ hwi
        rw [hcalc]
        refine ⟨(⟨i, 0⟩ :: es) ++ [⟨i, 0⟩],
          ws.set i (Worker.report t
            (traverse_entries fs t.path_name t.path_id entries s.thread_pool st.st_blocks).1),
          ?_, ?_, getElem_set_self _ _ _ hi2, ?_⟩
        · intro e he
          simp only [List.cons_append, List.mem_cons, List.mem_append,
            List.mem_singleton, List.not_mem_nil, or_false] at he
          rcases he with rfl | he | rfl
          · rfl
          · exact hes e he
          · rfl
        · rw [run_append]
          simp only [run, hstep, hbegin]
          rw [hrun]
          simp only [Option.some_bind, run, hstep2]
        · have := woken_only_set _ ws i
            (Worker.publish t
              (traverse_entries fs t.path_name t.path_id entries s.thread_pool
                st.st_blocks).2.2
              (traverse_entries fs t.path_name t.path_id entries s.thread_pool
                st.st_blocks).1)
            (Worker.report t
              (traverse_entries fs t.path_name t.path_id entries s.thread_pool
                st.st_blocks).1)
            (by simp [List.getElem?_set, hi]) (by simp) hwo
          simpa [List.set_set] using this

/-! ## The accumulator add -/

theorem getD_set_other (ds : List Int) (i r : Nat) (x : Int) (h : r ≠ i) :
    (ds.set i x).getD r 0 = ds.getD r 0 := by
  simp only [List.getD_eq_getElem?_getD]
  rw [List.getElem?_set_ne (Ne.symm h)]

theorem long_wrap_of_range (n : Int) (h1 : LONG_MIN ≤ n) (h2 : n ≤ LONG_MAX) :
    long_wrap n = n := by
  unfold long_wrap
  unfold LONG_MIN at h1
  unfold LONG_MAX at h2
  omega

theorem long_wrap_range (n : Int) : LONG_MIN ≤ long_wrap n ∧ long_wrap n ≤ LONG_MAX := by
  unfold long_wrap LONG_MIN LONG_MAX
  omega

theorem update_directory_size_long_eq (pool : ThreadPool) (t : Path) (n : Int)
    (h1 : LONG_MIN ≤ pool.dir_details.dir_size.getD t.path_id 0 + n)
    (h2 : pool.dir_details.dir_size.getD t.path_id 0 + n ≤ LONG_MAX) :
    update_directory_size_long pool t n = update_directory_size pool t n := by
  unfold update_directory_size_long update_directory_size
  rw [long_wrap_of_range _ h1 h2]

theorem getD_set_self_int (ds : List Int) (i : Nat) (x : Int) (hi : i < ds.length) :
    (ds.set i x).getD i 0 = x := by
  simp [List.getD_eq_getElem?_getD, List.getElem?_set, hi]

/-- C20 (as amended). update_directory_size with a task of a root `r` in range
and an amount `n` changes the accumulator of `r` to the `long` sum of its old
value and `n`: the old value plus exactly `n` when that sum is inside
`LONG_MIN..LONG_MAX`, and the sum wrapped round into that range otherwise.  It
leaves the accumulator of every other root, the number of accumulators, every
label, the task stack and the exit code unchanged; the transition of a worker
that calls it changes the pool in this way only and leaves `error_occurred`
and the protocol variables unchanged. -/
theorem update_directory_size_frame (pool : ThreadPool) (t : Path) (n : Int)
    (hr : t.path_id < pool.dir_details.dir_size.length) :
    (update_directory_size_long pool t n).dir_details.dir_size.getD t.path_id 0 =
        long_wrap (pool.dir_details.dir_size.getD t.path_id 0 + n) ∧
      (LONG_MIN ≤ pool.dir_details.dir_size.getD t.path_id 0 + n →
        pool.dir_details.dir_size.getD t.path_id 0 + n ≤ LONG_MAX →
        (update_directory_size_long pool t n).dir_details.dir_size.getD t.path_id 0 =
            pool.dir_details.dir_size.getD t.path_id 0 + n ∧
          update_directory_size_long pool t n = update_directory_size pool t n) ∧
      (∀ r, r ≠ t.path_id →
        (update_directory_size_long pool t n).dir_details.dir_size.getD r 0 =
          pool.dir_details.dir_size.getD r 0) ∧
      (update_directory_size_long pool t n).dir_details.dir_size.length =
        pool.dir_details.dir_size.length ∧
      (update_directory_size_long pool t n).dir_details.path_identity =
        pool.dir_details.path_identity ∧
      (update_directory_size_long pool t n).stack = pool.stack ∧
      (update_directory_size_long pool t n).exit_code = pool.exit_code ∧
      (update_directory_size_long pool t n).path_num = pool.path_num ∧
      (update_directory_size_long pool t n).num_threads = pool.num_threads ∧
      ∀ (fs : Fs) (s : State) (i k : Nat) (code : Int), s.thread_pool = pool →
        s.workers[i]? = some (Worker.publish t n code) →
        thread_worker_step_long fs s ⟨i, k⟩ =
          some { s with
            thread_pool := update_directory_size_long pool t n
            workers := s.workers.set i (Worker.report t code) } := by
  have hself : (update_directory_size_long pool t n).dir_details.dir_size.getD t.path_id 0 =
      long_wrap (pool.dir_details.dir_size.getD t.path_id 0 + n) :=
    getD_set_self_int _ _ _ hr
  refine ⟨hself, ?_, ?_, ?_, rfl, rfl, rfl, rfl, rfl, ?_⟩
  · intro h1 h2
    refine ⟨?_, update_directory_size_long_eq pool t n h1 h2⟩
    rw [hself, long_wrap_of_range _ h1 h2]
  · intro r hne
    exact getD_set_other _ _ _ _ hne
  · simp [update_directory_size_long]
  · intro fs s i k code hp hw
    rw [← hp]
    simp [thread_worker_step_long, hw]

theorem update_directory_size_frame_witness :
    (update_directory_size_long (init_ThreadPool 2 1) ⟨"f", 1⟩ 8).dir_details.dir_size.getD 1 0 =
        (init_ThreadPool 2 1).dir_details.dir_size.getD 1 0 + 8 ∧
      update_directory_size_long (init_ThreadPool 2 1) ⟨"f", 1⟩ 8 =
        update_directory_size (init_ThreadPool 2 1) ⟨"f", 1⟩ 8 :=
  (update_directory_size_frame (init_ThreadPool 2 1) ⟨"f", 1⟩ 8 (by decide)).2.1
    (by decide) (by decide)

/-- C20 as stated fails on an accumulator that holds LONG_MAX and the amount
1: the accumulator becomes LONG_MIN, not LONG_MAX + 1. -/
theorem update_directory_size_frame_counterexample :
    (update_directory_size_long (init_ThreadPool 1 1) ⟨"q", 0⟩
        9223372036854775807).dir_details.dir_size = [9223372036854775807] ∧
      (update_directory_size_long
        (update_directory_size_long (init_ThreadPool 1 1) ⟨"q", 0⟩ 9223372036854775807)
        ⟨"q", 0⟩ 1).dir_details.dir_size = [-9223372036854775808] ∧
      (-9223372036854775808 : Int) ≠ 9223372036854775807 + 1 := by
  decide

/-! ## Seeding and printing -/

theorem seeds_all (fs : Fs) : ∀ (args : List String) (i : Nat),
    (∀ a ∈ args, fs.stat_ok a = true) →
      seeds fs args i =
        List.zipWith (fun a j => some (create_path a j)) args (List.range' i args.length)
  | [], _, _ => by simp [seeds]
  | a :: args, i, h => by
    have ha : fs.stat_ok a = true := h a (by simp)
    have ih := seeds_all fs args (i + 1) (fun b hb => h b (by simp [hb]))
    simp only [seeds, ha, if_true, ih, List.length_cons, List.range'_succ,
      List.zipWith_cons_cons, create_path]

theorem set_append_length {α : Type} (pre : List α) (x y : α) (tl : List α) :
    (pre ++ x :: tl).set pre.length y = pre ++ y :: tl := by
  induction pre with
  | nil => rfl
  | cons p pre ih => simp [ih]

theorem labelled_all (fs : Fs) : ∀ (args : List String) (i : Nat) (pre : List (Option String)),
    (∀ a ∈ args, fs.stat_ok a = true) → pre.length = i →
      labelled fs args i (pre ++ List.replicate args.length none) = pre ++ args.map some
  | [], _, pre, _, _ => by simp [labelled]
  | a :: args, i, pre, h, hp => by
    have ha : fs.stat_ok a = true := h a (by simp)
    have ih := labelled_all fs args (i + 1) (pre ++ [some a])
      (fun b hb => h b (by simp [hb])) (by simp [hp])
    subst hp
    simp only [labelled, ha, if_true, List.length_cons, List.replicate_succ,
      set_append_length, List.map_cons]
    simpa using ih

theorem labels_all (fs : Fs) (argv : List String) (hex : ∀ a ∈ argv, fs.stat_ok a = true) :
    labelled fs argv 0 (List.replicate argv.length none) = argv.map some := by
  simpa using labelled_all fs argv 0 [] hex rfl

/-- C16. After initialize_paths over a non-empty list of roots whose stat
succeeds, on the pool init_ThreadPool made: the stack holds exactly one task
per root, the task of the root of index `i` (from 0) being that root string
with `path_id` `i`; read from the top the tasks are in decreasing index order
(they were pushed in index order, the last root is on top); the label of
index `i` is the same root string; the accumulators are still zero and the
exit code is EXIT_SUCCESS. -/
theorem seeding_contract (fs : Fs) (argv : List String) (n : Nat) (hne : argv ≠ [])
    (hex : ∀ a ∈ argv, fs.stat_ok a = true) :
    ∃ pool, initialize_paths fs argv (init_ThreadPool argv.length n) = some pool ∧
      pool.stack.top =
        (List.zipWith (fun a i => some (create_path a i)) argv
          (List.range argv.length)).reverse ∧
      pool.stack.top.length = argv.length ∧
      pool.dir_details.path_identity = argv.map some ∧
      pool.dir_details.dir_size = List.replicate argv.length 0 ∧
      pool.exit_code = EXIT_SUCCESS ∧ pool.path_num = argv.length ∧
      pool.num_threads = n := by
  have hs := seeds_all fs argv 0 hex
  rw [← List.range_eq_range'] at hs
  have hl := labels_all fs argv hex
  have hlen : (seeds fs argv 0).length = argv.length := by
    rw [hs]
    simp
  have hloop := initialize_paths_loop_spec fs argv 0 (init_ThreadPool argv.length n)
  have hnonempty : is_empty (initialize_paths_loop fs argv 0
      (init_ThreadPool argv.length n)).stack = false := by
    rw [hloop]
    cases hsd : seeds fs argv 0 with
    | nil =>
      rw [hsd] at hlen
      exact absurd (List.length_eq_zero.mp hlen.symm) hne
    | cons o os => simp [is_empty]
  refine ⟨initialize_paths_loop fs argv 0 (init_ThreadPool argv.length n), ?_, ?_, ?_, ?_, ?_,
    ?_, ?_, ?_⟩
  · simp [initialize_paths, hnonempty]
  · rw [hloop, ← hs]
    simp [init_ThreadPool, create_stack]
  · rw [hloop]
    simp [init_ThreadPool, create_stack, hlen]
  · rw [hloop]
    simpa [init_ThreadPool] using hl
  · rw [hloop]
    simp [init_ThreadPool]
  · rw [hloop]
    simp [init_ThreadPool]
  · rw [hloop]
    simp [init_ThreadPool]
  · rw [hloop]
    simp [init_ThreadPool]

theorem seeding_contract_witness :
    (initialize_paths fs_example ["r", "f"] (init_ThreadPool 2 2)).map
        (fun pool => (pool.stack.top, pool.dir_details.path_identity)) =
      some ([some ⟨"f", 1⟩, some ⟨"r", 0⟩], [some "r", some "f"]) := by
  obtain ⟨pool, h1, h2, _, h3, _⟩ :=
    seeding_contract fs_example ["r", "f"] 2 (by decide) (by decide)
  have h4 : initialize_paths fs_example ["r", "f"] (init_ThreadPool 2 2) = some pool := h1
  rw [h4, Option.map_some', h2, h3]
  decide

theorem sizes_length_step (fs : Fs) (s : State) (e : Event) (s1 : State)
    (h : Step fs s e s1) :
    s1.thread_pool.dir_details.dir_size.length = s.thread_pool.dir_details.dir_size.length := by
  cases h <;> simp [update_directory_size]

theorem sizes_length_reachable (fs : Fs) (argv : List String) (n : Nat) (s0 : State)
    (h0 : initial fs argv n = some s0) (es : List Event) (s : State)
    (hrun : run fs s0 es = some s) :
    s.thread_pool.dir_details.dir_size.length = argv.length ∧
      s.thread_pool.path_num = argv.length := by
  have h1 := run_invariant fs
    (fun s => s.thread_pool.dir_details.dir_size.length =
        s0.thread_pool.dir_details.dir_size.length ∧
      s.thread_pool.path_num = s0.thread_pool.path_num)
    (fun s e s1 hP hs => ⟨(sizes_length_step fs s e s1 hs).trans hP.1,
      (num_threads_step fs s e s1 hs).2.1.trans hP.2⟩) es s0 s ⟨rfl, rfl⟩ hrun
  rw [initial_spec fs argv n s0 h0] at h1
  simpa using h1

theorem filterMap_eq_map_of {α β : Type} (f : α → Option β) (g : α → β) :
    ∀ l : List α, (∀ x ∈ l, f x = some (g x)) → l.filterMap f = l.map g
  | [], _ => rfl
  | x :: l, h => by
    rw [List.filterMap_cons, h x (by simp),
      filterMap_eq_map_of f g l (fun y hy => h y (by simp [hy]))]
    rfl

theorem print_all_labelled (pool : ThreadPool) (labels : List String)
    (hl : pool.dir_details.path_identity = labels.map some)
    (hn : pool.path_num = labels.length)
    (hd : pool.dir_details.dir_size.length = labels.length) :
    print_total_size pool = pool.dir_details.dir_size.zip labels := by
  unfold print_total_size
  rw [filterMap_eq_map_of _
    (fun i => (pool.dir_details.dir_size.getD i 0, labels.getD i ""))]
  · apply List.ext_getElem?
    intro i
    by_cases hi : i < labels.length
    · have h1 : pool.dir_details.dir_size[i]? = some (pool.dir_details.dir_size.getD i 0) := by
        rw [List.getD_eq_getElem?_getD, List.getElem?_eq_getElem (by omega)]
        rfl
      have h2 : labels[i]? = some (labels.getD i "") := by
        rw [List.getD_eq_getElem?_getD, List.getElem?_eq_getElem hi]
        rfl
      rw [List.getElem?_map, List.getElem?_range (by omega)]
      exact (List.getElem?_zip_eq_some.mpr ⟨h1, h2⟩).symm
    · rw [List.getElem?_eq_none (by simp; omega), List.getElem?_eq_none (by simp; omega)]
  · intro i hi
    have hi2 : i < labels.length := by
      rw [List.mem_range] at hi
      omega
    rw [hl]
    simp [List.getD_eq_getElem?_getD, List.getElem?_eq_getElem hi2]

/-- C15. For roots whose stat all succeed, in every state of a run (so at its
end, when main calls print_total_size): print_total_size prints exactly one
line per root, in the order the roots were given; the line of the root of
index `i` carries the accumulator of index `i` and the root string exactly as
given. -/
theorem reported_pairs (fs : Fs) (argv : List String) (n : Nat) (s0 : State)
    (h0 : initial fs argv n = some s0) (es : List Event) (s : State)
    (hrun : run fs s0 es = some s) (hex : ∀ a ∈ argv, fs.stat_ok a = true) :
    print_total_size s.thread_pool = s.thread_pool.dir_details.dir_size.zip argv ∧
      (print_total_size s.thread_pool).length = argv.length ∧
      (print_total_size s.thread_pool).map Prod.snd = argv ∧
      (print_total_size s.thread_pool).map Prod.fst = s.thread_pool.dir_details.dir_size := by
  have hlen := sizes_length_reachable fs argv n s0 h0 es s hrun
  have hlab := labels_reachable fs argv n s0 h0 es s hrun
  rw [labels_all fs argv hex] at hlab
  have hp := print_all_labelled s.thread_pool argv hlab hlen.2 hlen.1
  rw [hp]
  refine ⟨rfl, by simp [hlen.1], ?_, ?_⟩
  · rw [← List.unzip_snd, List.unzip_zip hlen.1]
  · rw [← List.unzip_fst, List.unzip_zip hlen.1]

theorem reported_pairs_witness :
    print_total_size
        (state_at [some "r", some "f"] 2 [] [26, 8] 1 true
          [Worker.done, Worker.done]).thread_pool =
      [(26, "r"), (8, "f")] :=
  (reported_pairs fs_example ["r", "f"] 2
    (state_at [some "r", some "f"] 2 [some ⟨"f", 1⟩, some ⟨"r", 0⟩] [0, 0] 0 false
      [Worker.fetch, Worker.fetch])
    (by decide) schedule_rf
    (state_at [some "r", some "f"] 2 [] [26, 8] 1 true [Worker.done, Worker.done])
    (by decide) (by decide)).1

/-! ## Accumulators only grow -/

theorem getD_set_add_le (ds : List Int) (i r : Nat) (n : Int) (hn : 0 ≤ n) :
    ds.getD r 0 ≤ (ds.set i (ds.getD i 0 + n)).getD r 0 := by
  by_cases hi : i < ds.length
  · rw [getD_set_add ds i r n hi]
    split <;> omega
  · rw [List.set_eq_of_length_le (by omega)]

theorem process_path_entry_sizes (fs : Fs) (p : String) (id : Nat) (pool : ThreadPool)
    (n : Int) :
    (process_path_entry fs p id pool n).thread_pool.dir_details = pool.dir_details := by
  unfold process_path_entry
  split
  · rfl
  · split <;> rfl

theorem process_path_entry_nonneg (fs : Fs)
    (hpos : ∀ p st, fs.lstat p = some st → 0 ≤ st.st_blocks)
    (p : String) (id : Nat) (pool : ThreadPool) (n : Int) (hn : 0 ≤ n) :
    0 ≤ (process_path_entry fs p id pool n).directory_size := by
  unfold process_path_entry
  split
  · exact hn
  · rename_i st hl
    have := hpos p st hl
    split
    · show 0 ≤ n + st.st_blocks
      omega
    · exact hn

theorem traverse_entries_nonneg (fs : Fs)
    (hpos : ∀ p st, fs.lstat p = some st → 0 ≤ st.st_blocks) (base : String) (id : Nat) :
    ∀ (entries : List String) (pool : ThreadPool) (n : Int), 0 ≤ n →
      0 ≤ (traverse_entries fs base id entries pool n).2.2 ∧
        (traverse_entries fs base id entries pool n).2.1.dir_details = pool.dir_details
  | [], pool, n, hn => ⟨hn, rfl⟩
  | d :: rest, pool, n, hn => by
    unfold traverse_entries
    split
    · exact traverse_entries_nonneg fs hpos base id rest pool n hn
    · have h1 := process_path_entry_nonneg fs hpos (concatenate_dir_path base d) id pool n hn
      have h2 := process_path_entry_sizes fs (concatenate_dir_path base d) id pool n
      dsimp only
      split
      · exact ⟨h1, h2⟩
      · have ih := traverse_entries_nonneg fs hpos base id rest
          (process_path_entry fs (concatenate_dir_path base d) id pool n).thread_pool
          (process_path_entry fs (concatenate_dir_path base d) id pool n).directory_size h1
        exact ⟨ih.1, ih.2.trans h2⟩

theorem calculate_directory_usage_le (fs : Fs)
    (hpos : ∀ p st, fs.lstat p = some st → 0 ≤ st.st_blocks) (pool : ThreadPool) (t : Path)
    (r : Nat) :
    pool.dir_details.dir_size.getD r 0 ≤
      (calculate_directory_usage fs pool t).2.dir_details.dir_size.getD r 0 := by
  unfold calculate_directory_usage
  dsimp only
  split
  · exact le_refl _
  · rename_i st hl
    have hst := hpos _ st hl
    split
    · unfold traverse_directory
      cases hrd : fs.readdir t.path_name with
      | none => exact getD_set_add_le _ _ _ _ hst
      | some entries =>
        have h := traverse_entries_nonneg fs hpos t.path_name t.path_id entries pool
          st.st_blocks hst
        simp only [update_directory_size, h.2]
        exact getD_set_add_le _ _ _ _ h.1
    · exact getD_set_add_le _ _ _ _ hst

theorem nonneg_begin_task (fs : Fs) (hpos : ∀ p st, fs.lstat p = some st → 0 ≤ st.st_blocks)
    (t : Path) : nonneg_worker (begin_task fs t) := by
  unfold begin_task
  split
  · trivial
  · rename_i st hl
    have := hpos _ st hl
    split
    · split <;> exact this
    · exact this

theorem nonneg_set (ws : List Worker) (i : Nat) (w : Worker) (hw : nonneg_worker w)
    (h : ∀ x ∈ ws, nonneg_worker x) : ∀ x ∈ ws.set i w, nonneg_worker x := by
  intro x hx
  rcases List.mem_or_eq_of_mem_set hx with hx | rfl
  · exact h x hx
  · exact hw

theorem nonneg_step (fs : Fs) (hpos : ∀ p st, fs.lstat p = some st → 0 ≤ st.st_blocks)
    (s : State) (e : Event) (s1 : State) (h : Step fs s e s1)
    (hs : ∀ w ∈ s.workers, nonneg_worker w) : ∀ w ∈ s1.workers, nonneg_worker w := by
  cases h with
  | stuck hw => exact nonneg_set _ _ _ trivial hs
  | leave hw => exact nonneg_set _ _ _ trivial hs
  | finish w0 k hw =>
    refine nonneg_set _ _ _ trivial ?_
    intro x hx
    rcases broadcast_mem s.workers x hx with hx | rfl
    · exact hs x hx
    · trivial
  | block w0 k hw => exact nonneg_set _ _ _ trivial hs
  | take w0 k o rest hw => exact nonneg_set _ _ _ trivial hs
  | begin t hw => exact nonneg_set _ _ _ (nonneg_begin_task fs hpos t) hs
  | loop_end t n hw =>
    have h1 : 0 ≤ n := hs _ (mem_of_getElem _ _ _ hw)
    exact nonneg_set _ _ _ h1 hs
  | loop_dot t d rest n hw =>
    have h1 : 0 ≤ n := hs _ (mem_of_getElem _ _ _ hw)
    exact nonneg_set _ _ _ h1 hs
  | loop_fail t d rest n hw =>
    have h1 : 0 ≤ n := hs _ (mem_of_getElem _ _ _ hw)
    exact nonneg_set _ _ _ h1 hs
  | loop_file t d rest n st hw hd hl hdir =>
    have h1 : 0 ≤ n := hs _ (mem_of_getElem _ _ _ hw)
    have h2 := hpos _ st hl
    refine nonneg_set _ _ _ ?_ hs
    show 0 ≤ n + st.st_blocks
    omega
  | loop_dir t d rest n st ws hw hd hl hdir hm hsig =>
    have h1 : 0 ≤ n := hs _ (mem_of_getElem _ _ _ hw)
    refine nonneg_set _ _ _ h1 ?_
    intro x hx
    rcases signal_mem s.workers ws e.wake hsig x hx with hx | rfl
    · exact hs x hx
    · trivial
  | publish t n code hw => exact nonneg_set _ _ _ trivial hs
  | report_first t status hw => exact nonneg_set _ _ _ trivial hs
  | report_other t status hw => exact nonneg_set _ _ _ trivial hs

theorem sizes_mono_step (fs : Fs) (s : State) (e : Event) (s1 : State) (h : Step fs s e s1)
    (hs : ∀ w ∈ s.workers, nonneg_worker w) (r : Nat) :
    s.thread_pool.dir_details.dir_size.getD r 0 ≤
      s1.thread_pool.dir_details.dir_size.getD r 0 := by
  cases h with
  | publish t n code hw =>
    have h1 : 0 ≤ n := hs _ (mem_of_getElem _ _ _ hw)
    exact getD_set_add_le _ _ _ _ h1
  | _ => exact le_refl _

theorem fs_example_nonneg : ∀ p st, fs_example.lstat p = some st → 0 ≤ st.st_blocks := by
  intro p st h
  simp only [fs_example] at h
  repeat' split at h
  all_goals first
    | (injection h with h; subst h; decide)
    | exact absurd h (by simp)

/-- Along every run, from any state reached to any state reached later, no
accumulator decreases, when the sums are exact and the block counts are not
negative. -/
theorem sizes_monotone_run (fs : Fs)
    (hpos : ∀ p st, fs.lstat p = some st → 0 ≤ st.st_blocks)
    (argv : List String) (n : Nat) (s0 : State) (h0 : initial fs argv n = some s0) :
    (∀ r, s0.thread_pool.dir_details.dir_size.getD r 0 = 0) ∧
      ∀ es s, run fs s0 es = some s → (∀ w ∈ s.workers, nonneg_worker w) ∧
        ∀ es2 s2, run fs s es2 = some s2 →
          ∀ r, 0 ≤ s.thread_pool.dir_details.dir_size.getD r 0 ∧
            s.thread_pool.dir_details.dir_size.getD r 0 ≤
              s2.thread_pool.dir_details.dir_size.getD r 0 := by
  have hzero : ∀ (k r : Nat), (List.replicate k (0 : Int)).getD r 0 = 0 := by
    intro k r
    simp only [List.getD_eq_getElem?_getD, List.getElem?_replicate]
    split <;> rfl
  have hs0 : ∀ r, s0.thread_pool.dir_details.dir_size.getD r 0 = 0 := by
    intro r
    rw [initial_spec fs argv n s0 h0]
    exact hzero argv.length r
  have hn0 : ∀ w ∈ s0.workers, nonneg_worker w := by
    rw [initial_spec fs argv n s0 h0]
    intro w hw
    rw [List.eq_of_mem_replicate hw]
    trivial
  have hmono : ∀ (s : State), (∀ w ∈ s.workers, nonneg_worker w) → ∀ es2 s2,
      run fs s es2 = some s2 → (∀ w ∈ s2.workers, nonneg_worker w) ∧
        ∀ r, s.thread_pool.dir_details.dir_size.getD r 0 ≤
          s2.thread_pool.dir_details.dir_size.getD r 0 := by
    intro s hs es2 s2 h2
    exact run_invariant fs
      (fun x => (∀ w ∈ x.workers, nonneg_worker w) ∧
        ∀ r, s.thread_pool.dir_details.dir_size.getD r 0 ≤
          x.thread_pool.dir_details.dir_size.getD r 0)
      (fun x e x1 hP hst => ⟨nonneg_step fs hpos x e x1 hst hP.1,
        fun r => le_trans (hP.2 r) (sizes_mono_step fs x e x1 hst hP.1 r)⟩)
      es2 s s2 ⟨hs, fun r => le_refl _⟩ h2
  refine ⟨hs0, ?_⟩
  intro es s hrun
  have h1 := hmono s0 hn0 es s hrun
  refine ⟨h1.1, ?_⟩
  intro es2 s2 hrun2 r
  have h2 := hmono s h1.1 es2 s2 hrun2
  refine ⟨?_, h2.2 r⟩
  have := h1.2 r
  rw [hs0 r] at this
  exact this

/-! ## The count of waiting workers -/

theorem waiters_done : ∀ ws : List Worker, Worker.done ∈ ws → waiters ws + 1 ≤ ws.length
  | [], h => by simp at h
  | x :: xs, h => by
    have hx := waiting_mark_bounds x
    have hxs := waiters_le_length xs
    simp only [waiters, List.map_cons, List.sum_cons, List.length_cons] at hxs ⊢
    push_cast
    rcases List.mem_cons.mp h with h | h
    · have h0 : waiting_mark x = 0 := by rw [← h]; rfl
      omega
    · have ih := waiters_done xs h
      simp only [waiters] at ih
      omega

theorem waiters_broadcast (ws : List Worker) : waiters (pthread_cond_broadcast ws) = waiters ws :=
  broadcast_sum_int waiting_mark rfl ws

theorem latched_step (fs : Fs) (s : State) (e : Event) (s1 : State) (h : Step fs s e s1)
    (hinv : protocol_inv s) (hl : latched_inv s) : latched_inv s1 := by
  intro hf1
  have hno : ∀ w, s.workers[e.worker]? = some w → s.work_finished = true →
      w = Worker.woken ∨ w = Worker.done :=
    fun w hw hf => (hinv.2.2.2 hf).2 w (mem_of_getElem _ _ _ hw)
  cases h with
  | stuck hw hm hf => rcases hno _ hw hf with h | h <;> cases h
  | leave hw hm hf =>
    have h1 := hl hf
    have hlen : e.worker < s.workers.length := by
      rcases Nat.lt_or_ge e.worker s.workers.length with h | h
      · exact h
      · rw [List.getElem?_eq_none h] at hw
        cases hw
    refine ⟨?_, mem_of_getElem _ e.worker _ (getElem_set_self _ _ _ hlen)⟩
    show s.waiting_threads_count - 1 = waiters (s.workers.set e.worker Worker.done) + 1
    rw [waiters_set s.workers e.worker Worker.woken Worker.done hw, h1.1]
    simp [waiting_mark]
  | finish w0 k hw hk hm hf htop hN =>
    have hc := (hinv.2.2.1 hf).1
    have hb : w0 ≠ Worker.blocked := by
      rcases hk with ⟨rfl, _⟩ | ⟨rfl, _⟩ <;> simp
    have hw2 := broadcast_getElem s.workers e.worker w0 hw hb
    have hlen : e.worker < (pthread_cond_broadcast s.workers).length := by
      rcases Nat.lt_or_ge e.worker (pthread_cond_broadcast s.workers).length with h | h
      · exact h
      · rw [List.getElem?_eq_none h] at hw2
        cases hw2
    refine ⟨?_, mem_of_getElem _ e.worker _ (getElem_set_self _ _ _ hlen)⟩
    show k + 1 = waiters ((pthread_cond_broadcast s.workers).set e.worker Worker.done) + 1
    rw [waiters_set _ e.worker w0 Worker.done hw2, waiters_broadcast, ← hc]
    rcases hk with ⟨rfl, rfl⟩ | ⟨rfl, rfl⟩ <;> simp [waiting_mark]
  | block w0 k hw hk hm hf htop hN => exact absurd hf1 (by simp [hf])
  | take w0 k o rest hw hk hm hf htop => exact absurd hf1 (by simp [hf])
  | begin t hw => rcases hno _ hw hf1 with h | h <;> cases h
  | loop_end t n hw => rcases hno _ hw hf1 with h | h <;> cases h
  | loop_dot t d rest n hw hd => rcases hno _ hw hf1 with h | h <;> cases h
  | loop_fail t d rest n hw hd hl => rcases hno _ hw hf1 with h | h <;> cases h
  | loop_file t d rest n st hw hd hl hdir => rcases hno _ hw hf1 with h | h <;> cases h
  | loop_dir t d rest n st ws hw hd hl hdir hm hsig =>
    rcases hno _ hw hf1 with h | h <;> cases h
  | publish t n code hw => rcases hno _ hw hf1 with h | h <;> cases h
  | report_first t status hw hst herr => rcases hno _ hw hf1 with h | h <;> cases h
  | report_other t status hw hc => rcases hno _ hw hf1 with h | h <;> cases h

theorem latched_reachable (fs : Fs) (argv : List String) (n : Nat) (s0 : State)
    (h0 : initial fs argv n = some s0) (es : List Event) (s : State)
    (hrun : run fs s0 es = some s) : protocol_inv s ∧ latched_inv s := by
  refine run_invariant fs (fun s => protocol_inv s ∧ latched_inv s)
    (fun s e s1 hP hs => ⟨protocol_step fs s e s1 hs hP.1, latched_step fs s e s1 hs hP.1 hP.2⟩)
    es s0 s ⟨protocol_initial fs argv n s0 h0, ?_⟩ hrun
  rw [initial_spec fs argv n s0 h0]
  intro hf
  simp at hf

theorem count_step (fs : Fs) (s : State) (e : Event) (s1 : State) (h : Step fs s e s1) :
    s1.waiting_threads_count =
      s.waiting_threads_count -
          (if s.workers[e.worker]? = some Worker.woken then 1 else 0) +
        (if (s.workers[e.worker]? = some Worker.fetch ∨
              s.workers[e.worker]? = some Worker.woken) ∧
            s.work_finished = false ∧ s.thread_pool.stack.top = [] then 1 else 0) := by
  cases h with
  | stuck hw hm hf => simp [hw, hf]
  | leave hw hm hf => simp [hw, hf]
  | finish w0 k hw hk hm hf htop hN =>
    rcases hk with ⟨rfl, rfl⟩ | ⟨rfl, rfl⟩ <;> simp [hw, hf, htop]
  | block w0 k hw hk hm hf htop hN =>
    rcases hk with ⟨rfl, rfl⟩ | ⟨rfl, rfl⟩ <;> simp [hw, hf, htop]
  | take w0 k o rest hw hk hm hf htop =>
    rcases hk with ⟨rfl, rfl⟩ | ⟨rfl, rfl⟩ <;> simp [hw, hf, htop]
  | begin t hw => simp [hw]
  | loop_end t n hw => simp [hw]
  | loop_dot t d rest n hw hd => simp [hw]
  | loop_fail t d rest n hw hd hl => simp [hw]
  | loop_file t d rest n st hw hd hl hdir => simp [hw]
  | loop_dir t d rest n st ws hw hd hl hdir hm hsig => simp [hw]
  | publish t n code hw => simp [hw]
  | report_first t status hw hst herr => simp [hw]
  | report_other t status hw hc => simp [hw]

/-- C17. In every state reachable from the initial state: while
`work_finished` is not set, `waiting_threads_count` is the number of workers
inside pthread_cond_wait (counted when they found the stack empty, not yet
taken off the count after waking); the count is always between 0 and
`num_threads`; and every transition changes it in two ways only: the worker
that resumes from pthread_cond_wait takes one off, and a worker that stands at
the loop head with the mutex (on entry or after waking), finds the flag unset
and the stack empty, adds one. -/
theorem waiting_count_contract (fs : Fs) (argv : List String) (n : Nat) (s0 : State)
    (h0 : initial fs argv n = some s0) (es : List Event) (s : State)
    (hrun : run fs s0 es = some s) :
    (s.work_finished = false → s.waiting_threads_count = waiters s.workers) ∧
      0 ≤ s.waiting_threads_count ∧
      s.waiting_threads_count ≤ (s.thread_pool.num_threads : Int) ∧
      ∀ e s1, thread_worker_step fs s e = some s1 →
        s1.waiting_threads_count =
          s.waiting_threads_count -
              (if s.workers[e.worker]? = some Worker.woken then 1 else 0) +
            (if (s.workers[e.worker]? = some Worker.fetch ∨
                  s.workers[e.worker]? = some Worker.woken) ∧
                s.work_finished = false ∧ s.thread_pool.stack.top = [] then 1 else 0) := by
  obtain ⟨hinv, hl⟩ := latched_reachable fs argv n s0 h0 es s hrun
  have hb := waiters_le_length s.workers
  rw [hinv.2.1] at hb
  have hbounds : 0 ≤ s.waiting_threads_count ∧
      s.waiting_threads_count ≤ (s.thread_pool.num_threads : Int) := by
    rcases Bool.eq_false_or_eq_true s.work_finished with hf | hf
    · have h1 := hl hf
      have h2 := waiters_done s.workers h1.2
      rw [hinv.2.1] at h2
      omega
    · have h1 := (hinv.2.2.1 hf).1
      omega
  exact ⟨fun hf => (hinv.2.2.1 hf).1, hbounds.1, hbounds.2,
    fun e s1 hs => count_step fs s e s1 (step_sound fs s e s1 hs)⟩

theorem waiting_count_contract_witness :
    (state_at [some "f"] 2 [] [8] 1 false [Worker.fetch, Worker.blocked]).waiting_threads_count =
        waiters [Worker.fetch, Worker.blocked] ∧
      0 ≤ (state_at [some "f"] 2 [] [8] 1 false
        [Worker.fetch, Worker.blocked]).waiting_threads_count ∧
      (state_at [some "f"] 2 [] [8] 1 false [Worker.fetch, Worker.blocked]).waiting_threads_count ≤
        2 :=
  (fun h => ⟨h.1 rfl, h.2.1, h.2.2.1⟩)
    (waiting_count_contract fs_example ["f"] 2
      (state_at [some "f"] 2 [some ⟨"f", 0⟩] [0] 0 false [Worker.fetch, Worker.fetch])
      (by decide) schedule_f
      (state_at [some "f"] 2 [] [8] 1 false [Worker.fetch, Worker.blocked])
      (by decide))

/-! ## A failure on its way reaches the exit code -/

theorem keep_worker (ws : List Worker) (i : Nat) (w0 w1 w : Worker)
    (hw0 : ws[i]? = some w0) (hw : w ∈ ws) : w ∈ ws.set i w1 ∨ w = w0 := by
  by_cases h : w = w0
  · exact Or.inr h
  · left
    obtain ⟨j, hj⟩ := List.mem_iff_getElem?.mp hw
    have hne : i ≠ j := by
      rintro rfl
      rw [hw0] at hj
      exact h (Option.some.inj hj).symm
    exact mem_of_getElem _ j _ (by rw [List.getElem?_set_ne hne]; exact hj)

theorem set_mem_self (ws : List Worker) (i : Nat) (w0 w1 : Worker) (hw0 : ws[i]? = some w0) :
    w1 ∈ ws.set i w1 := by
  have hlen : i < ws.length := by
    rcases Nat.lt_or_ge i ws.length with h | h
    · exact h
    · rw [List.getElem?_eq_none h] at hw0
      cases hw0
  exact mem_of_getElem _ i _ (getElem_set_self _ _ _ hlen)

theorem signal_keeps (ws ws2 : List Worker) (k : Nat) (w : Worker)
    (h : pthread_cond_signal ws k = some ws2) (hw : w ∈ ws) (hb : w ≠ Worker.blocked) :
    w ∈ ws2 := by
  rcases signal_cases ws ws2 k h with ⟨rfl, _⟩ | ⟨hk, rfl⟩
  · exact hw
  · rcases keep_worker ws k Worker.blocked Worker.woken w hk hw with h1 | h1
    · exact h1
    · exact absurd h1 hb

theorem broadcast_keeps (ws : List Worker) (w : Worker) (hw : w ∈ ws)
    (hb : w ≠ Worker.blocked) : w ∈ pthread_cond_broadcast ws :=
  List.mem_map.mpr ⟨w, hw, if_neg hb⟩

theorem failing_cases (fs : Fs) (p : String) (h : failing fs p) :
    task_status fs p ≠ 0 ∨ ∃ c ∈ subdirs fs p, failing fs c := by
  obtain ⟨k, hk⟩ := h
  cases k with
  | zero => simp [fails_within] at hk
  | succ k =>
    simp only [fails_within, Bool.or_eq_true, bne_iff_ne, ne_eq, List.any_eq_true] at hk
    rcases hk with hk | ⟨c, hc, hk⟩
    · exact Or.inl hk
    · exact Or.inr ⟨c, hc, k, hk⟩

theorem failing_intro (fs : Fs) (p : String)
    (h : task_status fs p ≠ 0 ∨ ∃ c ∈ subdirs fs p, failing fs c) : failing fs p := by
  rcases h with h | ⟨c, hc, k, hk⟩
  · exact ⟨1, by simp [fails_within, h]⟩
  · refine ⟨k + 1, ?_⟩
    simp only [fails_within, Bool.or_eq_true, List.any_eq_true]
    exact Or.inr ⟨c, hc, hk⟩

theorem doomed_begin_task (fs : Fs) (t : Path) (h : failing fs t.path_name) :
    doomed_worker fs (begin_task fs t) := by
  have h1 := failing_cases fs t.path_name h
  cases hl : fs.lstat t.path_name with
  | none => simp [begin_task, hl, doomed_worker, EXIT_FAILURE]
  | some st =>
    cases hdir : st.is_dir with
    | false => simp [task_status, subdirs, hl, hdir, EXIT_SUCCESS] at h1
    | true =>
      cases hrd : fs.readdir t.path_name with
      | none => simp [begin_task, hl, hdir, hrd, doomed_worker, EXIT_FAILURE]
      | some entries =>
        simp only [task_status, subdirs, hl, hdir, hrd, if_true] at h1
        simpa [begin_task, hl, hdir, hrd, doomed_worker] using h1

theorem exit_failure_step (fs : Fs) (s : State) (e : Event) (s1 : State) (h : Step fs s e s1)
    (hE : s.thread_pool.exit_code = EXIT_FAILURE) : s1.thread_pool.exit_code = EXIT_FAILURE := by
  cases h <;> first | exact hE | rfl

theorem doomed_stack_step (fs : Fs) (s : State) (e : Event) (s1 : State) (h : Step fs s e s1)
    (hS : ∃ o ∈ s.thread_pool.stack.top, doomed_task fs o) :
    (∃ o ∈ s1.thread_pool.stack.top, doomed_task fs o) ∨
      ∃ w ∈ s1.workers, doomed_worker fs w := by
  obtain ⟨o, ho, hdo⟩ := hS
  cases h with
  | take w0 k o1 rest hw hk hm hf htop =>
    rw [htop] at ho
    rcases List.mem_cons.mp ho with rfl | ho
    · exact Or.inr ⟨Worker.start o, set_mem_self _ _ _ _ hw, hdo⟩
    · exact Or.inl ⟨o, ho, hdo⟩
  | loop_dir t d rest n st ws hw hd hl hdir hm hsig =>
    exact Or.inl ⟨o, List.mem_cons_of_mem _ ho, hdo⟩
  | _ => exact Or.inl ⟨o, ho, hdo⟩

theorem doomed_worker_step (fs : Fs) (s : State) (e : Event) (s1 : State) (h : Step fs s e s1)
    (hflag : s.error_occurred = true → s.thread_pool.exit_code = EXIT_FAILURE)
    (hW : ∃ w ∈ s.workers, doomed_worker fs w) :
    s1.thread_pool.exit_code = EXIT_FAILURE ∨
      (∃ o ∈ s1.thread_pool.stack.top, doomed_task fs o) ∨
      ∃ w ∈ s1.workers, doomed_worker fs w := by
  obtain ⟨w, hmem, hdw⟩ := hW
  have hb : w ≠ Worker.blocked := by
    rintro rfl
    exact hdw
  cases h with
  | stuck hw hm hf =>
    rcases keep_worker _ _ _ Worker.done w hw hmem with hin | rfl
    · exact Or.inr (Or.inr ⟨w, hin, hdw⟩)
    · exact False.elim hdw
  | leave hw hm hf =>
    rcases keep_worker _ _ _ Worker.done w hw hmem with hin | rfl
    · exact Or.inr (Or.inr ⟨w, hin, hdw⟩)
    · exact False.elim hdw
  | finish w0 k hw hk hm hf htop hN =>
    have hb0 : w0 ≠ Worker.blocked := by
      rcases hk with ⟨rfl, _⟩ | ⟨rfl, _⟩ <;> simp
    rcases keep_worker _ _ _ Worker.done w (broadcast_getElem _ _ _ hw hb0)
      (broadcast_keeps _ _ hmem hb) with hin | rfl
    · exact Or.inr (Or.inr ⟨w, hin, hdw⟩)
    · rcases hk with ⟨rfl, _⟩ | ⟨rfl, _⟩ <;> exact False.elim hdw
  | block w0 k hw hk hm hf htop hN =>
    rcases keep_worker _ _ _ Worker.blocked w hw hmem with hin | rfl
    · exact Or.inr (Or.inr ⟨w, hin, hdw⟩)
    · rcases hk with ⟨rfl, _⟩ | ⟨rfl, _⟩ <;> exact False.elim hdw
  | take w0 k o rest hw hk hm hf htop =>
    rcases keep_worker _ _ _ (Worker.start o) w hw hmem with hin | rfl
    · exact Or.inr (Or.inr ⟨w, hin, hdw⟩)
    · rcases hk with ⟨rfl, _⟩ | ⟨rfl, _⟩ <;> exact False.elim hdw
  | begin t hw =>
    rcases keep_worker _ _ _ (begin_task fs t) w hw hmem with hin | rfl
    · exact Or.inr (Or.inr ⟨w, hin, hdw⟩)
    · exact Or.inr (Or.inr ⟨_, set_mem_self _ _ _ _ hw, doomed_begin_task fs t hdw⟩)
  | loop_end t n hw =>
    rcases keep_worker _ _ _ (Worker.publish t n EXIT_SUCCESS) w hw hmem with hin | rfl
    · exact Or.inr (Or.inr ⟨w, hin, hdw⟩)
    · simp [doomed_worker, entries_status, entries_subdirs, EXIT_SUCCESS] at hdw
  | loop_dot t d rest n hw hd =>
    rcases keep_worker _ _ _ (Worker.loop t rest n) w hw hmem with hin | rfl
    · exact Or.inr (Or.inr ⟨w, hin, hdw⟩)
    · refine Or.inr (Or.inr ⟨_, set_mem_self _ _ _ _ hw, ?_⟩)
      simpa [doomed_worker, entries_status, entries_subdirs, hd] using hdw
  | loop_fail t d rest n hw hd hl =>
    refine Or.inr (Or.inr ⟨_, set_mem_self _ _ _ _ hw, ?_⟩)
    simp [doomed_worker, EXIT_FAILURE]
  | loop_file t d rest n st hw hd hl hdir =>
    rcases keep_worker _ _ _ (Worker.loop t rest (n + st.st_blocks)) w hw hmem with hin | rfl
    · exact Or.inr (Or.inr ⟨w, hin, hdw⟩)
    · refine Or.inr (Or.inr ⟨_, set_mem_self _ _ _ _ hw, ?_⟩)
      simpa [doomed_worker, entries_status, entries_subdirs, hd, hl, hdir] using hdw
  | loop_dir t d rest n st ws hw hd hl hdir hm hsig =>
    have hw2 := signal_getElem _ _ _ _ _ hsig hw (by simp)
    rcases keep_worker _ _ _ (Worker.loop t rest n) w hw2
      (signal_keeps _ _ _ _ hsig hmem hb) with hin | rfl
    · exact Or.inr (Or.inr ⟨w, hin, hdw⟩)
    · simp only [doomed_worker, entries_status, entries_subdirs, hd, hl, hdir,
        Bool.false_eq_true, if_false, if_true, List.mem_cons, exists_eq_or_imp] at hdw
      rcases hdw with hdw | hdw | hdw
      · exact Or.inr (Or.inr ⟨_, set_mem_self _ _ _ _ hw2, Or.inl hdw⟩)
      · exact Or.inr (Or.inl ⟨_, List.mem_cons_self _ _, hdw⟩)
      · exact Or.inr (Or.inr ⟨_, set_mem_self _ _ _ _ hw2, Or.inr hdw⟩)
  | publish t n code hw =>
    rcases keep_worker _ _ _ (Worker.report t code) w hw hmem with hin | rfl
    · exact Or.inr (Or.inr ⟨w, hin, hdw⟩)
    · exact Or.inr (Or.inr ⟨_, set_mem_self _ _ _ _ hw, hdw⟩)
  | report_first t status hw hst herr => exact Or.inl rfl
  | report_other t status hw hc =>
    rcases keep_worker _ _ _ Worker.fetch w hw hmem with hin | rfl
    · exact Or.inr (Or.inr ⟨w, hin, hdw⟩)
    · rcases hc with hc | hc
      · exact absurd hc hdw
      · exact Or.inl (hflag hc)

theorem doomed_step (fs : Fs) (s : State) (e : Event) (s1 : State) (h : Step fs s e s1)
    (hd : doomed fs s) : doomed fs s1 := by
  refine ⟨error_flag_step fs s e s1 h hd.1, ?_⟩
  rcases hd.2 with hE | hS | hW
  · exact Or.inl (exit_failure_step fs s e s1 h hE)
  · exact Or.inr (doomed_stack_step fs s e s1 h hS)
  · exact doomed_worker_step fs s e s1 h hd.1 hW

theorem doomed_run (fs : Fs) (es : List Event) (s s1 : State) (hd : doomed fs s)
    (hrun : run fs s es = some s1) : doomed fs s1 :=
  run_invariant fs (doomed fs) (fun s e s1 hP hs => doomed_step fs s e s1 hs hP) es s s1 hd hrun

theorem doomed_terminated (fs : Fs) (s : State) (hinv : protocol_inv s)
    (hn : 1 ≤ s.thread_pool.num_threads) (hT : Terminated s) (hd : doomed fs s) :
    s.thread_pool.exit_code = EXIT_FAILURE := by
  rcases hd.2 with hE | ⟨o, ho, _⟩ | ⟨w, hw, hdw⟩
  · exact hE
  · rw [(terminated_finished s hinv hn hT).2] at ho
    simp at ho
  · rw [hT w hw] at hdw
    exact False.elim hdw

theorem seeds_contains (fs : Fs) (a : String) (hok : fs.stat_ok a = true) :
    ∀ (args : List String) (i : Nat), a ∈ args → ∃ j, some ⟨a, j⟩ ∈ seeds fs args i
  | [], _, h => by simp at h
  | b :: args, i, h => by
    rcases List.mem_cons.mp h with rfl | h
    · exact ⟨i, by simp [seeds, hok]⟩
    · obtain ⟨j, hj⟩ := seeds_contains fs a hok args (i + 1) h
      refine ⟨j, ?_⟩
      unfold seeds
      split
      · exact List.mem_cons_of_mem _ hj
      · exact hj

theorem doomed_initial (fs : Fs) (argv : List String) (n : Nat) (s0 : State)
    (h0 : initial fs argv n = some s0) (a : String) (ha : a ∈ argv)
    (hok : fs.stat_ok a = true) (hf : failing fs a) : doomed fs s0 := by
  obtain ⟨j, hj⟩ := seeds_contains fs a hok argv 0 ha
  rw [initial_spec fs argv n s0 h0]
  refine ⟨fun h => by simp at h, Or.inr (Or.inl ⟨some ⟨a, j⟩, ?_, hf⟩)⟩
  simpa using hj

theorem num_threads_reachable (fs : Fs) (argv : List String) (n : Nat) (s0 : State)
    (h0 : initial fs argv n = some s0) (es : List Event) (s : State)
    (hrun : run fs s0 es = some s) : s.thread_pool.num_threads = n := by
  have h1 := run_invariant fs
    (fun s => s.thread_pool.num_threads = s0.thread_pool.num_threads)
    (fun s e s1 hP hs => (num_threads_step fs s e s1 hs).1.trans hP) es s0 s rfl hrun
  rw [initial_spec fs argv n s0 h0] at h1
  exact h1

/-- A run over roots one of which leads to a failing task ends with the exit
code EXIT_FAILURE. -/
theorem failing_run_fails (fs : Fs) (argv : List String) (n : Nat) (hn : 1 ≤ n) (s0 : State)
    (h0 : initial fs argv n = some s0) (a : String) (ha : a ∈ argv)
    (hok : fs.stat_ok a = true) (hf : failing fs a)
    (es : List Event) (s : State) (hrun : run fs s0 es = some s) (hT : Terminated s) :
    s.thread_pool.exit_code = EXIT_FAILURE := by
  have hd := doomed_run fs es s0 s (doomed_initial fs argv n s0 h0 a ha hok hf) hrun
  have hinv := protocol_reachable fs argv n s0 h0 es s hrun
  have hnum := num_threads_reachable fs argv n s0 h0 es s hrun
  exact doomed_terminated fs s hinv (by omega) hT hd

/-! ## The failure flag -/

theorem exit_code_step (fs : Fs) (s : State) (e : Event) (s1 : State) (h : Step fs s e s1) :
    s1.thread_pool.exit_code = s.thread_pool.exit_code ∨
      s1.thread_pool.exit_code = EXIT_FAILURE := by
  cases h <;> first | exact Or.inl rfl | exact Or.inr rfl

theorem run_continue (fs : Fs) (s0 s s2 : State) (es es2 : List Event)
    (hrun : run fs s0 es = some s) (hrun2 : run fs s es2 = some s2) :
    run fs s0 (es ++ es2) = some s2 := by
  rw [run_append, hrun]
  exact hrun2

/-- C18. In every state reachable from the initial state, with at least one
worker: the exit code starts as EXIT_SUCCESS; a transition leaves it as it is
or sets it to EXIT_FAILURE, so once it is EXIT_FAILURE it stays so along every
continuation; and as soon as a call of calculate_directory_usage has returned
failure in some worker, every continuation of the run in which all workers
return ends with the exit code EXIT_FAILURE, whatever the schedule and whatever
the other workers report. -/
theorem failure_flag_monotone (fs : Fs) (argv : List String) (n : Nat) (hn : 1 ≤ n)
    (s0 : State) (h0 : initial fs argv n = some s0) (es : List Event) (s : State)
    (hrun : run fs s0 es = some s) :
    s0.thread_pool.exit_code = EXIT_SUCCESS ∧
      (∀ e s1, thread_worker_step fs s e = some s1 →
        (s1.thread_pool.exit_code = s.thread_pool.exit_code ∨
          s1.thread_pool.exit_code = EXIT_FAILURE) ∧
        (s.thread_pool.exit_code = EXIT_FAILURE → s1.thread_pool.exit_code = EXIT_FAILURE)) ∧
      (s.thread_pool.exit_code = EXIT_FAILURE →
        ∀ es2 s2, run fs s es2 = some s2 → s2.thread_pool.exit_code = EXIT_FAILURE) ∧
      ((∃ (i : Nat) (t : Path) (status : Int),
          s.workers[i]? = some (Worker.report t status) ∧ status ≠ 0) →
        ∀ es2 s2, run fs s es2 = some s2 → Terminated s2 →
          s2.thread_pool.exit_code = EXIT_FAILURE) := by
  refine ⟨?_, ?_, ?_, ?_⟩
  · rw [initial_spec fs argv n s0 h0]
  · intro e s1 hs
    have hst := step_sound fs s e s1 hs
    exact ⟨exit_code_step fs s e s1 hst, exit_failure_step fs s e s1 hst⟩
  · intro hE es2 s2 h2
    exact run_invariant fs (fun x => x.thread_pool.exit_code = EXIT_FAILURE)
      (fun x e x1 hP hst => exit_failure_step fs x e x1 hst hP) es2 s s2 hE h2
  · rintro ⟨i, t, status, hw, hne⟩ es2 s2 h2 hT
    have hd : doomed fs s :=
      ⟨error_flag_reachable fs argv n s0 h0 es s hrun,
        Or.inr (Or.inr ⟨_, mem_of_getElem _ _ _ hw, hne⟩)⟩
    have hd2 := doomed_run fs es2 s s2 hd h2
    have hall := run_continue fs s0 s s2 es es2 hrun h2
    have hinv := protocol_reachable fs argv n s0 h0 _ s2 hall
    have hnum := num_threads_reachable fs argv n s0 h0 _ s2 hall
    exact doomed_terminated fs s2 hinv (by omega) hT hd2

theorem failure_flag_monotone_witness :
    (state_failed [some "g"] 1 [] [0] 1 true [Worker.done]).thread_pool.exit_code =
      EXIT_FAILURE :=
  (failure_flag_monotone fs_vanished ["g"] 1 (by decide)
    (state_at [some "g"] 1 [some ⟨"g", 0⟩] [0] 0 false [Worker.fetch]) (by decide)
    (solo 2) (state_at [some "g"] 1 [] [0] 0 false [Worker.report ⟨"g", 0⟩ EXIT_FAILURE])
    (by decide)).2.2.2 ⟨0, ⟨"g", 0⟩, EXIT_FAILURE, by decide, by decide⟩ (solo 2)
    (state_failed [some "g"] 1 [] [0] 1 true [Worker.done]) (by decide) (by decide)

/-! ## An entry whose lstat fails -/

/-- The paths whose tree is finite and from which no failing task comes make a
ledger on which every task returns success. -/
theorem clean_ledger (fs : Fs) (depth : Nat) :
    ∃ L : Ledger fs,
      (∀ p, L.good p ↔ (tree_within fs depth p = true ∧ ¬ failing fs p)) ∧
      ∀ p, L.good p → task_status fs p = 0 := by
  obtain ⟨L, hgood, _, _⟩ := bounded_ledger fs depth
  obtain ⟨L2, hgood2, _, _⟩ := restrict_ledger fs L
    (fun p => tree_within fs depth p = true ∧ ¬ failing fs p)
    (fun p hp => (hgood p).2 hp.1)
    (by
      intro p hp c hc
      cases depth with
      | zero => simp [tree_within] at hp
      | succ k =>
        have h1 := tree_within_child fs k p c hp.1 (subdirs_children fs p c hc)
        exact ⟨tree_within_succ fs k c h1,
          fun hf => hp.2 (failing_intro fs p (Or.inr ⟨c, hc, hf⟩))⟩)
  refine ⟨L2, hgood2, ?_⟩
  intro p hp
  have h := (hgood2 p).1 hp
  by_contra hne
  exact h.2 (failing_intro fs p (Or.inl hne))

/-- For finite trees, the exit code at the end of a complete run is
EXIT_FAILURE when a failing task comes from some root that passed the stat
check of initialize_paths, and EXIT_SUCCESS otherwise. -/
theorem exit_code_cases (fs : Fs) (argv : List String) (depth : Nat)
    (hfin : ∀ a ∈ argv, fs.stat_ok a = true → tree_within fs depth a = true)
    (n : Nat) (hn : 1 ≤ n) (s0 : State) (h0 : initial fs argv n = some s0)
    (es : List Event) (s : State) (hrun : run fs s0 es = some s) (hT : Terminated s) :
    ((∃ a ∈ argv, fs.stat_ok a = true ∧ failing fs a) →
        s.thread_pool.exit_code = EXIT_FAILURE) ∧
      ((∀ a ∈ argv, fs.stat_ok a = true → ¬ failing fs a) →
        s.thread_pool.exit_code = EXIT_SUCCESS) := by
  constructor
  · rintro ⟨a, ha, hok, hf⟩
    exact failing_run_fails fs argv n hn s0 h0 a ha hok hf es s hrun hT
  · intro hclean
    obtain ⟨L, hgood, hquiet⟩ := clean_ledger fs depth
    exact (quiet_reachable fs L hquiet argv n s0 h0
      (fun a ha hok => (hgood a).2 ⟨hfin a ha hok, hclean a ha hok⟩) es s hrun).1

/-- C14. On the roots `x` and `f` of `fs_example`, where `x` does not exist
(stat and lstat fail) and `f` is a file of 8 blocks: initialize_paths skips
`x` without touching the exit code, the run ends with the total 8 for `f`, and
the exit code main returns is EXIT_SUCCESS although a root failed its
existence check. -/
theorem missing_root_exit_status :
    fs_example.stat_ok "x" = false ∧ fs_example.lstat "x" = none ∧
      initial fs_example ["x", "f"] 1 =
        some (state_at [none, some "f"] 1 [some ⟨"f", 1⟩] [0, 0] 0 false [Worker.fetch]) ∧
      run fs_example
          (state_at [none, some "f"] 1 [some ⟨"f", 1⟩] [0, 0] 0 false [Worker.fetch])
          (solo 5) =
        some (state_at [none, some "f"] 1 [] [0, 8] 1 true [Worker.done]) ∧
      Terminated (state_at [none, some "f"] 1 [] [0, 8] 1 true [Worker.done]) ∧
      print_total_size
          (state_at [none, some "f"] 1 [] [0, 8] 1 true [Worker.done]).thread_pool =
        [(8, "f")] ∧
      (state_at [none, some "f"] 1 [] [0, 8] 1 true [Worker.done]).thread_pool.exit_code =
        EXIT_SUCCESS := by
  decide

/-! ## Root indices stay in range -/

theorem task_begin_task (fs : Fs) (t : Path) :
    (begin_task fs t).task = some t := by
  unfold begin_task
  split
  · rfl
  · split
    · split <;> rfl
    · rfl

theorem ids_ok_set (s : State) (i : Nat) (w : Worker) (pool : ThreadPool) (wc : Int)
    (fin err held : Bool)
    (hlen : pool.dir_details.dir_size.length = s.thread_pool.dir_details.dir_size.length)
    (hnum : pool.path_num = s.thread_pool.path_num)
    (hstack : ∀ o ∈ pool.stack.top, ∃ t, o = some t ∧ t.path_id < s.thread_pool.path_num)
    (hw : ∀ t, w.task = some t → t.path_id < s.thread_pool.path_num)
    (hs : ids_ok s) :
    ids_ok
      { thread_pool := pool, waiting_threads_count := wc, work_finished := fin,
        error_occurred := err, stack_mut_held := held, workers := s.workers.set i w } := by
  obtain ⟨h1, _, h3⟩ := hs
  refine ⟨by simp [hlen, hnum, h1], by simpa [hnum] using hstack, ?_⟩
  intro x hx
  simp only [hnum]
  rcases List.mem_or_eq_of_mem_set hx with hx | rfl
  · exact h3 x hx
  · exact hw

theorem ids_step (fs : Fs) (s : State) (e : Event) (s1 : State) (h : Step fs s e s1)
    (hg : ids_ok s) : ids_ok s1 := by
  have hgs := hg
  obtain ⟨hlen, hstack, hworkers⟩ := hg
  have hnone : ∀ w : Worker, w.task = none → ∀ t, w.task = some t →
      t.path_id < s.thread_pool.path_num := by
    intro w hw t ht
    rw [hw] at ht
    cases ht
  cases h with
  | stuck hw hm hf =>
    exact ids_ok_set s _ Worker.done s.thread_pool _ _ _ _ rfl rfl hstack (hnone _ rfl) hgs
  | leave hw hm hf =>
    exact ids_ok_set s _ Worker.done s.thread_pool _ _ _ _ rfl rfl hstack (hnone _ rfl) hgs
  | finish w0 k hw hk hm hf htop hN =>
    refine ⟨hlen, hstack, ?_⟩
    intro x hx
    rcases List.mem_or_eq_of_mem_set hx with hx | rfl
    · rcases broadcast_mem _ x hx with hx | rfl
      · exact hworkers x hx
      · exact hnone _ rfl
    · exact hnone _ rfl
  | block w0 k hw hk hm hf htop hN =>
    exact ids_ok_set s _ Worker.blocked s.thread_pool _ _ _ _ rfl rfl hstack (hnone _ rfl) hgs
  | take w0 k o rest hw hk hm hf htop =>
    have ho := hstack o (by simp [htop])
    refine ids_ok_set s _ (Worker.start o) { s.thread_pool with stack := ⟨rest⟩ } _ _ _ _ rfl rfl
      (fun x hx => hstack x (by simp [htop, hx])) ?_ hgs
    intro t ht
    obtain ⟨t1, ht1, hid⟩ := ho
    have h2 : o = some t := ht
    rw [h2] at ht1
    cases ht1
    exact hid
  | begin t hw =>
    have ht := hworkers _ (mem_of_getElem _ _ _ hw) t rfl
    refine ids_ok_set s _ (begin_task fs t) s.thread_pool _ _ _ _ rfl rfl hstack ?_ hgs
    intro t1 ht1
    rw [task_begin_task] at ht1
    cases ht1
    exact ht
  | loop_end t n hw =>
    have ht := hworkers _ (mem_of_getElem _ _ _ hw) t rfl
    exact ids_ok_set s _ (Worker.publish t n EXIT_SUCCESS) s.thread_pool _ _ _ _ rfl rfl hstack
      (fun t1 ht1 => by cases ht1; exact ht) hgs
  | loop_dot t d rest n hw hd =>
    have ht := hworkers _ (mem_of_getElem _ _ _ hw) t rfl
    exact ids_ok_set s _ (Worker.loop t rest n) s.thread_pool _ _ _ _ rfl rfl hstack
      (fun t1 ht1 => by cases ht1; exact ht) hgs
  | loop_fail t d rest n hw hd hl =>
    have ht := hworkers _ (mem_of_getElem _ _ _ hw) t rfl
    exact ids_ok_set s _ (Worker.publish t n EXIT_FAILURE) s.thread_pool _ _ _ _ rfl rfl hstack
      (fun t1 ht1 => by cases ht1; exact ht) hgs
  | loop_file t d rest n st hw hd hl hdir =>
    have ht := hworkers _ (mem_of_getElem _ _ _ hw) t rfl
    exact ids_ok_set s _ (Worker.loop t rest (n + st.st_blocks)) s.thread_pool _ _ _ _ rfl rfl
      hstack (fun t1 ht1 => by cases ht1; exact ht) hgs
  | loop_dir t d rest n st ws hw hd hl hdir hm hsig =>
    have ht := hworkers _ (mem_of_getElem _ _ _ hw) t rfl
    refine ⟨hlen, ?_, ?_⟩
    · intro o ho
      rcases List.mem_cons.mp ho with rfl | ho
      · exact ⟨_, rfl, ht⟩
      · exact hstack o ho
    · intro x hx
      rcases List.mem_or_eq_of_mem_set hx with hx | rfl
      · rcases signal_mem _ _ _ hsig x hx with hx | rfl
        · exact hworkers x hx
        · exact hnone _ rfl
      · intro t1 ht1
        cases ht1
        exact ht
  | publish t n code hw =>
    have ht := hworkers _ (mem_of_getElem _ _ _ hw) t rfl
    exact ids_ok_set s _ (Worker.report t code) (update_directory_size s.thread_pool t n)
      _ _ _ _ (by simp [update_directory_size]) rfl hstack
      (fun t1 ht1 => by cases ht1; exact ht) hgs
  | report_first t status hw hst herr =>
    exact ids_ok_set s _ Worker.fetch { s.thread_pool with exit_code := EXIT_FAILURE }
      _ _ _ _ rfl rfl hstack (hnone _ rfl) hgs
  | report_other t status hw hc =>
    exact ids_ok_set s _ Worker.fetch s.thread_pool _ _ _ _ rfl rfl hstack (hnone _ rfl) hgs

theorem seeds_index (fs : Fs) : ∀ (args : List String) (i : Nat), ∀ o ∈ seeds fs args i,
    ∃ a j, o = some ⟨a, j⟩ ∧ i ≤ j ∧ args[j - i]? = some a
  | [], i, o, ho => by simp [seeds] at ho
  | arg :: args, i, o, ho => by
    have ih := seeds_index fs args (i + 1) o
    have hrest : o ∈ seeds fs args (i + 1) → ∃ a j, o = some ⟨a, j⟩ ∧ i ≤ j ∧
        (arg :: args)[j - i]? = some a := by
      intro h
      obtain ⟨a, j, ho, hj, ha⟩ := ih h
      refine ⟨a, j, ho, by omega, ?_⟩
      have hji : j - i = (j - (i + 1)) + 1 := by omega
      rw [hji, List.getElem?_cons_succ]
      exact ha
    unfold seeds at ho
    split at ho
    · rcases List.mem_cons.mp ho with rfl | ho
      · exact ⟨arg, i, rfl, le_refl _, by simp⟩
      · exact hrest ho
    · exact hrest ho

theorem ids_initial (fs : Fs) (argv : List String) (n : Nat) (s0 : State)
    (h0 : initial fs argv n = some s0) : ids_ok s0 := by
  rw [initial_spec fs argv n s0 h0]
  refine ⟨by simp, ?_, ?_⟩
  · intro o ho
    simp only [List.mem_reverse] at ho
    obtain ⟨a, j, rfl, _, _, _, hj⟩ := seeds_mem fs argv 0 o ho
    exact ⟨_, rfl, by simpa using hj⟩
  · intro w hw t ht
    rw [List.eq_of_mem_replicate hw] at ht
    cases ht

/-- C28. In every state reachable from the initial state: the array of
accumulators has `path_num` entries, one per root given; every task of the
stack is a task (not NULL) whose `path_id` is below `path_num`, and so is every
task a worker holds; a seeded task carries the index of its root in the list
of roots; process_path_entry leaves the stack as it is or pushes one task that
carries the `path_id` it was called with; hence the index update_directory_size
uses is inside the array. -/
theorem root_ids_in_range (fs : Fs) (argv : List String) (n : Nat) (s0 : State)
    (h0 : initial fs argv n = some s0) (es : List Event) (s : State)
    (hrun : run fs s0 es = some s) :
    s.thread_pool.dir_details.dir_size.length = s.thread_pool.path_num ∧
      s.thread_pool.path_num = argv.length ∧
      (∀ o ∈ s.thread_pool.stack.top, ∃ t, o = some t ∧ t.path_id < s.thread_pool.path_num) ∧
      (∀ w ∈ s.workers, ∀ t, w.task = some t → t.path_id < s.thread_pool.path_num) ∧
      (∀ o ∈ s0.thread_pool.stack.top, ∃ a i, o = some ⟨a, i⟩ ∧ argv[i]? = some a) ∧
      (∀ full_path path_id pool directory_size,
        (process_path_entry fs full_path path_id pool directory_size).thread_pool.stack.top =
            pool.stack.top ∨
          (process_path_entry fs full_path path_id pool directory_size).thread_pool.stack.top =
            some ⟨full_path, path_id⟩ :: pool.stack.top) ∧
      ∀ (i : Nat) t m code, s.workers[i]? = some (Worker.publish t m code) →
        t.path_id < s.thread_pool.dir_details.dir_size.length := by
  have hinv : ids_ok s :=
    run_invariant fs ids_ok (fun s e s1 hP hs => ids_step fs s e s1 hs hP) es s0 s
      (ids_initial fs argv n s0 h0) hrun
  have hnum := (sizes_length_reachable fs argv n s0 h0 es s hrun).2
  refine ⟨hinv.1, hnum, hinv.2.1, hinv.2.2, ?_, ?_, ?_⟩
  · intro o ho
    rw [initial_spec fs argv n s0 h0] at ho
    simp only [List.mem_reverse] at ho
    obtain ⟨a, j, rfl, _, ha⟩ := seeds_index fs argv 0 o ho
    exact ⟨a, j, rfl, by simpa using ha⟩
  · intro full_path path_id pool directory_size
    unfold process_path_entry
    split
    · exact Or.inl rfl
    · split
      · exact Or.inl rfl
      · exact Or.inr (by simp [push, create_path])
  · intro i t m code hw
    rw [hinv.1]
    exact hinv.2.2 _ (mem_of_getElem _ _ _ hw) t rfl

theorem root_ids_in_range_witness :
    (∀ o ∈ (state_at [some "r", some "f"] 2 [] [0, 8] 0 false
          [Worker.loop ⟨"r", 0⟩ ["b"] 12,
            Worker.start (some ⟨"r/d", 0⟩)]).thread_pool.stack.top,
        ∃ t, o = some t ∧ t.path_id < 2) ∧
      ((⟨"r/d", 0⟩ : Path).path_id < 2) :=
  (fun h => ⟨h.2.2.1, h.2.2.2.1 _ (List.mem_cons_of_mem _ (List.mem_singleton.mpr rfl)) _ rfl⟩)
    (root_ids_in_range fs_example ["r", "f"] 2
      (state_at [some "r", some "f"] 2 [some ⟨"f", 1⟩, some ⟨"r", 0⟩] [0, 0] 0 false
        [Worker.fetch, Worker.fetch])
      (by decide) (schedule_rf.take 12)
      (state_at [some "r", some "f"] 2 [] [0, 8] 0 false
        [Worker.loop ⟨"r", 0⟩ ["b"] 12, Worker.start (some ⟨"r/d", 0⟩)])
      (by decide))

/-! ## Every task is processed exactly once -/

theorem count_toList (q : Path) (o : Option Path) : ((o.toList.count q : Nat) : Int) = stacked q o := by
  cases o with
  | none => simp [stacked]
  | some t =>
    by_cases h : t = q
    · subst h
      simp [stacked]
    · have h2 : (t == q) = false := by simpa using h
      simp [stacked, h, List.count_cons, h2]

theorem stacked_sum (q : Path) : ∀ l : List (Option Path),
    (l.map (stacked q)).sum = (((l.filterMap id).count q : Nat) : Int)
  | [] => by simp
  | o :: l => by
    have ih := stacked_sum q l
    cases o with
    | none => simpa [stacked] using ih
    | some t =>
      by_cases h : t = q
      · subst h
        simp [stacked, ih]
        ring
      · have h2 : (t == q) = false := by simpa using h
        simp [stacked, h, ih, List.count_cons, h2]

theorem held_begin_task (fs : Fs) (q t : Path) : held q (begin_task fs t) = 0 := by
  unfold begin_task
  split
  · rfl
  · split
    · split <;> rfl
    · rfl

theorem to_push_begin_task (fs : Fs) (q t : Path) :
    to_push fs q (begin_task fs t) = (((discovered fs t).count q : Nat) : Int) := by
  cases hl : fs.lstat t.path_name with
  | none => simp [begin_task, discovered, subdirs, hl, to_push]
  | some st =>
    cases hdir : st.is_dir with
    | false => simp [begin_task, discovered, subdirs, hl, hdir, to_push]
    | true =>
      cases hrd : fs.readdir t.path_name <;>
        simp [begin_task, discovered, subdirs, hl, hdir, hrd, to_push]

theorem held_waiting (q : Path) : held q Worker.blocked = held q Worker.woken := rfl

theorem to_push_waiting (fs : Fs) (q : Path) :
    to_push fs q Worker.blocked = to_push fs q Worker.woken := rfl

theorem pending_step (fs : Fs) (q : Path) (s : State) (e : Event) (s1 : State)
    (h : Step fs s e s1) :
    stacked q (called s e) + pending q s1 = pending q s + stacked q (pushed fs s e) := by
  cases h with
  | stuck hw hm hf =>
    simp only [pending, sum_map_set_int _ _ _ _ Worker.done hw]
    simp [called, pushed, hw, held, stacked]
  | leave hw hm hf =>
    simp only [pending, sum_map_set_int _ _ _ _ Worker.done hw]
    simp [called, pushed, hw, held, stacked]
  | finish w0 k hw hk hm hf htop hN =>
    have hw0 : w0 ≠ Worker.blocked := by rcases hk with ⟨rfl, _⟩ | ⟨rfl, _⟩ <;> simp
    simp only [pending, sum_map_set_int _ _ _ _ Worker.done (broadcast_getElem _ _ _ hw hw0),
      broadcast_sum_int _ (held_waiting q)]
    rcases hk with ⟨rfl, _⟩ | ⟨rfl, _⟩ <;> simp [called, pushed, hw, held, stacked]
  | block w0 k hw hk hm hf htop hN =>
    simp only [pending, sum_map_set_int _ _ _ _ Worker.blocked hw]
    rcases hk with ⟨rfl, _⟩ | ⟨rfl, _⟩ <;> simp [called, pushed, hw, held, stacked]
  | take w0 k o rest hw hk hm hf htop =>
    have h1 : held q (Worker.start o) = stacked q o := rfl
    simp only [pending, sum_map_set_int _ _ _ _ (Worker.start o) hw, htop, List.map_cons,
      List.sum_cons, h1]
    rcases hk with ⟨rfl, _⟩ | ⟨rfl, _⟩ <;> simp [called, pushed, hw, held, stacked] <;> ring
  | begin t hw =>
    have h1 : held q (Worker.start (some t)) = stacked q (some t) := rfl
    simp only [pending, sum_map_set_int _ _ _ _ (begin_task fs t) hw, held_begin_task, h1]
    simp [called, pushed, hw, stacked]
    ring
  | loop_end t n hw =>
    simp only [pending, sum_map_set_int _ _ _ _ (Worker.publish t n EXIT_SUCCESS) hw]
    simp [called, pushed, hw, held, stacked]
  | loop_dot t d rest n hw hd =>
    simp only [pending, sum_map_set_int _ _ _ _ (Worker.loop t rest n) hw]
    simp [called, pushed, hw, hd, held, stacked]
  | loop_fail t d rest n hw hd hl =>
    simp only [pending, sum_map_set_int _ _ _ _ (Worker.publish t n EXIT_FAILURE) hw]
    simp [called, pushed, hw, hd, hl, held, stacked]
  | loop_file t d rest n st hw hd hl hdir =>
    simp only [pending, sum_map_set_int _ _ _ _ (Worker.loop t rest (n + st.st_blocks)) hw]
    simp [called, pushed, hw, hd, hl, hdir, held, stacked]
  | loop_dir t d rest n st ws hw hd hl hdir hm hsig =>
    have hw2 := signal_getElem s.workers ws e.wake e.worker _ hsig hw (by simp)
    simp only [pending, sum_map_set_int _ _ _ _ (Worker.loop t rest n) hw2,
      signal_sum_int _ (held_waiting q) _ _ _ hsig, List.map_cons, List.sum_cons]
    simp [called, pushed, hw, hd, hl, hdir, held, stacked, create_path]
    ring
  | publish t n code hw =>
    simp only [pending, sum_map_set_int _ _ _ _ (Worker.report t code) hw]
    simp [called, pushed, hw, held, stacked, update_directory_size]
  | report_first t status hw hst herr =>
    simp only [pending, sum_map_set_int _ _ _ _ Worker.fetch hw]
    simp [called, pushed, hw, held, stacked]
  | report_other t status hw hc =>
    simp only [pending, sum_map_set_int _ _ _ _ Worker.fetch hw]
    simp [called, pushed, hw, held, stacked]

theorem to_push_step (fs : Fs) (q : Path) (s : State) (e : Event) (s1 : State)
    (h : Step fs s e s1) :
    stacked q (pushed fs s e) + (s1.workers.map (to_push fs q)).sum =
      (s.workers.map (to_push fs q)).sum +
        ((((called s e).toList.flatMap (discovered fs)).count q : Nat) : Int) := by
  cases h with
  | stuck hw hm hf =>
    simp only [sum_map_set_int _ _ _ _ Worker.done hw]
    simp [called, pushed, hw, to_push, stacked]
  | leave hw hm hf =>
    simp only [sum_map_set_int _ _ _ _ Worker.done hw]
    simp [called, pushed, hw, to_push, stacked]
  | finish w0 k hw hk hm hf htop hN =>
    have hw0 : w0 ≠ Worker.blocked := by rcases hk with ⟨rfl, _⟩ | ⟨rfl, _⟩ <;> simp
    simp only [sum_map_set_int _ _ _ _ Worker.done (broadcast_getElem _ _ _ hw hw0),
      broadcast_sum_int _ (to_push_waiting fs q)]
    rcases hk with ⟨rfl, _⟩ | ⟨rfl, _⟩ <;> simp [called, pushed, hw, to_push, stacked]
  | block w0 k hw hk hm hf htop hN =>
    simp only [sum_map_set_int _ _ _ _ Worker.blocked hw]
    rcases hk with ⟨rfl, _⟩ | ⟨rfl, _⟩ <;> simp [called, pushed, hw, to_push, stacked]
  | take w0 k o rest hw hk hm hf htop =>
    simp only [sum_map_set_int _ _ _ _ (Worker.start o) hw]
    rcases hk with ⟨rfl, _⟩ | ⟨rfl, _⟩ <;> simp [called, pushed, hw, to_push, stacked]
  | begin t hw =>
    simp only [sum_map_set_int _ _ _ _ (begin_task fs t) hw, to_push_begin_task]
    simp [called, pushed, hw, to_push, stacked]
  | loop_end t n hw =>
    simp only [sum_map_set_int _ _ _ _ (Worker.publish t n EXIT_SUCCESS) hw]
    simp [called, pushed, hw, to_push, stacked, entries_subdirs]
  | loop_dot t d rest n hw hd =>
    simp only [sum_map_set_int _ _ _ _ (Worker.loop t rest n) hw]
    simp [called, pushed, hw, hd, to_push, stacked, entries_subdirs]
  | loop_fail t d rest n hw hd hl =>
    simp only [sum_map_set_int _ _ _ _ (Worker.publish t n EXIT_FAILURE) hw]
    simp [called, pushed, hw, hd, hl, to_push, stacked, entries_subdirs]
  | loop_file t d rest n st hw hd hl hdir =>
    simp only [sum_map_set_int _ _ _ _ (Worker.loop t rest (n + st.st_blocks)) hw]
    simp [called, pushed, hw, hd, hl, hdir, to_push, stacked, entries_subdirs]
  | loop_dir t d rest n st ws hw hd hl hdir hm hsig =>
    have hw2 := signal_getElem s.workers ws e.wake e.worker _ hsig hw (by simp)
    simp only [sum_map_set_int _ _ _ _ (Worker.loop t rest n) hw2,
      signal_sum_int _ (to_push_waiting fs q) _ _ _ hsig]
    by_cases hq : create_path (concatenate_dir_path t.path_name d) t.path_id = q
    · simp [called, pushed, hw, hd, hl, hdir, to_push, stacked, entries_subdirs, hq,
        List.count_cons]
      ring
    · have h2 : (create_path (concatenate_dir_path t.path_name d) t.path_id == q) = false := by
        simpa using hq
      simp [called, pushed, hw, hd, hl, hdir, to_push, stacked, entries_subdirs, hq,
        List.count_cons, h2]
  | publish t n code hw =>
    simp only [sum_map_set_int _ _ _ _ (Worker.report t code) hw]
    simp [called, pushed, hw, to_push, stacked]
  | report_first t status hw hst herr =>
    simp only [sum_map_set_int _ _ _ _ Worker.fetch hw]
    simp [called, pushed, hw, to_push, stacked]
  | report_other t status hw hc =>
    simp only [sum_map_set_int _ _ _ _ Worker.fetch hw]
    simp [called, pushed, hw, to_push, stacked]

theorem calls_run (fs : Fs) (q : Path) : ∀ (es : List Event) (s s1 : State),
    run fs s es = some s1 →
      (((calls fs s es).count q : Nat) : Int) + pending q s1 =
          pending q s + (((pushes fs s es).count q : Nat) : Int) ∧
        (((pushes fs s es).count q : Nat) : Int) + (s1.workers.map (to_push fs q)).sum =
          (s.workers.map (to_push fs q)).sum +
            ((((calls fs s es).flatMap (discovered fs)).count q : Nat) : Int)
  | [], s, s1, h => by
    simp only [run, Option.some.injEq] at h
    subst h
    simp [calls, pushes]
  | e :: es, s, s1, h => by
    simp only [run] at h
    cases hs : thread_worker_step fs s e with
    | none => simp [hs] at h
    | some s2 =>
      simp only [hs] at h
      have hst := step_sound fs s e s2 hs
      have ih := calls_run fs q es s2 s1 h
      have h1 := pending_step fs q s e s2 hst
      have h2 := to_push_step fs q s e s2 hst
      have h3 := count_toList q (called s e)
      have h4 := count_toList q (pushed fs s e)
      simp only [calls, pushes, hs, List.count_append, List.flatMap_append, Nat.cast_add]
      constructor
      · rw [h3, h4]
        linarith [ih.1]
      · rw [h4]
        linarith [ih.2]

theorem sum_zero_of_forall {α : Type} (f : α → Int) : ∀ l : List α, (∀ x ∈ l, f x = 0) →
    (l.map f).sum = 0
  | [], _ => rfl
  | x :: l, h => by
    simp only [List.map_cons, List.sum_cons, h x (by simp),
      sum_zero_of_forall f l (fun y hy => h y (by simp [hy]))]
    rfl

/-- In a complete run, calculate_directory_usage is called exactly once on
every task seeded or pushed, and the tasks pushed are the subdirectories the
calls discover. -/
theorem calls_exactly_once (fs : Fs) (argv : List String) (n : Nat) (hn : 1 ≤ n) (s0 : State)
    (h0 : initial fs argv n = some s0) (es : List Event) (s : State)
    (hrun : run fs s0 es = some s) (hT : Terminated s) :
    (calls fs s0 es).Perm (s0.thread_pool.stack.top.filterMap id ++ pushes fs s0 es) ∧
      (pushes fs s0 es).Perm ((calls fs s0 es).flatMap (discovered fs)) := by
  have hinv := protocol_reachable fs argv n s0 h0 es s hrun
  have hnum := num_threads_reachable fs argv n s0 h0 es s hrun
  have htop := (terminated_finished s hinv (by omega) hT).2
  have hws0 : s0.workers = List.replicate n Worker.fetch := by
    rw [initial_spec fs argv n s0 h0]
  have hp1 : ∀ q, pending q s = 0 := by
    intro q
    simp only [pending, htop, List.map_nil, List.sum_nil, zero_add]
    exact sum_zero_of_forall _ _ (fun w hw => by rw [hT w hw]; rfl)
  have hp0 : ∀ q, pending q s0 =
      (((s0.thread_pool.stack.top.filterMap id).count q : Nat) : Int) := by
    intro q
    simp only [pending, stacked_sum]
    rw [sum_zero_of_forall (held q) s0.workers
      (fun w hw => by rw [hws0] at hw; rw [List.eq_of_mem_replicate hw]; rfl)]
    simp
  have ht1 : ∀ q, (s.workers.map (to_push fs q)).sum = 0 :=
    fun q => sum_zero_of_forall _ _ (fun w hw => by rw [hT w hw]; rfl)
  have ht0 : ∀ q, (s0.workers.map (to_push fs q)).sum = 0 :=
    fun q => sum_zero_of_forall _ _
      (fun w hw => by rw [hws0] at hw; rw [List.eq_of_mem_replicate hw]; rfl)
  constructor
  · rw [List.perm_iff_count]
    intro q
    have h := (calls_run fs q es s0 s hrun).1
    rw [hp1 q, hp0 q] at h
    rw [List.count_append]
    omega
  · rw [List.perm_iff_count]
    intro q
    have h := (calls_run fs q es s0 s hrun).2
    rw [ht1 q, ht0 q] at h
    omega

/-! ## A single worker -/

/-- C27. With one worker and a file system whose trees below the roots are
finite, the worker loop terminates: a complete run exists, no run has more
transitions than the measure of the initial state, and every run that ends
with the worker returned ends with the task stack empty and the termination
flag set, after calling calculate_directory_usage exactly once on each task
seeded or pushed (the calls are a permutation of the seeded tasks followed
by the pushed ones), the pushed tasks being exactly the subdirectories, read
or not, that the calls discover. -/
theorem single_worker_terminates (fs : Fs) (argv : List String) (depth : Nat)
    (hfin : ∀ a ∈ argv, fs.stat_ok a = true → tree_within fs depth a = true)
    (s0 : State) (h0 : initial fs argv 1 = some s0) :
    (∃ es s, run fs s0 es = some s ∧ Terminated s) ∧
      ∀ (es : List Event) (s : State), run fs s0 es = some s →
        es.length ≤ run_measure fs (cost fs depth) s0 ∧
          (Terminated s →
            s.thread_pool.stack.top = [] ∧ s.work_finished = true ∧
              (calls fs s0 es).Perm
                (s0.thread_pool.stack.top.filterMap id ++ pushes fs s0 es) ∧
              (pushes fs s0 es).Perm ((calls fs s0 es).flatMap (discovered fs))) := by
  obtain ⟨L, hgood, _, hcost⟩ := bounded_ledger fs depth
  have hg0 := good_initial fs L.good argv 1 s0 h0
    (fun a ha hok => (hgood a).2 (hfin a ha hok))
  constructor
  · obtain ⟨hinv, hlt⟩ := waiting_below_reachable fs argv 1 (le_refl 1) s0 h0 [] s0 rfl
    exact can_terminate fs L _ s0 (le_refl _) hinv hlt hg0
  · intro es s hrun
    have hm := measure_run fs L es s0 s hg0 hrun
    rw [hcost] at hm
    refine ⟨by omega, fun hT => ?_⟩
    have hinv := protocol_reachable fs argv 1 s0 h0 es s hrun
    have hnum := num_threads_reachable fs argv 1 s0 h0 es s hrun
    have hfinished := terminated_finished s hinv (by omega) hT
    exact ⟨hfinished.2, hfinished.1,
      calls_exactly_once fs argv 1 (le_refl 1) s0 h0 es s hrun hT⟩

theorem single_worker_terminates_witness :
    (state_at [some "r"] 1 [] [26] 1 true [Worker.done]).thread_pool.stack.top = [] ∧
      (state_at [some "r"] 1 [] [26] 1 true [Worker.done]).work_finished = true ∧
      (calls fs_example (state_at [some "r"] 1 [some ⟨"r", 0⟩] [0] 0 false [Worker.fetch])
          (solo 19)).Perm
        ((state_at [some "r"] 1 [some ⟨"r", 0⟩] [0] 0 false
            [Worker.fetch]).thread_pool.stack.top.filterMap id ++
          pushes fs_example (state_at [some "r"] 1 [some ⟨"r", 0⟩] [0] 0 false [Worker.fetch])
            (solo 19)) ∧
      (pushes fs_example (state_at [some "r"] 1 [some ⟨"r", 0⟩] [0] 0 false [Worker.fetch])
          (solo 19)).Perm
        ((calls fs_example (state_at [some "r"] 1 [some ⟨"r", 0⟩] [0] 0 false [Worker.fetch])
          (solo 19)).flatMap (discovered fs_example)) :=
  ((single_worker_terminates fs_example ["r"] 3 (by decide)
    (state_at [some "r"] 1 [some ⟨"r", 0⟩] [0] 0 false [Worker.fetch]) (by decide)).2
      (solo 19) (state_at [some "r"] 1 [] [26] 1 true [Worker.done]) (by decide)).2 (by decide)

/-! ## Allocation failures -/

theorem process_path_entry_alloc_ok (fs : Fs) (full_path : String) (path_id : Nat)
    (thread_pool : ThreadPool) (directory_size : Int) :
    process_path_entry_alloc true true fs full_path path_id thread_pool directory_size =
      process_path_entry fs full_path path_id thread_pool directory_size := by
  unfold process_path_entry_alloc process_path_entry
  cases fs.lstat full_path with
  | none => rfl
  | some st => cases st.is_dir <;> simp

theorem thread_worker_step_alloc_ok (fs : Fs) (s : State) (e : Event) :
    thread_worker_step_alloc true true fs s e = thread_worker_step fs s e := by
  unfold thread_worker_step_alloc
  split
  · rename_i t d_name rest directory_size hw
    by_cases hd : is_dot d_name = true
    · simp [hd]
    · simp only [hd, process_path_entry_alloc_ok]
      unfold thread_worker_step
      simp [hw, hd]
  · rfl

theorem create_path_failure_step (fs : Fs) (s : State) (e : Event) (t : Path)
    (d_name : String) (rest : List String) (directory_size : Int) (st : Stat)
    (hw : s.workers[e.worker]? = some (Worker.loop t (d_name :: rest) directory_size))
    (hd : is_dot d_name = false)
    (hl : fs.lstat (concatenate_dir_path t.path_name d_name) = some st)
    (hdir : st.is_dir = true) (malloc_ok : Bool) :
    thread_worker_step_alloc false malloc_ok fs s e =
      some { s with
        workers := s.workers.set e.worker (Worker.publish t directory_size EXIT_FAILURE) } := by
  unfold thread_worker_step_alloc
  simp [hw, hd, process_path_entry_alloc, hl, hdir, EXIT_FAILURE]

/-- The state after a failed create_path is the state after a failed lstat on
the same entry. -/
theorem create_path_failure_as_lstat (fs : Fs) (s : State) (e : Event) (t : Path)
    (d_name : String) (rest : List String) (directory_size : Int)
    (hw : s.workers[e.worker]? = some (Worker.loop t (d_name :: rest) directory_size))
    (hd : is_dot d_name = false) :
    Step (hide fs (concatenate_dir_path t.path_name d_name)) s e
      { s with
        workers := s.workers.set e.worker (Worker.publish t directory_size EXIT_FAILURE) } :=
  Step.loop_fail s e t d_name rest directory_size hw hd (by simp [hide])

/-- C21 (as amended). When create_path fails for a discovered subdirectory,
the run does not abort: process_path_entry returns failure as for any entry
error, so the worker leaves the readdir loop at that entry without pushing
a task and goes on to publish the size gathered so far with failure status;
from there the run can be completed, and every complete run ends with exit
code EXIT_FAILURE.  When every allocation succeeds the transition is the
ordinary one. -/
theorem create_path_failure_contract (fs : Fs) (argv : List String) (depth : Nat)
    (hfin : ∀ a ∈ argv, fs.stat_ok a = true → tree_within fs depth a = true)
    (n : Nat) (hn : 1 ≤ n) (s0 : State) (h0 : initial fs argv n = some s0)
    (es : List Event) (s : State) (hrun : run fs s0 es = some s)
    (e : Event) (t : Path) (d_name : String) (rest : List String) (directory_size : Int)
    (st : Stat)
    (hw : s.workers[e.worker]? = some (Worker.loop t (d_name :: rest) directory_size))
    (hd : is_dot d_name = false)
    (hl : fs.lstat (concatenate_dir_path t.path_name d_name) = some st)
    (hdir : st.is_dir = true) (malloc_ok : Bool) :
    thread_worker_step_alloc true true fs s e = thread_worker_step fs s e ∧
      thread_worker_step_alloc false malloc_ok fs s e =
        some { s with
          workers := s.workers.set e.worker (Worker.publish t directory_size EXIT_FAILURE) } ∧
      thread_worker_step fs
          { s with
            workers := s.workers.set e.worker (Worker.publish t directory_size EXIT_FAILURE) }
          e =
        some { s with
          thread_pool := update_directory_size s.thread_pool t directory_size
          workers := s.workers.set e.worker (Worker.report t EXIT_FAILURE) } ∧
      (∃ es2 s2,
        run fs
          { s with
            workers := s.workers.set e.worker (Worker.publish t directory_size EXIT_FAILURE) }
          es2 = some s2 ∧ Terminated s2) ∧
      ∀ (es2 : List Event) (s2 : State),
        run fs
          { s with
            workers := s.workers.set e.worker (Worker.publish t directory_size EXIT_FAILURE) }
          es2 = some s2 →
        Terminated s2 → s2.thread_pool.exit_code = EXIT_FAILURE := by
  obtain ⟨L, hgood, _, hcost⟩ := bounded_ledger fs depth
  have hg := (ledger_reachable fs L argv n s0 h0
    (fun a ha hok => (hgood a).2 (hfin a ha hok)) es s hrun).1
  obtain ⟨hinv, hlt⟩ := waiting_below_reachable fs argv n hn s0 h0 es s hrun
  have hflag := error_flag_reachable fs argv n s0 h0 es s hrun
  have hnum := num_threads_reachable fs argv n s0 h0 es s hrun
  have hstep := create_path_failure_as_lstat fs s e t d_name rest directory_size hw hd
  have hinv1 := protocol_step _ s e _ hstep hinv
  have hlt1 := waiting_below_step _ s e _ hstep hinv hlt
  have hlen : e.worker < s.workers.length := by
    rcases Nat.lt_or_ge e.worker s.workers.length with h | h
    · exact h
    · rw [List.getElem?_eq_none h] at hw
      cases hw
  have hg1 : good_state fs L.good
      { s with
        workers := s.workers.set e.worker (Worker.publish t directory_size EXIT_FAILURE) } :=
    good_state_set fs L.good s e.worker _ s.thread_pool _ _ _ _ rfl rfl hg.2.1
      (hg.2.2 _ (mem_of_getElem _ _ _ hw)).1 hg
  have hdoom : doomed fs
      { s with
        workers := s.workers.set e.worker (Worker.publish t directory_size EXIT_FAILURE) } :=
    ⟨hflag, Or.inr (Or.inr ⟨_, set_mem_self s.workers e.worker _ _ hw,
      by simp [doomed_worker, EXIT_FAILURE]⟩)⟩
  refine ⟨thread_worker_step_alloc_ok fs s e,
    create_path_failure_step fs s e t d_name rest directory_size st hw hd hl hdir malloc_ok,
    ?_, can_terminate fs L _ _ (le_refl _) hinv1 hlt1 hg1, ?_⟩
  · unfold thread_worker_step
    simp [hlen]
  · intro es2 s2 hrun2 hT
    have hinv2 := run_invariant fs protocol_inv
      (fun s e s1 hP hs => protocol_step fs s e s1 hs hP) es2 _ s2 hinv1 hrun2
    have hnum1 : (State.mk s.thread_pool s.waiting_threads_count s.work_finished
        s.error_occurred s.stack_mut_held
        (s.workers.set e.worker
          (Worker.publish t directory_size EXIT_FAILURE))).thread_pool.num_threads = n := hnum
    have hnum2 := run_invariant fs (fun x => x.thread_pool.num_threads = n)
      (fun s e s1 hP hs => (num_threads_step fs s e s1 hs).1.trans hP) es2 _ s2 hnum1 hrun2
    exact doomed_terminated fs s2 hinv2 (by omega) hT (doomed_run fs es2 _ s2 hdoom hrun2)

theorem create_path_failure_contract_witness :
    thread_worker_step_alloc false true fs_example
        (state_at [some "r"] 1 [] [0] 0 false [Worker.loop ⟨"r", 0⟩ ["d", "b"] 12]) ⟨0, 0⟩ =
      some (state_at [some "r"] 1 [] [0] 0 false [Worker.publish ⟨"r", 0⟩ 12 EXIT_FAILURE]) ∧
      (state_failed [some "r"] 1 [] [12] 1 true [Worker.done]).thread_pool.exit_code =
        EXIT_FAILURE :=
  have h := create_path_failure_contract fs_example ["r"] 3 (by decide) 1 (by decide)
    (state_at [some "r"] 1 [some ⟨"r", 0⟩] [0] 0 false [Worker.fetch]) (by decide) (solo 5)
    (state_at [some "r"] 1 [] [0] 0 false [Worker.loop ⟨"r", 0⟩ ["d", "b"] 12]) (by decide)
    ⟨0, 0⟩ ⟨"r", 0⟩ "d" ["b"] 12 ⟨true, 8⟩ (by decide) (by decide) (by decide) (by decide) true
  ⟨h.2.1, h.2.2.2.2 (solo 3) (state_failed [some "r"] 1 [] [12] 1 true [Worker.done])
    (by decide) (by decide)⟩

/-- C21, counterexample. In the tree of `fs_example`, the worker is about to
process the subdirectory `r/d` of `r`.  When create_path fails there, the
worker has a successor state (the process has not exited), the run goes on
to its end and the total 12 of `r` is printed, with exit code 1.  When push
cannot allocate its node, the task of `r/d` is dropped, the loop goes on with
the next entry and the run ends with the total 16 printed and exit code 0. -/
theorem create_path_failure_contract_counterexample :
    (thread_worker_step_alloc false true fs_example
        (state_at [some "r"] 1 [] [0] 0 false [Worker.loop ⟨"r", 0⟩ ["d", "b"] 12]) ⟨0, 0⟩ =
      some (state_at [some "r"] 1 [] [0] 0 false [Worker.publish ⟨"r", 0⟩ 12 EXIT_FAILURE]) ∧
      run fs_example
          (state_at [some "r"] 1 [] [0] 0 false [Worker.publish ⟨"r", 0⟩ 12 EXIT_FAILURE])
          (solo 3) =
        some (state_failed [some "r"] 1 [] [12] 1 true [Worker.done]) ∧
      Terminated (state_failed [some "r"] 1 [] [12] 1 true [Worker.done]) ∧
      print_total_size (state_failed [some "r"] 1 [] [12] 1 true [Worker.done]).thread_pool =
        [(12, "r")]) ∧
    (thread_worker_step_alloc true false fs_example
        (state_at [some "r"] 1 [] [0] 0 false [Worker.loop ⟨"r", 0⟩ ["d", "b"] 12]) ⟨0, 0⟩ =
      some (state_at [some "r"] 1 [] [0] 0 false [Worker.loop ⟨"r", 0⟩ ["b"] 12]) ∧
      run fs_example
          (state_at [some "r"] 1 [] [0] 0 false [Worker.loop ⟨"r", 0⟩ ["b"] 12]) (solo 5) =
        some (state_at [some "r"] 1 [] [16] 1 true [Worker.done]) ∧
      Terminated (state_at [some "r"] 1 [] [16] 1 true [Worker.done]) ∧
      (state_at [some "r"] 1 [] [16] 1 true [Worker.done]).thread_pool.exit_code =
        EXIT_SUCCESS) := by
  decide

/-! ## The accumulators with the additions of the type `long` -/

theorem entries_blocks_nonneg (fs : Fs)
    (hpos : ∀ p st, fs.lstat p = some st → 0 ≤ st.st_blocks) (base_path : String) :
    ∀ entries : List String, 0 ≤ entries_blocks fs base_path entries
  | [] => le_refl _
  | d :: rest => by
    have ih := entries_blocks_nonneg fs hpos base_path rest
    unfold entries_blocks
    split
    · exact ih
    · split
      · exact le_refl _
      · rename_i st hl
        have := hpos _ st hl
        split
        · exact ih
        · omega

theorem sum_nonneg_of_forall {α : Type} (f : α → Int) : ∀ l : List α, (∀ x ∈ l, 0 ≤ f x) →
    0 ≤ (l.map f).sum
  | [], _ => le_refl _
  | x :: l, h => by
    have h1 := h x (by simp)
    have h2 := sum_nonneg_of_forall f l (fun y hy => h y (by simp [hy]))
    simp only [List.map_cons, List.sum_cons]
    omega

theorem le_sum_of_mem {α : Type} (f : α → Int) : ∀ (l : List α), (∀ x ∈ l, 0 ≤ f x) →
    ∀ x ∈ l, f x ≤ (l.map f).sum
  | [], _, x, hx => by cases hx
  | y :: l, h, x, hx => by
    have h1 := h y (by simp)
    have h2 := sum_nonneg_of_forall f l (fun z hz => h z (by simp [hz]))
    simp only [List.map_cons, List.sum_cons]
    rcases List.mem_cons.1 hx with rfl | hx
    · omega
    · have := le_sum_of_mem f l (fun z hz => h z (by simp [hz])) x hx
      omega

theorem usage_nonneg (fs : Fs) (hpos : ∀ p st, fs.lstat p = some st → 0 ≤ st.st_blocks) :
    ∀ (k : Nat) (p : String), 0 ≤ usage fs k p
  | 0, _ => le_refl _
  | k + 1, p => by
    have h1 : 0 ≤ local_size fs p := by
      unfold local_size
      split
      · exact le_refl _
      · rename_i st hl
        have := hpos _ st hl
        split
        · split
          · exact this
          · have := entries_blocks_nonneg fs hpos p ‹_›
            omega
        · exact this
    have h2 := sum_nonneg_of_forall (usage fs k) (subdirs fs p)
      (fun c _ => usage_nonneg fs hpos k c)
    rw [usage]
    omega

theorem owed_task_nonneg (total : String → Int) (htot : ∀ p, 0 ≤ total p) (r : Nat)
    (o : Option Path) : 0 ≤ owed_task total r o := by
  cases o with
  | none => exact le_refl _
  | some t =>
    simp only [owed_task]
    split
    · exact htot _
    · exact le_refl _

theorem owed_worker_nonneg (fs : Fs) (hpos : ∀ p st, fs.lstat p = some st → 0 ≤ st.st_blocks)
    (total : String → Int) (htot : ∀ p, 0 ≤ total p) (r : Nat) (w : Worker)
    (hw : nonneg_worker w) : 0 ≤ owed_worker fs total r w := by
  cases w with
  | start o => exact owed_task_nonneg total htot r o
  | loop t entries n =>
    simp only [owed_worker]
    split
    · have h1 : 0 ≤ n := hw
      have h2 := entries_blocks_nonneg fs hpos t.path_name entries
      have h3 := sum_nonneg_of_forall total (entries_subdirs fs t.path_name entries)
        (fun c _ => htot c)
      omega
    · exact le_refl _
  | publish t n code =>
    simp only [owed_worker]
    split
    · exact hw
    · exact le_refl _
  | fetch => exact le_refl _
  | blocked => exact le_refl _
  | woken => exact le_refl _
  | report t status => exact le_refl _
  | done => exact le_refl _

/-- What a worker still owes to a root is at most the balance of the root,
when nothing is negative. -/
theorem owed_le_balance (fs : Fs) (hpos : ∀ p st, fs.lstat p = some st → 0 ≤ st.st_blocks)
    (total : String → Int) (htot : ∀ p, 0 ≤ total p) (s : State)
    (hw : ∀ w ∈ s.workers, nonneg_worker w) (r : Nat) (w : Worker) (hmem : w ∈ s.workers) :
    s.thread_pool.dir_details.dir_size.getD r 0 + owed_worker fs total r w ≤
      balance fs total r s := by
  have h1 := sum_nonneg_of_forall (owed_task total r) s.thread_pool.stack.top
    (fun o _ => owed_task_nonneg total htot r o)
  have h2 := le_sum_of_mem (owed_worker fs total r) s.workers
    (fun x hx => owed_worker_nonneg fs hpos total htot r x (hw x hx)) w hmem
  unfold balance
  omega

/-- In a state where nothing is negative and the balance of every root is at
most LONG_MAX, no addition of block counts wraps round. -/
theorem step_long_eq (fs : Fs) (hpos : ∀ p st, fs.lstat p = some st → 0 ≤ st.st_blocks)
    (total : String → Int) (htot : ∀ p, 0 ≤ total p) (s : State)
    (hw : ∀ w ∈ s.workers, nonneg_worker w)
    (hd : ∀ r, 0 ≤ s.thread_pool.dir_details.dir_size.getD r 0)
    (hb : ∀ r, balance fs total r s ≤ LONG_MAX) (e : Event) :
    thread_worker_step_long fs s e = thread_worker_step fs s e := by
  unfold thread_worker_step_long
  split
  · rename_i t d_name rest n hwk
    by_cases hdot : is_dot d_name = true
    · simp [hdot]
    · have hmem := mem_of_getElem _ _ _ hwk
      have hn : 0 ≤ n := hw _ hmem
      have hle := owed_le_balance fs hpos total htot s hw t.path_id _ hmem
      have hbb := hb t.path_id
      have heq : process_path_entry_long fs (concatenate_dir_path t.path_name d_name) t.path_id
          s.thread_pool n =
          process_path_entry fs (concatenate_dir_path t.path_name d_name) t.path_id
            s.thread_pool n := by
        unfold process_path_entry_long process_path_entry
        cases hl : fs.lstat (concatenate_dir_path t.path_name d_name) with
        | none => rfl
        | some st =>
          cases hdir : st.is_dir with
          | true => simp [hdir]
          | false =>
            have hst := hpos _ st hl
            have h1 := entries_blocks_nonneg fs hpos t.path_name rest
            have h2 := sum_nonneg_of_forall total (entries_subdirs fs t.path_name rest)
              (fun c _ => htot c)
            have h3 := hd t.path_id
            simp only [owed_worker, if_true, entries_blocks, entries_subdirs, hdot, hl, hdir,
              Bool.false_eq_true, if_false] at hle
            have hr : long_wrap (n + st.st_blocks) = n + st.st_blocks :=
              long_wrap_of_range _ (by unfold LONG_MIN; omega) (by omega)
            simp [hdir, hr]
      simp only [hdot, heq]
      unfold thread_worker_step
      simp [hwk, hdot]
  · rename_i t n code hwk
    have hmem := mem_of_getElem _ _ _ hwk
    have hn : 0 ≤ n := hw _ hmem
    have hle := owed_le_balance fs hpos total htot s hw t.path_id _ hmem
    have hbb := hb t.path_id
    have h3 := hd t.path_id
    simp only [owed_worker, if_true] at hle
    rw [update_directory_size_long_eq _ _ _ (by unfold LONG_MIN; omega) (by omega)]
    unfold thread_worker_step
    simp [hwk]
  · rfl

theorem process_path_entry_le (fs : Fs)
    (hpos : ∀ p st, fs.lstat p = some st → 0 ≤ st.st_blocks)
    (p : String) (id : Nat) (pool : ThreadPool) (n : Int) :
    n ≤ (process_path_entry fs p id pool n).directory_size := by
  unfold process_path_entry
  split
  · exact le_refl _
  · rename_i st hl
    have := hpos p st hl
    split
    · show n ≤ n + st.st_blocks
      omega
    · exact le_refl _

theorem traverse_entries_le (fs : Fs)
    (hpos : ∀ p st, fs.lstat p = some st → 0 ≤ st.st_blocks) (base : String) (id : Nat) :
    ∀ (entries : List String) (pool : ThreadPool) (n : Int),
      n ≤ (traverse_entries fs base id entries pool n).2.2
  | [], _, _ => le_refl _
  | d :: rest, pool, n => by
    unfold traverse_entries
    split
    · exact traverse_entries_le fs hpos base id rest pool n
    · have h1 := process_path_entry_le fs hpos (concatenate_dir_path base d) id pool n
      dsimp only
      split
      · exact h1
      · exact le_trans h1 (traverse_entries_le fs hpos base id rest _ _)

theorem process_path_entry_long_eq (fs : Fs)
    (hpos : ∀ p st, fs.lstat p = some st → 0 ≤ st.st_blocks)
    (p : String) (id : Nat) (pool : ThreadPool) (n : Int) (hn : 0 ≤ n)
    (hfit : (process_path_entry fs p id pool n).directory_size ≤ LONG_MAX) :
    process_path_entry_long fs p id pool n = process_path_entry fs p id pool n := by
  unfold process_path_entry_long
  unfold process_path_entry at hfit ⊢
  cases hl : fs.lstat p with
  | none => rfl
  | some st =>
    have hst := hpos p st hl
    cases hdir : st.is_dir with
    | true => simp [hdir]
    | false =>
      simp only [hl, hdir, Bool.not_false, if_true] at hfit
      have hr : long_wrap (n + st.st_blocks) = n + st.st_blocks :=
        long_wrap_of_range _ (by unfold LONG_MIN; omega) hfit
      simp [hdir, hr]

theorem traverse_entries_long_eq (fs : Fs)
    (hpos : ∀ p st, fs.lstat p = some st → 0 ≤ st.st_blocks) (base : String) (id : Nat) :
    ∀ (entries : List String) (pool : ThreadPool) (n : Int), 0 ≤ n →
      (traverse_entries fs base id entries pool n).2.2 ≤ LONG_MAX →
      traverse_entries_long fs base id entries pool n =
        traverse_entries fs base id entries pool n
  | [], _, _, _, _ => rfl
  | d :: rest, pool, n, hn, hfit => by
    unfold traverse_entries at hfit
    unfold traverse_entries_long traverse_entries
    cases hdot : is_dot d with
    | true =>
      simp only [hdot, if_true] at hfit ⊢
      exact traverse_entries_long_eq fs hpos base id rest pool n hn hfit
    | false =>
      simp only [hdot, Bool.false_eq_true, if_false] at hfit ⊢
      have h1 := process_path_entry_nonneg fs hpos (concatenate_dir_path base d) id pool n hn
      have hle : (process_path_entry fs (concatenate_dir_path base d) id pool n).directory_size ≤
          LONG_MAX := by
        by_cases hst : ((process_path_entry fs (concatenate_dir_path base d) id pool
            n).status != 0) = true
        · simp only [hst, if_true] at hfit
          exact hfit
        · simp only [hst, if_false] at hfit
          exact le_trans (traverse_entries_le fs hpos base id rest _ _) hfit
      have he := process_path_entry_long_eq fs hpos (concatenate_dir_path base d) id pool n hn
        hle
      simp only [he]
      by_cases hst : ((process_path_entry fs (concatenate_dir_path base d) id pool
          n).status != 0) = true
      · simp only [hst, if_true]
      · simp only [hst, if_false] at hfit ⊢
        exact traverse_entries_long_eq fs hpos base id rest _ _ h1 hfit

/-- A call of calculate_directory_usage whose sum fits in a `long` makes no
addition that wraps round. -/
theorem calculate_directory_usage_long_eq (fs : Fs)
    (hpos : ∀ p st, fs.lstat p = some st → 0 ≤ st.st_blocks) (pool : ThreadPool) (t : Path)
    (hr : t.path_id < pool.dir_details.dir_size.length)
    (h0 : 0 ≤ pool.dir_details.dir_size.getD t.path_id 0)
    (hfit : (calculate_directory_usage fs pool t).2.dir_details.dir_size.getD t.path_id 0 ≤
      LONG_MAX) :
    calculate_directory_usage_long fs pool t = calculate_directory_usage fs pool t := by
  unfold calculate_directory_usage at hfit
  unfold calculate_directory_usage_long calculate_directory_usage
  dsimp only at hfit ⊢
  cases hl : fs.lstat t.path_name with
  | none => rfl
  | some st =>
    have hst := hpos _ st hl
    simp only [hl] at hfit ⊢
    cases hdir : st.is_dir with
    | false =>
      simp only [hdir, Bool.false_eq_true, if_false] at hfit ⊢
      have hv : (update_directory_size pool t st.st_blocks).dir_details.dir_size.getD
          t.path_id 0 = pool.dir_details.dir_size.getD t.path_id 0 + st.st_blocks :=
        getD_set_self_int _ _ _ hr
      rw [hv] at hfit
      rw [update_directory_size_long_eq pool t st.st_blocks (by unfold LONG_MIN; omega) hfit]
    | true =>
      simp only [hdir, if_true] at hfit ⊢
      unfold traverse_directory_long
      unfold traverse_directory at hfit ⊢
      cases hrd : fs.readdir t.path_name with
      | none =>
        simp only [hrd] at hfit ⊢
        have hv : (update_directory_size pool t st.st_blocks).dir_details.dir_size.getD
            t.path_id 0 = pool.dir_details.dir_size.getD t.path_id 0 + st.st_blocks :=
          getD_set_self_int _ _ _ hr
        rw [hv] at hfit
        rw [update_directory_size_long_eq pool t st.st_blocks (by unfold LONG_MIN; omega) hfit]
      | some entries =>
        simp only [hrd] at hfit ⊢
        have hn := traverse_entries_nonneg fs hpos t.path_name t.path_id entries pool
          st.st_blocks hst
        have hr2 : t.path_id <
            (traverse_entries fs t.path_name t.path_id entries pool
              st.st_blocks).2.1.dir_details.dir_size.length := by
          rw [hn.2]
          exact hr
        have hv := getD_set_self_int
          (traverse_entries fs t.path_name t.path_id entries pool
            st.st_blocks).2.1.dir_details.dir_size t.path_id
          ((traverse_entries fs t.path_name t.path_id entries pool
            st.st_blocks).2.1.dir_details.dir_size.getD t.path_id 0 +
            (traverse_entries fs t.path_name t.path_id entries pool st.st_blocks).2.2) hr2
        have hfit2 : (traverse_entries fs t.path_name t.path_id entries pool
            st.st_blocks).2.1.dir_details.dir_size.getD t.path_id 0 +
            (traverse_entries fs t.path_name t.path_id entries pool st.st_blocks).2.2 ≤
              LONG_MAX := by
          rw [← hv]
          exact hfit
        have h00 : 0 ≤ (traverse_entries fs t.path_name t.path_id entries pool
            st.st_blocks).2.1.dir_details.dir_size.getD t.path_id 0 := by
          rw [hn.2]
          exact h0
        have he := traverse_entries_long_eq fs hpos t.path_name t.path_id entries pool
          st.st_blocks hst (by omega)
        have hu := update_directory_size_long_eq
          (traverse_entries fs t.path_name t.path_id entries pool st.st_blocks).2.1 t
          (traverse_entries fs t.path_name t.path_id entries pool st.st_blocks).2.2
          (by unfold LONG_MIN; omega) hfit2
        simp only [he, hu]

/-- When the usage of every root is at most LONG_MAX, every state that the
exact run reaches is nowhere negative, and the balance of every root in it is
at most LONG_MAX. -/
theorem reachable_in_range (fs : Fs) (hpos : ∀ p st, fs.lstat p = some st → 0 ≤ st.st_blocks)
    (argv : List String) (depth : Nat)
    (hfin : ∀ a ∈ argv, fs.stat_ok a = true → tree_within fs depth a = true)
    (hbound : ∀ a ∈ argv, fs.stat_ok a = true → usage fs depth a ≤ LONG_MAX)
    (n : Nat) (s0 : State)
    (h0 : initial fs argv n = some s0) (es : List Event) (s : State)
    (hrun : run fs s0 es = some s) :
    (∀ w ∈ s.workers, nonneg_worker w) ∧
      (∀ r, 0 ≤ s.thread_pool.dir_details.dir_size.getD r 0) ∧
      (∀ r, balance fs (usage fs depth) r s ≤ LONG_MAX) ∧
      ∀ r, s.thread_pool.dir_details.dir_size.getD r 0 ≤ LONG_MAX := by
  obtain ⟨L, hgood, htotal, _⟩ := bounded_ledger fs depth
  have hm := (sizes_monotone_run fs hpos argv n s0 h0).2 es s hrun
  have hw := hm.1
  have hd : ∀ r, 0 ≤ s.thread_pool.dir_details.dir_size.getD r 0 :=
    fun r => (hm.2 [] s rfl r).1
  have hl := (ledger_reachable fs L argv n s0 h0
    (fun a ha hok => (hgood a).2 (hfin a ha hok)) es s hrun).2
  rw [htotal] at hl
  have htot : ∀ p, 0 ≤ usage fs depth p := usage_nonneg fs hpos depth
  have hb : ∀ r, balance fs (usage fs depth) r s ≤ LONG_MAX := by
    intro r
    rw [hl r, balance_initial fs (usage fs depth) argv n s0 h0 r]
    cases hr : argv[r]? with
    | none =>
      show (0 : Int) ≤ LONG_MAX
      unfold LONG_MAX
      omega
    | some a =>
      have ha : a ∈ argv := mem_of_getElem _ _ _ hr
      show (if fs.stat_ok a = true then usage fs depth a else 0) ≤ LONG_MAX
      split
      · rename_i hok
        exact hbound a ha hok
      · unfold LONG_MAX
        omega
  refine ⟨hw, hd, hb, ?_⟩
  intro r
  have h1 := sum_nonneg_of_forall (owed_task (usage fs depth) r) s.thread_pool.stack.top
    (fun o _ => owed_task_nonneg (usage fs depth) htot r o)
  have h2 := sum_nonneg_of_forall (owed_worker fs (usage fs depth) r) s.workers
    (fun x hx => owed_worker_nonneg fs hpos (usage fs depth) htot r x (hw x hx))
  have h3 := hb r
  unfold balance at h3
  omega

theorem run_snoc (fs : Fs) (s0 : State) (es : List Event) (s : State) (e : Event) (s1 : State)
    (h : run fs s0 es = some s) (hs : thread_worker_step fs s e = some s1) :
    run fs s0 (es ++ [e]) = some s1 := by
  rw [run_append, h]
  simp [run, hs]

/-- When the usage of every root is at most LONG_MAX, the run with the
additions of the type `long` is the exact run. -/
theorem run_long_eq (fs : Fs) (hpos : ∀ p st, fs.lstat p = some st → 0 ≤ st.st_blocks)
    (argv : List String) (depth : Nat)
    (hfin : ∀ a ∈ argv, fs.stat_ok a = true → tree_within fs depth a = true)
    (hbound : ∀ a ∈ argv, fs.stat_ok a = true → usage fs depth a ≤ LONG_MAX)
    (n : Nat) (s0 : State)
    (h0 : initial fs argv n = some s0) :
    ∀ (es2 es : List Event) (s : State), run fs s0 es = some s →
      run_long fs s es2 = run fs s es2
  | [], _, _, _ => rfl
  | e :: es2, es, s, hrun => by
    obtain ⟨hw, hd, hb, _⟩ := reachable_in_range fs hpos argv depth hfin hbound n s0 h0 es s hrun
    have hstep := step_long_eq fs hpos (usage fs depth) (usage_nonneg fs hpos depth) s hw hd hb e
    simp only [run_long, run, hstep]
    cases hs : thread_worker_step fs s e with
    | none => rfl
    | some s1 =>
      exact run_long_eq fs hpos argv depth hfin hbound n s0 h0 es2 (es ++ [e]) s1
        (run_snoc fs s0 es s e s1 hrun hs)

theorem run_long_append (fs : Fs) : ∀ (es1 es2 : List Event) (s : State),
    run_long fs s (es1 ++ es2) = (run_long fs s es1).bind (fun s1 => run_long fs s1 es2)
  | [], es2, s => by simp [run_long]
  | e :: es1, es2, s => by
    simp only [List.cons_append, run_long]
    cases thread_worker_step_long fs s e with
    | none => simp
    | some s1 => simpa using run_long_append fs es1 es2 s1

/-- C19 (as amended). For a file system whose block counts are not negative
and roots whose usage is at most LONG_MAX each, with the additions of the type
`long` as the code makes them: the accumulators are all zero in the initial
state of a run; a call of update_directory_size with an amount that is not
negative and a sum within the range of `long`, and a call of
calculate_directory_usage on an accumulator that is not negative and with a
sum within the range of `long`, leave every accumulator greater than or equal
to its value before; no addition of a run wraps round (the run is the run of
the exact sums); and along every run, from any state reached to any state
reached later, no accumulator decreases, none is negative and none exceeds
LONG_MAX. -/
theorem accumulators_monotone (fs : Fs)
    (hpos : ∀ p st, fs.lstat p = some st → 0 ≤ st.st_blocks)
    (argv : List String) (depth : Nat)
    (hfin : ∀ a ∈ argv, fs.stat_ok a = true → tree_within fs depth a = true)
    (hbound : ∀ a ∈ argv, fs.stat_ok a = true → usage fs depth a ≤ LONG_MAX)
    (n : Nat) (s0 : State)
    (h0 : initial fs argv n = some s0) :
    (∀ r, s0.thread_pool.dir_details.dir_size.getD r 0 = 0) ∧
      (∀ pool t m r, 0 ≤ m → LONG_MIN ≤ pool.dir_details.dir_size.getD t.path_id 0 →
        pool.dir_details.dir_size.getD t.path_id 0 + m ≤ LONG_MAX →
        pool.dir_details.dir_size.getD r 0 ≤
          (update_directory_size_long pool t m).dir_details.dir_size.getD r 0) ∧
      (∀ pool t r, t.path_id < pool.dir_details.dir_size.length →
        0 ≤ pool.dir_details.dir_size.getD t.path_id 0 →
        (calculate_directory_usage fs pool t).2.dir_details.dir_size.getD t.path_id 0 ≤
          LONG_MAX →
        calculate_directory_usage_long fs pool t = calculate_directory_usage fs pool t ∧
          pool.dir_details.dir_size.getD r 0 ≤
            (calculate_directory_usage_long fs pool t).2.dir_details.dir_size.getD r 0) ∧
      ∀ es s, run_long fs s0 es = some s →
        run fs s0 es = some s ∧
          ∀ es2 s2, run_long fs s es2 = some s2 →
            run fs s es2 = some s2 ∧
              ∀ r, 0 ≤ s.thread_pool.dir_details.dir_size.getD r 0 ∧
                s.thread_pool.dir_details.dir_size.getD r 0 ≤
                  s2.thread_pool.dir_details.dir_size.getD r 0 ∧
                s2.thread_pool.dir_details.dir_size.getD r 0 ≤ LONG_MAX := by
  have hm := sizes_monotone_run fs hpos argv n s0 h0
  refine ⟨hm.1, ?_, ?_, ?_⟩
  · intro pool t m r hm0 hlo hhi
    rw [update_directory_size_long_eq pool t m (by omega) hhi]
    exact getD_set_add_le _ _ _ _ hm0
  · intro pool t r hr h00 hfit
    have he := calculate_directory_usage_long_eq fs hpos pool t hr h00 hfit
    refine ⟨he, ?_⟩
    rw [he]
    exact calculate_directory_usage_le fs hpos pool t r
  · intro es s hrl
    have hrun : run fs s0 es = some s := by
      rw [← run_long_eq fs hpos argv depth hfin hbound n s0 h0 es [] s0 rfl]
      exact hrl
    refine ⟨hrun, ?_⟩
    intro es2 s2 hrl2
    have hrun2 : run fs s es2 = some s2 := by
      rw [← run_long_eq fs hpos argv depth hfin hbound n s0 h0 es2 es s hrun]
      exact hrl2
    refine ⟨hrun2, ?_⟩
    intro r
    have h1 := (hm.2 es s hrun).2 es2 s2 hrun2 r
    have hall : run fs s0 (es ++ es2) = some s2 := by
      rw [run_append, hrun]
      exact hrun2
    have h2 := (reachable_in_range fs hpos argv depth hfin hbound n s0 h0 (es ++ es2) s2
      hall).2.2.2 r
    exact ⟨h1.1, h1.2, h2⟩

theorem accumulators_monotone_witness :
    0 ≤ (state_at [some "r", some "f"] 2 [] [0, 8] 0 false
          [Worker.loop ⟨"r", 0⟩ ["b"] 12,
            Worker.start (some ⟨"r/d", 0⟩)]).thread_pool.dir_details.dir_size.getD 0 0 ∧
      (state_at [some "r", some "f"] 2 [] [0, 8] 0 false
          [Worker.loop ⟨"r", 0⟩ ["b"] 12,
            Worker.start (some ⟨"r/d", 0⟩)]).thread_pool.dir_details.dir_size.getD 0 0 ≤
        (state_at [some "r", some "f"] 2 [] [26, 8] 1 true
          [Worker.done, Worker.done]).thread_pool.dir_details.dir_size.getD 0 0 ∧
      (state_at [some "r", some "f"] 2 [] [26, 8] 1 true
          [Worker.done, Worker.done]).thread_pool.dir_details.dir_size.getD 0 0 ≤ LONG_MAX :=
  (((accumulators_monotone fs_example fs_example_nonneg ["r", "f"] 3 (by decide) (by decide) 2
    (state_at [some "r", some "f"] 2 [some ⟨"f", 1⟩, some ⟨"r", 0⟩] [0, 0] 0 false
      [Worker.fetch, Worker.fetch])
    (by decide)).2.2.2 (schedule_rf.take 12)
    (state_at [some "r", some "f"] 2 [] [0, 8] 0 false
      [Worker.loop ⟨"r", 0⟩ ["b"] 12, Worker.start (some ⟨"r/d", 0⟩)])
    (by decide)).2 (schedule_rf.drop 12)
    (state_at [some "r", some "f"] 2 [] [26, 8] 1 true [Worker.done, Worker.done])
    (by decide)).2 0

/-- C19 as stated fails once a sum leaves the range of `long`: in `fs_huge`
no block count is negative, the directory `q` has LONG_MAX blocks and its
file one block; the addition of process_path_entry wraps round to LONG_MIN,
and update_directory_size takes the accumulator of `q` from 0 to LONG_MIN, in
the call of calculate_directory_usage and in the run of one worker alike. -/
theorem accumulators_monotone_counterexample :
    (∀ p st, fs_huge.lstat p = some st → 0 ≤ st.st_blocks) ∧
      tree_within fs_huge 2 "q" = true ∧
      usage fs_huge 2 "q" = LONG_MAX + 1 ∧
      (init_ThreadPool 1 1).dir_details.dir_size = [0] ∧
      (calculate_directory_usage_long fs_huge (init_ThreadPool 1 1)
        ⟨"q", 0⟩).2.dir_details.dir_size = [-9223372036854775808] ∧
      initial fs_huge ["q"] 1 =
        some (state_at [some "q"] 1 [some ⟨"q", 0⟩] [0] 0 false [Worker.fetch]) ∧
      run_long fs_huge (state_at [some "q"] 1 [some ⟨"q", 0⟩] [0] 0 false [Worker.fetch])
          (solo 4) =
        some (state_at [some "q"] 1 [] [0] 0 false
          [Worker.publish ⟨"q", 0⟩ (-9223372036854775808) 0]) ∧
      run_long fs_huge
          (state_at [some "q"] 1 [] [0] 0 false
            [Worker.publish ⟨"q", 0⟩ (-9223372036854775808) 0])
          (solo 1) =
        some (state_at [some "q"] 1 [] [-9223372036854775808] 0 false
          [Worker.report ⟨"q", 0⟩ 0]) := by
  refine ⟨?_, by decide, by decide, by decide, by decide, by decide, by decide, by decide⟩
  intro p st h
  simp only [fs_huge] at h
  repeat' split at h
  all_goals first
    | (injection h with h; subst h; decide)
    | exact absurd h (by simp)

/-! ## Termination, with returns of pthread_cond_wait that no signal caused -/

theorem spurious_cases (fs : Fs) (s : State) (e : Event) (s1 : State)
    (h : thread_worker_step_spurious fs s e = some s1) :
    (s.workers[e.worker]? = some Worker.blocked ∧
        s1 = { s with workers := s.workers.set e.worker Worker.woken }) ∨
      (s.workers[e.worker]? ≠ some Worker.blocked ∧ thread_worker_step fs s e = some s1) := by
  unfold thread_worker_step_spurious at h
  split at h
  · rename_i hw
    injection h with h
    exact Or.inl ⟨hw, h.symm⟩
  · rename_i hw
    exact Or.inr ⟨fun hb => hw hb, h⟩

/-- The invariants of a run: the protocol, the count below the number of
workers while the work is not finished, and the good tasks. -/
theorem steady_wake (fs : Fs) (good : String → Prop) (s : State) (i : Nat)
    (hw : s.workers[i]? = some Worker.blocked) (hinv : protocol_inv s)
    (hlt : s.work_finished = false →
      s.waiting_threads_count < (s.thread_pool.num_threads : Int))
    (hg : good_state fs good s) :
    protocol_inv { s with workers := s.workers.set i Worker.woken } ∧
      (s.work_finished = false →
        s.waiting_threads_count < (s.thread_pool.num_threads : Int)) ∧
      good_state fs good { s with workers := s.workers.set i Worker.woken } := by
  obtain ⟨hm, hlen, hnf, hfin⟩ := hinv
  refine ⟨⟨hm, by simpa using hlen, fun hf => ?_, fun hf => ?_⟩, hlt, ?_⟩
  · obtain ⟨hc, hnd⟩ := hnf hf
    refine ⟨?_, ?_⟩
    · show s.waiting_threads_count = waiters (s.workers.set i Worker.woken)
      rw [waiters_set _ _ _ _ hw, hc]
      simp [waiting_mark]
    · intro x hx
      rcases List.mem_or_eq_of_mem_set hx with hx | rfl
      · exact hnd x hx
      · simp
  · refine ⟨(hfin hf).1, ?_⟩
    intro x hx
    rcases List.mem_or_eq_of_mem_set hx with hx | rfl
    · exact (hfin hf).2 x hx
    · exact Or.inl rfl
  · exact good_state_set fs good s i Worker.woken s.thread_pool _ _ _ _ rfl rfl hg.2.1
      trivial hg

theorem measure_wake (fs : Fs) (cost : String → Nat) (s : State) (i : Nat)
    (hw : s.workers[i]? = some Worker.blocked) :
    run_measure fs cost { s with workers := s.workers.set i Worker.woken } =
        run_measure fs cost s + 1 ∧
      work_measure fs cost { s with workers := s.workers.set i Worker.woken } =
        work_measure fs cost s := by
  have h1 := sum_map_set_nat (weight_worker fs cost) _ _ _ Worker.woken hw
  have h2 := sum_map_set_nat (weight_outside fs cost) _ _ _ Worker.woken hw
  simp only [weight_worker, weight_outside] at h1 h2
  refine ⟨?_, ?_⟩
  · simp only [run_measure, List.length_set]
    omega
  · simp only [work_measure]
    omega

theorem weight_outside_le (fs : Fs) (cost : String → Nat) (w : Worker) :
    weight_outside fs cost w ≤ weight_worker fs cost w := by
  cases w <;> simp [weight_outside, weight_worker]

theorem broadcast_sum_outside (fs : Fs) (cost : String → Nat) (ws : List Worker) :
    ((pthread_cond_broadcast ws).map (weight_outside fs cost)).sum =
      (ws.map (weight_outside fs cost)).sum := by
  induction ws with
  | nil => simp [pthread_cond_broadcast]
  | cons x xs ih =>
    simp only [pthread_cond_broadcast, List.map_cons, List.sum_cons] at ih ⊢
    by_cases hb : x = Worker.blocked
    · subst hb
      simp only [if_true, weight_outside, weight_worker]
      omega
    · simp only [hb, if_false]
      omega

theorem signal_sum_outside (fs : Fs) (cost : String → Nat) (ws ws2 : List Worker) (k : Nat)
    (h : pthread_cond_signal ws k = some ws2) :
    (ws2.map (weight_outside fs cost)).sum = (ws.map (weight_outside fs cost)).sum := by
  rcases signal_cases ws ws2 k h with ⟨rfl, _⟩ | ⟨hk, rfl⟩
  · rfl
  · have := sum_map_set_nat (weight_outside fs cost) ws k Worker.blocked Worker.woken hk
    simp only [weight_outside, weight_worker] at this
    omega

/-- A transition of a worker outside pthread_cond_wait takes one at least
from the measure of the work left, and a transition of a worker that returns
from pthread_cond_wait adds nothing to it. -/
theorem outside_step (fs : Fs) (L : Ledger fs) (s : State) (e : Event) (s1 : State)
    (h : Step fs s e s1) (hg : good_state fs L.good s) (w : Worker)
    (hwe : s.workers[e.worker]? = some w) :
    work_measure fs L.cost s1 + (if waiting_mark w = 0 then 1 else 0) ≤
      work_measure fs L.cost s := by
  obtain ⟨hlen, hstack, hworkers⟩ := hg
  cases h with
  | stuck hw hm hf =>
    have hset := sum_map_set_nat (weight_outside fs L.cost) _ _ _ Worker.done hw
    rw [hw] at hwe
    injection hwe with hwe
    subst hwe
    simp only [work_measure, weight_outside, weight_worker, waiting_mark, if_true] at hset ⊢
    omega
  | leave hw hm hf =>
    have hset := sum_map_set_nat (weight_outside fs L.cost) _ _ _ Worker.done hw
    rw [hw] at hwe
    injection hwe with hwe
    subst hwe
    simp only [work_measure, weight_outside, weight_worker, waiting_mark] at hset ⊢
    simp only [one_ne_zero, if_false]
    omega
  | finish w0 k hw hk hm hf htop hN =>
    have hw0 : w0 ≠ Worker.blocked := by rcases hk with ⟨rfl, _⟩ | ⟨rfl, _⟩ <;> simp
    have hset := sum_map_set_nat (weight_outside fs L.cost) _ _ _ Worker.done
      (broadcast_getElem _ _ _ hw hw0)
    have hbc := broadcast_sum_outside fs L.cost s.workers
    rw [hw] at hwe
    injection hwe with hwe
    subst hwe
    have hd : weight_outside fs L.cost Worker.done = 0 := rfl
    rw [hd] at hset
    rcases hk with ⟨rfl, _⟩ | ⟨rfl, _⟩
    · have h1 : weight_outside fs L.cost Worker.fetch = 1 := rfl
      rw [h1] at hset
      simp only [work_measure, waiting_mark, if_true]
      omega
    · have h1 : weight_outside fs L.cost Worker.woken = 0 := rfl
      rw [h1] at hset
      simp only [work_measure, waiting_mark, one_ne_zero, if_false]
      omega
  | block w0 k hw hk hm hf htop hN =>
    have hset := sum_map_set_nat (weight_outside fs L.cost) _ _ _ Worker.blocked hw
    rw [hw] at hwe
    injection hwe with hwe
    subst hwe
    have hd : weight_outside fs L.cost Worker.blocked = 0 := rfl
    rw [hd] at hset
    rcases hk with ⟨rfl, _⟩ | ⟨rfl, _⟩
    · have h1 : weight_outside fs L.cost Worker.fetch = 1 := rfl
      rw [h1] at hset
      simp only [work_measure, waiting_mark, if_true]
      omega
    · have h1 : weight_outside fs L.cost Worker.woken = 0 := rfl
      rw [h1] at hset
      simp only [work_measure, waiting_mark, one_ne_zero, if_false]
      omega
  | take w0 k o rest hw hk hm hf htop =>
    have hset := sum_map_set_nat (weight_outside fs L.cost) _ _ _ (Worker.start o) hw
    rw [hw] at hwe
    injection hwe with hwe
    subst hwe
    have hd : weight_outside fs L.cost (Worker.start o) = weight_task L.cost o := rfl
    rw [hd] at hset
    rcases hk with ⟨rfl, _⟩ | ⟨rfl, _⟩
    · have h1 : weight_outside fs L.cost Worker.fetch = 1 := rfl
      rw [h1] at hset
      simp only [work_measure, waiting_mark, if_true, htop, List.map_cons, List.sum_cons]
      omega
    · have h1 : weight_outside fs L.cost Worker.woken = 0 := rfl
      rw [h1] at hset
      simp only [work_measure, waiting_mark, one_ne_zero, if_false, htop, List.map_cons,
        List.sum_cons]
      omega
  | begin t hw =>
    have ht : good_task L.good s.thread_pool.path_num (some t) :=
      hworkers _ (mem_of_getElem _ _ _ hw)
    have hset := sum_map_set_nat (weight_outside fs L.cost) _ _ _ (begin_task fs t) hw
    have hb := weight_begin_task fs L t ht.1
    have hle := weight_outside_le fs L.cost (begin_task fs t)
    have h1 : weight_outside fs L.cost (Worker.start (some t)) = L.cost t.path_name := rfl
    rw [hw] at hwe
    injection hwe with hwe
    subst hwe
    rw [h1] at hset
    simp only [work_measure, waiting_mark, if_true]
    omega
  | loop_end t n hw =>
    have hset := sum_map_set_nat (weight_outside fs L.cost) _ _ _
      (Worker.publish t n EXIT_SUCCESS) hw
    rw [hw] at hwe
    injection hwe with hwe
    subst hwe
    simp only [work_measure, weight_outside, weight_worker, entries_subdirs, List.length_nil,
      List.map_nil, List.sum_nil, waiting_mark, if_true] at hset ⊢
    omega
  | loop_dot t d rest n hw hd =>
    have hset := sum_map_set_nat (weight_outside fs L.cost) _ _ _ (Worker.loop t rest n) hw
    rw [hw] at hwe
    injection hwe with hwe
    subst hwe
    simp only [work_measure, weight_outside, weight_worker, entries_subdirs, hd, if_true,
      List.length_cons, waiting_mark] at hset ⊢
    omega
  | loop_fail t d rest n hw hd hl =>
    have hset := sum_map_set_nat (weight_outside fs L.cost) _ _ _
      (Worker.publish t n EXIT_FAILURE) hw
    rw [hw] at hwe
    injection hwe with hwe
    subst hwe
    simp only [work_measure, weight_outside, weight_worker, List.length_cons, waiting_mark,
      if_true] at hset ⊢
    omega
  | loop_file t d rest n st hw hd hl hdir =>
    have hset := sum_map_set_nat (weight_outside fs L.cost) _ _ _
      (Worker.loop t rest (n + st.st_blocks)) hw
    rw [hw] at hwe
    injection hwe with hwe
    subst hwe
    simp only [work_measure, weight_outside, weight_worker, entries_subdirs, hd, hl, hdir,
      Bool.false_eq_true, if_false, List.length_cons, waiting_mark, if_true] at hset ⊢
    omega
  | loop_dir t d rest n st ws hw hd hl hdir hm hsig =>
    have hw2 := signal_getElem s.workers ws e.wake e.worker _ hsig hw (by simp)
    have hset := sum_map_set_nat (weight_outside fs L.cost) _ _ _ (Worker.loop t rest n) hw2
    have hsg := signal_sum_outside fs L.cost _ _ _ hsig
    rw [hw] at hwe
    injection hwe with hwe
    subst hwe
    simp only [work_measure, weight_outside, weight_worker, weight_task, entries_subdirs, hd,
      hl, hdir, Bool.false_eq_true, if_false, if_true, List.length_cons, List.map_cons,
      List.sum_cons, waiting_mark] at hset ⊢
    omega
  | publish t n code hw =>
    have hset := sum_map_set_nat (weight_outside fs L.cost) _ _ _ (Worker.report t code) hw
    rw [hw] at hwe
    injection hwe with hwe
    subst hwe
    simp only [work_measure, weight_outside, weight_worker, update_directory_size,
      waiting_mark, if_true] at hset ⊢
    omega
  | report_first t status hw hst herr =>
    have hset := sum_map_set_nat (weight_outside fs L.cost) _ _ _ Worker.fetch hw
    rw [hw] at hwe
    injection hwe with hwe
    subst hwe
    simp only [work_measure, weight_outside, weight_worker, waiting_mark, if_true] at hset ⊢
    omega
  | report_other t status hw hc =>
    have hset := sum_map_set_nat (weight_outside fs L.cost) _ _ _ Worker.fetch hw
    rw [hw] at hwe
    injection hwe with hwe
    subst hwe
    simp only [work_measure, weight_outside, weight_worker, waiting_mark, if_true] at hset ⊢
    omega

theorem waiters_all_waiting : ∀ ws : List Worker, (∀ w ∈ ws, waiting_mark w ≠ 0) →
    waiters ws = ws.length
  | [], _ => by simp [waiters]
  | w :: ws, h => by
    have hw := h w (by simp)
    have hb := waiting_mark_bounds w
    have ih := waiters_all_waiting ws (fun x hx => h x (by simp [hx]))
    simp only [waiters, List.map_cons, List.sum_cons, List.length_cons] at ih ⊢
    push_cast
    omega

/-- While the work is not finished, some worker outside pthread_cond_wait can
move. -/
theorem outside_can_move (fs : Fs) (good : String → Prop) (s : State) (hinv : protocol_inv s)
    (hlt : s.work_finished = false →
      s.waiting_threads_count < (s.thread_pool.num_threads : Int))
    (hg : good_state fs good s) (hf : s.work_finished = false) :
    ∃ e s1 w, s.workers[e.worker]? = some w ∧ waiting_mark w = 0 ∧
      thread_worker_step fs s e = some s1 := by
  obtain ⟨hm, hlen, hnf, _⟩ := hinv
  obtain ⟨hc, hnd⟩ := hnf hf
  have hlt2 := hlt hf
  have key : ∃ w ∈ s.workers, waiting_mark w = 0 := by
    by_contra hall
    have := waiters_all_waiting s.workers (fun w hw h0 => hall ⟨w, hw, h0⟩)
    rw [← hlen] at hlt2
    omega
  obtain ⟨w, hw, h0⟩ := key
  obtain ⟨i, hi⟩ := List.mem_iff_getElem?.1 hw
  have hb : w ≠ Worker.blocked := by
    intro h
    rw [h] at h0
    simp [waiting_mark] at h0
  obtain ⟨k, hk⟩ := worker_can_move fs good s i w hi hm (hg.2.2 w hw) hb (hnd w hw)
  obtain ⟨s1, hs1⟩ := Option.isSome_iff_exists.1 hk
  exact ⟨⟨i, k⟩, s1, w, hi, h0, hs1⟩

/-- Along a run with returns of pthread_cond_wait that no signal caused, the
invariants hold and the two measures account for every transition. -/
theorem spurious_run (fs : Fs) (L : Ledger fs) : ∀ (es : List Event) (s s1 : State),
    protocol_inv s →
      (s.work_finished = false →
        s.waiting_threads_count < (s.thread_pool.num_threads : Int)) →
      good_state fs L.good s → run_spurious fs s es = some s1 →
      (protocol_inv s1 ∧
        (s1.work_finished = false →
          s1.waiting_threads_count < (s1.thread_pool.num_threads : Int)) ∧
        good_state fs L.good s1) ∧
      es.length + run_measure fs L.cost s1 ≤
        run_measure fs L.cost s + 2 * spurious_count fs s es ∧
      outside_count fs s es + work_measure fs L.cost s1 ≤ work_measure fs L.cost s
  | [], s, s1, hinv, hlt, hg, h => by
    simp only [run_spurious, Option.some.injEq] at h
    subst h
    exact ⟨⟨hinv, hlt, hg⟩, by simp [spurious_count], by simp [outside_count]⟩
  | e :: es, s, s1, hinv, hlt, hg, h => by
    simp only [run_spurious] at h
    cases hs : thread_worker_step_spurious fs s e with
    | none => simp [hs] at h
    | some s2 =>
      simp only [hs] at h
      rcases spurious_cases fs s e s2 hs with ⟨hb, rfl⟩ | ⟨hb, hstep⟩
      · obtain ⟨hinv2, hlt2, hg2⟩ := steady_wake fs L.good s e.worker hb hinv hlt hg
        obtain ⟨hm1, hm2⟩ := measure_wake fs L.cost s e.worker hb
        obtain ⟨hI, h1, h2⟩ := spurious_run fs L es _ s1 hinv2 hlt2 hg2 h
        refine ⟨hI, ?_, ?_⟩
        · simp only [spurious_count, hs, hb, if_true, List.length_cons]
          omega
        · simp only [outside_count, hs, hb, waiting_mark, one_ne_zero, if_false]
          omega
      · have hst := step_sound fs s e s2 hstep
        have hinv2 := protocol_step fs s e s2 hst hinv
        have hlt2 := waiting_below_step fs s e s2 hst hinv hlt
        have hg2 := (ledger_step fs L s e s2 hst hg).1
        have hdrop := measure_step fs L s e s2 hst hg
        obtain ⟨hI, h1, h2⟩ := spurious_run fs L es s2 s1 hinv2 hlt2 hg2 h
        refine ⟨hI, ?_, ?_⟩
        · simp only [spurious_count, hs, hb, if_false, List.length_cons]
          omega
        · cases hw : s.workers[e.worker]? with
          | none => simp [thread_worker_step, hw] at hstep
          | some w =>
            have hout := outside_step fs L s e s2 hst hg w hw
            simp only [outside_count, hs, hw]
            omega

/-- A run in which no return of pthread_cond_wait lacks its signal is a run
with such returns allowed, and counts none. -/
theorem run_spurious_of_run (fs : Fs) : ∀ (es : List Event) (s s1 : State),
    run fs s es = some s1 → run_spurious fs s es = some s1 ∧ spurious_count fs s es = 0
  | [], s, s1, h => by
    simp only [run] at h
    exact ⟨h, rfl⟩
  | e :: es, s, s1, h => by
    simp only [run] at h
    cases hs : thread_worker_step fs s e with
    | none => simp [hs] at h
    | some s2 =>
      simp only [hs] at h
      have hb : s.workers[e.worker]? ≠ some Worker.blocked := by
        intro hb
        simp [thread_worker_step, hb] at hs
      have hsp : thread_worker_step_spurious fs s e = some s2 := by
        unfold thread_worker_step_spurious
        split
        · rename_i hw
          exact absurd hw hb
        · exact hs
      obtain ⟨h1, h2⟩ := run_spurious_of_run fs es s2 s1 h
      simp only [run_spurious, spurious_count, hsp, hb, if_false]
      exact ⟨h1, by omega⟩

theorem step_keeps (fs : Fs) (s : State) (e : Event) (s1 : State) (h : Step fs s e s1)
    (j : Nat) (w : Worker) (hj : e.worker ≠ j) (hw : s.workers[j]? = some w)
    (hb : w ≠ Worker.blocked) : s1.workers[j]? = some w := by
  cases h with
  | stuck _ _ _ => simpa [List.getElem?_set_ne hj] using hw
  | leave _ _ _ => simpa [List.getElem?_set_ne hj] using hw
  | finish w0 k _ _ _ _ _ _ =>
    show ((pthread_cond_broadcast s.workers).set e.worker Worker.done)[j]? = some w
    rw [List.getElem?_set_ne hj]
    exact broadcast_getElem _ _ _ hw hb
  | block w0 k _ _ _ _ _ _ => simpa [List.getElem?_set_ne hj] using hw
  | take w0 k o rest _ _ _ _ _ => simpa [List.getElem?_set_ne hj] using hw
  | begin t _ => simpa [List.getElem?_set_ne hj] using hw
  | loop_end t n _ => simpa [List.getElem?_set_ne hj] using hw
  | loop_dot t d rest n _ _ => simpa [List.getElem?_set_ne hj] using hw
  | loop_fail t d rest n _ _ _ => simpa [List.getElem?_set_ne hj] using hw
  | loop_file t d rest n st _ _ _ _ => simpa [List.getElem?_set_ne hj] using hw
  | loop_dir t d rest n st ws _ _ _ _ _ hsig =>
    show (ws.set e.worker (Worker.loop t rest n))[j]? = some w
    rw [List.getElem?_set_ne hj]
    exact signal_getElem _ _ _ _ _ hsig hw hb
  | publish t n code _ => simpa [List.getElem?_set_ne hj] using hw
  | report_first t status _ _ _ => simpa [List.getElem?_set_ne hj] using hw
  | report_other t status _ _ => simpa [List.getElem?_set_ne hj] using hw

/-- One transition, with or without a signal for the return of
pthread_cond_wait: the invariants are kept, a worker that is not blocked
stays as it is while another moves, the measure of the work left drops when
the worker that moves is outside pthread_cond_wait and does not go up
otherwise, and once the work is finished it stays so and the termination
measure drops. -/
theorem spurious_step (fs : Fs) (L : Ledger fs) (s : State) (e : Event) (s1 : State)
    (hinv : protocol_inv s)
    (hlt : s.work_finished = false →
      s.waiting_threads_count < (s.thread_pool.num_threads : Int))
    (hg : good_state fs L.good s) (hs : thread_worker_step_spurious fs s e = some s1) :
    (protocol_inv s1 ∧
        (s1.work_finished = false →
          s1.waiting_threads_count < (s1.thread_pool.num_threads : Int)) ∧
        good_state fs L.good s1) ∧
      (∀ j w, e.worker ≠ j → s.workers[j]? = some w → w ≠ Worker.blocked →
        s1.workers[j]? = some w) ∧
      (∃ w, s.workers[e.worker]? = some w ∧
        work_measure fs L.cost s1 + (if waiting_mark w = 0 then 1 else 0) ≤
          work_measure fs L.cost s) ∧
      (s.work_finished = true →
        s1.work_finished = true ∧ run_measure fs L.cost s1 < run_measure fs L.cost s) := by
  rcases spurious_cases fs s e s1 hs with ⟨hb, rfl⟩ | ⟨hb, hstep⟩
  · refine ⟨steady_wake fs L.good s e.worker hb hinv hlt hg, ?_, ?_, ?_⟩
    · intro j w hj hw _
      simpa [List.getElem?_set_ne hj] using hw
    · refine ⟨Worker.blocked, hb, ?_⟩
      rw [(measure_wake fs L.cost s e.worker hb).2]
      simp [waiting_mark]
    · intro hf
      exfalso
      rcases (hinv.2.2.2 hf).2 _ (mem_of_getElem _ _ _ hb) with h | h <;> cases h
  · have hst := step_sound fs s e s1 hstep
    refine ⟨⟨protocol_step fs s e s1 hst hinv, waiting_below_step fs s e s1 hst hinv hlt,
      (ledger_step fs L s e s1 hst hg).1⟩, ?_, ?_, ?_⟩
    · intro j w hj hw hbl
      exact step_keeps fs s e s1 hst j w hj hw hbl
    · cases hw : s.workers[e.worker]? with
      | none => simp [thread_worker_step, hw] at hstep
      | some w => exact ⟨w, rfl, outside_step fs L s e s1 hst hg w hw⟩
    · intro hf
      refine ⟨?_, measure_step fs L s e s1 hst hg⟩
      rw [finished_step fs s e s1 hst hinv hf]
      exact hf

/-- A run that never ends is not fair: it leaves for ever without a turn a
worker that is outside pthread_cond_wait and has not returned. -/
theorem unending_run_unfair (fs : Fs) (L : Ledger fs) (s : State) (hinv : protocol_inv s)
    (hlt : s.work_finished = false →
      s.waiting_threads_count < (s.thread_pool.num_threads : Int))
    (hg : good_state fs L.good s) (states : Nat → State) (schedule : Nat → Event)
    (hrun : unending_run fs s states schedule) : ¬ fair_schedule states schedule := by
  obtain ⟨h0, hstep⟩ := hrun
  have hI : ∀ i, protocol_inv (states i) ∧
      ((states i).work_finished = false →
        (states i).waiting_threads_count < ((states i).thread_pool.num_threads : Int)) ∧
      good_state fs L.good (states i) := by
    intro i
    induction i with
    | zero =>
      rw [h0]
      exact ⟨hinv, hlt, hg⟩
    | succ i ih => exact (spurious_step fs L _ _ _ ih.1 ih.2.1 ih.2.2 (hstep i)).1
  have hS := fun i => spurious_step fs L _ _ _ (hI i).1 (hI i).2.1 (hI i).2.2 (hstep i)
  have hle : ∀ i, work_measure fs L.cost (states (i + 1)) ≤ work_measure fs L.cost (states i) := by
    intro i
    obtain ⟨w, _, h⟩ := (hS i).2.2.1
    omega
  have hmono : ∀ d i, work_measure fs L.cost (states (i + d)) ≤
      work_measure fs L.cost (states i) := by
    intro d
    induction d with
    | zero => intro i; exact le_refl _
    | succ d ih =>
      intro i
      exact le_trans (hle (i + d)) (ih i)
  have hquiet : ∀ m i, work_measure fs L.cost (states i) ≤ m →
      ∃ N, ∀ k, N ≤ k → ∀ w, (states k).workers[(schedule k).worker]? = some w →
        waiting_mark w ≠ 0 := by
    intro m
    induction m with
    | zero =>
      intro i hm
      refine ⟨i, ?_⟩
      intro k hk w hw h0w
      obtain ⟨w2, hw2, h⟩ := (hS k).2.2.1
      rw [hw] at hw2
      injection hw2 with hw2
      subst hw2
      have := hmono (k - i) i
      rw [Nat.add_sub_cancel' hk] at this
      simp only [h0w, if_true] at h
      omega
    | succ m ih =>
      intro i hm
      by_cases hex : ∃ k, i ≤ k ∧ ∃ w, (states k).workers[(schedule k).worker]? = some w ∧
          waiting_mark w = 0
      · obtain ⟨k, hk, w, hw, h0w⟩ := hex
        obtain ⟨w2, hw2, h⟩ := (hS k).2.2.1
        rw [hw] at hw2
        injection hw2 with hw2
        subst hw2
        have := hmono (k - i) i
        rw [Nat.add_sub_cancel' hk] at this
        simp only [h0w, if_true] at h
        exact ih (k + 1) (by omega)
      · refine ⟨i, ?_⟩
        intro k hk w hw h0w
        exact hex ⟨k, hk, w, hw, h0w⟩
  obtain ⟨N, hN⟩ := hquiet _ 0 (le_refl _)
  intro hfair
  cases hf : (states N).work_finished with
  | true =>
    have hdown : ∀ d, (states (N + d)).work_finished = true ∧
        run_measure fs L.cost (states (N + d)) + d ≤ run_measure fs L.cost (states N) := by
      intro d
      induction d with
      | zero => exact ⟨hf, le_refl _⟩
      | succ d ih =>
        have := (hS (N + d)).2.2.2 ih.1
        refine ⟨this.1, ?_⟩
        have h2 := this.2
        have h3 := ih.2
        show run_measure fs L.cost (states (N + d + 1)) + (d + 1) ≤
          run_measure fs L.cost (states N)
        omega
    have := (hdown (run_measure fs L.cost (states N) + 1)).2
    omega
  | false =>
    obtain ⟨e, s1, w, hw, h0w, hmove⟩ :=
      outside_can_move fs L.good (states N) (hI N).1 (hI N).2.1 (hI N).2.2 hf
    have hnd : w ≠ Worker.done := ((hI N).1.2.2.1 hf).2 w (mem_of_getElem _ _ _ hw)
    have hnb : w ≠ Worker.blocked := by
      intro h
      rw [h] at h0w
      simp [waiting_mark] at h0w
    obtain ⟨k, hk, hkj⟩ := hfair N e.worker w hw h0w hnd
    have hstay : ∀ d, N + d ≤ k → (states (N + d)).workers[e.worker]? = some w := by
      intro d
      induction d with
      | zero => intro _; exact hw
      | succ d ih =>
        intro hd
        have hwd := ih (by omega)
        by_cases hj : (schedule (N + d)).worker = e.worker
        · exact absurd h0w (hN (N + d) (by omega) w (by rw [hj]; exact hwd))
        · exact (hS (N + d)).2.1 e.worker w hj hwd hnb
    have hwk := hstay (k - N) (by omega)
    rw [Nat.add_sub_cancel' hk] at hwk
    exact hN k hk w (by rw [hkj]; exact hwk) h0w

theorem spin_unending :
    unending_run fs_example
      (state_at [some "f"] 2 [] [0] 1 false [Worker.publish ⟨"f", 0⟩ 8 0, Worker.blocked])
      spin_states spin_schedule := by
  refine ⟨rfl, ?_⟩
  intro i
  rcases Nat.mod_two_eq_zero_or_one i with h | h
  · have h1 : (i + 1) % 2 = 1 := by omega
    simp only [spin_states, spin_schedule, h, h1, if_true, one_ne_zero, if_false]
    decide
  · have h1 : (i + 1) % 2 = 0 := by omega
    simp only [spin_states, spin_schedule, h, h1, if_true, one_ne_zero, if_false]
    decide

/-- C5. For a file system whose trees below the roots are finite, any number
of workers (at least one), any schedule, and any returns of pthread_cond_wait
that no signal caused (a blocked worker may move as well): the number of
transitions is at most the measure of the initial state plus two for every
such return, so that a run goes on only as long as such returns keep coming;
the transitions of the workers outside pthread_cond_wait number at most the
work measure of the initial state, whatever those returns; as long as the work
is not finished some worker outside pthread_cond_wait can move, and once it is
finished no worker is blocked: every worker is woken or has returned; in
every state where some worker has not returned some worker can move without
such a return (no deadlock, no worker left waiting for ever); from every
state reached the run can be completed, in at most the measure of that state
of transitions and without such a return, to a state where every worker has
returned; and a run that never ends from a state reached is not fair: it
leaves for ever without a turn a worker that is outside pthread_cond_wait and
has not returned. -/
theorem workers_terminate (fs : Fs) (argv : List String) (depth : Nat)
    (hfin : ∀ a ∈ argv, fs.stat_ok a = true → tree_within fs depth a = true)
    (n : Nat) (hn : 1 ≤ n) (s0 : State) (h0 : initial fs argv n = some s0)
    (es : List Event) (s : State) (hrun : run_spurious fs s0 es = some s) :
    es.length + run_measure fs (cost fs depth) s ≤
        run_measure fs (cost fs depth) s0 + 2 * spurious_count fs s0 es ∧
      outside_count fs s0 es + work_measure fs (cost fs depth) s ≤
        work_measure fs (cost fs depth) s0 ∧
      (s.work_finished = false →
        ∃ e s1 w, s.workers[e.worker]? = some w ∧ waiting_mark w = 0 ∧
          thread_worker_step fs s e = some s1) ∧
      (s.work_finished = true → ∀ w ∈ s.workers, w = Worker.woken ∨ w = Worker.done) ∧
      (¬ Terminated s → ∃ e s1, thread_worker_step fs s e = some s1) ∧
      (∃ es2 s2, run fs s es2 = some s2 ∧ Terminated s2 ∧
        es2.length ≤ run_measure fs (cost fs depth) s) ∧
      ∀ states schedule, unending_run fs s states schedule →
        ¬ fair_schedule states schedule := by
  obtain ⟨L, hgood, _, hcost⟩ := bounded_ledger fs depth
  have hg0 := good_initial fs L.good argv n s0 h0
    (fun a ha hok => (hgood a).2 (hfin a ha hok))
  obtain ⟨hinv0, hlt0⟩ := waiting_below_reachable fs argv n hn s0 h0 [] s0 rfl
  obtain ⟨⟨hinv, hlt, hg⟩, hm1, hm2⟩ := spurious_run fs L es s0 s hinv0 hlt0 hg0 hrun
  rw [hcost] at hm1 hm2
  obtain ⟨es2, s2, hrun2, hT2⟩ := can_terminate fs L _ s (le_refl _) hinv hlt hg
  have hm3 := measure_run fs L es2 s s2 hg hrun2
  rw [hcost] at hm3
  exact ⟨hm1, hm2, outside_can_move fs L.good s hinv hlt hg, fun hf => (hinv.2.2.2 hf).2,
    progress fs L.good s hinv hlt hg, ⟨es2, s2, hrun2, hT2, by omega⟩,
    fun states schedule hu => unending_run_unfair fs L s hinv hlt hg states schedule hu⟩

theorem workers_terminate_witness :
    [(⟨0, 0⟩ : Event), ⟨1, 0⟩, ⟨1, 0⟩, ⟨1, 0⟩, ⟨0, 0⟩].length +
        run_measure fs_example (cost fs_example 3)
          (state_at [some "f"] 2 [] [0] 1 false
            [Worker.publish ⟨"f", 0⟩ 8 0, Worker.blocked]) ≤
        run_measure fs_example (cost fs_example 3)
          (state_at [some "f"] 2 [some ⟨"f", 0⟩] [0] 0 false [Worker.fetch, Worker.fetch]) +
        2 * spurious_count fs_example
          (state_at [some "f"] 2 [some ⟨"f", 0⟩] [0] 0 false [Worker.fetch, Worker.fetch])
          [⟨0, 0⟩, ⟨1, 0⟩, ⟨1, 0⟩, ⟨1, 0⟩, ⟨0, 0⟩] ∧
      spurious_count fs_example
          (state_at [some "f"] 2 [some ⟨"f", 0⟩] [0] 0 false [Worker.fetch, Worker.fetch])
          [⟨0, 0⟩, ⟨1, 0⟩, ⟨1, 0⟩, ⟨1, 0⟩, ⟨0, 0⟩] = 1 ∧
      (∃ es2 s2, run fs_example
          (state_at [some "f"] 2 [] [0] 1 false
            [Worker.publish ⟨"f", 0⟩ 8 0, Worker.blocked]) es2 = some s2 ∧
        Terminated s2 ∧
        es2.length ≤ run_measure fs_example (cost fs_example 3)
          (state_at [some "f"] 2 [] [0] 1 false
            [Worker.publish ⟨"f", 0⟩ 8 0, Worker.blocked])) ∧
      ¬ fair_schedule spin_states spin_schedule :=
  (fun h => ⟨h.1, by decide, h.2.2.2.2.2.1,
      h.2.2.2.2.2.2 spin_states spin_schedule spin_unending⟩)
    (workers_terminate fs_example ["f"] 3 (by decide) 2 (by decide)
      (state_at [some "f"] 2 [some ⟨"f", 0⟩] [0] 0 false [Worker.fetch, Worker.fetch])
      (by decide) [⟨0, 0⟩, ⟨1, 0⟩, ⟨1, 0⟩, ⟨1, 0⟩, ⟨0, 0⟩]
      (state_at [some "f"] 2 [] [0] 1 false [Worker.publish ⟨"f", 0⟩ 8 0, Worker.blocked])
      (by decide))

end Mdu

namespace Huffman

/-! ## Arithmetic of `int` -/

theorem int_wrap_of_range (n : Int) (h1 : INT_MIN ≤ n) (h2 : n ≤ INT_MAX) : int_wrap n = n := by
  unfold int_wrap
  unfold INT_MIN at h1
  unfold INT_MAX at h2
  omega

theorem int_wrap_range (n : Int) : INT_MIN ≤ int_wrap n ∧ int_wrap n ≤ INT_MAX := by
  unfold int_wrap INT_MIN INT_MAX
  omega

theorem int_wrap_idem (n : Int) : int_wrap (int_wrap n) = int_wrap n := by
  unfold int_wrap
  omega

theorem int_wrap_add_left (a b : Int) : int_wrap (int_wrap a + b) = int_wrap (a + b) := by
  unfold int_wrap
  omega

theorem int_wrap_add (a b : Int) : int_wrap (int_wrap a + int_wrap b) = int_wrap (a + b) := by
  unfold int_wrap
  omega

/-! ## Frequency table -/

theorem frequency_foldl (b : Fin 256) : ∀ (file : List (Fin 256)) (frequency : Fin 256 → Int),
    int_wrap (frequency b) = frequency b →
    (file.foldl (fun frequency c => Function.update frequency c (int_wrap (frequency c + 1)))
        frequency) b =
      int_wrap (frequency b + (file.count b : Int))
  | [], frequency, h => by simp [h]
  | c :: file, frequency, h => by
    rw [List.foldl_cons]
    by_cases hc : c = b
    · subst hc
      rw [frequency_foldl c file _ (by rw [Function.update_same, int_wrap_idem])]
      simp only [Function.update_same, List.count_cons_self, Nat.cast_add, Nat.cast_one]
      rw [int_wrap_add_left]
      congr 1
      ring
    · have h2 : b ≠ c := fun h3 => hc h3.symm
      have h3 : (c == b) = false := by simpa using hc
      rw [frequency_foldl b file _ (by rw [Function.update_noteq h2]; exact h)]
      simp [Function.update_noteq h2, List.count_cons, h3]

/-- Every entry of the table is the number of occurrences of its byte, plus
one for the byte 4, as an `int`. -/
theorem frequency_table_wrap (file : List (Fin 256)) (b : Fin 256) :
    create_frequency_table file b =
      int_wrap ((file.count b : Int) + (if b = 4 then 1 else 0)) := by
  have h0 : int_wrap 0 = 0 := by decide
  unfold create_frequency_table
  by_cases h : b = 4
  · subst h
    simp only [Function.update_same, if_true]
    rw [frequency_foldl 4 file (fun _ => 0) h0, int_wrap_add_left]
    simp
  · simp only [Function.update_noteq h, h, if_false, add_zero]
    rw [frequency_foldl b file (fun _ => 0) h0]
    simp

/-- C23 (as amended). For every input file and every byte value `b`, entry `b`
of the table create_frequency_table returns is the `int` that counting the
occurrences of `b` in the file gives, once more for the byte value 4 (after
the file is read the entry of 4, the end-of-transmission symbol that
encode_file appends, is incremented): the number of occurrences of `b`, plus
one for the byte 4, whenever that number is at most INT_MAX, and that number
wrapped round into the range of `int` otherwise. -/
theorem frequency_table_counts (file : List (Fin 256)) (b : Fin 256) :
    create_frequency_table file b =
        int_wrap ((file.count b : Int) + (if b = 4 then 1 else 0)) ∧
      ((file.count b : Int) + (if b = 4 then 1 else 0) ≤ INT_MAX →
        create_frequency_table file b = (file.count b : Int) + (if b = 4 then 1 else 0)) := by
  refine ⟨frequency_table_wrap file b, fun h => ?_⟩
  rw [frequency_table_wrap file b]
  apply int_wrap_of_range _ _ h
  unfold INT_MIN
  split_ifs <;> omega

theorem frequency_table_counts_witness :
    create_frequency_table [97, 98, 97] 97 =
      ((([97, 98, 97] : List (Fin 256)).count 97 : Nat) : Int) +
        (if (97 : Fin 256) = 4 then 1 else 0) :=
  (frequency_table_counts [97, 98, 97] 97).2 (by decide)

/-- C23 as stated fails on the empty file: the byte 4 does not occur in it and
its entry is 1.  It also fails on the file of 2^31 bytes 0: the entry of 0 is
INT_MIN. -/
theorem frequency_table_counts_counterexample :
    (([] : List (Fin 256)).count 4 = 0 ∧ create_frequency_table [] 4 = 1 ∧
      create_frequency_table [] 4 ≠ (([] : List (Fin 256)).count 4 : Int)) ∧
    ((List.replicate 2147483648 (0 : Fin 256)).count 0 = 2147483648 ∧
      create_frequency_table (List.replicate 2147483648 0) 0 = -2147483648) := by
  refine ⟨by decide, List.count_replicate_self _ _, ?_⟩
  rw [frequency_table_wrap, List.count_replicate_self]
  decide

/-! ## The priority queue -/

theorem compare_le (x y : Trie) : compare x y ≤ 0 ↔ x.weight ≤ y.weight := by
  unfold compare
  split_ifs <;> constructor <;> intro h <;> omega

theorem compare_lt (x y : Trie) : compare x y < 0 ↔ x.weight < y.weight := by
  unfold compare
  split_ifs <;> constructor <;> intro h <;> omega

theorem insert_sorted_perm (x : Trie) : ∀ l : List Trie,
    (insert_sorted compare x l).Perm (x :: l)
  | [] => List.Perm.refl _
  | y :: l => by
    unfold insert_sorted
    by_cases h : compare x y < 0
    · simp only [h, if_true]
      exact List.Perm.refl _
    · simp only [h, if_false]
      exact ((insert_sorted_perm x l).cons y).trans (List.Perm.swap x y l)

theorem insert_sorted_sorted (x : Trie) : ∀ l : List Trie,
    l.Pairwise (fun a b => a.weight ≤ b.weight) →
      (insert_sorted compare x l).Pairwise (fun a b => a.weight ≤ b.weight)
  | [], _ => by simp [insert_sorted]
  | y :: l, h => by
    unfold insert_sorted
    rw [List.pairwise_cons] at h
    by_cases hc : compare x y < 0
    · simp only [hc, if_true]
      rw [compare_lt] at hc
      refine List.pairwise_cons.2 ⟨?_, List.pairwise_cons.2 h⟩
      intro z hz
      rcases List.mem_cons.1 hz with rfl | hz
      · omega
      · have := h.1 z hz
        omega
    · simp only [hc, if_false]
      rw [compare_lt] at hc
      refine List.pairwise_cons.2 ⟨?_, insert_sorted_sorted x l h.2⟩
      intro z hz
      rcases List.mem_cons.1 ((insert_sorted_perm x l).subset hz) with rfl | hz
      · omega
      · exact h.1 z hz

/-- The sorted list is a priority queue that yields a node of least weight
first. -/
theorem list_pqueue_min_first : list_pqueue.min_first compare := by
  refine ⟨fun q l => q.1 = compare ∧ q.2.Perm l ∧
    q.2.Pairwise (fun a b => a.weight ≤ b.weight), ?_, ?_, ?_, ?_⟩
  · exact ⟨rfl, List.Perm.refl _, List.Pairwise.nil⟩
  · rintro ⟨cmp, l0⟩ l x ⟨h1, h2, h3⟩
    simp only at h1
    subst h1
    exact ⟨rfl, (insert_sorted_perm x l0).trans (h2.cons x), insert_sorted_sorted x l0 h3⟩
  · rintro ⟨cmp, l0⟩ l ⟨h1, h2, h3⟩
    simp only [list_pqueue]
    cases l0 with
    | nil => rw [List.Perm.nil_eq h2]
    | cons a l0 =>
      cases l with
      | nil => exact absurd h2.symm (List.not_perm_nil_cons _ _)
      | cons b l => rfl
  · rintro ⟨cmp, l0⟩ l ⟨h1, h2, h3⟩ hne
    cases l0 with
    | nil => exact absurd (List.Perm.nil_eq h2).symm hne
    | cons a l0 =>
      refine ⟨a, h2.subset (List.mem_cons_self _ _), rfl, ?_, h1, ?_, ?_⟩
      · intro y hy
        rw [compare_le]
        rcases List.mem_cons.1 (h2.symm.subset hy) with rfl | hy
        · exact le_refl _
        · exact (List.pairwise_cons.1 h3).1 y hy
      · have h4 := h2.erase a
        simp only [List.erase_cons_head] at h4
        exact h4
      · exact (List.pairwise_cons.1 h3).2

/-! ## The loop of build_huff_trie -/

theorem fill_queue_holds (P : Pqueue) (R : P.Q → List Trie → Prop)
    (hins : ∀ q l x, R q l → R (P.pqueue_insert q x) (x :: l))
    (frequency_table : Fin 256 → Int) : ∀ (is : List (Fin 256)) (q : P.Q) (l : List Trie),
    R q l →
      R (fill_queue P frequency_table is q)
        ((is.map (fun i => trie_create (frequency_table i) (((i : Fin 256) : Nat) : Int))).reverse
          ++ l)
  | [], q, l, h => by simpa [fill_queue] using h
  | i :: is, q, l, h => by
    have h1 := fill_queue_holds P R hins frequency_table is _ _ (hins q l
      (trie_create (frequency_table i) (((i : Fin 256) : Nat) : Int)) h)
    simpa [fill_queue] using h1

theorem erase_eq_nil {α : Type} [DecidableEq α] (l : List α) (x : α) (hx : x ∈ l)
    (h : l.erase x = []) : l = [x] := by
  have h1 := List.length_erase_of_mem hx
  rw [h] at h1
  simp only [List.length_nil] at h1
  cases l with
  | nil => cases hx
  | cons a l =>
    cases l with
    | nil =>
      rcases List.mem_singleton.1 hx with rfl
      rfl
    | cons b l => simp at h1

/-- The loop of build_huff_trie returns a node when the queue is not empty and
the fuel is at least the number of nodes held; a property of the forest that
is kept when two nodes of least weight are combined holds at the end. -/
theorem build_loop_spec (P : Pqueue) (R : P.Q → List Trie → Prop)
    (hins : ∀ q l x, R q l → R (P.pqueue_insert q x) (x :: l))
    (hemp : ∀ q l, R q l → P.pqueue_is_empty q = l.isEmpty)
    (hfirst : ∀ q l, R q l → l ≠ [] →
      ∃ x, x ∈ l ∧ P.pqueue_inspect_first q = some x ∧ (∀ y ∈ l, compare x y ≤ 0) ∧
        R (P.pqueue_delete_first q) (l.erase x))
    (I : List Trie → Prop)
    (hI : ∀ l x y, I l → x ∈ l → (∀ z ∈ l, x.weight ≤ z.weight) → y ∈ l.erase x →
      (∀ z ∈ l.erase x, y.weight ≤ z.weight) → I (trie_combine x y :: (l.erase x).erase y)) :
    ∀ (fuel : Nat) (q : P.Q) (l : List Trie), R q l → l ≠ [] → l.length ≤ fuel → I l →
      ∃ root, build_loop P fuel q = some (some root) ∧ I [root]
  | 0, q, l, _, hne, hlen, _ => by
    cases l with
    | nil => exact absurd rfl hne
    | cons a l => simp at hlen
  | fuel + 1, q, l, hR, hne, hlen, hIl => by
    obtain ⟨x, hx, hfx, hminx, hRx⟩ := hfirst q l hR hne
    have he : P.pqueue_is_empty q = false := by
      rw [hemp q l hR]
      cases l with
      | nil => exact absurd rfl hne
      | cons a l => rfl
    have hlx := List.length_erase_of_mem hx
    unfold build_loop
    simp only [he, hfx, Bool.false_eq_true, if_false]
    by_cases h1 : l.erase x = []
    · have he1 : P.pqueue_is_empty (P.pqueue_delete_first q) = true := by
        rw [hemp _ _ hRx, h1]
        rfl
      simp only [he1, if_true]
      have h2 := erase_eq_nil l x hx h1
      exact ⟨x, rfl, h2 ▸ hIl⟩
    · obtain ⟨y, hy, hfy, hminy, hRy⟩ := hfirst _ _ hRx h1
      have he1 : P.pqueue_is_empty (P.pqueue_delete_first q) = false := by
        rw [hemp _ _ hRx]
        cases hl1 : l.erase x with
        | nil => exact absurd hl1 h1
        | cons a l1 => rfl
      have hly := List.length_erase_of_mem hy
      simp only [he1, hfy, Bool.false_eq_true, if_false]
      have hlpos : 0 < (l.erase x).length := List.length_pos.2 h1
      exact build_loop_spec P R hins hemp hfirst I hI fuel _ _
        (hins _ _ (trie_combine x y) hRy) (by simp)
        (by simp only [List.length_cons, hly, hlx]; omega)
        (hI l x y hIl hx (fun z hz => (compare_le x z).1 (hminx z hz)) hy
          (fun z hz => (compare_le y z).1 (hminy z hz)))

/-- With a priority queue that yields a node of least weight first,
build_huff_trie returns a node, and a property of the forest that holds for
the 256 leaves and is kept when two nodes of least weight are combined holds
for the node returned. -/
theorem build_huff_trie_spec (P : Pqueue) (hP : P.min_first compare)
    (frequency_table : Fin 256 → Int) (I : List Trie → Prop)
    (h0 : I (initial_forest frequency_table))
    (hI : ∀ l x y, I l → x ∈ l → (∀ z ∈ l, x.weight ≤ z.weight) → y ∈ l.erase x →
      (∀ z ∈ l.erase x, y.weight ≤ z.weight) → I (trie_combine x y :: (l.erase x).erase y)) :
    ∃ root, build_huff_trie P frequency_table = some (some root) ∧ I [root] := by
  obtain ⟨R, hR0, hins, hemp, hfirst⟩ := hP
  have h1 := fill_queue_holds P R hins frequency_table (List.finRange 256) _ _ hR0
  rw [List.append_nil] at h1
  refine build_loop_spec P R hins hemp hfirst I hI 256 _ _ h1 ?_ ?_ h0
  · intro h
    have h2 := congrArg List.length h
    simp at h2
  · simp

/-! ## The trie returned -/

theorem forest_ok_initial (frequency_table : Fin 256 → Int) :
    forest_ok frequency_table (initial_forest frequency_table) := by
  constructor
  · have h : (initial_forest frequency_table).flatMap leaves =
        (table_leaves frequency_table).reverse := by
      unfold initial_forest table_leaves
      rw [← List.map_reverse, ← List.map_reverse]
      generalize (List.finRange 256).reverse = is
      induction is with
      | nil => rfl
      | cons i is ih =>
        simp only [List.map_cons, List.flatMap_cons, ih]
        rfl
    rw [h]
    exact List.reverse_perm _
  · intro t ht
    unfold initial_forest at ht
    simp only [List.mem_reverse, List.mem_map] at ht
    obtain ⟨i, _, rfl⟩ := ht
    trivial

theorem forest_exact_initial (frequency_table : Fin 256 → Int) :
    forest_exact (initial_forest frequency_table) := by
  intro t ht
  unfold initial_forest at ht
  simp only [List.mem_reverse, List.mem_map] at ht
  obtain ⟨i, _, rfl⟩ := ht
  trivial

theorem perm_cons_erase_two (l : List Trie) (x y : Trie) (hx : x ∈ l) (hy : y ∈ l.erase x) :
    l.Perm (x :: y :: (l.erase x).erase y) :=
  (List.perm_cons_erase hx).trans ((List.perm_cons_erase hy).cons x)

theorem forest_leaves_perm (frequency_table : Fin 256 → Int) (l : List Trie) (x y : Trie)
    (h : forest_ok frequency_table l) (hx : x ∈ l) (hy : y ∈ l.erase x) :
    (table_leaves frequency_table).Perm
      ((leaves x ++ leaves y) ++ ((l.erase x).erase y).flatMap leaves) := by
  have h1 : (l.flatMap leaves).Perm ((x :: y :: (l.erase x).erase y).flatMap leaves) :=
    (perm_cons_erase_two l x y hx hy).flatMap_right leaves
  simp only [List.flatMap_cons, ← List.append_assoc] at h1
  exact h.1.symm.trans h1

theorem forest_ok_step (frequency_table : Fin 256 → Int) (l : List Trie) (x y : Trie)
    (h : forest_ok frequency_table l) (hx : x ∈ l) (hy : y ∈ l.erase x) :
    forest_ok frequency_table (trie_combine x y :: (l.erase x).erase y) := by
  constructor
  · refine List.Perm.trans ?_ (forest_leaves_perm frequency_table l x y h hx hy).symm
    simp only [List.flatMap_cons, trie_combine, leaves]
    exact List.Perm.refl _
  · intro t ht
    rcases List.mem_cons.1 ht with rfl | ht
    · exact ⟨rfl, rfl, h.2 x hx, h.2 y (List.mem_of_mem_erase hy)⟩
    · exact h.2 t (List.mem_of_mem_erase (List.mem_of_mem_erase ht))

theorem weight_eq_sum_leaves : ∀ t : Trie, well_formed t →
    t.weight = ((leaves t).map Prod.snd).sum
  | Trie.leaf _ _, _ => by simp [leaves, Trie.weight]
  | Trie.node _ _ l r, h => by
    obtain ⟨_, hw, hl, hr⟩ := h
    simp only [leaves, List.map_append, List.sum_append,
      ← weight_eq_sum_leaves l hl, ← weight_eq_sum_leaves r hr]
    exact hw

theorem weight_wrap_sum_leaves : ∀ t : Trie, well_formed_int t →
    int_wrap t.weight = int_wrap ((leaves t).map Prod.snd).sum
  | Trie.leaf _ _, _ => by simp [leaves, Trie.weight]
  | Trie.node _ _ l r, h => by
    obtain ⟨_, hw, hl, hr⟩ := h
    subst hw
    have h1 := weight_wrap_sum_leaves l hl
    have h2 := weight_wrap_sum_leaves r hr
    simp only [leaves, List.map_append, List.sum_append]
    show int_wrap (int_wrap (l.weight + r.weight)) = int_wrap (_ + _)
    rw [int_wrap_idem, ← int_wrap_add l.weight, h1, h2, int_wrap_add]

theorem table_leaves_weights (frequency_table : Fin 256 → Int) :
    (table_leaves frequency_table).map Prod.snd = (List.finRange 256).map frequency_table := by
  unfold table_leaves
  rw [List.map_map]
  rfl

theorem sum_parts : ∀ l : List Int,
    (l.map (fun a => min a 0)).sum ≤ l.sum ∧ l.sum ≤ (l.map (fun a => max a 0)).sum ∧
      (l.map (fun a => min a 0)).sum ≤ 0 ∧ 0 ≤ (l.map (fun a => max a 0)).sum
  | [] => by simp
  | a :: l => by
    have ih := sum_parts l
    simp only [List.map_cons, List.sum_cons]
    omega

/-- The sum of some of the entries of a table that fits is inside
`INT_MIN..INT_MAX`. -/
theorem fits_part (frequency_table : Fin 256 → Int) (hfit : fits_int frequency_table)
    (A R : List (Int × Int)) (h : (table_leaves frequency_table).Perm (A ++ R)) :
    INT_MIN ≤ (A.map Prod.snd).sum ∧ (A.map Prod.snd).sum ≤ INT_MAX := by
  have h1 : ((List.finRange 256).map frequency_table).Perm
      (A.map Prod.snd ++ R.map Prod.snd) := by
    rw [← table_leaves_weights, ← List.map_append]
    exact h.map Prod.snd
  have h2 := (h1.map (fun a => min a 0)).sum_eq
  have h3 := (h1.map (fun a => max a 0)).sum_eq
  simp only [List.map_map, List.map_append, List.sum_append] at h2 h3
  have h4 := sum_parts (A.map Prod.snd)
  have h5 := sum_parts (R.map Prod.snd)
  simp only [List.map_map] at h4 h5
  obtain ⟨hf1, hf2⟩ := hfit
  have e1 : (List.map ((fun a => min a 0) ∘ frequency_table) (List.finRange 256)).sum =
      ((List.finRange 256).map (fun i => min (frequency_table i) 0)).sum := rfl
  have e2 : (List.map ((fun a => max a 0) ∘ frequency_table) (List.finRange 256)).sum =
      ((List.finRange 256).map (fun i => max (frequency_table i) 0)).sum := rfl
  constructor <;> omega

/-- On a forest of exact sums built from a table that fits, the `int` sum of
trie_combine is the exact sum. -/
theorem forest_exact_step (frequency_table : Fin 256 → Int) (hfit : fits_int frequency_table)
    (l : List Trie) (x y : Trie) (h : forest_ok frequency_table l) (hex : forest_exact l)
    (hx : x ∈ l) (hy : y ∈ l.erase x) :
    trie_combine x y = combine_exact x y ∧
      forest_exact (trie_combine x y :: (l.erase x).erase y) := by
  have hyl : y ∈ l := List.mem_of_mem_erase hy
  have hr := fits_part frequency_table hfit _ _ (forest_leaves_perm frequency_table l x y h hx hy)
  rw [List.map_append, List.sum_append, ← weight_eq_sum_leaves x (hex x hx),
    ← weight_eq_sum_leaves y (hex y hyl)] at hr
  have hw : int_wrap (x.weight + y.weight) = x.weight + y.weight :=
    int_wrap_of_range _ hr.1 hr.2
  have heq : trie_combine x y = combine_exact x y := by
    unfold trie_combine combine_exact
    rw [hw]
  refine ⟨heq, ?_⟩
  intro t ht
  rcases List.mem_cons.1 ht with rfl | ht
  · rw [heq]
    exact ⟨rfl, rfl, hex x hx, hex y hyl⟩
  · exact hex t (List.mem_of_mem_erase (List.mem_of_mem_erase ht))

/-- With a priority queue that yields a node of least weight first,
build_huff_trie returns the root of a trie whose leaves are the 256 byte
values with their table frequencies. -/
theorem build_huff_trie_forest (P : Pqueue) (hP : P.min_first compare)
    (frequency_table : Fin 256 → Int) :
    ∃ root, build_huff_trie P frequency_table = some (some root) ∧
      (leaves root).Perm (table_leaves frequency_table) ∧ well_formed_int root ∧
      (fits_int frequency_table → well_formed root) := by
  obtain ⟨root, h1, h2, h3⟩ := build_huff_trie_spec P hP frequency_table
    (fun l => forest_ok frequency_table l ∧ (fits_int frequency_table → forest_exact l))
    ⟨forest_ok_initial frequency_table, fun _ => forest_exact_initial frequency_table⟩
    (fun l x y h hx _ hy _ =>
      ⟨forest_ok_step frequency_table l x y h.1 hx hy,
        fun hfit => (forest_exact_step frequency_table hfit l x y h.1 (h.2 hfit) hx hy).2⟩)
  have h4 : (leaves root).Perm (table_leaves frequency_table) := by
    simpa using h2.1
  exact ⟨root, h1, h4, h2.2 root (List.mem_singleton.2 rfl),
    fun hfit => h3 hfit root (List.mem_singleton.2 rfl)⟩

theorem root_weight_wrap (frequency_table : Fin 256 → Int) (root : Trie)
    (h2 : (leaves root).Perm (table_leaves frequency_table)) (h3 : well_formed_int root) :
    root.weight = int_wrap ((List.finRange 256).map frequency_table).sum := by
  have hlen : (leaves root).length = 256 := by
    rw [h2.length_eq]
    unfold table_leaves
    rw [List.length_map, List.length_finRange]
  have h4 := weight_wrap_sum_leaves root h3
  rw [(h2.map Prod.snd).sum_eq, table_leaves_weights] at h4
  cases root with
  | leaf _ _ => simp [leaves] at hlen
  | node w b l r =>
    obtain ⟨_, hw, _, _⟩ := h3
    rw [← h4]
    show w = int_wrap w
    rw [hw, int_wrap_idem]

set_option maxRecDepth 100000 in
theorem table_wrap_sum : ((List.finRange 256).map table_wrap).sum = 4294967303 := by
  decide

/-- C24 (as amended). For every 256-entry frequency table, with a priority
queue that always yields a minimum-weight node first, build_huff_trie returns
a node (the loop ends within its 256 rounds, and the result is not NULL) that
is the root of a binary tree whose leaves are the byte values 0..255, each
once with its table frequency as weight, and in which every internal node has
byte -1, two children, and as weight the `int` sum of the weights of its
children; the weight of the root is the `int` sum of the table.  When no sum
of entries of the table is outside the range of `int`, the weights of the
internal nodes are the exact sums and the weight of the root is the sum of
the table. -/
theorem build_huff_trie_leaves (P : Pqueue) (hP : P.min_first compare)
    (frequency_table : Fin 256 → Int) :
    ∃ root, build_huff_trie P frequency_table = some (some root) ∧
      (leaves root).Perm (table_leaves frequency_table) ∧ well_formed_int root ∧
      root.weight = int_wrap ((List.finRange 256).map frequency_table).sum ∧
      (fits_int frequency_table →
        well_formed root ∧ root.weight = ((List.finRange 256).map frequency_table).sum) := by
  obtain ⟨root, h1, h2, h3, h4⟩ := build_huff_trie_forest P hP frequency_table
  refine ⟨root, h1, h2, h3, root_weight_wrap frequency_table root h2 h3, fun hfit => ?_⟩
  refine ⟨h4 hfit, ?_⟩
  rw [weight_eq_sum_leaves root (h4 hfit), ← table_leaves_weights]
  exact (h2.map Prod.snd).sum_eq

theorem build_huff_trie_leaves_witness :
    ∃ root, build_huff_trie list_pqueue table_aba = some (some root) ∧
      (leaves root).Perm (table_leaves table_aba) ∧ well_formed_int root ∧
      root.weight = int_wrap ((List.finRange 256).map table_aba).sum ∧
      (fits_int table_aba →
        well_formed root ∧ root.weight = ((List.finRange 256).map table_aba).sum) :=
  build_huff_trie_leaves list_pqueue list_pqueue_min_first table_aba

/-- C24 as stated fails on the table `table_wrap`, whose entries add up to
2^32 + 7: the root build_huff_trie returns has weight 7, not the sum of the
table, so the weights of its internal nodes are not all the sums of the
weights of their children. -/
theorem build_huff_trie_leaves_counterexample :
    ∃ root, build_huff_trie list_pqueue table_wrap = some (some root) ∧
      ((List.finRange 256).map table_wrap).sum = 4294967303 ∧ root.weight = 7 ∧
      ¬ well_formed root := by
  obtain ⟨root, h1, h2, h3, _⟩ := build_huff_trie_forest list_pqueue list_pqueue_min_first
    table_wrap
  have hw : root.weight = 7 := by
    rw [root_weight_wrap table_wrap root h2 h3, table_wrap_sum]
    decide
  refine ⟨root, h1, table_wrap_sum, hw, fun hwf => ?_⟩
  have h5 := weight_eq_sum_leaves root hwf
  rw [(h2.map Prod.snd).sum_eq, table_leaves_weights, table_wrap_sum, hw] at h5
  exact absurd h5 (by decide)

/-! ## The depth-first traversal of huff_table -/

theorem take_set_self {α : Type} (c : α) : ∀ (path : List α) (depth : Nat),
    (path.set depth c).take depth = path.take depth
  | [], _ => by simp
  | _ :: _, 0 => by simp
  | a :: path, depth + 1 => by
    simp only [List.set_cons_succ, List.take_succ_cons, take_set_self c path depth]

theorem take_set_succ {α : Type} (c : α) : ∀ (path : List α) (depth : Nat),
    depth < path.length → (path.set depth c).take (depth + 1) = path.take depth ++ [c]
  | [], _, h => by simp at h
  | _ :: _, 0, _ => by simp
  | a :: path, depth + 1, h => by
    simp only [List.length_cons, Nat.add_lt_add_iff_right] at h
    simp only [List.set_cons_succ, List.take_succ_cons, take_set_succ c path depth h,
      List.cons_append]

theorem take_of_take_succ {α : Type} (p q : List α) (depth : Nat)
    (h : p.take (depth + 1) = q.take (depth + 1)) : p.take depth = q.take depth := by
  have h1 := congrArg (List.take depth) h
  simpa [List.take_take] using h1

theorem c_string_set : ∀ (path : List Char) (depth : Nat), depth < path.length →
    (∀ c ∈ path.take depth, c ≠ Char.ofNat 0) →
      c_string (path.set depth (Char.ofNat 0)) = path.take depth
  | [], _, h, _ => by simp at h
  | _ :: _, 0, _, _ => by simp [c_string]
  | a :: path, depth + 1, h, hc => by
    simp only [List.length_cons, Nat.add_lt_add_iff_right] at h
    have ha : a ≠ Char.ofNat 0 := hc a (by simp)
    have ih := c_string_set path depth h (fun c hc1 => hc c (by simp [hc1]))
    unfold c_string at ih ⊢
    simp only [List.set_cons_succ, List.take_succ_cons]
    rw [List.takeWhile_cons_of_pos (by simpa using ha), ih]

theorem write_codes_length : ∀ (cs : List (Int × List Char)) (table : List (Option (List Char))),
    (write_codes cs table).length = table.length
  | [], _ => rfl
  | p :: cs, table => by
    have h := write_codes_length cs (table.set p.1.toNat (some p.2))
    simpa [write_codes] using h

theorem write_codes_append (cs ds : List (Int × List Char))
    (table : List (Option (List Char))) :
    write_codes (cs ++ ds) table = write_codes ds (write_codes cs table) := by
  simp [write_codes, List.foldl_append]

theorem codes_keys : ∀ (t : Trie) (pre : List Char),
    (codes t pre).map Prod.fst = (leaves t).map Prod.fst
  | Trie.leaf _ _, _ => rfl
  | Trie.node _ _ l r, pre => by
    simp only [codes, leaves, List.map_append, codes_keys l, codes_keys r]

/-- The traversal stays inside the buffer and the table when the buffer is
longer than the depth of the deepest leaf and the bytes of the leaves index
the table; it stores the codes of the leaves from left to right. -/
theorem trie_DFS_spec : ∀ (t : Trie) (path : List Char) (depth : Nat)
    (table : List (Option (List Char))),
    depth + height t < path.length →
    (∀ c ∈ path.take depth, c ≠ Char.ofNat 0) →
    (∀ p ∈ leaves t, 0 ≤ p.1 ∧ p.1.toNat < table.length) →
      ∃ path1, trie_DFS t path depth table =
          some (path1, write_codes (codes t (path.take depth)) table) ∧
        path1.length = path.length ∧ path1.take depth = path.take depth
  | Trie.leaf w b, path, depth, table, hd, hc, hl => by
    simp only [height, Nat.add_zero] at hd
    have hb := hl (b, w) (by simp [leaves])
    refine ⟨path.set depth (Char.ofNat 0), ?_, by simp, take_set_self _ _ _⟩
    unfold trie_DFS
    simp only [hd, if_true, hb, and_self, c_string_set path depth hd hc]
    rfl
  | Trie.node w b l r, path, depth, table, hd, hc, hl => by
    simp only [height] at hd
    have hdl : depth + 1 + height l < (path.set depth '0').length := by
      simp only [List.length_set]
      omega
    have hd0 : depth < path.length := by omega
    have hcl : ∀ c ∈ (path.set depth '0').take (depth + 1), c ≠ Char.ofNat 0 := by
      intro c hc1
      rw [take_set_succ _ _ _ hd0, List.mem_append] at hc1
      rcases hc1 with hc1 | hc1
      · exact hc c hc1
      · rw [List.mem_singleton.1 hc1]
        decide
    obtain ⟨p1, h1, hlen1, htake1⟩ := trie_DFS_spec l (path.set depth '0') (depth + 1) table
      hdl hcl (fun p hp => hl p (by simp [leaves, hp]))
    have hlen1b : p1.length = path.length := by simpa using hlen1
    have hd1 : depth < p1.length := by omega
    have htake1b : p1.take depth = path.take depth := by
      rw [take_of_take_succ _ _ _ htake1, take_set_self]
    have hdr : depth + 1 + height r < (p1.set depth '1').length := by
      simp only [List.length_set]
      omega
    have hcr : ∀ c ∈ (p1.set depth '1').take (depth + 1), c ≠ Char.ofNat 0 := by
      intro c hc1
      rw [take_set_succ _ _ _ hd1, List.mem_append, htake1b] at hc1
      rcases hc1 with hc1 | hc1
      · exact hc c hc1
      · rw [List.mem_singleton.1 hc1]
        decide
    obtain ⟨p2, h2, hlen2, htake2⟩ := trie_DFS_spec r (p1.set depth '1') (depth + 1)
      (write_codes (codes l ((path.set depth '0').take (depth + 1))) table)
      hdr hcr (fun p hp => by rw [write_codes_length]; exact hl p (by simp [leaves, hp]))
    refine ⟨p2, ?_, by simpa [hlen1b] using hlen2, ?_⟩
    · unfold trie_DFS
      simp only [hd0, if_true, h1, h2]
      rw [take_set_succ _ _ _ hd1, htake1b, take_set_succ _ _ _ hd0]
      simp only [codes, write_codes_append]
    · rw [take_of_take_succ _ _ _ htake2, take_set_self, htake1b]

/-! ## The table of codes -/

theorem write_codes_other (n : Nat) : ∀ (cs : List (Int × List Char))
    (table : List (Option (List Char))), (∀ p ∈ cs, p.1.toNat ≠ n) →
      (write_codes cs table).getD n none = table.getD n none
  | [], _, _ => rfl
  | p :: cs, table, h => by
    have h1 := write_codes_other n cs (table.set p.1.toNat (some p.2))
      (fun q hq => h q (by simp [hq]))
    have h2 : p.1.toNat ≠ n := h p (by simp)
    simp only [write_codes, List.foldl_cons] at h1 ⊢
    rw [h1]
    simp [List.getD_eq_getElem?_getD, List.getElem?_set_ne h2]

theorem write_codes_get (k : Int) (v : List Char) (hk : 0 ≤ k) :
    ∀ (cs : List (Int × List Char)) (table : List (Option (List Char))),
    (k, v) ∈ cs → (cs.map Prod.fst).Nodup → (∀ p ∈ cs, 0 ≤ p.1) → k.toNat < table.length →
      (write_codes cs table).getD k.toNat none = some v
  | [], _, h, _, _, _ => by cases h
  | p :: cs, table, h, hnd, hpos, hlen => by
    simp only [List.map_cons, List.nodup_cons] at hnd
    rcases List.mem_cons.1 h with h1 | h1
    · subst h1
      have h2 : ∀ q ∈ cs, q.1.toNat ≠ k.toNat := by
        intro q hq heq
        have hq0 := hpos q (by simp [hq])
        have h3 : q.1 = k := by omega
        have hq1 : q.1 ∈ cs.map Prod.fst := List.mem_map_of_mem Prod.fst hq
        rw [h3] at hq1
        exact hnd.1 hq1
      have h4 := write_codes_other k.toNat cs (table.set k.toNat (some v)) h2
      simp only [write_codes, List.foldl_cons] at h4 ⊢
      rw [h4]
      simp [List.getD_eq_getElem?_getD, List.getElem?_set_self hlen]
    · have h2 := write_codes_get k v hk cs (table.set p.1.toNat (some p.2)) h1 hnd.2
        (fun q hq => hpos q (by simp [hq])) (by simpa using hlen)
      simpa [write_codes] using h2

theorem keys_unique {α β : Type} : ∀ (cs : List (α × β)), (cs.map Prod.fst).Nodup →
    ∀ (k : α) (v1 v2 : β), (k, v1) ∈ cs → (k, v2) ∈ cs → v1 = v2
  | [], _, _, _, _, h, _ => by cases h
  | p :: cs, hnd, k, v1, v2, h1, h2 => by
    simp only [List.map_cons, List.nodup_cons] at hnd
    rcases List.mem_cons.1 h1 with e1 | m1 <;> rcases List.mem_cons.1 h2 with e2 | m2
    · rw [← e1] at e2
      exact (Prod.mk.inj e2).2.symm
    · subst e1
      have hm : k ∈ cs.map Prod.fst := List.mem_map.2 ⟨(k, v2), m2, rfl⟩
      exact (hnd.1 hm).elim
    · subst e2
      have hm : k ∈ cs.map Prod.fst := List.mem_map.2 ⟨(k, v1), m1, rfl⟩
      exact (hnd.1 hm).elim
    · exact keys_unique cs hnd.2 k v1 v2 m1 m2

theorem table_leaves_keys (frequency_table : Fin 256 → Int) :
    (table_leaves frequency_table).map Prod.fst =
      (List.finRange 256).map (fun i => (((i : Fin 256) : Nat) : Int)) := by
  unfold table_leaves
  rw [List.map_map]
  rfl

theorem table_leaves_nodup (frequency_table : Fin 256 → Int) :
    ((table_leaves frequency_table).map Prod.fst).Nodup := by
  rw [table_leaves_keys]
  refine (List.nodup_finRange 256).map ?_
  intro i j h
  simp only [Nat.cast_inj] at h
  exact Fin.ext h

theorem mem_table_leaves (frequency_table : Fin 256 → Int) (p : Int × Int) :
    p ∈ table_leaves frequency_table ↔
      ∃ i : Fin 256, p = ((((i : Fin 256) : Nat) : Int), frequency_table i) := by
  unfold table_leaves
  simp only [List.mem_map, List.mem_finRange, true_and]
  constructor
  · rintro ⟨i, rfl⟩
    exact ⟨i, rfl⟩
  · rintro ⟨i, rfl⟩
    exact ⟨i, rfl⟩

theorem height_lt_leaves : ∀ t : Trie, height t < (leaves t).length
  | Trie.leaf _ _ => by simp [height, leaves]
  | Trie.node _ _ l r => by
    have h1 := height_lt_leaves l
    have h2 := height_lt_leaves r
    simp only [height, leaves, List.length_append]
    omega

theorem mem_codes_key (t : Trie) (pre : List Char) (b : Int) (c : List Char)
    (h : (b, c) ∈ codes t pre) : ∃ w, (b, w) ∈ leaves t := by
  have h1 : b ∈ (codes t pre).map Prod.fst := List.mem_map_of_mem Prod.fst h
  rw [codes_keys] at h1
  obtain ⟨p, hp, rfl⟩ := List.mem_map.1 h1
  exact ⟨p.2, hp⟩

/-- For a trie whose leaves are the 256 byte values, huff_table returns a
table (no write falls outside the buffer or the table) that holds for every
byte value a code of the trie. -/
theorem huff_table_spec (frequency_table : Fin 256 → Int) (root : Trie)
    (h : (leaves root).Perm (table_leaves frequency_table)) :
    ∃ table, huff_table (some root) = some table ∧ table.length = 256 ∧
      ∀ b : Fin 256, ∃ code, table.getD b none = some code ∧
        ((((b : Fin 256) : Nat) : Int), code) ∈ codes root [] := by
  have hlen : (leaves root).length = 256 := by
    rw [h.length_eq]
    unfold table_leaves
    rw [List.length_map, List.length_finRange]
  have hh := height_lt_leaves root
  have hrange : ∀ p ∈ leaves root, 0 ≤ p.1 ∧ p.1.toNat < 256 := by
    intro p hp
    obtain ⟨i, rfl⟩ := (mem_table_leaves frequency_table p).1 (h.subset hp)
    have := i.isLt
    constructor
    · exact Int.natCast_nonneg _
    · simp only [Int.toNat_natCast]
      exact i.isLt
  have hpl : (List.replicate 256 (Char.ofNat 0)).length = 256 := List.length_replicate _ _
  have htl : (List.replicate 256 (none : Option (List Char))).length = 256 :=
    List.length_replicate _ _
  obtain ⟨p1, h1, _, _⟩ := trie_DFS_spec root (List.replicate 256 (Char.ofNat 0)) 0
    (List.replicate 256 none) (by rw [hpl]; omega)
    (by intro c hc; rw [List.take_zero] at hc; cases hc) (by rw [htl]; exact hrange)
  rw [List.take_zero] at h1
  refine ⟨_, by simp only [huff_table, h1]; rfl, by rw [write_codes_length, htl], ?_⟩
  intro b
  have hb : ((((b : Fin 256) : Nat) : Int), frequency_table b) ∈ leaves root :=
    h.symm.subset ((mem_table_leaves frequency_table _).2 ⟨b, rfl⟩)
  have hb1 : (((b : Fin 256) : Nat) : Int) ∈ (codes root []).map Prod.fst := by
    rw [codes_keys]
    exact List.mem_map_of_mem Prod.fst hb
  obtain ⟨p, hp, hpb⟩ := List.mem_map.1 hb1
  have hnd : ((codes root []).map Prod.fst).Nodup := by
    rw [codes_keys]
    exact (h.map Prod.fst).nodup_iff.2 (table_leaves_nodup frequency_table)
  have hpos : ∀ q ∈ codes root [], 0 ≤ q.1 := by
    intro q hq
    obtain ⟨w, hw⟩ := mem_codes_key root [] q.1 q.2 hq
    exact (hrange _ hw).1
  refine ⟨p.2, ?_, by rw [← hpb]; exact hp⟩
  have h2 := write_codes_get (((b : Fin 256) : Nat) : Int) p.2 (Int.natCast_nonneg _)
    (codes root []) (List.replicate 256 none) (by rw [← hpb]; exact hp) hnd hpos
    (by rw [htl, Int.toNat_natCast]; exact b.isLt)
  rw [Int.toNat_natCast] at h2
  exact h2

theorem sub_append : ∀ (p : List Bool) (t : Trie) (q : List Bool),
    sub t (p ++ q) = (sub t p).bind (fun u => sub u q)
  | [], t, q => by simp [sub]
  | b :: p, Trie.leaf _ _, q => by simp [sub]
  | b :: p, Trie.node _ _ l r, q => by
    simp only [List.cons_append, sub]
    exact sub_append p _ q

theorem sub_leaf (w b : Int) (p : List Bool) (u : Trie)
    (h : sub (Trie.leaf w b) p = some u) : p = [] ∧ u = Trie.leaf w b := by
  cases p with
  | nil =>
    simp only [sub, Option.some.injEq] at h
    exact ⟨rfl, h.symm⟩
  | cons a p => simp [sub] at h

/-- A code of the trie leads from the node to a leaf of its byte, '0' to the
left and '1' to the right. -/
theorem codes_sub : ∀ (t : Trie) (pre : List Char) (b : Int) (c : List Char),
    (b, c) ∈ codes t pre →
      ∃ s w, c = pre ++ s ∧ sub t (code_bits s) = some (Trie.leaf w b) ∧
        (b, w) ∈ leaves t ∧ s.length ≤ height t
  | Trie.leaf w b0, pre, b, c, h => by
    simp only [codes, List.mem_singleton, Prod.mk.injEq] at h
    obtain ⟨rfl, rfl⟩ := h
    exact ⟨[], w, by simp, rfl, by simp [leaves], by simp⟩
  | Trie.node _ _ l r, pre, b, c, h => by
    simp only [codes, List.mem_append] at h
    rcases h with h | h
    · obtain ⟨s, w, hc, hs, hw, hlen⟩ := codes_sub l _ b c h
      refine ⟨'0' :: s, w, by simpa using hc, ?_, by simp [leaves, hw], ?_⟩
      · simpa [code_bits, sub] using hs
      · simp only [List.length_cons, height]
        omega
    · obtain ⟨s, w, hc, hs, hw, hlen⟩ := codes_sub r _ b c h
      refine ⟨'1' :: s, w, by simpa using hc, ?_, by simp [leaves, hw], ?_⟩
      · simpa [code_bits, sub] using hs
      · simp only [List.length_cons, height]
        omega

/-- Two codes of the trie one of which begins with the other are codes of the
same byte. -/
theorem codes_prefix (t : Trie) (a b : Int) (ca cb : List Char)
    (ha : (a, ca) ∈ codes t []) (hb : (b, cb) ∈ codes t []) (hpre : ca <+: cb) : a = b := by
  obtain ⟨s1, w1, hc1, hs1, _, _⟩ := codes_sub t [] a ca ha
  obtain ⟨s2, w2, hc2, hs2, _, _⟩ := codes_sub t [] b cb hb
  simp only [List.nil_append] at hc1 hc2
  subst hc1 hc2
  obtain ⟨s, rfl⟩ := hpre
  have h1 : code_bits (ca ++ s) = code_bits ca ++ code_bits s := by simp [code_bits]
  rw [h1, sub_append, hs1] at hs2
  have h2 := (sub_leaf w1 a _ _ hs2).2
  simp only [Trie.leaf.injEq] at h2
  exact h2.2.symm

/-- C29. For every frequency table and every priority queue that yields a
node of least weight first, huff_table on the trie build_huff_trie returns
gives a table of 256 entries in which every byte value has a code that is
not NULL: the code of the trie for that byte, which is the one path from the
root to the leaf of the byte, '0' for a left step and '1' for a right step.
The table is prefix-free: of the codes of two distinct byte values, neither
begins with the other, so that the codes are distinct. -/
theorem huff_table_prefix_free (P : Pqueue) (hP : P.min_first compare)
    (frequency_table : Fin 256 → Int) :
    ∃ root table, build_huff_trie P frequency_table = some (some root) ∧
      huff_table (some root) = some table ∧ table.length = 256 ∧
      (∀ b : Fin 256, ∃ code, table.getD b none = some code ∧
        ((((b : Fin 256) : Nat) : Int), code) ∈ codes root [] ∧
        (∀ c, ((((b : Fin 256) : Nat) : Int), c) ∈ codes root [] → c = code) ∧
        sub root (code_bits code) =
          some (Trie.leaf (frequency_table b) (((b : Fin 256) : Nat) : Int))) ∧
      (∀ a b : Fin 256, a ≠ b → ∀ ca cb, table.getD a none = some ca →
        table.getD b none = some cb → ¬ ca <+: cb ∧ ¬ cb <+: ca ∧ ca ≠ cb) := by
  obtain ⟨root, h1, h2, _, _⟩ := build_huff_trie_forest P hP frequency_table
  obtain ⟨table, h3, h4, h5⟩ := huff_table_spec frequency_table root h2
  have hnd : ((codes root []).map Prod.fst).Nodup := by
    rw [codes_keys]
    exact (h2.map Prod.fst).nodup_iff.2 (table_leaves_nodup frequency_table)
  have hfree : ∀ a b : Fin 256, a ≠ b → ∀ ca cb, table.getD a none = some ca →
      table.getD b none = some cb → ¬ ca <+: cb := by
    intro a b hab ca cb hca hcb hpre
    obtain ⟨ca1, hca1, hma⟩ := h5 a
    obtain ⟨cb1, hcb1, hmb⟩ := h5 b
    rw [hca] at hca1
    rw [hcb] at hcb1
    cases hca1
    cases hcb1
    have h6 := codes_prefix root _ _ ca cb hma hmb hpre
    simp only [Nat.cast_inj] at h6
    exact hab (Fin.ext h6)
  refine ⟨root, table, h1, h3, h4, ?_, ?_⟩
  · intro b
    obtain ⟨code, hc, hm⟩ := h5 b
    refine ⟨code, hc, hm, fun c hc1 => keys_unique _ hnd _ c code hc1 hm, ?_⟩
    obtain ⟨s, w, hs, hsub, hw, _⟩ := codes_sub root [] _ code hm
    simp only [List.nil_append] at hs
    subst hs
    obtain ⟨i, hi⟩ := (mem_table_leaves frequency_table _).1 (h2.subset hw)
    simp only [Prod.mk.injEq, Nat.cast_inj] at hi
    have hbi : b = i := Fin.ext hi.1
    subst hbi
    rw [hsub, hi.2]
  · intro a b hab ca cb hca hcb
    refine ⟨hfree a b hab ca cb hca hcb, hfree b a (Ne.symm hab) cb ca hcb hca, ?_⟩
    intro heq
    exact hfree a b hab ca cb hca hcb (heq ▸ List.prefix_refl ca)

theorem huff_table_prefix_free_witness :
    ∃ root table, build_huff_trie list_pqueue table_aba = some (some root) ∧
      huff_table (some root) = some table ∧ table.length = 256 ∧
      (∀ b : Fin 256, ∃ code, table.getD b none = some code ∧
        ((((b : Fin 256) : Nat) : Int), code) ∈ codes root [] ∧
        (∀ c, ((((b : Fin 256) : Nat) : Int), c) ∈ codes root [] → c = code) ∧
        sub root (code_bits code) =
          some (Trie.leaf (table_aba b) (((b : Fin 256) : Nat) : Int))) ∧
      (∀ a b : Fin 256, a ≠ b → ∀ ca cb, table.getD a none = some ca →
        table.getD b none = some cb → ¬ ca <+: cb ∧ ¬ cb <+: ca ∧ ca ≠ cb) :=
  huff_table_prefix_free list_pqueue list_pqueue_min_first table_aba

/-- C30. A binary tree with 256 leaves has every leaf at depth at most 255.
So, for every frequency table and every priority queue that yields a node of
least weight first, the trie build_huff_trie returns has 256 leaves and
height at most 255, every code of it has at most 255 characters, and
huff_table returns its table: every write `path[depth]` of trie_DFS, the
NUL at a leaf included, is inside the buffer of 256 characters. -/
theorem path_buffer_in_bounds (P : Pqueue) (hP : P.min_first compare)
    (frequency_table : Fin 256 → Int) :
    (∀ t : Trie, (leaves t).length = 256 → height t ≤ 255) ∧
      ∃ root table, build_huff_trie P frequency_table = some (some root) ∧
        (leaves root).length = 256 ∧ height root ≤ 255 ∧
        (∀ b code, (b, code) ∈ codes root [] → code.length ≤ 255) ∧
        trie_DFS root (List.replicate 256 (Char.ofNat 0)) 0 (List.replicate 256 none) ≠ none ∧
        huff_table (some root) = some table := by
  have hgen : ∀ t : Trie, (leaves t).length = 256 → height t ≤ 255 := by
    intro t ht
    have := height_lt_leaves t
    omega
  refine ⟨hgen, ?_⟩
  obtain ⟨root, h1, h2, _, _⟩ := build_huff_trie_forest P hP frequency_table
  obtain ⟨table, h3, h4, h5⟩ := huff_table_spec frequency_table root h2
  have hlen : (leaves root).length = 256 := by
    rw [h2.length_eq]
    unfold table_leaves
    rw [List.length_map, List.length_finRange]
  refine ⟨root, table, h1, hlen, hgen root hlen, ?_, ?_, h3⟩
  · intro b code hm
    obtain ⟨s, w, hs, _, _, hl⟩ := codes_sub root [] b code hm
    simp only [List.nil_append] at hs
    subst hs
    have := hgen root hlen
    omega
  · intro hnone
    simp only [huff_table, hnone] at h3
    cases h3

theorem path_buffer_in_bounds_witness :
    (∀ t : Trie, (leaves t).length = 256 → height t ≤ 255) ∧
      ∃ root table, build_huff_trie list_pqueue table_aba = some (some root) ∧
        (leaves root).length = 256 ∧ height root ≤ 255 ∧
        (∀ b code, (b, code) ∈ codes root [] → code.length ≤ 255) ∧
        trie_DFS root (List.replicate 256 (Char.ofNat 0)) 0 (List.replicate 256 none) ≠ none ∧
        huff_table (some root) = some table :=
  path_buffer_in_bounds list_pqueue list_pqueue_min_first table_aba

/-! ## Bytes and bits -/

theorem byte_bits_value : ∀ b0 b1 b2 b3 b4 b5 b6 b7 : Bool,
    byte_bits ⟨bits_value [b0, b1, b2, b3, b4, b5, b6, b7] % 256, Nat.mod_lt _ (by decide)⟩ =
      [b0, b1, b2, b3, b4, b5, b6, b7] := by
  decide

theorem byte_bits_of_length (bs : List Bool) (h8 : bs.length = 8)
    (hlt : bits_value bs % 256 < 256) : byte_bits ⟨bits_value bs % 256, hlt⟩ = bs := by
  rcases bs with _ | ⟨b0, _ | ⟨b1, _ | ⟨b2, _ | ⟨b3, _ | ⟨b4, _ | ⟨b5, _ | ⟨b6, _ | ⟨b7, bs⟩⟩⟩⟩⟩⟩⟩⟩ <;>
    simp only [List.length_cons, List.length_nil] at h8 <;> try omega
  cases bs with
  | nil => exact byte_bits_value b0 b1 b2 b3 b4 b5 b6 b7
  | cons a bs => simp at h8

theorem byte_bits_remove (buffer : List Bool) (h : 8 ≤ buffer.length) :
    byte_bits (bit_buffer_remove_byte buffer).1 = buffer.take 8 := by
  have h8 : (buffer.take 8).length = 8 := by
    rw [List.length_take]
    omega
  exact byte_bits_of_length (buffer.take 8) h8 _

/-- The bytes encode_file writes carry the bits of the buffer in their order,
followed by the zero bits that fill the last byte. -/
theorem write_bytes_bits : ∀ (fuel : Nat) (buffer : List Bool), buffer.length ≤ fuel →
    ∃ k, (write_bytes fuel buffer).flatMap byte_bits = buffer ++ List.replicate k false
  | 0, buffer, h => by
    have h1 : buffer = [] := List.length_eq_zero.1 (by omega)
    subst h1
    exact ⟨0, rfl⟩
  | fuel + 1, buffer, h => by
    unfold write_bytes
    by_cases h0 : buffer.length > 0
    · simp only [h0, if_true]
      by_cases h8 : buffer.length < 8
      · simp only [h8, if_true]
        have hl : 8 ≤ (buffer ++ List.replicate (8 - buffer.length) false).length := by
          simp only [List.length_append, List.length_replicate]
          omega
        have hd : (bit_buffer_remove_byte
            (buffer ++ List.replicate (8 - buffer.length) false)).2 = [] := by
          simp only [bit_buffer_remove_byte]
          apply List.drop_eq_nil_of_le
          simp only [List.length_append, List.length_replicate]
          omega
        have hw : write_bytes fuel [] = [] := by
          cases fuel <;> simp [write_bytes]
        refine ⟨8 - buffer.length, ?_⟩
        rw [List.flatMap_cons, byte_bits_remove _ hl, hd, hw]
        simp only [List.flatMap_nil, List.append_nil]
        apply List.take_of_length_le
        simp only [List.length_append, List.length_replicate]
        omega
      · simp only [h8, if_false]
        have hl : 8 ≤ buffer.length := by omega
        obtain ⟨k, hk⟩ := write_bytes_bits fuel (bit_buffer_remove_byte buffer).2
          (by simp only [bit_buffer_remove_byte, List.length_drop]; omega)
        refine ⟨k, ?_⟩
        rw [List.flatMap_cons, byte_bits_remove _ hl, hk]
        simp only [bit_buffer_remove_byte]
        rw [← List.append_assoc, List.take_append_drop]
    · have h1 : buffer = [] := List.length_eq_zero.1 (by omega)
      subst h1
      exact ⟨0, by simp⟩

/-! ## Decoding -/

theorem decode_walk (root : Trie) (table : List (Option (List Char))) :
    ∀ (bs : List Bool) (c l : Trie) (rest : List Bool) (out : List (Fin 256)),
    sub c bs = some l →
      decode_loop root table (some c) (bs ++ rest) out =
        decode_loop root table (some l) rest out
  | [], c, l, rest, out, h => by
    simp only [sub, Option.some.injEq] at h
    subst h
    rfl
  | b :: bs, Trie.leaf _ _, l, rest, out, h => by simp [sub] at h
  | b :: bs, Trie.node _ _ cl cr, l, rest, out, h => by
    simp only [sub] at h
    simp only [List.cons_append, decode_loop, Trie.is_leaf, Bool.false_eq_true, if_false,
      Trie.child]
    exact decode_walk root table bs _ l rest out h

theorem decode_eot (root : Trie) (table : List (Option (List Char))) (eotCode : List Char)
    (htl : table.length = 256) (heot : table.getD 4 none = some eotCode) (w : Int)
    (bits : List Bool) (out : List (Fin 256)) :
    decode_loop root table (some (Trie.leaf w 4)) bits out = some out := by
  cases bits with
  | nil => rfl
  | cons bit rest =>
    have h4 : (4 : Int).toNat = 4 := rfl
    have hcond : (0 : Int) ≤ 4 ∧ 4 < table.length := by
      rw [htl]
      decide
    simp only [decode_loop, Trie.is_leaf, if_true, Trie.byte, h4, hcond, and_self, heot]

theorem fputc_byte_cast (b : Fin 256) : fputc_byte (((b : Fin 256) : Nat) : Int) = b := by
  apply Fin.ext
  simp only [fputc_byte, Int.toNat_natCast]
  exact Nat.mod_eq_of_lt b.isLt

theorem decode_leaf_step (root : Trie) (table : List (Option (List Char)))
    (code eotCode : List Char) (htl : table.length = 256)
    (heot : table.getD 4 none = some eotCode) (b : Fin 256)
    (hb : table.getD b none = some code) (hne : code ≠ eotCode) (w : Int) (bit : Bool)
    (rest : List Bool) (out : List (Fin 256)) :
    decode_loop root table (some (Trie.leaf w (((b : Fin 256) : Nat) : Int))) (bit :: rest) out =
      decode_loop root table (root.child bit) rest (out ++ [b]) := by
  have h1 : (0 : Int) ≤ (((b : Fin 256) : Nat) : Int) ∧
      ((((b : Fin 256) : Nat) : Int)).toNat < table.length := by
    rw [htl, Int.toNat_natCast]
    exact ⟨Int.natCast_nonneg _, b.isLt⟩
  have h2 : ((b : Fin 256) : Nat) < table.length := by
    rw [htl]
    exact b.isLt
  simp only [decode_loop, Trie.is_leaf, if_true, Trie.byte, h1, h2, and_self,
    Int.toNat_natCast, hb, heot, hne, if_false, fputc_byte_cast]

/-- What the decoding loop writes from a leaf of a byte other than 4 on: that
byte, then the bytes of the rest of the input up to the first byte 4. -/
theorem decode_from_leaf (root : Trie) (table : List (Option (List Char)))
    (eotCode : List Char) (hroot : root.is_leaf = false) (htl : table.length = 256)
    (hcode : ∀ b : Fin 256, ∃ code w, table.getD b none = some code ∧
      sub root (code_bits code) = some (Trie.leaf w (((b : Fin 256) : Nat) : Int)))
    (heot : table.getD 4 none = some eotCode) (pad : List Bool) :
    ∀ (f : List (Fin 256)) (bits : List Bool) (b : Fin 256) (w : Int) (out : List (Fin 256)),
    b ≠ 4 → encode_bits table f = some bits →
      decode_loop root table (some (Trie.leaf w (((b : Fin 256) : Nat) : Int)))
          (bits ++ code_bits eotCode ++ pad) out =
        some (out ++ [b] ++ f.takeWhile (fun c => c != 4)) := by
  have hstep : ∀ (b x : Fin 256) (w : Int),
      b ≠ 4 → ∃ codex wx, table.getD x none = some codex ∧
        ∀ (rest : List Bool) (out : List (Fin 256)),
        decode_loop root table (some (Trie.leaf w (((b : Fin 256) : Nat) : Int)))
            (code_bits codex ++ rest) out =
          decode_loop root table (some (Trie.leaf wx (((x : Fin 256) : Nat) : Int))) rest
            (out ++ [b]) := by
    intro b x w hb4
    obtain ⟨codex, wx, hx, hsx⟩ := hcode x
    obtain ⟨codeb, wb, hb, hsb⟩ := hcode b
    obtain ⟨code4, w4, h4, hs4⟩ := hcode 4
    have h44 : table.getD 4 none = some code4 := h4
    rw [heot] at h44
    cases h44
    have hne : codeb ≠ eotCode := by
      intro heq
      rw [heq, hs4] at hsb
      simp only [Option.some.injEq, Trie.leaf.injEq, Nat.cast_inj] at hsb
      exact hb4 (Fin.ext hsb.2.symm)
    refine ⟨codex, wx, hx, ?_⟩
    intro rest out
    cases hbx : code_bits codex with
    | nil =>
      rw [hbx] at hsx
      simp only [sub, Option.some.injEq] at hsx
      rw [hsx] at hroot
      simp [Trie.is_leaf] at hroot
    | cons bit bs =>
      rw [hbx] at hsx
      rw [List.cons_append, decode_leaf_step root table codeb eotCode htl heot b hb hne]
      cases root with
      | leaf _ _ => simp [Trie.is_leaf] at hroot
      | node rw rb rl rr =>
        simp only [sub] at hsx
        simp only [Trie.child]
        exact decode_walk (Trie.node rw rb rl rr) table bs _ _ rest _ hsx
  intro f
  induction f with
  | nil =>
    intro bits b w out hb4 henc
    simp only [encode_bits, Option.some.injEq] at henc
    subst henc
    obtain ⟨code4, w4, h4, h5⟩ := hstep b 4 w hb4
    have h44 : table.getD 4 none = some code4 := h4
    rw [heot] at h44
    cases h44
    rw [List.nil_append, h5]
    simp only [List.takeWhile_nil, List.append_nil]
    exact decode_eot root table eotCode htl heot w4 pad _
  | cons x f ih =>
    intro bits b w out hb4 henc
    obtain ⟨codex, wx, hx, h5⟩ := hstep b x w hb4
    simp only [encode_bits, hx] at henc
    cases hf : encode_bits table f with
    | none => simp [hf] at henc
    | some bits1 =>
      simp only [hf, Option.some.injEq] at henc
      subst henc
      rw [List.append_assoc, List.append_assoc, h5]
      by_cases hx4 : x = 4
      · subst hx4
        have h6 := decode_eot root table eotCode htl heot wx
          (bits1 ++ (code_bits eotCode ++ pad)) (out ++ [b])
        have h7 : ((((4 : Fin 256) : Nat) : Int)) = 4 := rfl
        rw [h7, h6, List.takeWhile_cons_of_neg (by simp)]
        simp
      · have h6 := ih bits1 x wx (out ++ [b]) hx4 hf
        rw [List.append_assoc] at h6
        rw [h6, List.takeWhile_cons_of_pos (by simpa using hx4)]
        simp

theorem decode_from_root (root : Trie) (table : List (Option (List Char)))
    (eotCode : List Char) (hroot : root.is_leaf = false) (htl : table.length = 256)
    (hcode : ∀ b : Fin 256, ∃ code w, table.getD b none = some code ∧
      sub root (code_bits code) = some (Trie.leaf w (((b : Fin 256) : Nat) : Int)))
    (heot : table.getD 4 none = some eotCode) (pad : List Bool)
    (f : List (Fin 256)) (bits : List Bool) (henc : encode_bits table f = some bits) :
    decode_loop root table (some root) (bits ++ code_bits eotCode ++ pad) [] =
      some (f.takeWhile (fun c => c != 4)) := by
  cases f with
  | nil =>
    simp only [encode_bits, Option.some.injEq] at henc
    subst henc
    obtain ⟨code4, w4, h4, hs4⟩ := hcode 4
    have h44 : table.getD 4 none = some code4 := h4
    rw [heot] at h44
    cases h44
    rw [List.nil_append, decode_walk root table _ root _ pad [] hs4]
    exact decode_eot root table eotCode htl heot w4 pad []
  | cons x f =>
    obtain ⟨codex, wx, hx, hsx⟩ := hcode x
    simp only [encode_bits, hx] at henc
    cases hf : encode_bits table f with
    | none => simp [hf] at henc
    | some bits1 =>
      simp only [hf, Option.some.injEq] at henc
      subst henc
      rw [List.append_assoc, List.append_assoc, decode_walk root table _ root _ _ [] hsx]
      by_cases hx4 : x = 4
      · subst hx4
        have h7 : ((((4 : Fin 256) : Nat) : Int)) = 4 := rfl
        rw [h7, decode_eot root table eotCode htl heot wx, List.takeWhile_cons_of_neg (by simp)]
      · have h6 := decode_from_leaf root table eotCode hroot htl hcode heot pad f bits1 x wx []
          hx4 hf
        rw [List.append_assoc] at h6
        rw [h6, List.takeWhile_cons_of_pos (by simpa using hx4)]
        simp

theorem encode_bits_some (table : List (Option (List Char)))
    (hcode : ∀ b : Fin 256, ∃ code, table.getD b none = some code) :
    ∀ f : List (Fin 256), ∃ bits, encode_bits table f = some bits
  | [] => ⟨[], rfl⟩
  | x :: f => by
    obtain ⟨code, hx⟩ := hcode x
    obtain ⟨bits, hf⟩ := encode_bits_some table hcode f
    exact ⟨code_bits code ++ bits, by simp only [encode_bits, hx, hf]⟩

theorem takeWhile_of_not_mem (f : List (Fin 256)) (h : 4 ∉ f) :
    f.takeWhile (fun c => c != 4) = f := by
  rw [List.takeWhile_eq_self_iff]
  intro c hc
  have : c ≠ 4 := fun h4 => h (h4 ▸ hc)
  simpa using this

/-- Decoding what encode_file writes gives the input up to its first byte
4. -/
theorem decode_encode (P : Pqueue) (hP : P.min_first compare)
    (frequency_table : Fin 256 → Int) (f : List (Fin 256)) :
    ∃ root table bytes, build_huff_trie P frequency_table = some (some root) ∧
      huff_table (some root) = some table ∧ encode_file f table = some bytes ∧
      decode_file bytes root table = some (f.takeWhile (fun c => c != 4)) := by
  obtain ⟨root, h1, h2, _, _⟩ := build_huff_trie_forest P hP frequency_table
  obtain ⟨table, h3, h4, h5⟩ := huff_table_spec frequency_table root h2
  have hroot : root.is_leaf = false := by
    have hlen : (leaves root).length = 256 := by
      rw [h2.length_eq]
      unfold table_leaves
      rw [List.length_map, List.length_finRange]
    cases root with
    | leaf _ _ => simp [leaves] at hlen
    | node _ _ _ _ => rfl
  have hcode : ∀ b : Fin 256, ∃ code w, table.getD b none = some code ∧
      sub root (code_bits code) = some (Trie.leaf w (((b : Fin 256) : Nat) : Int)) := by
    intro b
    obtain ⟨code, hc, hm⟩ := h5 b
    obtain ⟨s, w, hs, hsub, _, _⟩ := codes_sub root [] _ code hm
    simp only [List.nil_append] at hs
    subst hs
    exact ⟨code, w, hc, hsub⟩
  obtain ⟨bits, hbits⟩ := encode_bits_some table
    (fun b => by obtain ⟨code, hc, _⟩ := h5 b; exact ⟨code, hc⟩) f
  obtain ⟨eotCode, heot, _⟩ := h5 4
  have heot1 : table.getD 4 none = some eotCode := heot
  obtain ⟨k, hk⟩ := write_bytes_bits (bits ++ code_bits eotCode).length
    (bits ++ code_bits eotCode) (le_refl _)
  refine ⟨root, table, write_bytes (bits ++ code_bits eotCode).length
    (bits ++ code_bits eotCode), h1, h3, ?_, ?_⟩
  · simp only [encode_file, hbits, heot1]
  · unfold decode_file
    rw [hk]
    exact decode_from_root root table eotCode hroot h4 hcode heot1 _ f bits hbits

/-- C22 (as amended). For every input byte sequence, every frequency table
and every priority queue that yields a node of least weight first: with the
trie and the table built from the frequency table, encode_file writes its
output and decode_file on that output writes the input up to its first byte
4, the byte value whose code encode_file appends as end-of-transmission mark
and at whose code decode_file stops.  So an input without the byte 4 is
written back as it was. -/
theorem huffman_round_trip (P : Pqueue) (hP : P.min_first compare)
    (frequency_table : Fin 256 → Int) (f : List (Fin 256)) :
    ∃ root table bytes, build_huff_trie P frequency_table = some (some root) ∧
      huff_table (some root) = some table ∧ encode_file f table = some bytes ∧
      decode_file bytes root table = some (f.takeWhile (fun c => c != 4)) ∧
      (4 ∉ f → decode_file bytes root table = some f) := by
  obtain ⟨root, table, bytes, h1, h2, h3, h4⟩ := decode_encode P hP frequency_table f
  refine ⟨root, table, bytes, h1, h2, h3, h4, fun h => ?_⟩
  rw [h4, takeWhile_of_not_mem f h]

theorem huffman_round_trip_witness :
    ∃ root table bytes, build_huff_trie list_pqueue table_aba = some (some root) ∧
      huff_table (some root) = some table ∧ encode_file [97, 98, 97] table = some bytes ∧
      decode_file bytes root table =
        some (([97, 98, 97] : List (Fin 256)).takeWhile (fun c => c != 4)) ∧
      ((4 : Fin 256) ∉ ([97, 98, 97] : List (Fin 256)) →
        decode_file bytes root table = some [97, 98, 97]) :=
  huffman_round_trip list_pqueue list_pqueue_min_first table_aba [97, 98, 97]

/-- C22 as stated fails on the input 97, 4, 98 (with the frequency table of the
file 97, 98, 97): decoding the output of encode_file writes the byte 97
only. -/
theorem huffman_round_trip_counterexample :
    ∃ root table bytes, build_huff_trie list_pqueue table_aba = some (some root) ∧
      huff_table (some root) = some table ∧ encode_file [97, 4, 98] table = some bytes ∧
      decode_file bytes root table = some [97] ∧
      decode_file bytes root table ≠ some [97, 4, 98] := by
  obtain ⟨root, table, bytes, h1, h2, h3, h4⟩ :=
    decode_encode list_pqueue list_pqueue_min_first table_aba [97, 4, 98]
  have h5 : decode_file bytes root table = some [97] := by
    rw [h4]
    decide
  refine ⟨root, table, bytes, h1, h2, h3, h5, ?_⟩
  rw [h5]
  decide

/-! ## Depth and weight -/

theorem apart_symm (p q : Int × Int) (h : apart p q) : apart q p := Or.symm h

theorem weight_combine (x y : Trie) : (combine_exact x y).weight = x.weight + y.weight := rfl

theorem has_negative_true (x y : Trie) (h : x.weight < 0 ∨ y.weight < 0) :
    has_negative x y = true := by
  simpa [has_negative] using h

theorem has_negative_false (x y : Trie) (hx : 0 ≤ x.weight) (hy : 0 ≤ y.weight) :
    has_negative x y = false := by
  simp only [has_negative, Bool.or_eq_false_iff, decide_eq_false_iff_not]
  constructor <;> omega

/-- A trie whose upper part has no pair of siblings is a leaf or a node with a
child of negative weight. -/
theorem bare_cases (t : Trie) (h : pairs t = []) :
    (∃ w b, t = Trie.leaf w b) ∨ (cores t = [t] ∧ free_leaves t = []) := by
  cases t with
  | leaf w b => exact Or.inl ⟨w, b, rfl⟩
  | node w b l r =>
    right
    by_cases hn : has_negative l r = true
    · simp [cores, free_leaves, hn]
    · simp [pairs, hn] at h

theorem leaf_depths_shift : ∀ (t : Trie) (k : Nat),
    leaf_depths t k = (leaf_depths t 0).map (fun p => (p.1, p.2 + k))
  | Trie.leaf _ _, k => by simp [leaf_depths]
  | Trie.node _ _ l r, k => by
    simp only [leaf_depths, List.map_append]
    rw [leaf_depths_shift l (k + 1), leaf_depths_shift r (k + 1), leaf_depths_shift l (0 + 1),
      leaf_depths_shift r (0 + 1)]
    simp only [List.map_map]
    congr 1 <;> apply List.map_congr_left <;> intro p _ <;>
      simp only [Function.comp, Prod.mk.injEq, true_and] <;> omega

theorem forest_sorted_initial (frequency_table : Fin 256 → Int) :
    forest_sorted (initial_forest frequency_table) := by
  have hleaf : ∀ t ∈ initial_forest frequency_table, ∃ i : Fin 256,
      t = Trie.leaf (frequency_table i) (((i : Fin 256) : Nat) : Int) := by
    intro t ht
    unfold initial_forest at ht
    simp only [List.mem_reverse, List.mem_map] at ht
    obtain ⟨i, _, rfl⟩ := ht
    exact ⟨i, rfl⟩
  have hp : (initial_forest frequency_table).flatMap pairs = [] := by
    rw [List.flatMap_eq_nil_iff]
    intro t ht
    obtain ⟨i, rfl⟩ := hleaf t ht
    rfl
  have hc : (initial_forest frequency_table).flatMap cores = [] := by
    rw [List.flatMap_eq_nil_iff]
    intro t ht
    obtain ⟨i, rfl⟩ := hleaf t ht
    rfl
  refine ⟨Or.inr hp, by rw [hp]; exact List.Pairwise.nil, ?_, by rw [hc]; simp, ?_⟩
  · intro t _ p hp1
    rw [hp] at hp1
    cases hp1
  · intro c hc1
    rw [hc] at hc1
    cases hc1

theorem forest_perms (l : List Trie) (x y : Trie) (hx : x ∈ l) (hy : y ∈ l.erase x) :
    (l.flatMap pairs).Perm (pairs x ++ (pairs y ++ ((l.erase x).erase y).flatMap pairs)) ∧
      (l.flatMap cores).Perm (cores x ++ (cores y ++ ((l.erase x).erase y).flatMap cores)) ∧
      (l.flatMap free_leaves).Perm
        (free_leaves x ++ (free_leaves y ++ ((l.erase x).erase y).flatMap free_leaves)) := by
  have hperm := perm_cons_erase_two l x y hx hy
  refine ⟨?_, ?_, ?_⟩
  · simpa only [List.flatMap_cons] using hperm.flatMap_right pairs
  · simpa only [List.flatMap_cons] using hperm.flatMap_right cores
  · simpa only [List.flatMap_cons] using hperm.flatMap_right free_leaves

/-- A round of the loop that combines two nodes of weights that are not
negative. -/
theorem forest_sorted_step_nonneg (l : List Trie) (x y : Trie) (h : forest_sorted l)
    (hx : x ∈ l) (hminx : ∀ z ∈ l, x.weight ≤ z.weight) (hy : y ∈ l.erase x)
    (hminy : ∀ z ∈ l.erase x, y.weight ≤ z.weight) (hx0 : 0 ≤ x.weight) :
    forest_sorted (combine_exact x y :: (l.erase x).erase y) := by
  obtain ⟨_, hpw, hle, hlen, hcore⟩ := h
  have hyl : y ∈ l := List.mem_of_mem_erase hy
  obtain ⟨hpp, hcc, hff⟩ := forest_perms l x y hx hy
  have hrest : ∀ t ∈ (l.erase x).erase y, t ∈ l.erase x ∧ t ∈ l :=
    fun t ht => ⟨List.mem_of_mem_erase ht, List.mem_of_mem_erase (List.mem_of_mem_erase ht)⟩
  have hy0 : 0 ≤ y.weight := le_trans hx0 (hminx y hyl)
  have hneg := has_negative_false x y hx0 hy0
  have hnewp : (combine_exact x y :: (l.erase x).erase y).flatMap pairs =
      (x.weight, y.weight) :: (pairs x ++ (pairs y ++ ((l.erase x).erase y).flatMap pairs)) := by
    simp only [List.flatMap_cons, combine_exact, pairs, hneg, Bool.false_eq_true, if_false,
      List.cons_append, List.append_assoc]
  have hnewc : (combine_exact x y :: (l.erase x).erase y).flatMap cores =
      cores x ++ (cores y ++ ((l.erase x).erase y).flatMap cores) := by
    simp only [List.flatMap_cons, combine_exact, cores, hneg, Bool.false_eq_true, if_false,
      List.append_assoc]
  have hnewf : (combine_exact x y :: (l.erase x).erase y).flatMap free_leaves =
      free_leaves x ++ (free_leaves y ++ ((l.erase x).erase y).flatMap free_leaves) := by
    simp only [List.flatMap_cons, combine_exact, free_leaves, hneg, Bool.false_eq_true, if_false,
      List.append_assoc]
  refine ⟨Or.inl ?_, ?_, ?_, ?_, ?_⟩
  · intro t ht
    rcases List.mem_cons.1 ht with rfl | ht
    · rw [weight_combine]
      omega
    · exact le_trans hx0 (hminx t (hrest t ht).2)
  · rw [hnewp, List.pairwise_cons]
    refine ⟨?_, (hpp.pairwise_iff (fun {a b} hab => apart_symm a b hab)).1 hpw⟩
    intro p hp
    have hp1 := hpp.symm.subset hp
    have h1 := hle x hx p hp1
    have h2 := hle y hyl p hp1
    exact Or.inr ⟨h1.1, h2.1, h1.2, h2.2⟩
  · intro t ht p hp
    rw [hnewp] at hp
    rcases List.mem_cons.1 hp with rfl | hp
    · rcases List.mem_cons.1 ht with rfl | ht
      · rw [weight_combine]
        constructor <;> omega
      · exact ⟨hminx t (hrest t ht).2, hminy t (hrest t ht).1⟩
    · have hp1 := hpp.symm.subset hp
      rcases List.mem_cons.1 ht with rfl | ht
      · have h1 := hle x hx p hp1
        rw [weight_combine]
        constructor <;> omega
      · exact hle t (hrest t ht).2 p hp1
  · rw [hnewc, ← hcc.length_eq]
    exact hlen
  · intro c hc
    rw [hnewc] at hc
    obtain ⟨h1, h2⟩ := hcore c (hcc.symm.subset hc)
    refine ⟨h1, ?_⟩
    intro a ha
    rw [hnewf] at ha
    exact h2 a (hff.symm.subset ha)

/-- A round of the loop that combines a node of negative weight with
another. -/
theorem forest_sorted_step_neg (l : List Trie) (x y : Trie) (h : forest_sorted l)
    (hx : x ∈ l) (hminx : ∀ z ∈ l, x.weight ≤ z.weight) (hy : y ∈ l.erase x)
    (hminy : ∀ z ∈ l.erase x, y.weight ≤ z.weight) (hx0 : x.weight < 0) :
    forest_sorted (combine_exact x y :: (l.erase x).erase y) := by
  obtain ⟨hphase, _, _, hlen, hcore⟩ := h
  have hyl : y ∈ l := List.mem_of_mem_erase hy
  obtain ⟨_, hcc, hff⟩ := forest_perms l x y hx hy
  have hrest : ∀ t ∈ (l.erase x).erase y, t ∈ l.erase x ∧ t ∈ l :=
    fun t ht => ⟨List.mem_of_mem_erase ht, List.mem_of_mem_erase (List.mem_of_mem_erase ht)⟩
  have hbare : ∀ t ∈ l, pairs t = [] := by
    rcases hphase with h1 | h1
    · have := h1 x hx
      omega
    · exact List.flatMap_eq_nil_iff.1 h1
  have hfree : ∀ t ∈ l, ∀ w b, t = Trie.leaf w b → w ∈ l.flatMap free_leaves := by
    intro t ht w b htw
    exact List.mem_flatMap.2 ⟨t, ht, by rw [htw]; simp [free_leaves]⟩
  -- every root other than `x` is a leaf
  have hleaf : ∀ t ∈ y :: (l.erase x).erase y, ∃ w b, t = Trie.leaf w b := by
    intro t ht
    have htl : t ∈ l := by
      rcases List.mem_cons.1 ht with rfl | ht
      · exact hyl
      · exact (hrest t ht).2
    rcases bare_cases t (hbare t htl) with h1 | ⟨h1, _⟩
    · exact h1
    · exfalso
      have htc : t ∈ l.flatMap cores :=
        List.mem_flatMap.2 ⟨t, htl, by rw [h1]; exact List.mem_singleton.2 rfl⟩
      rcases bare_cases x (hbare x hx) with ⟨w, b, hxw⟩ | ⟨h2, _⟩
      · have h3 := ((hcore t htc).2 w (hfree x hx w b hxw)).1
        have h4 := hminx t htl
        have hxw2 : x.weight = w := by rw [hxw]; rfl
        omega
      · have h5 := hcc.length_eq
        rw [h2] at h5
        have h6 : 1 ≤ (cores y ++ ((l.erase x).erase y).flatMap cores).length := by
          apply List.length_pos_of_mem (a := t)
          rcases List.mem_cons.1 ht with rfl | ht
          · exact List.mem_append_left _ (by rw [h1]; exact List.mem_singleton.2 rfl)
          · exact List.mem_append_right _
              (List.mem_flatMap.2 ⟨t, ht, by rw [h1]; exact List.mem_singleton.2 rfl⟩)
        simp only [List.length_append, List.length_singleton, List.length_cons,
          List.length_nil] at h5 h6
        omega
  obtain ⟨wy, byt, hyw⟩ := hleaf y (List.mem_cons_self _ _)
  have hneg := has_negative_true x y (Or.inl hx0)
  have hrp : ((l.erase x).erase y).flatMap pairs = [] :=
    List.flatMap_eq_nil_iff.2 (fun t ht => hbare t (hrest t ht).2)
  have hrc : ((l.erase x).erase y).flatMap cores = [] := by
    rw [List.flatMap_eq_nil_iff]
    intro t ht
    obtain ⟨w, b, rfl⟩ := hleaf t (List.mem_cons_of_mem _ ht)
    rfl
  have hnewp : (combine_exact x y :: (l.erase x).erase y).flatMap pairs = [] := by
    simp only [List.flatMap_cons, combine_exact, pairs, hneg, if_true, hrp, List.append_nil]
  have hnewc : (combine_exact x y :: (l.erase x).erase y).flatMap cores = [combine_exact x y] := by
    simp only [List.flatMap_cons, combine_exact, cores, hneg, if_true, hrc, List.append_nil]
  have hnewf : ∀ a ∈ (combine_exact x y :: (l.erase x).erase y).flatMap free_leaves,
      ∃ t ∈ (l.erase x).erase y, a = t.weight := by
    intro a ha
    simp only [List.flatMap_cons, combine_exact, free_leaves, hneg, if_true, List.nil_append,
      List.mem_flatMap] at ha
    obtain ⟨t, ht, hat⟩ := ha
    obtain ⟨w, b, rfl⟩ := hleaf t (List.mem_cons_of_mem _ ht)
    simp only [free_leaves, List.mem_singleton] at hat
    exact ⟨_, ht, hat⟩
  have hywf : y.weight ∈ l.flatMap free_leaves := by
    have := hfree y hyl wy byt hyw
    rw [hyw]
    exact this
  -- the leaves of `x` weigh at most as much as `y`, and are sorted by depth
  have hxb : ∀ b ∈ leaf_depths x 0, b.1 ≤ y.weight := by
    rcases bare_cases x (hbare x hx) with ⟨w, b, hxw⟩ | ⟨h2, _⟩
    · intro p hp
      have h4 := hminx y hyl
      have hxw2 : x.weight = w := by rw [hxw]; rfl
      rw [hxw] at hp
      simp only [leaf_depths, List.mem_singleton] at hp
      rw [hp]
      simp only
      omega
    · have hxc : x ∈ l.flatMap cores :=
        List.mem_flatMap.2 ⟨x, hx, by rw [h2]; exact List.mem_singleton.2 rfl⟩
      exact fun p hp => ((hcore x hxc).2 _ hywf).2 p hp
  have hxm : leaf_mono x := by
    rcases bare_cases x (hbare x hx) with ⟨w, b, hxw⟩ | ⟨h2, _⟩
    · intro p hp q hq hlt
      rw [hxw] at hp hq
      simp only [leaf_depths, List.mem_singleton] at hp hq
      rw [hp, hq] at hlt
      simp at hlt
    · have hxc : x ∈ l.flatMap cores :=
        List.mem_flatMap.2 ⟨x, hx, by rw [h2]; exact List.mem_singleton.2 rfl⟩
      exact (hcore x hxc).1
  have hld : ∀ p ∈ leaf_depths (combine_exact x y) 0,
      (∃ b ∈ leaf_depths x 0, p = (b.1, b.2 + 1)) ∨ p = (y.weight, 1) := by
    intro p hp
    simp only [combine_exact, leaf_depths, List.mem_append] at hp
    rcases hp with hp | hp
    · rw [leaf_depths_shift x (0 + 1), List.mem_map] at hp
      obtain ⟨b, hb, rfl⟩ := hp
      exact Or.inl ⟨b, hb, rfl⟩
    · rw [hyw] at hp ⊢
      simp only [leaf_depths, List.mem_singleton] at hp
      exact Or.inr hp
  refine ⟨Or.inr hnewp, by rw [hnewp]; exact List.Pairwise.nil, ?_, by rw [hnewc]; simp, ?_⟩
  · intro t _ p hp
    rw [hnewp] at hp
    cases hp
  · intro c hc
    rw [hnewc, List.mem_singleton] at hc
    subst hc
    constructor
    · intro p hp q hq hlt
      rcases hld p hp with ⟨b1, hb1, rfl⟩ | rfl <;> rcases hld q hq with ⟨b2, hb2, rfl⟩ | rfl
      · have := hxm b1 hb1 b2 hb2 hlt
        simp only
        omega
      · simp only
        omega
      · have := hxb b2 hb2
        simp only at hlt
        omega
      · simp only at hlt
        omega
    · intro a ha
      obtain ⟨t, ht, rfl⟩ := hnewf a ha
      have h1 := hminy t (hrest t ht).1
      refine ⟨by rw [weight_combine]; omega, ?_⟩
      intro p hp
      rcases hld p hp with ⟨b1, hb1, rfl⟩ | rfl
      · have := hxb b1 hb1
        simp only
        omega
      · exact h1

theorem forest_sorted_step (l : List Trie) (x y : Trie) (h : forest_sorted l) (hx : x ∈ l)
    (hminx : ∀ z ∈ l, x.weight ≤ z.weight) (hy : y ∈ l.erase x)
    (hminy : ∀ z ∈ l.erase x, y.weight ≤ z.weight) :
    forest_sorted (combine_exact x y :: (l.erase x).erase y) := by
  by_cases hx0 : 0 ≤ x.weight
  · exact forest_sorted_step_nonneg l x y h hx hminx hy hminy hx0
  · exact forest_sorted_step_neg l x y h hx hminx hy hminy (by omega)

theorem families_pairs : ∀ (t : Trie) (k : Nat),
    (families t k).map (fun f => (f.1, f.2.1)) = pairs t
  | Trie.leaf _ _, _ => rfl
  | Trie.node _ _ l r, k => by
    by_cases hn : has_negative l r = true
    · simp [families, pairs, hn]
    · simp only [families, pairs, hn, Bool.false_eq_true, if_false, List.map_cons,
        List.map_append, families_pairs l, families_pairs r]

theorem cores_at_cores : ∀ (t : Trie) (k : Nat), (cores_at t k).map Prod.fst = cores t
  | Trie.leaf _ _, _ => rfl
  | Trie.node _ _ l r, k => by
    by_cases hn : has_negative l r = true
    · simp [cores_at, cores, hn]
    · simp only [cores_at, cores, hn, Bool.false_eq_true, if_false, List.map_append,
        cores_at_cores l, cores_at_cores r]

theorem root_mem_nodes (t : Trie) (k : Nat) : (t.weight, k) ∈ nodes t k := by
  cases t with
  | leaf w b => simp [nodes, Trie.weight]
  | node w b l r =>
    by_cases hn : has_negative l r = true <;> simp [nodes, Trie.weight, hn]

theorem nodes_cases : ∀ (t : Trie) (k : Nat) (w : Int) (d : Nat), (w, d) ∈ nodes t k →
    (w = t.weight ∧ d = k) ∨ ∃ f ∈ families t k, f.2.2 = d ∧ (w = f.1 ∨ w = f.2.1)
  | Trie.leaf _ _, k, w, d, h => by
    simp only [nodes, List.mem_singleton, Prod.mk.injEq] at h
    exact Or.inl h
  | Trie.node _ _ l r, k, w, d, h => by
    by_cases hn : has_negative l r = true
    · simp only [nodes, hn, if_true, List.mem_singleton, Prod.mk.injEq] at h
      exact Or.inl h
    · simp only [nodes, hn, Bool.false_eq_true, if_false, List.mem_cons, Prod.mk.injEq,
        List.mem_append] at h
      rcases h with h | h | h
      · exact Or.inl h
      · right
        rcases nodes_cases l (k + 1) w d h with ⟨h1, h2⟩ | ⟨f, hf, h1⟩
        · exact ⟨(l.weight, r.weight, k + 1), by simp [families, hn], h2.symm, Or.inl h1⟩
        · exact ⟨f, by simp [families, hn, hf], h1⟩
      · right
        rcases nodes_cases r (k + 1) w d h with ⟨h1, h2⟩ | ⟨f, hf, h1⟩
        · exact ⟨(l.weight, r.weight, k + 1), by simp [families, hn], h2.symm, Or.inr h1⟩
        · exact ⟨f, by simp [families, hn, hf], h1⟩

theorem families_parent : ∀ (t : Trie) (k : Nat), well_formed t →
    ∀ f ∈ families t k, k + 1 ≤ f.2.2 ∧ (f.1 + f.2.1, f.2.2 - 1) ∈ nodes t k
  | Trie.leaf _ _, _, _, f, h => by simp [families] at h
  | Trie.node w b l r, k, hwf, f, h => by
    obtain ⟨_, hw, hl, hr⟩ := hwf
    by_cases hn : has_negative l r = true
    · simp [families, hn] at h
    · simp only [families, hn, Bool.false_eq_true, if_false, List.mem_cons,
        List.mem_append] at h
      rcases h with rfl | h | h
      · refine ⟨le_refl _, ?_⟩
        simp only [Nat.add_sub_cancel, nodes, hn, Bool.false_eq_true, if_false, List.mem_cons,
          Prod.mk.injEq, and_true]
        exact Or.inl hw.symm
      · have h1 := families_parent l (k + 1) hl f h
        refine ⟨by omega, ?_⟩
        simp only [nodes, hn, Bool.false_eq_true, if_false, List.mem_cons, List.mem_append]
        exact Or.inr (Or.inl h1.2)
      · have h1 := families_parent r (k + 1) hr f h
        refine ⟨by omega, ?_⟩
        simp only [nodes, hn, Bool.false_eq_true, if_false, List.mem_cons, List.mem_append]
        exact Or.inr (Or.inr h1.2)

/-- In the upper part of a trie whose pairs of siblings are apart and in which
no node weighs more than the root, a node that weighs more than another is not
deeper. -/
theorem depth_monotone (t : Trie) (hwf : well_formed t) (hpw : (pairs t).Pairwise apart)
    (hle : ∀ p ∈ pairs t, p.1 ≤ t.weight ∧ p.2 ≤ t.weight) :
    ∀ (n : Nat) (w1 : Int) (d1 : Nat) (w2 : Int) (d2 : Nat),
    (w1, d1) ∈ nodes t 0 → (w2, d2) ∈ nodes t 0 → d2 ≤ n → w1 < w2 → d2 ≤ d1 := by
  have hfam : (families t 0).Pairwise
      (fun f g => apart (f.1, f.2.1) (g.1, g.2.1)) := by
    rw [← families_pairs t 0, List.pairwise_map] at hpw
    exact hpw
  have hall : ∀ f ∈ families t 0, ∀ g ∈ families t 0, f ≠ g →
      apart (f.1, f.2.1) (g.1, g.2.1) :=
    fun f hf g hg hne => hfam.forall (fun a b hab => apart_symm _ _ hab) hf hg hne
  have hroot : ∀ f ∈ families t 0, f.1 ≤ t.weight ∧ f.2.1 ≤ t.weight := by
    intro f hf
    have h1 : (f.1, f.2.1) ∈ pairs t := by
      rw [← families_pairs t 0]
      exact List.mem_map_of_mem (fun f => (f.1, f.2.1)) hf
    exact hle _ h1
  intro n
  induction n with
  | zero =>
    intro w1 d1 w2 d2 _ _ hd _
    omega
  | succ n ih =>
    intro w1 d1 w2 d2 h1 h2 hd hlt
    rcases nodes_cases t 0 w2 d2 h2 with ⟨_, hd2⟩ | ⟨g, hg, hgd, hgw⟩
    · omega
    · rcases nodes_cases t 0 w1 d1 h1 with ⟨hw1, _⟩ | ⟨f, hf, hfd, hfw⟩
      · have := hroot g hg
        rcases hgw with rfl | rfl <;> omega
      · by_cases hfg : f = g
        · subst hfg
          omega
        · have hpf := families_parent t 0 hwf f hf
          have hpg := families_parent t 0 hwf g hg
          have hap := hall f hf g hg hfg
          simp only [apart] at hap
          have hsum : f.1 + f.2.1 < g.1 + g.2.1 := by
            rcases hap with hap | hap <;> rcases hfw with rfl | rfl <;>
              rcases hgw with rfl | rfl <;> omega
          have h3 := ih _ _ _ _ hpf.2 hpg.2 (by omega) hsum
          omega

theorem leaf_depths_ge : ∀ (t : Trie) (k : Nat) (p : Int × Nat), p ∈ leaf_depths t k → k ≤ p.2
  | Trie.leaf _ _, k, p, h => by
    simp only [leaf_depths, List.mem_singleton] at h
    rw [h]
  | Trie.node _ _ l r, k, p, h => by
    simp only [leaf_depths, List.mem_append] at h
    rcases h with h | h
    · have := leaf_depths_ge l (k + 1) p h
      omega
    · have := leaf_depths_ge r (k + 1) p h
      omega

/-- A leaf is in the upper part or below a node with a child of negative
weight. -/
theorem leaf_split : ∀ (t : Trie) (k : Nat) (p : Int × Nat), p ∈ leaf_depths t k →
    (p ∈ nodes t k ∧ p.1 ∈ free_leaves t) ∨
      ∃ c ∈ cores_at t k, p ∈ leaf_depths c.1 c.2 ∧ c.2 + 1 ≤ p.2 ∧
        (c.1.weight, c.2) ∈ nodes t k
  | Trie.leaf _ _, k, p, h => by
    simp only [leaf_depths, List.mem_singleton] at h
    subst h
    exact Or.inl ⟨by simp [nodes], by simp [free_leaves]⟩
  | Trie.node w b l r, k, p, h => by
    by_cases hn : has_negative l r = true
    · right
      refine ⟨(Trie.node w b l r, k), by simp [cores_at, hn], h, ?_, by simp [nodes, hn, Trie.weight]⟩
      simp only [leaf_depths, List.mem_append] at h
      rcases h with h | h
      · exact leaf_depths_ge l (k + 1) p h
      · exact leaf_depths_ge r (k + 1) p h
    · simp only [leaf_depths, List.mem_append] at h
      rcases h with h | h
      · rcases leaf_split l (k + 1) p h with ⟨h1, h2⟩ | ⟨c, hc, h1, h2, h3⟩
        · exact Or.inl ⟨by simp [nodes, hn, h1], by simp [free_leaves, hn, h2]⟩
        · exact Or.inr ⟨c, by simp [cores_at, hn, hc], h1, h2, by simp [nodes, hn, h3]⟩
      · rcases leaf_split r (k + 1) p h with ⟨h1, h2⟩ | ⟨c, hc, h1, h2, h3⟩
        · exact Or.inl ⟨by simp [nodes, hn, h1], by simp [free_leaves, hn, h2]⟩
        · exact Or.inr ⟨c, by simp [cores_at, hn, hc], h1, h2, by simp [nodes, hn, h3]⟩

theorem eq_of_length_le_one {α : Type} (l : List α) (h : l.length ≤ 1) (a b : α)
    (ha : a ∈ l) (hb : b ∈ l) : a = b := by
  cases l with
  | nil => cases ha
  | cons x l =>
    cases l with
    | nil =>
      rw [List.mem_singleton.1 ha, List.mem_singleton.1 hb]
    | cons y l => simp at h

/-- In the trie the loop of build_huff_trie ends with, a leaf that weighs more
than another is not deeper. -/
theorem leaves_monotone (t : Trie) (hwf : well_formed t) (hs : forest_sorted [t]) :
    leaf_mono t := by
  obtain ⟨_, hpw, hle, hlen, hcore⟩ := hs
  simp only [List.flatMap_cons, List.flatMap_nil, List.append_nil] at hpw hle hlen hcore
  have hmono := depth_monotone t hwf hpw (fun p hp => hle t (List.mem_singleton.2 rfl) p hp)
  have hlen2 : (cores_at t 0).length ≤ 1 := by
    rw [← cores_at_cores t 0, List.length_map] at hlen
    exact hlen
  have hcin : ∀ c ∈ cores_at t 0, c.1 ∈ cores t := by
    intro c hc
    rw [← cores_at_cores t 0]
    exact List.mem_map_of_mem Prod.fst hc
  intro p hp q hq hlt
  rcases leaf_split t 0 p hp with ⟨hp1, hp2⟩ | ⟨c1, hc1, hp1, hp2, hp3⟩
  · rcases leaf_split t 0 q hq with ⟨hq1, _⟩ | ⟨c2, hc2, hq1, _, _⟩
    · exact hmono q.2 p.1 p.2 q.1 q.2 hp1 hq1 (le_refl _) hlt
    · rw [leaf_depths_shift, List.mem_map] at hq1
      obtain ⟨b, hb, rfl⟩ := hq1
      have := ((hcore c2.1 (hcin c2 hc2)).2 p.1 hp2).2 b hb
      simp only at hlt
      omega
  · rcases leaf_split t 0 q hq with ⟨hq1, hq2⟩ | ⟨c2, hc2, hq1, _, _⟩
    · have h1 := ((hcore c1.1 (hcin c1 hc1)).2 q.1 hq2).1
      have h2 := hmono q.2 c1.1.weight c1.2 q.1 q.2 hp3 hq1 (le_refl _) h1
      omega
    · have heq := eq_of_length_le_one _ hlen2 c1 c2 hc1 hc2
      subst heq
      rw [leaf_depths_shift, List.mem_map] at hp1 hq1
      obtain ⟨b1, hb1, rfl⟩ := hp1
      obtain ⟨b2, hb2, rfl⟩ := hq1
      have := (hcore c1.1 (hcin c1 hc1)).1 b1 hb1 b2 hb2 hlt
      simp only
      omega

theorem codes_leaf_depths : ∀ (t : Trie) (pre : List Char) (b : Int) (c : List Char),
    (b, c) ∈ codes t pre → ∃ w, (b, w) ∈ leaves t ∧ (w, c.length) ∈ leaf_depths t pre.length
  | Trie.leaf w b0, pre, b, c, h => by
    simp only [codes, List.mem_singleton, Prod.mk.injEq] at h
    obtain ⟨rfl, rfl⟩ := h
    exact ⟨w, by simp [leaves], by simp [leaf_depths]⟩
  | Trie.node _ _ l r, pre, b, c, h => by
    simp only [codes, List.mem_append] at h
    rcases h with h | h
    · obtain ⟨w, hw, hn⟩ := codes_leaf_depths l _ b c h
      refine ⟨w, by simp [leaves, hw], ?_⟩
      simp only [List.length_append, List.length_singleton] at hn
      simp only [leaf_depths, List.mem_append]
      exact Or.inl hn
    · obtain ⟨w, hw, hn⟩ := codes_leaf_depths r _ b c h
      refine ⟨w, by simp [leaves, hw], ?_⟩
      simp only [List.length_append, List.length_singleton] at hn
      simp only [leaf_depths, List.mem_append]
      exact Or.inr hn

/-- C25 (as amended). For every frequency table of which no sum of entries is
outside the range of `int`, every priority queue that yields a node of least
weight first, and every two byte values `a` and `b` with
`frequency_table a > frequency_table b`: the code that huff_table on the trie
of build_huff_trie assigns to `a` is at most as long as the code it assigns
to `b`. -/
theorem frequent_bytes_shorter (P : Pqueue) (hP : P.min_first compare)
    (frequency_table : Fin 256 → Int) (hfit : fits_int frequency_table) :
    ∃ root table, build_huff_trie P frequency_table = some (some root) ∧
      huff_table (some root) = some table ∧
      ∀ a b : Fin 256, frequency_table a > frequency_table b →
        ∃ ca cb, table.getD a none = some ca ∧ table.getD b none = some cb ∧
          ca.length ≤ cb.length := by
  obtain ⟨root, h1, h2, h3⟩ := build_huff_trie_spec P hP frequency_table
    (fun l => forest_ok frequency_table l ∧ forest_exact l ∧ forest_sorted l)
    ⟨forest_ok_initial frequency_table, forest_exact_initial frequency_table,
      forest_sorted_initial frequency_table⟩
    (fun l x y h hx hminx hy hminy => by
      obtain ⟨heq, hex⟩ := forest_exact_step frequency_table hfit l x y h.1 h.2.1 hx hy
      refine ⟨forest_ok_step frequency_table l x y h.1 hx hy, hex, ?_⟩
      rw [heq]
      exact forest_sorted_step l x y h.2.2 hx hminx hy hminy)
  have hperm : (leaves root).Perm (table_leaves frequency_table) := by
    simpa using h2.1
  have hwf : well_formed root := h3.1 root (List.mem_singleton.2 rfl)
  have hmono := leaves_monotone root hwf h3.2
  obtain ⟨table, h4, _, h5⟩ := huff_table_spec frequency_table root hperm
  have hweight : ∀ (i : Fin 256) (c : List Char),
      ((((i : Fin 256) : Nat) : Int), c) ∈ codes root [] →
        (frequency_table i, c.length) ∈ leaf_depths root 0 := by
    intro i c hc
    obtain ⟨w, hw, hn⟩ := codes_leaf_depths root [] _ c hc
    obtain ⟨j, hj⟩ := (mem_table_leaves frequency_table _).1 (hperm.subset hw)
    simp only [Prod.mk.injEq, Nat.cast_inj] at hj
    have hij : i = j := Fin.ext hj.1
    subst hij
    rw [← hj.2]
    exact hn
  refine ⟨root, table, h1, h4, ?_⟩
  intro a b hab
  obtain ⟨ca, hca, hma⟩ := h5 a
  obtain ⟨cb, hcb, hmb⟩ := h5 b
  exact ⟨ca, cb, hca, hcb, hmono _ (hweight b cb hmb) _ (hweight a ca hma) hab⟩

set_option maxRecDepth 100000 in
theorem table_aba_fits : fits_int table_aba := by
  unfold fits_int INT_MIN INT_MAX
  decide

theorem frequent_bytes_shorter_witness :
    ∃ root table, build_huff_trie list_pqueue table_aba = some (some root) ∧
      huff_table (some root) = some table ∧
      ∀ a b : Fin 256, table_aba a > table_aba b →
        ∃ ca cb, table.getD a none = some ca ∧ table.getD b none = some cb ∧
          ca.length ≤ cb.length :=
  frequent_bytes_shorter list_pqueue list_pqueue_min_first table_aba table_aba_fits

/-! ## A table whose sums overflow -/

theorem pick_one (l : List Trie) (a : Trie) (rest : List Trie) (hl : l.Perm (a :: rest))
    (ha : ∀ z ∈ rest, a.weight < z.weight) (x : Trie) (hx : x ∈ l)
    (hminx : ∀ z ∈ l, x.weight ≤ z.weight) : x = a ∧ (l.erase x).Perm rest := by
  have hxa : x = a := by
    rcases List.mem_cons.1 (hl.subset hx) with h | h
    · exact h
    · have h1 := ha x h
      have h2 := hminx a (hl.symm.subset (List.mem_cons_self _ _))
      omega
  subst hxa
  refine ⟨rfl, ?_⟩
  have h3 := hl.erase x
  rw [List.erase_cons_head] at h3
  exact h3

theorem pick_two (l : List Trie) (a b : Trie) (rest : List Trie)
    (hl : l.Perm (a :: b :: rest)) (ha : ∀ z ∈ b :: rest, a.weight < z.weight)
    (hb : ∀ z ∈ rest, b.weight < z.weight) (x y : Trie) (hx : x ∈ l)
    (hminx : ∀ z ∈ l, x.weight ≤ z.weight) (hy : y ∈ l.erase x)
    (hminy : ∀ z ∈ l.erase x, y.weight ≤ z.weight) :
    x = a ∧ y = b ∧ ((l.erase x).erase y).Perm rest := by
  obtain ⟨h1, h2⟩ := pick_one l a (b :: rest) hl ha x hx hminx
  obtain ⟨h3, h4⟩ := pick_one (l.erase x) b rest h2 hb y hy hminy
  exact ⟨h1, h3, h4⟩

theorem wrap_specials_pos : ∀ t ∈ [wrap_leaf 14, wrap_leaf 10, wrap_leaf 11, wrap_leaf 12,
    wrap_leaf 13], 0 < t.weight := by
  intro t ht
  simp only [List.mem_cons, List.mem_singleton, List.not_mem_nil, or_false] at ht
  rcases ht with rfl | rfl | rfl | rfl | rfl <;> decide

theorem wrap_combine_five (a : Trie) (ha : a.weight = 5) :
    (trie_combine a (wrap_leaf 10)).weight = 1073741828 := by
  show int_wrap (a.weight + (wrap_leaf 10).weight) = 1073741828
  rw [ha]
  decide

theorem wrap_phase_zero (l : List Trie) (x y : Trie) (zs : List Trie) (hne : zs ≠ [])
    (hz : ∀ z ∈ zs, z.weight = 0)
    (hl : l.Perm (zs ++ [wrap_leaf 14, wrap_leaf 10, wrap_leaf 11, wrap_leaf 12, wrap_leaf 13]))
    (hx : x ∈ l) (hminx : ∀ z ∈ l, x.weight ≤ z.weight) (hy : y ∈ l.erase x)
    (hminy : ∀ z ∈ l.erase x, y.weight ≤ z.weight) :
    wrap_phase (trie_combine x y :: (l.erase x).erase y) := by
  obtain ⟨z0, hz0⟩ := List.exists_mem_of_ne_nil zs hne
  have hxz : x ∈ zs := by
    rcases List.mem_append.1 (hl.subset hx) with h | h
    · exact h
    · have h1 := wrap_specials_pos x h
      have h2 := hminx z0 (hl.symm.subset (List.mem_append_left _ hz0))
      have h3 := hz z0 hz0
      omega
  have hx0 := hz x hxz
  have hl1 : (l.erase x).Perm
      (zs.erase x ++ [wrap_leaf 14, wrap_leaf 10, wrap_leaf 11, wrap_leaf 12, wrap_leaf 13]) := by
    have h := hl.erase x
    rw [List.erase_append_left _ hxz] at h
    exact h
  by_cases hne1 : zs.erase x = []
  · rw [hne1, List.nil_append] at hl1
    obtain ⟨hy1, hrest⟩ := pick_one (l.erase x) (wrap_leaf 14) _ hl1
      (by
        intro t ht
        simp only [List.mem_cons, List.mem_singleton, List.not_mem_nil, or_false] at ht
        rcases ht with rfl | rfl | rfl | rfl <;> decide)
      y hy hminy
    subst hy1
    refine Or.inr ⟨trie_combine x (wrap_leaf 14), ?_, Or.inl (hrest.cons _)⟩
    show int_wrap (x.weight + (wrap_leaf 14).weight) = 5
    rw [hx0]
    decide
  · obtain ⟨z1, hz1⟩ := List.exists_mem_of_ne_nil _ hne1
    have hyz : y ∈ zs.erase x := by
      rcases List.mem_append.1 (hl1.subset hy) with h | h
      · exact h
      · have h1 := wrap_specials_pos y h
        have h2 := hminy z1 (hl1.symm.subset (List.mem_append_left _ hz1))
        have h3 := hz z1 (List.mem_of_mem_erase hz1)
        omega
    have hy0 := hz y (List.mem_of_mem_erase hyz)
    have hl2 := hl1.erase y
    rw [List.erase_append_left _ hyz] at hl2
    refine Or.inl ⟨trie_combine x y :: (zs.erase x).erase y, by simp, ?_, ?_⟩
    · intro t ht
      rcases List.mem_cons.1 ht with rfl | ht
      · show int_wrap (x.weight + y.weight) = 0
        rw [hx0, hy0]
        decide
      · exact hz t (List.mem_of_mem_erase (List.mem_of_mem_erase ht))
    · rw [List.cons_append]
      exact hl2.cons _

theorem wrap_phase_step (l : List Trie) (x y : Trie) (h : wrap_phase l) (hx : x ∈ l)
    (hminx : ∀ z ∈ l, x.weight ≤ z.weight) (hy : y ∈ l.erase x)
    (hminy : ∀ z ∈ l.erase x, y.weight ≤ z.weight) :
    wrap_phase (trie_combine x y :: (l.erase x).erase y) := by
  rcases h with ⟨zs, hne, hz, hl⟩ | ⟨a, ha, hl | hl | hl | hl | hl⟩
  · exact wrap_phase_zero l x y zs hne hz hl hx hminx hy hminy
  · have hB := wrap_combine_five a ha
    obtain ⟨rfl, rfl, hrest⟩ := pick_two l a (wrap_leaf 10) _ hl
      (by
        intro t ht
        simp only [List.mem_cons, List.mem_singleton, List.not_mem_nil, or_false] at ht
        rcases ht with rfl | rfl | rfl | rfl <;> rw [ha] <;> decide)
      (by
        intro t ht
        simp only [List.mem_cons, List.mem_singleton, List.not_mem_nil, or_false] at ht
        rcases ht with rfl | rfl | rfl <;> decide)
      x y hx hminx hy hminy
    refine Or.inr ⟨x, ha, Or.inr (Or.inl ?_)⟩
    exact (hrest.cons _).trans (List.perm_append_singleton _ _).symm
  · have hB := wrap_combine_five a ha
    obtain ⟨rfl, rfl, hrest⟩ := pick_two l (wrap_leaf 11) (wrap_leaf 12) _ hl
      (by
        intro t ht
        simp only [List.mem_cons, List.mem_singleton, List.not_mem_nil, or_false] at ht
        rcases ht with rfl | rfl | rfl
        · decide
        · decide
        · rw [hB]
          decide)
      (by
        intro t ht
        simp only [List.mem_cons, List.mem_singleton, List.not_mem_nil, or_false] at ht
        rcases ht with rfl | rfl
        · decide
        · rw [hB]
          decide)
      x y hx hminx hy hminy
    exact Or.inr ⟨a, ha, Or.inr (Or.inr (Or.inl (hrest.cons _)))⟩
  · have hB := wrap_combine_five a ha
    obtain ⟨rfl, rfl, hrest⟩ := pick_two l (trie_combine (wrap_leaf 11) (wrap_leaf 12))
      (wrap_leaf 13) _ hl
      (by
        intro t ht
        simp only [List.mem_cons, List.mem_singleton, List.not_mem_nil, or_false] at ht
        rcases ht with rfl | rfl
        · decide
        · rw [hB]
          decide)
      (by
        intro t ht
        simp only [List.mem_singleton] at ht
        subst ht
        rw [hB]
        decide)
      x y hx hminx hy hminy
    exact Or.inr ⟨a, ha, Or.inr (Or.inr (Or.inr (Or.inl (hrest.cons _))))⟩
  · have hB := wrap_combine_five a ha
    obtain ⟨rfl, rfl, hrest⟩ := pick_two l
      (trie_combine (trie_combine (wrap_leaf 11) (wrap_leaf 12)) (wrap_leaf 13))
      (trie_combine a (wrap_leaf 10)) [] hl
      (by
        intro t ht
        simp only [List.mem_singleton] at ht
        subst ht
        rw [hB]
        decide)
      (by
        intro t ht
        cases ht)
      x y hx hminx hy hminy
    refine Or.inr ⟨a, ha, Or.inr (Or.inr (Or.inr (Or.inr ?_)))⟩
    rw [List.perm_nil.1 hrest]
    rfl
  · exfalso
    subst hl
    rw [List.mem_singleton.1 hx, List.erase_cons_head] at hy
    cases hy

set_option maxRecDepth 100000 in
theorem wrap_forest_specials :
    (initial_forest table_wrap).filter (fun t => !(t.weight == 0)) =
      [wrap_leaf 14, wrap_leaf 13, wrap_leaf 12, wrap_leaf 11, wrap_leaf 10] := by
  decide

theorem wrap_phase_initial : wrap_phase (initial_forest table_wrap) := by
  left
  refine ⟨(initial_forest table_wrap).filter (fun t => t.weight == 0), ?_, ?_, ?_⟩
  · apply List.ne_nil_of_mem (a := wrap_leaf 0)
    rw [List.mem_filter]
    refine ⟨?_, by decide⟩
    unfold initial_forest
    rw [List.mem_reverse, List.mem_map]
    exact ⟨0, List.mem_finRange _, rfl⟩
  · intro z hz
    have := (List.mem_filter.1 hz).2
    simpa using this
  · refine (List.filter_append_perm (fun t => t.weight == 0) _).symm.trans ?_
    rw [wrap_forest_specials]
    exact List.Perm.append_left _ (by decide)

/-- C25 as stated fails on the table `table_wrap`: the byte 11 is more frequent
than the byte 10 and gets a code of three bits, the byte 10 one of two bits.
The `int` sum of the weights of the leaves of 11 and 12 is negative, so that
their node is combined next, with the leaf of 13, and the leaves of 11 and 12
end at depth 3. -/
theorem frequent_bytes_shorter_counterexample :
    ∃ root table, build_huff_trie list_pqueue table_wrap = some (some root) ∧
      huff_table (some root) = some table ∧ table_wrap 11 > table_wrap 10 ∧
      table.getD 11 none = some ['0', '0', '0'] ∧ table.getD 10 none = some ['1', '1'] := by
  obtain ⟨root, h1, h2, h3⟩ := build_huff_trie_spec list_pqueue list_pqueue_min_first table_wrap
    (fun l => forest_ok table_wrap l ∧ wrap_phase l)
    ⟨forest_ok_initial table_wrap, wrap_phase_initial⟩
    (fun l x y h hx hminx hy hminy =>
      ⟨forest_ok_step table_wrap l x y h.1 hx hy, wrap_phase_step l x y h.2 hx hminx hy hminy⟩)
  have hperm : (leaves root).Perm (table_leaves table_wrap) := by
    simpa using h2.1
  obtain ⟨table, h4, _, h5⟩ := huff_table_spec table_wrap root hperm
  have hnd : ((codes root []).map Prod.fst).Nodup := by
    rw [codes_keys]
    exact (hperm.map Prod.fst).nodup_iff.2 (table_leaves_nodup table_wrap)
  have hroot : ∃ a, root = wrap_root a := by
    rcases h3 with ⟨zs, _, _, hl⟩ | ⟨a, _, hl | hl | hl | hl | hl⟩
    · have := hl.length_eq
      simp at this
    · have := hl.length_eq
      simp at this
    · have := hl.length_eq
      simp at this
    · have := hl.length_eq
      simp at this
    · have := hl.length_eq
      simp at this
    · exact ⟨a, (List.cons.inj hl).1⟩
  obtain ⟨a, rfl⟩ := hroot
  refine ⟨_, table, h1, h4, by decide, ?_, ?_⟩
  · obtain ⟨code, hc, hm⟩ := h5 11
    have hm2 : ((((11 : Fin 256) : Nat) : Int), ['0', '0', '0']) ∈ codes (wrap_root a) [] := by
      simp [wrap_root, trie_combine, codes, wrap_leaf, trie_create]
    have hc2 : table.getD 11 none = some code := hc
    rw [hc2, keys_unique _ hnd _ _ _ hm hm2]
  · obtain ⟨code, hc, hm⟩ := h5 10
    have hm2 : ((((10 : Fin 256) : Nat) : Int), ['1', '1']) ∈ codes (wrap_root a) [] := by
      simp [wrap_root, trie_combine, codes, wrap_leaf, trie_create]
    have hc2 : table.getD 10 none = some code := hc
    rw [hc2, keys_unique _ hnd _ _ _ hm hm2]

end Huffman

namespace Mmake

/-! ## needs_build -/

theorem needs_build_loop_iff (stat : String → Option Int) (tm : Int) :
    ∀ ps : List String,
      needs_build_loop stat tm ps = true ↔
        ∃ p ∈ ps, stat p = none ∨ ∃ m, stat p = some m ∧ tm < m
  | [] => by simp [needs_build_loop]
  | p :: ps => by
    have ih := needs_build_loop_iff stat tm ps
    cases hp : stat p with
    | none => simp [needs_build_loop, hp]
    | some m =>
      by_cases hm : m > tm
      · simp [needs_build_loop, hp, hm]
      · have hm2 : ¬ tm < m := hm
        simp [needs_build_loop, hp, hm, hm2, ih]

/-- C26. For a rule whose prerequisite array is not NULL, needs_build returns,
and it returns true exactly when stat fails on the target, or stat fails on
some prerequisite, or some prerequisite has an `st_mtime` strictly greater
than the target's; in particular it returns false when the target exists and
every prerequisite exists with an `st_mtime` less than or equal to the
target's. -/
theorem needs_build_iff (stat : String → Option Int) (target : String) (ps : List String) :
    (∃ b, needs_build stat target (some ps) = some b ∧
        (b = true ↔
          (stat target = none ∨
            ∃ p ∈ ps, stat p = none ∨
              ∃ m tm, stat p = some m ∧ stat target = some tm ∧ tm < m))) ∧
      (∀ tm, stat target = some tm → (∀ p ∈ ps, ∃ m, stat p = some m ∧ m ≤ tm) →
        needs_build stat target (some ps) = some false) := by
  constructor
  · cases ht : stat target with
    | none => exact ⟨true, by simp [needs_build, ht], by simp⟩
    | some tm =>
      refine ⟨needs_build_loop stat tm ps, by simp [needs_build, ht], ?_⟩
      rw [needs_build_loop_iff]
      simp
  · intro tm ht hall
    have h : needs_build_loop stat tm ps = false := by
      rw [Bool.eq_false_iff]
      intro hb
      obtain ⟨p, hp, h1⟩ := (needs_build_loop_iff stat tm ps).1 hb
      obtain ⟨m, hm, hle⟩ := hall p hp
      rcases h1 with h1 | ⟨m2, hm2, hlt⟩
      · rw [hm] at h1
        cases h1
      · rw [hm] at hm2
        cases hm2
        omega
    simp [needs_build, ht, h]

theorem needs_build_iff_witness :
    needs_build stat_example "prog" (some ["main.c", "util.c"]) = some false :=
  (needs_build_iff stat_example "prog" ["main.c", "util.c"]).2 20 rfl
    (by
      intro p hp
      rcases List.mem_cons.mp hp with rfl | hp
      · exact ⟨20, rfl, by decide⟩
      · rw [List.mem_singleton.mp hp]
        exact ⟨10, rfl, by decide⟩)

end Mmake
